import Mathlib

/-! # treewrite: tokenizer, parser, pattern matcher and rewriter

A shallow embedding of the Go sources `token.go`, `node.go`, `parse.go`,
`pattern.go`, `replace.go` and `copycomments.go`.

Conventions of the embedding.

* A byte is a `Nat`; a byte buffer and a Go `string` are a `List Nat`.
* Go slices are immutable lists (every `append` yields a new list).  The
  children arrays that nodes share after `clone` are in the section on the
  nodes in memory; the arrays of the trivia of a token are not modelled.
* `readRaw` never fills `prefix`/`suffix`, so a token without attachments
  is a `rawToken`, and `token` carries two lists of them.
* A `node` is a leaf (`children == nil`) or an interior node
  (`children != nil`, possibly empty); both carry the `token` field.
  `parent` and `depth` are not stored: `fixFields` makes them a function of
  the position of a node in its tree, and the rewriter addresses a node by
  its path from the root.
* Loops whose trip count is bounded by the remaining input take a fuel
  argument; theorems show that the fuel supplied never runs out.
* Of the library the embedding has the regular expressions that
  `makeListPattern` builds with `FindAllSubmatchIndex` on them,
  `bytes.Buffer.WriteRune`, and, in its last sections, `sort.Slice` and the
  refusal of an expression by `regexp.MustCompile`.
-/

namespace treewrite

/-! ## token.go -/

inductive tokenType where
  | END | STRING | COMMENT | WORD | SPACE | VAR | RVAR | OTHER | OPENER | CLOSER
  deriving DecidableEq, Repr

open tokenType

/-- A token as `readRaw` returns it: type, position and text. -/
structure rawToken where
  ttype : tokenType
  line : Nat
  column : Nat
  text : List Nat
  deriving DecidableEq, Repr

/-- The Go `token`: a raw token with the comments and spaces attached to it. -/
structure token where
  ttype : tokenType
  line : Nat
  column : Nat
  text : List Nat
  pre : List rawToken
  suf : List rawToken
  deriving DecidableEq, Repr

/-- The zero value `token{}`. -/
def token.zero : token := ⟨END, 0, 0, [], [], []⟩

structure tokenizer where
  input : List Nat
  buffered : List rawToken
  peek : rawToken
  line : Nat
  column : Nat
  deriving DecidableEq, Repr

def isSpace (b : Nat) : Bool :=
  b == 32 || b == 9 || b == 13 || b == 10

def inRange (b first last : Nat) : Bool :=
  decide (first ≤ b) && decide (b ≤ last)

def isWordByte (b : Nat) : Bool :=
  inRange b 97 122 || inRange b 65 90 || inRange b 48 57 || b == 95

/-- Loop of `readString`; `rest` is `in[i:]`.  `none` stands for leaving
the loop without a `return`. -/
def readStringFrom (delimiter : Nat) : List Nat → Nat → Option Nat
  | [], _ => none
  | b :: rest, i =>
    if b == delimiter then some (i + 1)
    else if b == 92 then
      match rest with
      | [] => none
      | _ :: rest2 => readStringFrom delimiter rest2 (i + 2)
    else readStringFrom delimiter rest (i + 1)

def readString (inp : List Nat) (delimiter : Nat) : tokenType × Nat :=
  (STRING, (readStringFrom delimiter (inp.drop 1) 1).getD inp.length)

def readDblString (inp : List Nat) : tokenType × Nat := readString inp 34

def readSingleString (inp : List Nat) : tokenType × Nat := readString inp 39

/-- Loop of `readLineComment`; `rest` is `in[i:]`. -/
def readLineCommentFrom : List Nat → Nat → Option Nat
  | [], _ => none
  | b :: rest, i => if b == 10 then some (i + 1) else readLineCommentFrom rest (i + 1)

def readLineComment (inp : List Nat) : tokenType × Nat :=
  (COMMENT, (readLineCommentFrom inp 0).getD inp.length)

/-- Loop of `readMultiLineComment`; `rest` is `in[i:]`, the loop runs while
`i+1 < n`, that is while `rest` has two bytes. -/
def readMultiLineCommentFrom : List Nat → Nat → Option Nat
  | b :: c :: rest, i =>
    if b == 42 && c == 47 then some (i + 2)
    else readMultiLineCommentFrom (c :: rest) (i + 1)
  | _, _ => none

def readMultiLineComment (inp : List Nat) : tokenType × Nat :=
  (COMMENT, (readMultiLineCommentFrom (inp.drop 2) 2).getD inp.length)

/-- Loop of `readWord`; `rest` is `in[i:]`. -/
def readWordFrom : List Nat → Nat → Option Nat
  | [], _ => none
  | b :: rest, i => if !isWordByte b then some i else readWordFrom rest (i + 1)

def readWord (inp : List Nat) : tokenType × Nat :=
  (WORD, (readWordFrom (inp.drop 1) 1).getD inp.length)

def readVar (inp : List Nat) : tokenType × Nat :=
  if 1 < inp.length && isWordByte (inp.getD 1 0) then
    let e := (readWord (inp.drop 1)).2 + 1
    if e < inp.length && inp.getD e 0 == 42 then (RVAR, e + 1) else (VAR, e)
  else (OTHER, 1)

/-- Loop of `readSpaces`; `rest` is `in[i:]`. -/
def readSpacesFrom : List Nat → Nat → Option Nat
  | [], _ => none
  | b :: rest, i => if !isSpace b then some i else readSpacesFrom rest (i + 1)

def readSpaces (inp : List Nat) : tokenType × Nat :=
  (SPACE, (readSpacesFrom (inp.drop 1) 1).getD inp.length)

def closerFor (opener : List Nat) : List Nat :=
  if opener = [40] then [41]
  else if opener = [123] then [125]
  else if opener = [91] then [125]
  else []

structure scanEntry where
  suffix : List Nat
  ttype : tokenType
  fn : Option (List Nat → tokenType × Nat)

/-- The multi-character operators of `init`, in source order. -/
def operators : List (List Nat) :=
  [[37, 61], [38, 61], [42, 61], [43, 61], [45, 61], [60, 60, 61], [62, 62, 61],
   [94, 61], [124, 61], [47, 61],
   [38, 38], [124, 124], [43, 43], [45, 45], [45, 62], [60, 60], [62, 62],
   [61, 61], [33, 61], [60, 61], [62, 61]]

/-- The entries `init` stores for byte `b` before the operators are appended. -/
def scanBase (b : Nat) : List scanEntry :=
  if isSpace b then [⟨[], END, some readSpaces⟩]
  else if isWordByte b then [⟨[], END, some readWord⟩]
  else if b = 40 ∨ b = 91 ∨ b = 123 then [⟨[], OPENER, none⟩]
  else if b = 41 ∨ b = 93 ∨ b = 125 then [⟨[], CLOSER, none⟩]
  else if b = 36 then [⟨[], END, some readVar⟩]
  else if b = 34 then [⟨[], END, some readDblString⟩]
  else if b = 39 then [⟨[], END, some readSingleString⟩]
  else if b = 47 then [⟨[47], END, some readLineComment⟩, ⟨[42], END, some readMultiLineComment⟩]
  else []

/-- The table `scandata` after `init`. -/
def scandata (b : Nat) : List scanEntry :=
  scanBase b ++
    (operators.filter (fun op => op.head? == some b)).map (fun op => ⟨op.drop 1, OTHER, none⟩)

/-- The `for _, e := range scandata[in[0]]` loop of `readRaw`, with the
defaults `end, ttype := 1, OTHER` when no entry matches. -/
def scan (inp : List Nat) : List scanEntry → tokenType × Nat
  | [] => (OTHER, 1)
  | e :: es =>
    let slen := 1 + e.suffix.length
    if slen ≤ inp.length && (inp.drop 1).take e.suffix.length == e.suffix then
      match e.fn with
      | none => (e.ttype, slen)
      | some f => f inp
    else scan inp es

/-- The line and column update of `readRaw` for one byte. -/
def advance (lc : Nat × Nat) (c : Nat) : Nat × Nat :=
  let column := lc.2 + 1
  let column := if c = 9 then (if column % 8 = 0 then column else column + (8 - column % 8)) else column
  if c = 10 then (lc.1 + 1, 0) else (lc.1, column)

/-- The next raw token and the tokenizer after it (`peek` is left alone). -/
def tokenizer.readRaw (t : tokenizer) : rawToken × tokenizer :=
  match t.input with
  | [] => (⟨END, t.line, t.column + 1, []⟩, t)
  | b :: _ =>
    let r := scan t.input (scandata b)
    let tok : rawToken := ⟨r.1, t.line, t.column + 1, t.input.take r.2⟩
    let lc := (t.input.take r.2).foldl advance (t.line, t.column)
    (tok, { t with input := t.input.drop r.2, line := lc.1, column := lc.2 })

def isTrivia (ty : tokenType) : Bool := ty == COMMENT || ty == SPACE

/-- The `for` loop of `newTokenizer`. -/
def newTokenizerLoop : Nat → tokenizer → tokenizer
  | 0, t => t
  | k + 1, t =>
    let (pk, t1) := t.readRaw
    if !isTrivia pk.ttype then { t1 with peek := pk }
    else newTokenizerLoop k { t1 with peek := pk, buffered := t1.buffered ++ [pk] }

def newTokenizer (data : List Nat) : tokenizer :=
  newTokenizerLoop (data.length + 1) ⟨data, [], ⟨END, 0, 0, []⟩, 1, 0⟩

/-- The `for` loop of `read`; `res` is the token being returned. -/
def readLoop : Nat → tokenizer → token → Bool → token × tokenizer
  | 0, t, res, _ => (res, t)
  | k + 1, t, res, onSameLine =>
    let (pk, t1) := t.readRaw
    if !isTrivia pk.ttype then (res, { t1 with peek := pk })
    else if onSameLine && t1.line == res.line then
      readLoop k { t1 with peek := pk } { res with suf := res.suf ++ [pk] } onSameLine
    else
      readLoop k { t1 with peek := pk, buffered := t1.buffered ++ [pk] } res false

def tokenizer.read (t : tokenizer) : token × tokenizer :=
  let res : token := ⟨t.peek.ttype, t.peek.line, t.peek.column, t.peek.text, t.buffered, []⟩
  let (res, t1) := readLoop (t.input.length + 1) { t with buffered := [] } res true
  if t1.peek.ttype = END ∧ 0 < t1.buffered.length then
    ({ res with suf := res.suf ++ t1.buffered }, { t1 with buffered := [] })
  else (res, t1)

/-! ## node.go -/

/-- A node of the tree: `leaf` when `children == nil`, `interior` otherwise.
The constructor argument `tok` is the embedded `token` field, which interior
nodes also carry (the parser leaves it at its zero value). -/
inductive node where
  | leaf (tok : token)
  | interior (tok : token) (children : List node)
  deriving Repr

/-- The embedded `token` field of a node. -/
def node.token : node → token
  | .leaf tok => tok
  | .interior tok _ => tok

/-- The field `children` read as a list (`nil` reads as the empty list). -/
def node.children : node → List node
  | .leaf _ => []
  | .interior _ cs => cs

/-- The test `n.children == nil`. -/
def node.isLeaf : node → Bool
  | .leaf _ => true
  | .interior _ _ => false

mutual
/-- Equality of nodes is decidable. -/
def node.decEq : (a b : node) → Decidable (a = b)
  | .leaf t, .leaf u =>
    if h : t = u then isTrue (by rw [h]) else isFalse (by intro e; cases e; exact h rfl)
  | .leaf _, .interior _ _ => isFalse (by intro e; cases e)
  | .interior _ _, .leaf _ => isFalse (by intro e; cases e)
  | .interior t cs, .interior u ds =>
    if h : t = u then
      match node.decEqList cs ds with
      | isTrue h2 => isTrue (by rw [h, h2])
      | isFalse h2 => isFalse (by intro e; cases e; exact h2 rfl)
    else isFalse (by intro e; cases e; exact h rfl)
/-- Equality of lists of nodes is decidable. -/
def node.decEqList : (a b : List node) → Decidable (a = b)
  | [], [] => isTrue rfl
  | [], _ :: _ => isFalse (by intro e; cases e)
  | _ :: _, [] => isFalse (by intro e; cases e)
  | a :: as, b :: bs =>
    match node.decEq a b with
    | isTrue h =>
      match node.decEqList as bs with
      | isTrue h2 => isTrue (by rw [h, h2])
      | isFalse h2 => isFalse (by intro e; cases e; exact h2 rfl)
    | isFalse h => isFalse (by intro e; cases e; exact h rfl)
end

instance : DecidableEq node := node.decEq

/-- The concatenated texts of a trivia list. -/
def triviaText (l : List rawToken) : List Nat :=
  (l.map (fun t => t.text)).flatten

/-- What the callback of `serialize` appends at a leaf. -/
def token.bytes (t : token) : List Nat :=
  triviaText t.pre ++ t.text ++ triviaText t.suf

mutual
/-- The method `serialize`: `perNode` visits the nodes in pre-order and
the callback emits prefix, text and suffix at every leaf. -/
def node.serialize : node → List Nat
  | .leaf tok => tok.bytes
  | .interior _ cs => serializeList cs
/-- The `for _, c := range n.children` loop of `perNode` under `serialize`. -/
def serializeList : List node → List Nat
  | [] => []
  | c :: cs => c.serialize ++ serializeList cs
end

/-! ## parse.go -/

abbrev parserFn := tokenizer → Option (node × tokenizer)

def lookingAt (t : tokenizer) (tokens : List (List Nat)) : Bool :=
  tokens.any (fun s => t.peek.text == s)

/-- The `for p.lookingAt(tokens...)` loop of `parseLeft`. -/
def parseLeftLoop (sub : parserFn) (tokens : List (List Nat)) :
    Nat → node → tokenizer → Option (node × tokenizer)
  | 0, _, _ => none
  | k + 1, left, t =>
    if lookingAt t tokens then
      match sub (t.read).2 with
      | none => none
      | some (r, t2) =>
        parseLeftLoop sub tokens k (.interior token.zero [left, .leaf (t.read).1, r]) t2
    else some (left, t)

def parseLeft (sub : parserFn) (tokens : List (List Nat)) (fuel : Nat) : parserFn :=
  fun t =>
    match sub t with
    | none => none
    | some (left, t1) => parseLeftLoop sub tokens fuel left t1

def parseRight (sub : parserFn) (tokens : List (List Nat)) : Nat → parserFn
  | 0, _ => none
  | k + 1, t =>
    match sub t with
    | none => none
    | some (n, t1) =>
      if lookingAt t1 tokens then
        match parseRight sub tokens k (t1.read).2 with
        | none => none
        | some (r, t3) => some (.interior token.zero [n, .leaf (t1.read).1, r], t3)
      else some (n, t1)

/-! The precedence ladder.  Every level below `assign` reaches the rest of
the grammar only through `unary`, so each takes the `unary` parser (at the
fuel left) as its argument. -/

def mult (unary : parserFn) (k : Nat) : parserFn := parseLeft unary [[42], [47], [37]] k
def plus (unary : parserFn) (k : Nat) : parserFn := parseLeft (mult unary k) [[43], [45]] k
def shift (unary : parserFn) (k : Nat) : parserFn :=
  parseLeft (plus unary k) [[60, 60], [62, 62]] k
def cmp (unary : parserFn) (k : Nat) : parserFn :=
  parseLeft (shift unary k) [[60], [60, 61], [62], [62, 61]] k
def eq (unary : parserFn) (k : Nat) : parserFn :=
  parseLeft (cmp unary k) [[61, 61], [33, 61]] k
def bitand (unary : parserFn) (k : Nat) : parserFn := parseLeft (eq unary k) [[38]] k
def bitxor (unary : parserFn) (k : Nat) : parserFn := parseLeft (bitand unary k) [[94]] k
def bitor (unary : parserFn) (k : Nat) : parserFn := parseLeft (bitxor unary k) [[124]] k
def andand (unary : parserFn) (k : Nat) : parserFn :=
  parseLeft (bitor unary k) [[38, 38]] k
def oror (unary : parserFn) (k : Nat) : parserFn :=
  parseLeft (andand unary k) [[124, 124]] k

/-- The operator list of `assign`. -/
def assignOps : List (List Nat) :=
  [[61], [43, 61], [45, 61], [42, 61], [47, 61], [37, 61], [60, 60, 61], [62, 62, 61],
   [38, 61], [94, 61], [33, 61]]

def openers : List (List Nat) := [[40], [91], [123]]

mutual
def unary : Nat → parserFn
  | 0, _ => none
  | k + 1, t =>
    if lookingAt t [[38], [42], [33], [126], [43], [45], [43, 43], [45, 45]] then
      match unary k (t.read).2 with
      | none => none
      | some (c, t2) => some (.interior token.zero [.leaf (t.read).1, c], t2)
    else suffix k t
def suffix : Nat → parserFn
  | 0, _ => none
  | k + 1, t =>
    match term k t with
    | none => none
    | some (n, t1) => suffixLoop k n t1
/-- The `for` loop of `suffix`. -/
def suffixLoop : Nat → node → tokenizer → Option (node × tokenizer)
  | 0, _, _ => none
  | k + 1, n, t =>
    if lookingAt t [[43, 43], [45, 45], [46], [45, 62]] then
      match term k (t.read).2 with
      | none => none
      | some (c, t2) => suffixLoop k (.interior token.zero [n, .leaf (t.read).1, c]) t2
    else if lookingAt t openers then
      match readExprs k (t.read).2 (closerFor t.peek.text) with
      | none => none
      | some (cs, t2) =>
        if lookingAt t2 [closerFor t.peek.text] then
          suffixLoop k
            (.interior token.zero ([n, .leaf (t.read).1] ++ cs ++ [.leaf (t2.read).1]))
            (t2.read).2
        else suffixLoop k (.interior token.zero ([n, .leaf (t.read).1] ++ cs)) t2
    else some (n, t)
def term : Nat → parserFn
  | 0, _ => none
  | k + 1, t =>
    if lookingAt t openers then
      match readExprs k (t.read).2 (closerFor t.peek.text) with
      | none => none
      | some (cs, t2) =>
        if lookingAt t2 [closerFor t.peek.text] then
          some (.interior token.zero ([.leaf (t.read).1] ++ cs ++ [.leaf (t2.read).1]),
            (t2.read).2)
        else some (.interior token.zero ([.leaf (t.read).1] ++ cs), t2)
    else some (.leaf (t.read).1, (t.read).2)
/-- The loop of `readExprs`; the result lists the children added to `dst`. -/
def readExprs : Nat → tokenizer → List Nat → Option (List node × tokenizer)
  | 0, _, _ => none
  | k + 1, t, closer =>
    if t.peek.ttype ≠ END ∧ !lookingAt t [closer] then
      match assign k t with
      | none => none
      | some (n, t1) =>
        match readExprs k t1 closer with
        | none => none
        | some (ns, t2) => some (n :: ns, t2)
    else some ([], t)
def assign : Nat → parserFn
  | 0, _ => none
  | k + 1, t => parseRight (oror (unary k) k) assignOps k t
end

/-- The loop `for len(n.children) == 1 { n = n.children[0] }` of `root`. -/
def stripLevels : node → node
  | .interior _ [c] => stripLevels c
  | n => n

/-- The method `root`, from the result of `readExprs` on. -/
def rootOf (cs : List node) (t : tokenizer) : node :=
  let e := (t.read).1
  let cs := if 0 < e.pre.length then cs ++ [.leaf e] else cs
  let n := stripLevels (.interior token.zero cs)
  if n.isLeaf then .interior token.zero [n] else n

def root (fuel : Nat) (t : tokenizer) : Option node :=
  match readExprs fuel t [] with
  | none => none
  | some (cs, t1) => some (rootOf cs t1)

/-- The fuel `parse` runs the parser with. -/
def parseFuel (input : List Nat) : Nat := 6 * input.length + 8

def parse (input : List Nat) : Option node :=
  root (parseFuel input) (newTokenizer input)

/-! ## pattern.go

The compiled `pattern` stores `list`, the shared `runemap`, and two fields
that are functions of them: `re`, the regular expression built from `list`,
and `childpat[i]`, the pattern compiled with `fullMatch` from the children of
`list[i]`.  The embedding keeps `list`, `fullMatch` and the final `runemap`
and recomputes `re` and `childpat[i]` where the source reads them.  A rune is
assigned to a text when the text is first met and never changes, so the rune
found in the final map is the one `makeListPattern` wrote into `re`.

The subject is encoded with one symbol per subject node; the source writes
the UTF-8 bytes of that symbol and keeps `byteToSubjectIndex` to get back
from a byte offset to the index of the node, so offsets in the embedding are
node indices. -/

/-- The map `runemap`: token text to rune, in order of insertion. -/
abbrev runemap := List (List Nat × Nat)

def runemap.find (rm : runemap) (text : List Nat) : Option Nat :=
  (rm.find? (fun e => e.1 == text)).map (fun e => e.2)

def isVar (ty : tokenType) : Bool := ty == VAR || ty == RVAR

mutual
/-- The effect on `runemap` of the body of the loop of `makeListPattern`
for the pattern node `c`. -/
def assignRunes (rm : runemap) : node → runemap
  | .interior _ cs => assignRunesList rm cs
  | .leaf tok =>
    if tok.ttype = VAR then rm
    else if tok.ttype = RVAR then rm
    else
      match rm.find tok.text with
      | some _ => rm
      | none => rm ++ [(tok.text, rm.length + 128)]
/-- The effect on `runemap` of `makeListPattern(list, _, runemap)`. -/
def assignRunesList (rm : runemap) : List node → runemap
  | [] => rm
  | c :: cs => assignRunesList (assignRunes rm c) cs
end

/-- The rune `WriteRune` puts into a buffer: a surrogate or a value past
the last code point is written as U+FFFD. -/
def writeRune (r : Nat) : Nat :=
  if (55296 ≤ r ∧ r ≤ 57343) ∨ 1114111 < r then 65533 else r

/-- The three capture groups `makeListPattern` writes: `(.)`, `(.*)` and
`(r)` for a rune `r`. -/
inductive atom where
  | one
  | star
  | lit (r : Nat)
  deriving DecidableEq, Repr

/-- The regular expressions `makeListPattern` builds: a sequence of capture
groups, between `^` and `$` when `fullMatch` is set. -/
structure regexp where
  anchored : Bool
  atoms : List atom
  deriving DecidableEq, Repr

/-- The capture group written for the pattern node `c`. -/
def atomOf (rm : runemap) (c : node) : atom :=
  match c with
  | .interior _ _ => atom.one
  | .leaf tok =>
    if tok.ttype = VAR then atom.one
    else if tok.ttype = RVAR then atom.star
    else atom.lit (writeRune ((rm.find tok.text).getD 0))

def compileList (rm : runemap) (fullMatch : Bool) (list : List node) : regexp :=
  ⟨fullMatch, list.map (atomOf rm)⟩

/-- The symbol `.` of a regular expression matches every rune but newline. -/
def dot (c : Nat) : Bool := c != 10

/-- One result of the regular expression: the extent of the match and the
extent of every capture group, as offsets into the subject. -/
structure submatch where
  start : Nat
  limit : Nat
  groups : List (Nat × Nat)
  deriving DecidableEq, Repr

/-- The backtracking search for the atoms from offset `pos` on, `text` being
the subject from `pos`; it returns the capture groups and the offset reached.
A `(.*)` tries the longest run first (greedy), and the first complete match
in that order is the match of the regular expression (leftmost-first).  With
`anchored`, the match has to end at the end of the subject (`$`). -/
def matchAtoms (anchored : Bool) : List atom → List Nat → Nat → Option (List (Nat × Nat) × Nat)
  | [], text, pos => if anchored && !text.isEmpty then none else some ([], pos)
  | atom.one :: rest, text, pos =>
    match text with
    | [] => none
    | c :: text' =>
      if dot c then
        (matchAtoms anchored rest text' (pos + 1)).map (fun r => ((pos, pos + 1) :: r.1, r.2))
      else none
  | atom.lit r :: rest, text, pos =>
    match text with
    | [] => none
    | c :: text' =>
      if c = r then
        (matchAtoms anchored rest text' (pos + 1)).map (fun r => ((pos, pos + 1) :: r.1, r.2))
      else none
  | atom.star :: rest, text, pos =>
    ((List.range ((text.takeWhile dot).length + 1)).reverse).findSome? (fun k =>
      (matchAtoms anchored rest (text.drop k) (pos + k)).map
        (fun r => ((pos, pos + k) :: r.1, r.2)))

/-- The search `doExecute` of the library from offset `pos`: the match at
the first offset from `pos` on where one begins; with `^` a match begins at
offset 0 only. -/
def regexp.execute (re : regexp) (text : List Nat) (pos : Nat) : Option submatch :=
  ((List.range (text.length + 1 - pos)).map (fun d => pos + d)).findSome? (fun s =>
    if re.anchored && s != 0 then none
    else (matchAtoms re.anchored re.atoms (text.drop s) s).map (fun r => ⟨s, r.2, r.1⟩))

/-- The loop `allMatches` of the library behind `FindAllSubmatchIndex(sub, -1)`:
successive matches, each search starting where the last match ended, one
symbol further after an empty match, and an empty match right after the
previous match is dropped.  `pos` grows with every turn, so the loop makes at
most `len + 2` turns; `prev` is `prevMatchEnd`, `none` for -1. -/
def allMatches (re : regexp) (text : List Nat) : Nat → Nat → Option Nat → List submatch
  | 0, _, _ => []
  | k + 1, pos, prev =>
    if pos ≤ text.length then
      match re.execute text pos with
      | none => []
      | some m =>
        if m.limit = pos then
          let pos' := if pos < text.length then pos + 1 else text.length + 1
          if some m.start = prev then allMatches re text k pos' (some m.limit)
          else m :: allMatches re text k pos' (some m.limit)
        else m :: allMatches re text k m.limit (some m.limit)
    else []

def regexp.findAllSubmatchIndex (re : regexp) (text : List Nat) : List submatch :=
  allMatches re text (text.length + 2) 0 none

/-- The symbol written for the subject node `c`. -/
def symbolOf (rm : runemap) (c : node) : Nat :=
  match c with
  | .interior _ _ => 95
  | .leaf tok =>
    match rm.find tok.text with
    | some r => writeRune r
    | none => 95

/-- The subject `sub` of the regular expression. -/
def encode (rm : runemap) (subject : List node) : List Nat :=
  subject.map (symbolOf rm)

/-- The map `vars` of a match: variable text to captured nodes.  An entry
nearer the head shadows a later one with the same key. -/
abbrev varmap := List (List Nat × List node)

def varmap.find (vars : varmap) (name : List Nat) : Option (List node) :=
  (vars.find? (fun e => e.1 == name)).map (fun e => e.2)

/-- The result `match` of a successful match. -/
structure Match where
  vars : varmap
  start : Nat
  limit : Nat
  deriving DecidableEq

/-- The slice `s[a:b]`. -/
def slice {α : Type} (s : List α) (a b : Nat) : List α :=
  (s.take b).drop a

mutual
/-- The call `p.childpat[i].match(subject)` for the pattern node `pnode` at
`p.list[i]`: the pattern compiled from the children of `pnode` with
`fullMatch`. -/
def matchChild (rm : runemap) : node → List node → Option Match
  | .leaf _, _ => none
  | .interior _ cs, subject =>
    ((compileList rm true cs).findAllSubmatchIndex (encode rm subject)).findSome? (fun m =>
      (bindNodes rm cs m.groups subject).map (fun vars => ⟨vars, m.start, m.limit⟩))
/-- The loop `for i, pnode := range p.list` of `match` for one result of the
regular expression, from pattern node `i` on: `groups` are the capture groups
from `i+1` on.  It returns the assignments made, the latest first, or `none`
when a recursive match fails (`continue outerLoop`). -/
def bindNodes (rm : runemap) : List node → List (Nat × Nat) → List node → Option varmap
  | [], _, _ => some []
  | _ :: _, [], _ => none
  | pnode :: ps, g :: gs, subject =>
    match pnode with
    | .leaf tok =>
      if isVar tok.ttype then
        (bindNodes rm ps gs subject).map (fun vars => vars ++ [(tok.text, slice subject g.1 g.2)])
      else bindNodes rm ps gs subject
    | .interior _ _ =>
      match (slice subject g.1 g.2).head? with
      | none => none
      | some s =>
        match matchChild rm pnode s.children with
        | none => none
        | some cmatch =>
          (bindNodes rm ps gs subject).map (fun vars => vars ++ cmatch.vars)
end

/-- The compiled pattern: `list`, `fullMatch` and the shared `runemap`. -/
structure pattern where
  list : List node
  fullMatch : Bool
  runemap : runemap

/-- The pattern `makeListPattern` returns.  Its call of `regexp.MustCompile`
panics when the library refuses the expression; that panic is in
`compilePattern` below. -/
def makeListPattern (list : List node) (fullMatch : Bool) (rm : runemap) : pattern :=
  ⟨list, fullMatch, assignRunesList rm list⟩

def makePattern (p : node) : pattern :=
  makeListPattern p.children false []

/-- The method `match` of a pattern. -/
def pattern.matchNodes (p : pattern) (subject : List node) : Option Match :=
  ((compileList p.runemap p.fullMatch p.list).findAllSubmatchIndex
      (encode p.runemap subject)).findSome? (fun m =>
    (bindNodes p.runemap p.list m.groups subject).map (fun vars => ⟨vars, m.start, m.limit⟩))

/-! ## copycomments.go -/

/-- The result of `pos(t)`: line and column. -/
abbrev position := Nat × Nat

def pos (t : rawToken) : position := (t.line, t.column)

/-- The state `copier`; `pre` and `suf` are the token lists of the two
boundaries. -/
structure copier where
  seen : List position
  pre : List rawToken
  suf : List rawToken

/-- The body of the loop of `copyCommentTokens` for the token `t`. -/
def copyCommentToken (leftSide rightSide : Bool) (c : copier) (t : rawToken) : copier :=
  if c.seen.contains (pos t) then c
  else if t.ttype = SPACE ∧ !leftSide ∧ !rightSide then c
  else if leftSide then { c with pre := c.pre ++ [t], seen := pos t :: c.seen }
  else { c with suf := c.suf ++ [t], seen := pos t :: c.seen }

def copier.copyCommentTokens (c : copier) (list : List rawToken) (leftSide rightSide : Bool) :
    copier :=
  list.foldl (copyCommentToken leftSide rightSide) c

mutual
def copier.copyNodeComments (c : copier) : node → Bool → Bool → copier
  | .leaf tok, leftSide, rightSide =>
    (c.copyCommentTokens tok.pre leftSide false).copyCommentTokens tok.suf false rightSide
  | .interior tok cs, leftSide, rightSide =>
    (copyChildComments (c.copyCommentTokens tok.pre leftSide false) cs 0 cs.length
      leftSide rightSide).copyCommentTokens tok.suf false rightSide
/-- The loop `for i, child := range n.children` of `copyNodeComments`, from
child `i` on; `num` is `len(n.children)`. -/
def copyChildComments (c : copier) : List node → Nat → Nat → Bool → Bool → copier
  | [], _, _, _, _ => c
  | child :: rest, i, num, leftSide, rightSide =>
    copyChildComments
      (c.copyNodeComments child (leftSide && i == 0) (rightSide && i == num - 1))
      rest (i + 1) num leftSide rightSide
end

/-- The loop `for i, n := range src` of `copyComments`, from element `i`
on; `num` is `len(src)`. -/
def copySrcComments (c : copier) : List node → Nat → Nat → copier
  | [], _, _ => c
  | n :: rest, i, num =>
    copySrcComments (c.copyNodeComments n (i == 0) (i == num - 1)) rest (i + 1) num

mutual
/-- The positions `perNode` records in `seen` for the tree under `n`: those
of the prefix and suffix tokens of every node. -/
def seenOf : node → List position
  | .leaf tok => tok.pre.map pos ++ tok.suf.map pos
  | .interior tok cs => tok.pre.map pos ++ tok.suf.map pos ++ seenOfList cs
def seenOfList : List node → List position
  | [] => []
  | c :: cs => seenOf c ++ seenOfList cs
end

/-- The assignment `n.token.prefix = append(toks, n.token.prefix...)`. -/
def node.addPrefix (toks : List rawToken) : node → node
  | .leaf tok => .leaf { tok with pre := toks ++ tok.pre }
  | .interior tok cs => .interior { tok with pre := toks ++ tok.pre } cs

/-- The assignment `n.token.suffix = append(n.token.suffix, toks...)`: the
suffix the node has right after it.  (The source's `append` writes into the
array of the old suffix when that array has room, an array the clones of a
node share with it: `clone` copies the slice, not the array.  A node is a
value here, and what a later `append` does to the array of another node is
not part of it.) -/
def node.addSuffix (toks : List rawToken) : node → node
  | .leaf tok => .leaf { tok with suf := tok.suf ++ toks }
  | .interior tok cs => .interior { tok with suf := tok.suf ++ toks } cs

/-- The list `l` with `f` applied to its first element. -/
def modifyFirst (f : node → node) : List node → List node
  | [] => []
  | n :: rest => f n :: rest

/-- The list `l` with `f` applied to its last element. -/
def modifyLast (f : node → node) : List node → List node
  | [] => []
  | [n] => [f n]
  | n :: rest => n :: modifyLast f rest

/-- The boundaries collected by `copyComments` before they are attached. -/
def collectComments (src dst : List node) : copier :=
  copySrcComments ⟨seenOfList dst, [], []⟩ src 0 src.length

def copyComments (src dst : List node) : List node :=
  let c := collectComments src dst
  if c.pre.length + c.suf.length = 0 then dst
  else
    let dst := if dst.length = 0 then [node.leaf ⟨OTHER, 0, 0, [], [], []⟩] else dst
    modifyLast (node.addSuffix c.suf) (modifyFirst (node.addPrefix c.pre) dst)

/-! ## replace.go -/

mutual
/-- The function `clone`.  (The source also stores the copies of the
children back into the children array it shares with `n`; the nodes stored
are equal to the ones they replace.) -/
def clone : node → node
  | .leaf tok => .leaf tok
  | .interior tok cs => .interior tok (cloneList cs)
def cloneList : List node → List node
  | [] => []
  | c :: cs => clone c :: cloneList cs
end

mutual
/-- The function `substitute`; `none` stands for its `panic`. -/
def substitute (vars : varmap) : node → Option (List node)
  | .interior _ cs => substituteList vars cs
  | .leaf tok =>
    if tok.ttype ≠ VAR ∧ tok.ttype ≠ RVAR then some [clone (.leaf tok)]
    else
      match vars.find tok.text with
      | none => none
      | some vals => some (vals.map clone)
/-- The loop `for _, c := range replacement.children` of `substitute`. -/
def substituteList (vars : varmap) : List node → Option (List node)
  | [] => some []
  | c :: cs =>
    match substitute vars c with
    | none => none
    | some r =>
      match substituteList vars cs with
      | none => none
      | some rs => some (r ++ rs)
end

/-- A leaf of a tree as the rewriter knows it: the path from the root (the
index of the child taken at every level, so `depth` is its length) and the
token. -/
structure occurrence where
  path : List Nat
  tok : token
  deriving DecidableEq, Repr

def occurrence.depth (o : occurrence) : Nat := o.path.length

mutual
/-- The leaves `perNode` visits under `n`, in order; `path` leads to `n`. -/
def leaves (path : List Nat) : node → List occurrence
  | .leaf tok => [⟨path, tok⟩]
  | .interior _ cs => leavesList path 0 cs
def leavesList (path : List Nat) : Nat → List node → List occurrence
  | _, [] => []
  | i, c :: cs => leaves (path ++ [i]) c ++ leavesList path (i + 1) cs
end

/-- The node at `path` under `n`. -/
def node.at? : node → List Nat → Option node
  | n, [] => some n
  | .leaf _, _ :: _ => none
  | .interior _ cs, i :: path =>
    match cs[i]? with
    | none => none
    | some c => c.at? path

/-- The tree `n` with `children` stored in the node at `path`. -/
def node.setChildrenAt : node → List Nat → List node → node
  | .leaf tok, [], children => .interior tok children
  | .interior tok _, [], children => .interior tok children
  | .leaf tok, _ :: _, _ => .leaf tok
  | .interior tok cs, i :: path, children =>
    match cs[i]? with
    | none => .interior tok cs
    | some c => .interior tok (cs.set i (c.setChildrenAt path children))

/-- The selection of the anchor: the loop body of the second `perNode` of
`replace` for the pattern leaf `o`; the state is `anchor`, `anchorCount`. -/
def pickAnchor (freq : List Nat → Nat) (st : Option occurrence × Nat) (o : occurrence) :
    Option occurrence × Nat :=
  if isVar o.tok.ttype then st
  else if freq o.tok.text < st.2 then (some o, freq o.tok.text) else st

/-- The order `sort.Slice` yields for `less(i, j) = occ[i].depth > occ[j].depth`
when it runs its insertion sort alone, which it does on at most 12 elements:
decreasing depth, nodes of equal depth in their former order
(`sortOccurrences_short`).  The function `sort.Slice` on any number of
elements is `sortOccurrences` below. -/
def sortSlice (occ : List occurrence) : List occurrence :=
  occ.insertionSort (fun a b => a.depth ≥ b.depth)

/-- The inner loop `for start < len(sub.children)` of `replace` on the
children `src` of `sub`.  `none` stands for a run that does not end: the
`panic` of `substitute`, or fuel used up, which takes a match with
`limit = 0`, after which the source repeats the same match for ever. -/
def rewriteLoop (pat : pattern) (replacement : node) : Nat → Nat → List node → Option (List node)
  | 0, _, _ => none
  | k + 1, start, src =>
    if start < src.length then
      match pat.matchNodes (src.drop start) with
      | none => some src
      | some m =>
        match substitute m.vars replacement with
        | none => none
        | some result =>
          let result := copyComments (slice src (start + m.start) (start + m.limit)) result
          let remainder := src.length - start - m.limit
          let dst := src.take (start + m.start) ++ result ++ src.drop (src.length - remainder)
          rewriteLoop pat replacement k (start + m.start + result.length) dst
    else some src

/-- The state of the loop over the occurrences of the anchor: the subject
and the list node handled `last`. -/
structure replaceState where
  subject : node
  last : Option (List Nat)

/-- The body of the loop `for _, sub := range occ` of `replace`. -/
def replaceStep (pat : pattern) (replacement : node) (anchorDepth : Nat)
    (st : replaceState) (o : occurrence) : Option replaceState :=
  if o.depth < anchorDepth then some st
  else
    let sub := o.path.take (o.path.length - anchorDepth)
    if some sub = st.last then some st
    else
      match st.subject.at? sub with
      | none => some { st with last := some sub }
      | some n =>
        match rewriteLoop pat replacement (n.children.length + 1) 0 n.children with
        | none => none
        | some children =>
          if n.isLeaf then some { st with last := some sub }
          else some ⟨st.subject.setChildrenAt sub children, some sub⟩

/-- The loop `for _, sub := range occ` of `replace`. -/
def replaceLoop (pat : pattern) (replacement : node) (anchorDepth : Nat) :
    replaceState → List occurrence → Option replaceState
  | st, [] => some st
  | st, o :: occ =>
    match replaceStep pat replacement anchorDepth st o with
    | none => none
    | some st' => replaceLoop pat replacement anchorDepth st' occ

/-- The function `replace` with `sort.Slice` as a parameter, for a pattern
`regexp.MustCompile` accepts; it returns the subject after the rewrite. -/
def replaceWith (sort : List occurrence → List occurrence)
    (subject pat replacement : node) : Option node :=
  let occur := leaves [] subject
  let freq := fun text => (occur.filter (fun o => o.tok.text == text)).length
  match ((leaves [] pat).foldl (pickAnchor freq) (none, 1000000000)).1 with
  | none => some subject
  | some anchor =>
    let occ := occur.filter (fun o => o.tok.text == anchor.tok.text)
    if occ.isEmpty then some subject
    else
      (replaceLoop (makePattern pat) replacement anchor.depth ⟨subject, none⟩ (sort occ)).map
        (fun st => st.subject)

/-- The function `replace` for a pattern `regexp.MustCompile` accepts, with
the occurrences of the anchor in the order of `sortSlice`.  The function with
both calls of the library as the library runs them is `replaceLib` below; the
two agree on a pattern the library accepts and at most 12 occurrences of the
anchor (`replaceLib_short`). -/
def replace (subject pat replacement : node) : Option node :=
  replaceWith sortSlice subject pat replacement

/-! ## The callers: `main` and the tests -/

/-- The bytes of an ASCII string. -/
def bytesOf (s : String) : List Nat := s.toList.map Char.toNat

/-- What `main` and `TestReplace` do with a subject, a pattern and a
replacement text: parse the three, call `replace`, serialize the subject;
with the function `replace` above. -/
def rewrite (subject pat replacement : List Nat) : Option (List Nat) :=
  match parse subject, parse pat, parse replacement with
  | some s, some p, some r => (replace s p r).map node.serialize
  | _, _, _ => none

/-- What `TestMatch` does with a subject and a pattern text: parse both
and match the pattern against the children of the subject. -/
def matchText (subject pat : List Nat) : Option Match :=
  match parse subject, parse pat with
  | some s, some p => (makePattern p).matchNodes s.children
  | _, _ => none

/-! ## The statements of the specification -/

mutual
/-- The tokens of the leaves of a tree, in order. -/
def leafTokens : node → List token
  | .leaf tok => [tok]
  | .interior _ cs => leafTokensList cs
def leafTokensList : List node → List token
  | [] => []
  | c :: cs => leafTokens c ++ leafTokensList cs
end

/-- The substitution as the specification words it: the concatenation, over
the leaves of the replacement in order, of the leaf itself for a literal and
of the nodes captured under its name for a variable. -/
def substituteSpec (vars : varmap) (replacement : node) : List node :=
  ((leafTokens replacement).map (fun tok =>
    if isVar tok.ttype then (vars.find tok.text).getD [] else [node.leaf tok])).flatten

mutual
/-- The nodes `perNode` visits under `n`, in order. -/
def nodesOf : node → List node
  | .leaf tok => [.leaf tok]
  | .interior tok cs => .interior tok cs :: nodesOfList cs
def nodesOfList : List node → List node
  | [] => []
  | c :: cs => nodesOf c ++ nodesOfList cs
end

/-- The tree `parse` returns for `input` (it always returns one, see
`parse_serialize_roundtrip`). -/
def tree (input : List Nat) : node :=
  (parse input).getD (.interior token.zero [])

/-- The trivia attached to the leaves of a list of trees, in order: what
`serialize` emits besides the texts of the leaves. -/
def leafTrivia (l : List node) : List rawToken :=
  ((leafTokensList l).map (fun tok => tok.pre ++ tok.suf)).flatten

mutual
/-- The relation of the specification between a pattern node other than a
variadic variable and one subject node: a literal leaf matches a leaf with
the same text, a VAR any node, an interior pattern node an interior subject
node whose whole child list matches. -/
def specMatchNode : node → node → Bool
  | .leaf tok, s =>
    if tok.ttype = VAR then true
    else
      match s with
      | .leaf t => t.text == tok.text
      | .interior _ _ => false
  | .interior _ cs, s =>
    match s with
    | .leaf _ => false
    | .interior _ ss => specMatchList cs ss
/-- The relation of the specification between a pattern list and a run of
subject siblings; an RVAR takes any run. -/
def specMatchList : List node → List node → Bool
  | [], run => run.isEmpty
  | p :: ps, run =>
    if p.isLeaf && p.token.ttype == RVAR then
      (List.range (run.length + 1)).any (fun k => specMatchList ps (run.drop k))
    else
      match run with
      | [] => false
      | s :: rest => specMatchNode p s && specMatchList ps rest
end

/-! ## Auxiliary notions for the proofs -/

/-- What `readRaw` needs of a reader: on a non-empty buffer it returns a
type other than END and a positive length. -/
def readerOk (f : List Nat → tokenType × Nat) : Prop :=
  ∀ inp : List Nat, inp ≠ [] → (f inp).1 ≠ END ∧ 1 ≤ (f inp).2

/-- An entry of the scan table is sound when its fixed type is not END
and its reader, if any, is `readerOk`. -/
def entryOk (e : scanEntry) : Prop :=
  match e.fn with
  | none => e.ttype ≠ END
  | some f => readerOk f


/-- The bytes a tokenizer has not handed out yet: the buffered trivia, the
token in `peek` and the unread input. -/
def tokenizer.rest (t : tokenizer) : List Nat :=
  triviaText t.buffered ++ t.peek.text ++ t.input

/-- The state invariant of a tokenizer between two calls of `read`: `peek`
is a content token, and it is END exactly at the end of the input. -/
def tokenizer.wf (t : tokenizer) : Prop :=
  (t.peek.ttype = END → t.input = [] ∧ t.peek.text = []) ∧
  (t.peek.ttype ≠ END → t.peek.text ≠ []) ∧ isTrivia t.peek.ttype = false

/-- The number of bytes in `peek` and in the unread input. -/
def tokenizer.size (t : tokenizer) : Nat :=
  t.peek.text.length + t.input.length

/-- A parser step `p` succeeds on `t`: it returns a node and a tokenizer,
the bytes of the node followed by what the new tokenizer still holds are
what the old tokenizer held, and the step consumed `peek`. -/
def parserOk (p : parserFn) (t : tokenizer) : Prop :=
  ∃ n t', p t = some (n, t') ∧ n.serialize ++ t'.rest = t.rest ∧ t'.wf ∧
    t'.size ≤ t.size ∧ (t.peek.text ≠ [] → t'.size < t.size)

/-- The same for a loop that extends the node `left` built so far. -/
def loopOk (r : Option (node × tokenizer)) (left : node) (t : tokenizer) : Prop :=
  ∃ n t', r = some (n, t') ∧ n.serialize ++ t'.rest = left.serialize ++ t.rest ∧ t'.wf ∧
    t'.size ≤ t.size

/-- The same for `readExprs`, which also stops in front of END or of the
closer. -/
def exprsOk (r : Option (List node × tokenizer)) (t : tokenizer) (closer : List Nat) : Prop :=
  ∃ ns t', r = some (ns, t') ∧ serializeList ns ++ t'.rest = t.rest ∧ t'.wf ∧
    t'.size ≤ t.size ∧ (t'.peek.ttype = END ∨ lookingAt t' [closer] = true)

/-- The capture groups `gs` are those of a match of `atoms` from offset
`pos` to offset `e`: they follow one another without a gap, and a group
other than `(.*)` holds one symbol. -/
def groupsOk : List atom → List (Nat × Nat) → Nat → Nat → Prop
  | [], [], pos, e => e = pos
  | a :: atoms, g :: gs, pos, e =>
    g.1 = pos ∧ g.1 ≤ g.2 ∧ (a ≠ atom.star → g.2 = pos + 1) ∧ groupsOk atoms gs g.2 e
  | _, _, _, _ => False

/-- The list `nodes` is a run of consecutive elements of `l` whose indices
lie between `lo` (included) and `hi` (excluded). -/
def isRunOf (l nodes : List node) (lo hi : Nat) : Prop :=
  ∃ a b, lo ≤ a ∧ a ≤ b ∧ b ≤ hi ∧ b ≤ l.length ∧ nodes = slice l a b

/-- The list `nodes` is a run of consecutive children of a node that lies
under (or is) `l[i]` for an index `i` between `lo` and `hi`. -/
def isNestedRunOf (l nodes : List node) (lo hi : Nat) : Prop :=
  ∃ i s path n, lo ≤ i ∧ i < hi ∧ l[i]? = some s ∧ s.at? path = some n ∧
    isRunOf n.children nodes 0 n.children.length

/-- What holds of an entry `en` of the map `vars` after a match of the
pattern list `plist` against `subject` with extent `lo`, `hi`: its nodes are
consecutive siblings, of the subject list or of a node below the matched
part of it, and it was made for a variable of the pattern, one node for a
VAR. -/
def captureOk (plist subject : List node) (lo hi : Nat) (en : List Nat × List node) : Prop :=
  (isRunOf subject en.2 lo hi ∨ isNestedRunOf subject en.2 lo hi) ∧
  ∃ tok ∈ leafTokensList plist, isVar tok.ttype = true ∧ tok.text = en.1 ∧
    (tok.ttype = VAR → en.2.length = 1)

/-- A word: a non-empty run of word bytes (letters, digits, `_`). -/
def isWord (w : List Nat) : Prop :=
  w ≠ [] ∧ ∀ b ∈ w, isWordByte b = true

/-- The bytes `rest` that follow a token do not go on with a word byte. -/
def endsWord (rest : List Nat) : Prop :=
  ∀ c ∈ rest.head?, isWordByte c = false

/-- The tokenizer on line 1 with an empty buffer, the token `ty`, `text` at
`column` in `peek`, and `input` still to read from column `endColumn`. -/
def tokState (input : List Nat) (ty : tokenType) (column : Nat) (text : List Nat)
    (endColumn : Nat) : tokenizer :=
  ⟨input, [], ⟨ty, 1, column, text⟩, 1, endColumn⟩

/-- The operator lists of the levels above `plus`, none of which is met. -/
def upperOps : List (List (List Nat)) :=
  [[[60, 60], [62, 62]], [[60], [60, 61], [62], [62, 61]], [[61, 61], [33, 61]], [[38]],
   [[94]], [[124]], [[38, 38]], [[124, 124]]]


/-- The bytes of the expression `A+(B+C)`. -/
def exprABC (A B C : List Nat) : List Nat :=
  A ++ (43 :: 40 :: (B ++ (43 :: (C ++ [41]))))

/-- The tree `parse` builds for `A+(B+C)`, see `parse_exprABC`. -/
def treeABC (A B C : List Nat) : node :=
  .interior token.zero
    [.leaf ⟨WORD, 1, 1, A, [], []⟩,
     .leaf ⟨OTHER, 1, A.length + 1, [43], [], []⟩,
     .interior token.zero
       [.leaf ⟨OPENER, 1, A.length + 1 + 1, [40], [], []⟩,
        .interior token.zero
          [.leaf ⟨WORD, 1, A.length + 1 + 1 + 1, B, [], []⟩,
           .leaf ⟨OTHER, 1, A.length + 1 + 1 + B.length + 1, [43], [], []⟩,
           .leaf ⟨WORD, 1, A.length + 1 + 1 + B.length + 1 + 1, C, [], []⟩],
        .leaf ⟨CLOSER, 1, A.length + 1 + 1 + B.length + 1 + C.length + 1, [41], [], []⟩]]

/-- The tree `parse` builds for the pattern `$a+$b`. -/
def patAB : node := .interior token.zero
  [.leaf ⟨VAR, 1, 1, [36, 97], [], []⟩, .leaf ⟨OTHER, 1, 3, [43], [], []⟩,
   .leaf ⟨VAR, 1, 4, [36, 98], [], []⟩]

/-- The tree `parse` builds for the replacement `$b+$a`. -/
def repBA : node := .interior token.zero
  [.leaf ⟨VAR, 1, 1, [36, 98], [], []⟩, .leaf ⟨OTHER, 1, 3, [43], [], []⟩,
   .leaf ⟨VAR, 1, 4, [36, 97], [], []⟩]

/-- The subject `A+(B+C)` after `replace` with `$a+$b` and `$b+$a`. -/
def outABC (A B C : List Nat) : node :=
  .interior token.zero
    [.interior token.zero
       [.leaf ⟨OPENER, 1, A.length + 1 + 1, [40], [], []⟩,
        .interior token.zero
          [.leaf ⟨WORD, 1, A.length + 1 + 1 + B.length + 1 + 1, C, [], []⟩,
           .leaf ⟨OTHER, 1, 3, [43], [], []⟩,
           .leaf ⟨WORD, 1, A.length + 1 + 1 + 1, B, [], []⟩],
        .leaf ⟨CLOSER, 1, A.length + 1 + 1 + B.length + 1 + C.length + 1, [41], [], []⟩],
     .leaf ⟨OTHER, 1, 3, [43], [], []⟩,
     .leaf ⟨WORD, 1, 1, A, [], []⟩]

/-- Every leaf token of the tree satisfies `Q`. -/
def allLeaves (Q : token → Prop) (n : node) : Prop :=
  ∀ tok ∈ leafTokens n, Q tok

/-- A parser step keeps the invariant `K` of the tokenizer and builds a
node whose leaf tokens satisfy `Q`. -/
def parserKeeps (K : tokenizer → Prop) (Q : token → Prop) (p : parserFn) : Prop :=
  ∀ (t : tokenizer) (n : node) (t' : tokenizer), K t → p t = some (n, t') →
    allLeaves Q n ∧ K t'

/-- The order of positions in a buffer: by line, then by column. -/
def posLt (a b : position) : Prop :=
  a.1 < b.1 ∨ (a.1 = b.1 ∧ a.2 < b.2)

/-- The position `p` is one the tokenizer has passed when it stands at
`line`, `column` (the column of the last byte read). -/
def passed (p : position) (line column : Nat) : Prop :=
  p.1 < line ∨ (p.1 = line ∧ p.2 ≤ column)

/-- The trivia of a token stand at increasing positions. -/
def triviaOrdered (tok : token) : Prop :=
  List.Pairwise posLt ((tok.pre ++ tok.suf).map pos)

/-- The buffered trivia of a tokenizer stand at increasing positions, all
of them passed. -/
def bufferOrdered (t : tokenizer) : Prop :=
  List.Pairwise posLt (t.buffered.map pos) ∧ ∀ b ∈ t.buffered, passed (pos b) t.line t.column

/-- The tree `parse` builds for a single word `F`, see `parse_word`. -/
def wordTree (F : List Nat) : node :=
  .interior token.zero [.leaf ⟨WORD, 1, 1, F, [], []⟩]

/-- The node is a leaf with text `F`. -/
def isLit (F : List Nat) : node → Bool
  | .leaf tok => tok.text == F
  | .interior _ _ => false

/-- The token that stands for `tok` after the replacement of `F` by `G`: a
token with text `F` becomes the token of the replacement (the word `G` at
line 1, column 1) with the trivia of `tok`. -/
def renameTok (F G : List Nat) (tok : token) : token :=
  if tok.text = F then ⟨WORD, 1, 1, G, tok.pre, tok.suf⟩ else tok

/-- The node that stands for a child after the replacement of `F` by `G`. -/
def renameLeaf (F G : List Nat) : node → node
  | .leaf tok => .leaf (renameTok F G tok)
  | .interior tok cs => .interior tok cs

/-- The bytes of a tree with the text of every leaf token equal to `F`
replaced by `G` and everything else, the trivia included, as it is. -/
def replaceTextSpec (F G : List Nat) (n : node) : List Nat :=
  ((leafTokens n).map (fun tok =>
    triviaText tok.pre ++ (if tok.text = F then G else tok.text) ++ triviaText tok.suf)).flatten

/-- The children of a list node all have ordered trivia when they are
leaves. -/
def leavesOrdered (src : List node) : Prop :=
  ∀ t : token, node.leaf t ∈ src → triviaOrdered t

/-! ## The statements on the tokenizer -/

/-- The result of `readVar` on a buffer `$` followed by `rest`, as the
specification words it: OTHER of length 1 when no word byte follows the `$`,
else the maximal run `w` of word bytes is consumed, with a `*` that follows
it for RVAR. -/
def readVarSpec (rest : List Nat) : tokenType × Nat :=
  match rest with
  | [] => (OTHER, 1)
  | b :: _ =>
    if isWordByte b then
      let w := rest.takeWhile isWordByte
      if (rest.drop w.length).head? = some 42 then (RVAR, w.length + 2) else (VAR, w.length + 1)
    else (OTHER, 1)

/-- The loop of `TestTokenizer`: the tokens `read` returns up to the first
END. -/
def contentTokens : Nat → tokenizer → List token
  | 0, _ => []
  | k + 1, t =>
    if (t.read).1.ttype = END then [] else (t.read).1 :: contentTokens k (t.read).2

/-- The content tokens of `input`; every `read` before END takes a byte, so
`len(input) + 1` turns reach END. -/
def tokenize (input : List Nat) : List token :=
  contentTokens (input.length + 1) (newTokenizer input)

/-! ## The statements on the parser -/

mutual
/-- The method `String` of a node: `[text]` for a leaf, the children in
parentheses with a blank between them for an interior node. -/
def node.String : node → List Nat
  | .leaf tok => [91] ++ tok.text ++ [93]
  | .interior _ cs => [40] ++ stringList cs ++ [41]
/-- The loop of `write` over the children; the separator is empty in front
of the first child and a blank from then on. -/
def stringList : List node → List Nat
  | [] => []
  | [c] => c.String
  | c :: cs => c.String ++ [32] ++ stringList cs
end

/-- The trivia that follows the token in `peek`, as the specification
speaks of it: the comments and spaces `readRaw` yields from `t` on, up to
the next content token, which the tokenizer returned holds in `peek`. -/
def triviaRun : Nat → tokenizer → List rawToken × tokenizer
  | 0, t => ([], t)
  | k + 1, t =>
    if !isTrivia (t.readRaw).1.ttype then ([], { (t.readRaw).2 with peek := (t.readRaw).1 })
    else
      ((t.readRaw).1 :: (triviaRun k { (t.readRaw).2 with peek := (t.readRaw).1 }).1,
        (triviaRun k { (t.readRaw).2 with peek := (t.readRaw).1 }).2)

/-- The line on which a raw token ends: the line it starts on and one more
for every line break in its text. -/
def rawToken.endLine (r : rawToken) : Nat := r.line + r.text.count 10

/-! ## The statements on the rewriter -/

mutual
/-- The function `substitute` with the value it panics with as the error;
`substitute` above is this function with the value forgotten, see
`substitute_eq_toOption`. -/
def substituteE (vars : varmap) : node → Except (List Nat) (List node)
  | .interior _ cs => substituteEList vars cs
  | .leaf tok =>
    if tok.ttype ≠ VAR ∧ tok.ttype ≠ RVAR then .ok [clone (.leaf tok)]
    else
      match vars.find tok.text with
      | none => .error (bytesOf "variable not found + " ++ tok.text)
      | some vals => .ok (vals.map clone)
/-- The loop `for _, c := range replacement.children` of `substitute`. -/
def substituteEList (vars : varmap) : List node → Except (List Nat) (List node)
  | [] => .ok []
  | c :: cs =>
    match substituteE vars c with
    | .error e => .error e
    | .ok r =>
      match substituteEList vars cs with
      | .error e => .error e
      | .ok rs => .ok (r ++ rs)
end

/-- The anchor `replace` picks in the pattern for a subject. -/
def anchorOf (subject pat : node) : Option occurrence :=
  ((leaves [] pat).foldl
    (pickAnchor (fun text => ((leaves [] subject).filter (fun o => o.tok.text == text)).length))
    (none, 1000000000)).1

/-- The replacement uses a variable the pattern does not bind: one of its
leaves is a VAR or RVAR whose text is the text of no variable of the
pattern. -/
def unbound (pat replacement : node) : Prop :=
  ∃ tok ∈ leafTokens replacement, isVar tok.ttype = true ∧
    ∀ p ∈ leafTokens pat, isVar p.ttype = true → p.text ≠ tok.text

/-- A match fires in `replace`: the pattern has an anchor, and for one of
the occurrences of the anchor in the subject, deep enough, the list node
`anchor.depth` levels above it has children and `match` succeeds on them. -/
def fires (subject pat : node) : Prop :=
  ∃ anchor, anchorOf subject pat = some anchor ∧
    ∃ o ∈ leaves [] subject, (o.tok.text == anchor.tok.text) = true ∧ anchor.depth ≤ o.depth ∧
      ∃ n, subject.at? (o.path.take (o.path.length - anchor.depth)) = some n ∧
        0 < n.children.length ∧ ((makePattern pat).matchNodes n.children).isSome = true

/-- The operator lists of the precedence ladder, from `oror` down to
`mult`: the lowest precedence first. -/
def ladderOps : List (List (List Nat)) :=
  [[[124, 124]], [[38, 38]], [[124]], [[94]], [[38]], [[61, 61], [33, 61]],
   [[60], [60, 61], [62], [62, 61]], [[60, 60], [62, 62]], [[43], [45]], [[42], [47], [37]]]

/-- The levels of `parseLeft` with the operator lists `levels`, the
outermost first, above the parser `un`. -/
def ladder (un : parserFn) (k : Nat) : List (List (List Nat)) → parserFn
  | [] => un
  | ops :: levels => parseLeft (ladder un k levels) ops k

/-- The bytes of `a op1 b op2 c`. -/
def binaryInput (a op1 b op2 c : List Nat) : List Nat :=
  a ++ (op1 ++ (b ++ (op2 ++ c)))

/-- The tree in which `op2` binds first: `a op1 (b op2 c)`, the tokens at
the places they have in `binaryInput a op1 b op2 c`. -/
def rightTree (a op1 b op2 c : List Nat) : node :=
  .interior token.zero
    [.leaf ⟨WORD, 1, 1, a, [], []⟩,
     .leaf ⟨OTHER, 1, a.length + 1, op1, [], []⟩,
     .interior token.zero
       [.leaf ⟨WORD, 1, a.length + op1.length + 1, b, [], []⟩,
        .leaf ⟨OTHER, 1, a.length + op1.length + b.length + 1, op2, [], []⟩,
        .leaf ⟨WORD, 1, a.length + op1.length + b.length + op2.length + 1, c, [], []⟩]]

/-- The tree in which `op1` binds first: `(a op1 b) op2 c`. -/
def leftTree (a op1 b op2 c : List Nat) : node :=
  .interior token.zero
    [.interior token.zero
       [.leaf ⟨WORD, 1, 1, a, [], []⟩,
        .leaf ⟨OTHER, 1, a.length + 1, op1, [], []⟩,
        .leaf ⟨WORD, 1, a.length + op1.length + 1, b, [], []⟩],
     .leaf ⟨OTHER, 1, a.length + op1.length + b.length + 1, op2, [], []⟩,
     .leaf ⟨WORD, 1, a.length + op1.length + b.length + op2.length + 1, c, [], []⟩]

/-- The shape `([a] [op1] ([b] [op2] [c]))`. -/
def shapeRight (a op1 b op2 c : List Nat) : List Nat :=
  [40, 91] ++ a ++ [93, 32, 91] ++ op1 ++ [93, 32, 40, 91] ++ b ++ [93, 32, 91] ++ op2 ++
    [93, 32, 91] ++ c ++ [93, 41, 41]

/-- The shape `(([a] [op1] [b]) [op2] [c])`. -/
def shapeLeft (a op1 b op2 c : List Nat) : List Nat :=
  [40, 40, 91] ++ a ++ [93, 32, 91] ++ op1 ++ [93, 32, 91] ++ b ++ [93, 41, 32, 91] ++ op2 ++
    [93, 32, 91] ++ c ++ [93, 41]

/-! ## The package `sort` of the library

`replace` orders the occurrences of the anchor with `sort.Slice`, which runs
`pdqsort_func` on the slice: an insertion sort on at most 12 elements, and
above that a quicksort that picks its pivot among three (or nine) elements,
partitions by swaps and falls back on a heap sort.  The slice is a list
here, `data.Less(i, j)` and `data.Swap(i, j)` work on two indices of it, and
every loop over indices is a recursion on the number of turns it can take. -/

/-- The call `data.Less(i, j)` for the function `less` on elements. -/
def lessAt {α : Type} (less : α → α → Bool) (d : List α) (i j : Nat) : Bool :=
  match d[i]?, d[j]? with
  | some x, some y => less x y
  | _, _ => false

/-- The call `data.Swap(i, j)`. -/
def swapAt {α : Type} (d : List α) (i j : Nat) : List α :=
  match d[i]?, d[j]? with
  | some x, some y => (d.set i y).set j x
  | _, _ => d

/-- The inner loop `for j := i; j > a && data.Less(j, j-1); j--` of
`insertionSort_func`, from `j` on. -/
def insertionSortInner {α : Type} (less : α → α → Bool) (a : Nat) : Nat → List α → List α
  | 0, d => d
  | j + 1, d =>
    if a < j + 1 ∧ lessAt less d (j + 1) j = true then
      insertionSortInner less a j (swapAt d (j + 1) j)
    else d

/-- The function `insertionSort_func(data, a, b)`: `i` runs from `a + 1` to
`b - 1`. -/
def insertionSort_func {α : Type} (less : α → α → Bool) (d : List α) (a b : Nat) : List α :=
  (List.range' (a + 1) (b - (a + 1))).foldl (fun d i => insertionSortInner less a i d) d

/-- The function `siftDown_func(data, lo, hi, first)`, from `root` on; the
root moves to a child with every turn, so there are at most `hi` turns. -/
def siftDown_func {α : Type} (less : α → α → Bool) (hi first : Nat) :
    Nat → Nat → List α → List α
  | 0, _, d => d
  | k + 1, root, d =>
    if hi ≤ 2 * root + 1 then d
    else
      let child :=
        if 2 * root + 2 < hi ∧ lessAt less d (first + (2 * root + 1)) (first + (2 * root + 2)) = true
        then 2 * root + 2 else 2 * root + 1
      if lessAt less d (first + root) (first + child) = true then
        siftDown_func less hi first k child (swapAt d (first + root) (first + child))
      else d

/-- The function `heapSort_func(data, a, b)`: the first loop builds the heap
with `i` from `(hi - 1) / 2` down to 0, the second pops the elements with
`i` from `hi - 1` down to 0. -/
def heapSort_func {α : Type} (less : α → α → Bool) (d : List α) (a b : Nat) : List α :=
  let hi := b - a
  let d := (List.range ((hi - 1) / 2 + 1)).reverse.foldl
    (fun d i => siftDown_func less hi a hi i d) d
  (List.range hi).reverse.foldl
    (fun d i => siftDown_func less i a i 0 (swapAt d a (a + i))) d

/-- The hint `sortedHint` of `choosePivot_func`. -/
inductive sortedHint where
  | unknownHint
  | increasingHint
  | decreasingHint
  deriving DecidableEq, Repr

open sortedHint

/-- The function `order2_func(data, a, b, swaps)`: the two indices in
order, and the count of swaps. -/
def order2_func {α : Type} (less : α → α → Bool) (d : List α) (a b swaps : Nat) :
    Nat × Nat × Nat :=
  if lessAt less d b a = true then (b, a, swaps + 1) else (a, b, swaps)

/-- The function `median_func(data, a, b, c, swaps)`: the index of the
median, and the count of swaps. -/
def median_func {α : Type} (less : α → α → Bool) (d : List α) (a b c swaps : Nat) :
    Nat × Nat :=
  let r1 := order2_func less d a b swaps
  let r2 := order2_func less d r1.2.1 c r1.2.2
  let r3 := order2_func less d r1.1 r2.1 r2.2.2
  (r3.2.1, r3.2.2)

/-- The function `medianAdjacent_func(data, a, swaps)`. -/
def medianAdjacent_func {α : Type} (less : α → α → Bool) (d : List α) (a swaps : Nat) :
    Nat × Nat :=
  median_func less d (a - 1) a (a + 1) swaps

/-- The function `choosePivot_func(data, a, b)`: a fixed index below 8
elements, the median of three below 50, the median of three medians from 50
on (`shortestNinther`); `maxSwaps` is 12. -/
def choosePivot_func {α : Type} (less : α → α → Bool) (d : List α) (a b : Nat) :
    Nat × sortedHint :=
  let l := b - a
  let i := a + l / 4 * 1
  let j := a + l / 4 * 2
  let k := a + l / 4 * 3
  let r :=
    if 8 ≤ l then
      if 50 ≤ l then
        let ri := medianAdjacent_func less d i 0
        let rj := medianAdjacent_func less d j ri.2
        let rk := medianAdjacent_func less d k rj.2
        median_func less d ri.1 rj.1 rk.1 rk.2
      else median_func less d i j k 0
    else (j, 0)
  if r.2 = 0 then (r.1, increasingHint)
  else if r.2 = 12 then (r.1, decreasingHint)
  else (r.1, unknownHint)

/-- The function `reverseRange_func(data, a, b)`, from the pair `i`, `j`
on; `i` and `j` meet after at most `b - a` turns. -/
def reverseRangeFrom {α : Type} : Nat → Nat → Nat → List α → List α
  | 0, _, _, d => d
  | k + 1, i, j, d => if i < j then reverseRangeFrom k (i + 1) (j - 1) (swapAt d i j) else d

def reverseRange_func {α : Type} (d : List α) (a b : Nat) : List α :=
  reverseRangeFrom (b - a) a (b - 1) d

/-- The method `Next` of the generator `xorshift`, a 64-bit word. -/
def xorshiftNext (r : Nat) : Nat :=
  let r := r ^^^ ((r <<< 13) % 2 ^ 64)
  let r := r ^^^ (r >>> 7)
  r ^^^ ((r <<< 17) % 2 ^ 64)

/-- The function `bits.Len`: the number of bits of `n`; the first argument
bounds the number of turns. -/
def bitsLen : Nat → Nat → Nat
  | 0, _ => 0
  | k + 1, n => if n = 0 then 0 else bitsLen k (n / 2) + 1

/-- The function `nextPowerOfTwo(length)`. -/
def nextPowerOfTwo (length : Nat) : Nat := 2 ^ bitsLen length length

/-- The function `breakPatterns_func(data, a, b)`: three swaps around the
middle with indices drawn from `xorshift(length)`. -/
def breakPatterns_func {α : Type} (d : List α) (a b : Nat) : List α :=
  let length := b - a
  if 8 ≤ length then
    let modulus := nextPowerOfTwo length
    let idx := a + length / 4 * 2 - 1
    let other := fun (r : Nat) =>
      if length ≤ r &&& (modulus - 1) then (r &&& (modulus - 1)) - length else r &&& (modulus - 1)
    let r1 := xorshiftNext length
    let r2 := xorshiftNext r1
    let r3 := xorshiftNext r2
    swapAt (swapAt (swapAt d (idx - 1) (a + other r1)) idx (a + other r2)) (idx + 1)
      (a + other r3)
  else d

/-- The loop `for i < b && !data.Less(i, i-1) { i++ }` of
`partialInsertionSort_func`; at most `b - i` turns. -/
def skipSorted {α : Type} (less : α → α → Bool) (d : List α) (b : Nat) : Nat → Nat → Nat
  | 0, i => i
  | k + 1, i => if i < b ∧ lessAt less d i (i - 1) = false then skipSorted less d b k (i + 1) else i

/-- The loop `for j := i - 1; j >= 1; j--` of `partialInsertionSort_func`,
from `j` on: it shifts the smaller element to the left. -/
def shiftLeft {α : Type} (less : α → α → Bool) : Nat → List α → List α
  | 0, d => d
  | j + 1, d => if lessAt less d (j + 1) j = true then shiftLeft less j (swapAt d (j + 1) j) else d

/-- The loop `for j := i + 1; j < b; j++` of `partialInsertionSort_func`,
from `j` on: it shifts the greater element to the right; at most `b - j`
turns. -/
def shiftRight {α : Type} (less : α → α → Bool) (b : Nat) : Nat → Nat → List α → List α
  | 0, _, d => d
  | k + 1, j, d =>
    if j < b then
      if lessAt less d j (j - 1) = true then shiftRight less b k (j + 1) (swapAt d j (j - 1))
      else d
    else d

/-- The function `partialInsertionSort_func(data, a, b)`, with `steps` turns
of its outer loop left (`maxSteps` is 5, `shortestShifting` 50); it returns
the slice and whether it is sorted. -/
def partialInsertionSortFrom {α : Type} (less : α → α → Bool) (a b : Nat) :
    Nat → Nat → List α → List α × Bool
  | 0, _, d => (d, false)
  | steps + 1, i, d =>
    let i := skipSorted less d b (b - i) i
    if i = b then (d, true)
    else if b - a < 50 then (d, false)
    else
      let d := swapAt d i (i - 1)
      let d := if 2 ≤ i - a then shiftLeft less (i - 1) d else d
      let d := if 2 ≤ b - i then shiftRight less b (b - (i + 1)) (i + 1) d else d
      partialInsertionSortFrom less a b steps i d

def partialInsertionSort_func {α : Type} (less : α → α → Bool) (d : List α) (a b : Nat) :
    List α × Bool :=
  partialInsertionSortFrom less a b 5 (a + 1) d

/-- The loop `for i <= j && data.Less(i, a) { i++ }` of `partition_func`; at
most `j + 1 - i` turns. -/
def scanLess {α : Type} (less : α → α → Bool) (d : List α) (a j : Nat) : Nat → Nat → Nat
  | 0, i => i
  | k + 1, i => if i ≤ j ∧ lessAt less d i a = true then scanLess less d a j k (i + 1) else i

/-- The loop `for i <= j && !data.Less(j, a) { j-- }` of `partition_func`;
`i` is above `a`, so `j` stays at `a` or above. -/
def scanNotLess {α : Type} (less : α → α → Bool) (d : List α) (a i : Nat) : Nat → Nat
  | 0 => 0
  | j + 1 => if i ≤ j + 1 ∧ lessAt less d (j + 1) a = false then scanNotLess less d a i j else j + 1

/-- The loop `for` of `partition_func` after its first swap, from the pair
`i`, `j` on: it returns the slice and `j`. -/
def partitionLoop {α : Type} (less : α → α → Bool) (a : Nat) :
    Nat → Nat → Nat → List α → List α × Nat
  | 0, _, j, d => (d, j)
  | k + 1, i, j, d =>
    let i := scanLess less d a j (j + 1 - i) i
    let j := scanNotLess less d a i j
    if j < i then (d, j)
    else partitionLoop less a k (i + 1) (j - 1) (swapAt d i j)

/-- The function `partition_func(data, a, b, pivot)`: the slice, the new
index of the pivot and whether the slice was partitioned already. -/
def partition_func {α : Type} (less : α → α → Bool) (d : List α) (a b pivot : Nat) :
    List α × Nat × Bool :=
  let d := swapAt d a pivot
  let i := scanLess less d a (b - 1) (b - 1 + 1 - (a + 1)) (a + 1)
  let j := scanNotLess less d a i (b - 1)
  if j < i then (swapAt d j a, j, true)
  else
    let r := partitionLoop less a (b - a) (i + 1) (j - 1) (swapAt d i j)
    (swapAt r.1 r.2 a, r.2, false)

/-- The loop `for i <= j && !data.Less(a, i) { i++ }` of
`partitionEqual_func`. -/
def scanEqual {α : Type} (less : α → α → Bool) (d : List α) (a j : Nat) : Nat → Nat → Nat
  | 0, i => i
  | k + 1, i => if i ≤ j ∧ lessAt less d a i = false then scanEqual less d a j k (i + 1) else i

/-- The loop `for i <= j && data.Less(a, j) { j-- }` of
`partitionEqual_func`. -/
def scanGreater {α : Type} (less : α → α → Bool) (d : List α) (a i : Nat) : Nat → Nat
  | 0 => 0
  | j + 1 => if i ≤ j + 1 ∧ lessAt less d a (j + 1) = true then scanGreater less d a i j else j + 1

/-- The loop `for` of `partitionEqual_func`, from the pair `i`, `j` on: it
returns the slice and `i`. -/
def partitionEqualLoop {α : Type} (less : α → α → Bool) (a : Nat) :
    Nat → Nat → Nat → List α → List α × Nat
  | 0, i, _, d => (d, i)
  | k + 1, i, j, d =>
    let i := scanEqual less d a j (j + 1 - i) i
    let j := scanGreater less d a i j
    if j < i then (d, i)
    else partitionEqualLoop less a k (i + 1) (j - 1) (swapAt d i j)

/-- The function `partitionEqual_func(data, a, b, pivot)`. -/
def partitionEqual_func {α : Type} (less : α → α → Bool) (d : List α) (a b pivot : Nat) :
    List α × Nat :=
  partitionEqualLoop less a (b - a) (a + 1) (b - 1) (swapAt d a pivot)

/-- The start of a turn of the loop of `pdqsort_func`: `breakPatterns_func`
after a partition that was not balanced, the choice of the pivot, the
reversal of a slice that looks decreasing, and the partial insertion sort of
a slice that looks sorted.  It returns the slice, the pivot, the limit and
whether the slice is sorted. -/
def pdqsortPivot {α : Type} (less : α → α → Bool) (d : List α) (a b limit : Nat)
    (wasBalanced wasPartitioned : Bool) : List α × Nat × Nat × Bool :=
  let d1 := if wasBalanced then d else breakPatterns_func d a b
  let c := choosePivot_func less d1 a b
  let d2 := if c.2 = decreasingHint then reverseRange_func d1 a b else d1
  let hint := if c.2 = decreasingHint then increasingHint else c.2
  let s :=
    if wasBalanced ∧ wasPartitioned ∧ hint = increasingHint then
      partialInsertionSort_func less d2 a b
    else (d2, false)
  (s.1, if c.2 = decreasingHint then (b - 1) - (c.1 - a) else c.1,
    if wasBalanced then limit else limit - 1, s.2)

/-- The function `pdqsort_func(data, a, b, limit)` with the state of its
loop, `wasBalanced` and `wasPartitioned`.  Every turn of the loop and every
recursive call works on a shorter part of the slice, so the first argument,
above `b - a`, is never used up. -/
def pdqsort_func {α : Type} (less : α → α → Bool) :
    Nat → List α → Nat → Nat → Nat → Bool → Bool → List α
  | 0, d, _, _, _, _, _ => d
  | k + 1, d, a, b, limit, wasBalanced, wasPartitioned =>
    if b - a ≤ 12 then insertionSort_func less d a b
    else if limit = 0 then heapSort_func less d a b
    else
      let t := pdqsortPivot less d a b limit wasBalanced wasPartitioned
      if t.2.2.2 = true then t.1
      else if 0 < a ∧ lessAt less t.1 (a - 1) t.2.1 = false then
        let e := partitionEqual_func less t.1 a b t.2.1
        pdqsort_func less k e.1 e.2 b t.2.2.1 wasBalanced wasPartitioned
      else
        let p := partition_func less t.1 a b t.2.1
        if p.2.1 - a < b - p.2.1 then
          pdqsort_func less k (pdqsort_func less k p.1 a p.2.1 t.2.2.1 true true) (p.2.1 + 1) b
            t.2.2.1 (decide ((b - a) / 8 ≤ p.2.1 - a)) p.2.2
        else
          pdqsort_func less k (pdqsort_func less k p.1 (p.2.1 + 1) b t.2.2.1 true true) a p.2.1
            t.2.2.1 (decide ((b - a) / 8 ≤ b - p.2.1)) p.2.2

/-- The function `sort.Slice(x, less)`: `pdqsort_func` on the whole slice
with the limit `bits.Len(length)`. -/
def Slice {α : Type} (x : List α) (less : α → α → Bool) : List α :=
  pdqsort_func less (x.length + 1) x 0 x.length (bitsLen x.length x.length) true true

/-- The order `replace` puts the occurrences of the anchor in:
`sort.Slice(occ, less)` with `less(i, j) = occ[i].depth > occ[j].depth`. -/
def sortOccurrences (occ : List occurrence) : List occurrence :=
  Slice occ (fun x y => decide (x.depth > y.depth))

/-! ## The call of `regexp.MustCompile` in `makeListPattern`

`MustCompile` panics when the library refuses the expression.  The
expressions of `makeListPattern` are well formed, a sequence of groups
`(.)`, `(.*)` and `(r)` between `^` and `$`, so the one refusal left is that
of an expression too large: the parser of `regexp/syntax` counts the nodes it
allocates (`numRegexp`) and, from `maxSize` nodes on, checks the size of what
it puts on its stack (`calcSize`); the last it puts there is the
concatenation of all groups. -/

/-- The limit `maxSize` of the package `regexp/syntax`: the instructions
that fit into 128 MiB at 40 bytes each. -/
def maxSize : Nat := 3355443

/-- The nodes the parser allocates for a group: the capture and its
content, and the star in `(.*)`. -/
def atom.numRegexp : atom → Nat
  | .star => 3
  | _ => 2

/-- The size `calcSize` gives a group: 2 for the capture, 2 for a star, 1
for the symbol. -/
def atom.size : atom → Nat
  | .star => 5
  | _ => 3

/-- The nodes the parser has allocated when it has read the expression: those
of the groups, one each for `^` and `$`, and one for the concatenation unless
the expression is a single group. -/
def regexp.numRegexp (re : regexp) : Nat :=
  (re.atoms.map atom.numRegexp).sum + (if re.anchored then 2 else 0)
    + (if re.atoms.length + (if re.anchored then 2 else 0) = 1 then 0 else 1)

/-- The size `calcSize` gives the expression: the sum over the groups, `^`
and `$`, and 1 at least. -/
def regexp.size (re : regexp) : Nat :=
  max 1 ((re.atoms.map atom.size).sum + (if re.anchored then 2 else 0))

/-- The parser refuses the expression as too large. -/
def regexp.tooLarge (re : regexp) : Bool :=
  decide (maxSize ≤ re.numRegexp) && decide (maxSize < re.size)

/-- The call `regexp.MustCompile(buf.String())`; `none` stands for its
panic. -/
def mustCompile (re : regexp) : Option regexp :=
  if re.tooLarge = true then none else some re

mutual
/-- Whether the call `makeListPattern(c.children, true, runemap)` for the
interior pattern node `c` returns; there is no call for a leaf. -/
def compilesNode (rm : runemap) : node → Bool
  | .leaf _ => true
  | .interior _ cs => compilesList rm cs && (mustCompile (compileList rm true cs)).isSome
/-- Whether the calls `makeListPattern` makes for the interior nodes of
`list` return. -/
def compilesList (rm : runemap) : List node → Bool
  | [] => true
  | c :: cs => compilesNode rm c && compilesList rm cs
end

/-- The function `makePattern` with the panic of `regexp.MustCompile`, in
the pattern of a child or in the pattern of the list, as `none`. -/
def compilePattern (p : node) : Option pattern :=
  if compilesList (makePattern p).runemap p.children = true ∧
      (mustCompile (compileList (makePattern p).runemap false p.children)).isSome = true
  then some (makePattern p) else none

/-- The function `replace` with its two calls of the library as the library
runs them: `sort.Slice` on the occurrences of the anchor, and
`regexp.MustCompile` in `makePattern`.  `none` stands for a panic, of
`regexp.MustCompile` or of `substitute`. -/
def replaceLib (subject pat replacement : node) : Option node :=
  let occur := leaves [] subject
  let freq := fun text => (occur.filter (fun o => o.tok.text == text)).length
  match ((leaves [] pat).foldl (pickAnchor freq) (none, 1000000000)).1 with
  | none => some subject
  | some anchor =>
    let occ := occur.filter (fun o => o.tok.text == anchor.tok.text)
    if occ.isEmpty then some subject
    else
      match compilePattern pat with
      | none => none
      | some p =>
        (replaceLoop p replacement anchor.depth ⟨subject, none⟩ (sortOccurrences occ)).map
          (fun st => st.subject)

/-- What `main` does with a subject, a pattern and a replacement text:
parse the three, call `replace`, serialize the subject. -/
def rewriteLib (subject pat replacement : List Nat) : Option (List Nat) :=
  match parse subject, parse pat, parse replacement with
  | some s, some p, some r => (replaceLib s p r).map node.serialize
  | _, _, _ => none

/-- The function `replace` gets as far as `makePattern`: the pattern has
an anchor and the anchor occurs in the subject. -/
def reachesPattern (subject pat : node) : Prop :=
  ∃ anchor, anchorOf subject pat = some anchor ∧
    ((leaves [] subject).filter (fun o => o.tok.text == anchor.tok.text)).isEmpty = false

/-! ## The nodes in memory

The fields `parent` and `depth`, and what `clone` shares with the node it
copies, are not in the trees above.  For them the nodes are taken as the
source has them: structs in memory, addressed by pointers.

* A pointer is an index into the list `cells` of the heap.
* A `children` slice is a reference to its backing array (`none` for a `nil`
  slice).  Every children slice of the program starts at the first element of
  its array, nothing is ever appended to a children slice that a second
  slice header refers to, and the elements past its length are never read,
  so an array holds the elements of the slice and nothing else.
* Tokens are values as before.
* The pattern tree is only read; it stays a `node`, and the depth of a leaf
  in it is the length of its path, which is what `fixFields` stored.
* Recursion over the heap takes fuel; `none` is a nil dereference, a panic
  or fuel used up. -/

/-- A `node` struct in memory. -/
structure cell where
  parent : Option Nat
  depth : Nat
  children : Option Nat
  tok : token
  deriving DecidableEq, Repr

/-- The memory: the node structs and the backing arrays of the children
slices. -/
structure heap where
  cells : List cell
  arrays : List (List Nat)
  deriving DecidableEq, Repr

/-- The elements of the backing array `a`. -/
def heap.array (h : heap) (a : Nat) : List Nat := h.arrays.getD a []

/-- The slice `p.children` read as a list of pointers. -/
def heap.childrenOf (h : heap) (p : Nat) : List Nat :=
  match h.cells[p]? with
  | none => []
  | some c =>
    match c.children with
    | none => []
    | some a => h.array a

/-- The allocation `&node{...}`. -/
def heap.alloc (h : heap) (c : cell) : heap × Nat :=
  (⟨h.cells ++ [c], h.arrays⟩, h.cells.length)

/-- The allocation of a backing array with the elements `l`. -/
def heap.allocArray (h : heap) (l : List Nat) : heap × Nat :=
  (⟨h.cells, h.arrays ++ [l]⟩, h.arrays.length)

/-- An assignment to the struct at `p`. -/
def heap.setCell (h : heap) (p : Nat) (c : cell) : heap :=
  ⟨h.cells.set p c, h.arrays⟩

/-- The assignment `s[i] = v` for a slice `s` on the array `a`. -/
def heap.setElem (h : heap) (a i v : Nat) : heap :=
  ⟨h.cells, h.arrays.set a ((h.array a).set i v)⟩

mutual
/-- The memory image of a tree as the parser builds it: every node is a
struct of its own (`&node{}`) and every interior node has a children array of
its own (`addChild`); `parent` and `depth` are at their zero values. -/
def load (h : heap) : node → heap × Nat
  | .leaf tok => h.alloc ⟨none, 0, none, tok⟩
  | .interior tok cs =>
    ((loadList h cs).1.allocArray (loadList h cs).2).1.alloc
      ⟨none, 0, some ((loadList h cs).1.allocArray (loadList h cs).2).2, tok⟩
def loadList (h : heap) : List node → heap × List Nat
  | [] => (h, [])
  | c :: cs =>
    ((loadList (load h c).1 cs).1, (load h c).2 :: (loadList (load h c).1 cs).2)
end

mutual
/-- The function `fixFields`. -/
def fixFields : Nat → heap → Nat → Option Nat → Nat → Option heap
  | 0, _, _, _, _ => none
  | k + 1, h, n, parent, depth =>
    match h.cells[n]? with
    | none => none
    | some c =>
      fixFieldsLoop k (h.setCell n { c with parent := parent, depth := depth })
        (h.childrenOf n) n (depth + 1)
/-- The loop `for _, c := range n.children` of `fixFields`. -/
def fixFieldsLoop : Nat → heap → List Nat → Nat → Nat → Option heap
  | 0, _, _, _, _ => none
  | _ + 1, h, [], _, _ => some h
  | k + 1, h, c :: cs, n, depth =>
    match fixFields k h c (some n) depth with
    | none => none
    | some h1 => fixFieldsLoop k h1 cs n depth
end

mutual
/-- The tree under the pointer `p`, as a value. -/
def view : Nat → heap → Nat → Option node
  | 0, _, _ => none
  | k + 1, h, p =>
    match h.cells[p]? with
    | none => none
    | some c =>
      match c.children with
      | none => some (.leaf c.tok)
      | some a => (viewList k h (h.array a)).map (fun cs => .interior c.tok cs)
def viewList : Nat → heap → List Nat → Option (List node)
  | 0, _, _ => none
  | _ + 1, _, [] => some []
  | k + 1, h, p :: ps =>
    match view k h p, viewList k h ps with
    | some n, some ns => some (n :: ns)
    | _, _ => none
end

mutual
/-- The function `clone`: the struct is copied, children slice header
included, and the copies of the children are stored into the array that the
copy shares with `n`. -/
def cloneMem : Nat → heap → Nat → Option (heap × Nat)
  | 0, _, _ => none
  | k + 1, h, n =>
    match h.cells[n]? with
    | none => none
    | some c =>
      match c.children with
      | none => some (h.alloc c)
      | some a =>
        (cloneMemLoop k (h.alloc c).1 a 0 (h.array a).length).map
          (fun h1 => (h1, (h.alloc c).2))
/-- The loop `for i, c := range r.children` of `clone` from index `i` on;
`a` is the array of `r.children` and `len` its length. -/
def cloneMemLoop : Nat → heap → Nat → Nat → Nat → Option heap
  | 0, _, _, _, _ => none
  | k + 1, h, a, i, len =>
    if i < len then
      match (h.array a)[i]? with
      | none => none
      | some c =>
        match cloneMem k h c with
        | none => none
        | some r => cloneMemLoop k (r.1.setElem a i r.2) a (i + 1) len
    else some h
end

/-- The loop `for _, v := range vals` of `substitute`. -/
def cloneMemList (k : Nat) : heap → List Nat → Option (heap × List Nat)
  | h, [] => some (h, [])
  | h, v :: vals =>
    match cloneMem k h v with
    | none => none
    | some r =>
      match cloneMemList k r.1 vals with
      | none => none
      | some rs => some (rs.1, r.2 :: rs.2)

/-- The map `vars` of a match in memory: variable text to pointers. -/
abbrev ptrmap := List (List Nat × List Nat)

def ptrmap.find (vars : ptrmap) (name : List Nat) : Option (List Nat) :=
  (vars.find? (fun e => e.1 == name)).map (fun e => e.2)

mutual
/-- The function `substitute` in memory. -/
def substituteMem : Nat → heap → ptrmap → Nat → Option (heap × List Nat)
  | 0, _, _, _ => none
  | k + 1, h, vars, replacement =>
    match h.cells[replacement]? with
    | none => none
    | some c =>
      match c.children with
      | some a => substituteMemLoop k h vars a 0 (h.array a).length
      | none =>
        if c.tok.ttype ≠ VAR ∧ c.tok.ttype ≠ RVAR then
          (cloneMem k h replacement).map (fun r => (r.1, [r.2]))
        else
          match vars.find c.tok.text with
          | none => none
          | some vals => cloneMemList k h vals
/-- The loop `for _, c := range replacement.children` of `substitute` from
index `i` on; `a` is the array of `replacement.children` and `len` its
length. -/
def substituteMemLoop : Nat → heap → ptrmap → Nat → Nat → Nat → Option (heap × List Nat)
  | 0, _, _, _, _, _ => none
  | k + 1, h, vars, a, i, len =>
    if i < len then
      match (h.array a)[i]? with
      | none => none
      | some c =>
        match substituteMem k h vars c with
        | none => none
        | some r =>
          match substituteMemLoop k r.1 vars a (i + 1) len with
          | none => none
          | some rs => some (rs.1, r.2 ++ rs.2)
    else some (h, [])
end

/-- The function `copyComments` in memory: the boundaries are collected
from the trees under `src` and `dst` as before, and attached to the structs
`dst[0]` and `dst[len(dst)-1]`. -/
def copyCommentsMem (k : Nat) (h : heap) (src dst : List Nat) : Option (heap × List Nat) :=
  match viewList k h src, viewList k h dst with
  | some s, some d =>
    let c := collectComments s d
    if c.pre.length + c.suf.length = 0 then some (h, dst)
    else
      let hd := if dst.length = 0 then
          ((h.alloc ⟨none, 0, none, ⟨OTHER, 0, 0, [], [], []⟩⟩).1,
            [(h.alloc ⟨none, 0, none, ⟨OTHER, 0, 0, [], [], []⟩⟩).2])
        else (h, dst)
      match hd.2.head?, hd.2.getLast? with
      | some first, some last =>
        match hd.1.cells[first]? with
        | none => none
        | some cf =>
          let h1 := hd.1.setCell first { cf with tok := { cf.tok with pre := c.pre ++ cf.tok.pre } }
          match h1.cells[last]? with
          | none => none
          | some cl =>
            some (h1.setCell last { cl with tok := { cl.tok with suf := cl.tok.suf ++ c.suf } },
              hd.2)
      | _, _ => none
  | _, _ => none

/-- The symbol written for the subject node at `p`. -/
def symbolOfMem (rm : runemap) (h : heap) (p : Nat) : Nat :=
  match h.cells[p]? with
  | none => 95
  | some c =>
    match c.children with
    | some _ => 95
    | none =>
      match rm.find c.tok.text with
      | some r => writeRune r
      | none => 95

/-- The result `match` of a successful match in memory. -/
structure MatchMem where
  vars : ptrmap
  start : Nat
  limit : Nat
  deriving DecidableEq

mutual
/-- The call `p.childpat[i].match(subject)` on a subject in memory. -/
def matchChildMem (rm : runemap) (h : heap) : node → List Nat → Option MatchMem
  | .leaf _, _ => none
  | .interior _ cs, subject =>
    ((compileList rm true cs).findAllSubmatchIndex (subject.map (symbolOfMem rm h))).findSome?
      (fun m => (bindNodesMem rm h cs m.groups subject).map (fun vars => ⟨vars, m.start, m.limit⟩))
/-- The loop `for i, pnode := range p.list` of `match` on a subject in
memory. -/
def bindNodesMem (rm : runemap) (h : heap) :
    List node → List (Nat × Nat) → List Nat → Option ptrmap
  | [], _, _ => some []
  | _ :: _, [], _ => none
  | pnode :: ps, g :: gs, subject =>
    match pnode with
    | .leaf tok =>
      if isVar tok.ttype then
        (bindNodesMem rm h ps gs subject).map
          (fun vars => vars ++ [(tok.text, slice subject g.1 g.2)])
      else bindNodesMem rm h ps gs subject
    | .interior _ _ =>
      match (slice subject g.1 g.2).head? with
      | none => none
      | some s =>
        match matchChildMem rm h pnode (h.childrenOf s) with
        | none => none
        | some cmatch =>
          (bindNodesMem rm h ps gs subject).map (fun vars => vars ++ cmatch.vars)
end

/-- The method `match` of a pattern on a subject in memory. -/
def pattern.matchMem (p : pattern) (h : heap) (subject : List Nat) : Option MatchMem :=
  ((compileList p.runemap p.fullMatch p.list).findAllSubmatchIndex
      (subject.map (symbolOfMem p.runemap h))).findSome? (fun m =>
    (bindNodesMem p.runemap h p.list m.groups subject).map (fun vars => ⟨vars, m.start, m.limit⟩))

mutual
/-- The leaves `perNode` visits under `p`, in order. -/
def leavesMem : Nat → heap → Nat → List Nat
  | 0, _, _ => []
  | k + 1, h, p =>
    match h.cells[p]? with
    | none => []
    | some c =>
      match c.children with
      | none => [p]
      | some a => leavesMemList k h (h.array a)
def leavesMemList : Nat → heap → List Nat → List Nat
  | 0, _, _ => []
  | _ + 1, _, [] => []
  | k + 1, h, p :: ps => leavesMem k h p ++ leavesMemList k h ps
end

/-- The text of the token of the struct at `p`. -/
def heap.text (h : heap) (p : Nat) : List Nat :=
  match h.cells[p]? with
  | none => []
  | some c => c.tok.text

/-- The field `depth` of the struct at `p`. -/
def heap.depth (h : heap) (p : Nat) : Nat :=
  match h.cells[p]? with
  | none => 0
  | some c => c.depth

/-- The loop `for i := 0; i < anchor.depth; i++ { sub = sub.parent }`; a
`nil` parent is dereferenced in the next turn or right after the loop. -/
def ancestorMem (h : heap) : Nat → Nat → Option Nat
  | 0, p => some p
  | n + 1, p =>
    match h.cells[p]? with
    | none => none
    | some c =>
      match c.parent with
      | none => none
      | some q => ancestorMem h n q

/-- The assignments `r.parent = sub; r.depth = sub.depth + 1` to the nodes
of `result`. -/
def adopt (h : heap) (sub depth : Nat) (result : List Nat) : heap :=
  result.foldl (fun h r =>
    match h.cells[r]? with
    | none => h
    | some c => h.setCell r { c with parent := some sub, depth := depth + 1 }) h

/-- The inner loop `for start < len(sub.children)` of `replace` in
memory. -/
def rewriteLoopMem (pat : pattern) (replacement sub fuel : Nat) : Nat → heap → Nat → Option heap
  | 0, _, _ => none
  | k + 1, h, start =>
    match h.cells[sub]? with
    | none => none
    | some c =>
      let src := h.childrenOf sub
      if start < src.length then
        match pat.matchMem h (src.drop start) with
        | none => some h
        | some m =>
          match substituteMem fuel h m.vars replacement with
          | none => none
          | some r =>
            let h2 := adopt r.1 sub c.depth r.2
            match copyCommentsMem fuel h2
                (slice (h2.childrenOf sub) (start + m.start) (start + m.limit)) r.2 with
            | none => none
            | some rc =>
              let src3 := rc.1.childrenOf sub
              let remainder := src.length - start - m.limit
              let dst := src3.take (start + m.start) ++ rc.2 ++ src3.drop (src.length - remainder)
              let ha := rc.1.allocArray dst
              match ha.1.cells[sub]? with
              | none => none
              | some c3 =>
                match fixFields fuel (ha.1.setCell sub { c3 with children := some ha.2 }) sub
                    c3.parent c3.depth with
                | none => none
                | some h6 => rewriteLoopMem pat replacement sub fuel k h6
                    (start + m.start + rc.2.length)
      else some h

/-- The call `sort.Slice(occ, less)` of `replace` on pointers, with
`less(i, j) = occ[i].depth > occ[j].depth`. -/
def sortSliceMem (h : heap) (occ : List Nat) : List Nat :=
  Slice occ (fun a b => decide (h.depth a > h.depth b))

/-- The loop `for _, sub := range occ` of `replace` in memory; `last` is
the list node handled last. -/
def replaceLoopMem (pat : pattern) (replacement anchorDepth fuel : Nat) :
    heap → Option Nat → List Nat → Option heap
  | h, _, [] => some h
  | h, last, o :: occ =>
    if h.depth o < anchorDepth then replaceLoopMem pat replacement anchorDepth fuel h last occ
    else
      match ancestorMem h anchorDepth o with
      | none => none
      | some sub =>
        if some sub = last then replaceLoopMem pat replacement anchorDepth fuel h last occ
        else
          match rewriteLoopMem pat replacement sub fuel fuel h 0 with
          | none => none
          | some h1 => replaceLoopMem pat replacement anchorDepth fuel h1 (some sub) occ

/-- The function `replace` on a subject and a replacement in memory;
`none` stands for a panic or for fuel used up. -/
def replaceMem (fuel : Nat) (h : heap) (subject : Nat) (pat : node) (replacement : Nat) :
    Option heap :=
  let occur := leavesMem fuel h subject
  let freq := fun text => (occur.filter (fun p => h.text p == text)).length
  match ((leaves [] pat).foldl (pickAnchor freq) (none, 1000000000)).1 with
  | none => some h
  | some anchor =>
    let occ := occur.filter (fun p => h.text p == anchor.tok.text)
    if occ.isEmpty then some h
    else
      match compilePattern pat with
      | none => none
      | some p => replaceLoopMem p replacement anchor.depth fuel h none (sortSliceMem h occ)

/-- The function `parse` in memory: the tree of `parse`, loaded, with the
call `fixFields(n, nil, 0)` that ends `root`. -/
def parseMem (fuel : Nat) (h : heap) (input : List Nat) : Option (heap × Nat) :=
  match parse input with
  | none => none
  | some n => (fixFields fuel (load h n).1 (load h n).2 none 0).map (fun h1 => (h1, (load h n).2))

/-- The invariant on `parent` and `depth` below the node at `p`: every child
of every node reachable has the node as its parent and its depth plus one as
its depth. -/
def fieldsOk : Nat → heap → Nat → Bool
  | 0, _, _ => false
  | k + 1, h, p =>
    (h.childrenOf p).all (fun q =>
      match h.cells[q]? with
      | none => false
      | some d => d.parent == some p && d.depth == h.depth p + 1 && fieldsOk k h q)

/-- What `main` and `TestReplace` do, in memory: the subject and the
replacement are parsed into the heap, the pattern is parsed, and `replace`
runs; the result is the heap and the root of the subject. -/
def rewriteMem (fuel : Nat) (subject pat replacement : List Nat) : Option (heap × Nat) :=
  match parseMem fuel ⟨[], []⟩ subject with
  | none => none
  | some hs =>
    match parse pat, parseMem fuel hs.1 replacement with
    | some p, some hr => (replaceMem fuel hr.1 hs.2 p hr.2).map (fun h => (h, hs.2))
    | _, _ => none

/-! ## The replacement of a word by a word, step by step -/

mutual
/-- The tree `n` in the course of the replacement of `F` by `G`: `D` tells
of a path, taken from `n`, whether the list node there has been rewritten,
and `pd` whether the parent of `n` has; the leaves below a rewritten node
are renamed. -/
def ren (F G : List Nat) (D : List Nat → Bool) (pd : Bool) : node → node
  | .leaf tok => if pd then .leaf (renameTok F G tok) else .leaf tok
  | .interior tok cs => .interior tok (renList F G D (D []) 0 cs)
/-- The children of a node, from the child with index `i` on. -/
def renList (F G : List Nat) (D : List Nat → Bool) (pd : Bool) : Nat → List node → List node
  | _, [] => []
  | i, c :: cs => ren F G (fun x => D (i :: x)) pd c :: renList F G D pd (i + 1) cs
end

/-- The input `F;F;...;F;` with `n` times the word `F`. -/
def semis (F : List Nat) : Nat → List Nat
  | 0 => []
  | n + 1 => F ++ 59 :: semis F n

/-- The children of the tree `parse` builds for `semis F n`, the first one
at column `e + 1`: the words and the semicolons, one leaf each. -/
def semiLeaves (F : List Nat) : Nat → Nat → List node
  | 0, _ => []
  | n + 1, e =>
    .leaf ⟨WORD, 1, e + 1, F, [], []⟩ :: .leaf ⟨OTHER, 1, e + F.length + 1, [59], [], []⟩ ::
      semiLeaves F n (e + F.length + 1)

/-- The tokenizer on `semis F n`, in front of the word at column `e + 1`,
or at the end of the input when `n = 0`. -/
def semiState (F : List Nat) : Nat → Nat → tokenizer
  | 0, e => tokState [] END (e + 1) [] e
  | n + 1, e => tokState (59 :: semis F n) WORD (e + 1) F (e + F.length)

/-! ## The statements on positions -/

/-- The counter after a tab, as the specification words it: the smallest
multiple of 8 strictly greater than the counter before the tab. -/
def nextTabStop (counter : Nat) : Nat := 8 * (counter / 8 + 1)

/-- The tracking of line and column counter over one byte, as the
specification words it: a newline increments the line and resets the counter
to 0, a tab raises the counter to the next tab stop, every other byte adds 1
to the counter. -/
def trackByte (lc : Nat × Nat) (c : Nat) : Nat × Nat :=
  if c = 10 then (lc.1 + 1, 0)
  else if c = 9 then (lc.1, nextTabStop lc.2)
  else (lc.1, lc.2 + 1)

/-- The position the specification reports for a token with the bytes
`before` in front of it: line 1 and counter 0 at the start, the bytes
tracked one by one, and the column is the counter plus 1. -/
def positionOf (before : List Nat) : position :=
  ((before.foldl trackByte (1, 0)).1, (before.foldl trackByte (1, 0)).2 + 1)

/-- The raw tokens `readRaw` yields from the state `t` on, up to the end of
the input. -/
def rawTokensFrom : Nat → tokenizer → List rawToken
  | 0, _ => []
  | k + 1, t => if t.input = [] then [] else (t.readRaw).1 :: rawTokensFrom k (t.readRaw).2

/-- The raw tokens of a buffer: every call of `readRaw` takes a byte, so
`len(data) + 1` turns reach the end. -/
def rawTokens (data : List Nat) : List rawToken :=
  rawTokensFrom (data.length + 1) ⟨data, [], ⟨END, 0, 0, []⟩, 1, 0⟩

/-- The type, position and text of a token, without its attachments. -/
def token.raw (t : token) : rawToken := ⟨t.ttype, t.line, t.column, t.text⟩

/-- What `readRaw` depends on in a tokenizer: input, line and column. -/
def tokenizer.core (t : tokenizer) : List Nat × Nat × Nat := (t.input, t.line, t.column)

/-- The tokenizer `t` works on the raw tokens `S`: what `readRaw` yields
from `t` on, the buffered trivia and the token in `peek`, unless it is END,
are elements of `S`. -/
def inStream (S : List rawToken) (t : tokenizer) : Prop :=
  (∀ k, ∀ r ∈ rawTokensFrom k t, r ∈ S) ∧ (∀ b ∈ t.buffered, b ∈ S) ∧
  (t.peek.ttype ≠ END → t.peek ∈ S)

/-- The token and its attachments are elements of `S`, the token itself
unless it is END. -/
def tokenIn (S : List rawToken) (tok : token) : Prop :=
  (tok.ttype ≠ END → tok.raw ∈ S) ∧ (∀ r ∈ tok.pre, r ∈ S) ∧ (∀ r ∈ tok.suf, r ∈ S)

/-- The buffer holds a content token: one of its raw tokens is no comment
and no space. -/
def hasContent (B : List Nat) : Bool :=
  (rawTokens B).any (fun r => !isTrivia r.ttype)

/-- The buffer of a tokenizer is empty when `peek` is END: the state `read`
leaves behind. -/
def endClean (t : tokenizer) : Prop := t.peek.ttype = END → t.buffered = []

/-- The concatenation, over the leaves of a tree in order, of what `g`
yields for the token of the leaf. -/
def sumLeaves {α : Type} (g : token → List α) (n : node) : List α :=
  ((leafTokens n).map g).flatten

/-- The same over a list of trees. -/
def sumLeavesList {α : Type} (g : token → List α) (cs : List node) : List α :=
  ((leafTokensList cs).map g).flatten

/-- A parser step hands over to the node it builds a part of what the
tokenizer holds: with `R t` what the tokenizer `t` holds and `g tok` what a
leaf token holds, the leaves of the node followed by the new tokenizer hold
what the old tokenizer held. -/
def parserConserves {α : Type} (K : tokenizer → Prop) (g : token → List α)
    (R : tokenizer → List α) (p : parserFn) : Prop :=
  ∀ (t : tokenizer) (n : node) (t' : tokenizer), K t → p t = some (n, t') →
    sumLeaves g n ++ R t' = R t ∧ K t'

/-- The comments and spaces a tokenizer has not handed out yet: those in
the buffer and those among the raw tokens still to come. -/
def tokenizer.trivia (t : tokenizer) : List rawToken :=
  t.buffered ++ (rawTokensFrom (t.input.length + 1) t).filter (fun r => isTrivia r.ttype)

/-- The comments and spaces attached to a token. -/
def token.trivia (tok : token) : List rawToken := tok.pre ++ tok.suf

/-- The texts the parser compares `peek` with before it reads an operator
or an opener into a new interior node. -/
def opTexts : List (List Nat) :=
  [[38], [42], [33], [126], [43], [45], [43, 43], [45, 45], [46], [45, 62]] ++ openers ++
    assignOps ++ ladderOps.flatten

/-- A parser step builds a node with the property `P` and keeps the
invariant `K` of the tokenizer. -/
def parserBuilds (K : tokenizer → Prop) (P : node → Prop) (p : parserFn) : Prop :=
  ∀ (t : tokenizer) (n : node) (t' : tokenizer), K t → p t = some (n, t') → P n ∧ K t'

/-- The regular expression does not write the node as `(.*)`: it is no
RVAR leaf. -/
def notStar : node → Bool
  | .leaf tok => tok.ttype != RVAR
  | .interior _ _ => true

/-- Every interior node of the tree has a child that is no RVAR leaf. -/
def anchoredTree (n : node) : Prop :=
  ∀ m ∈ nodesOf n, m.isLeaf = false → ∃ c ∈ m.children, notStar c = true

/-- A token of type RVAR starts with `$`. -/
def rvarOk (r : rawToken) : Prop := r.ttype = RVAR → r.text.head? = some 36

/-- An entry of the scan table never yields the type RVAR. -/
def entryNoRvar (e : scanEntry) : Prop :=
  match e.fn with
  | none => e.ttype ≠ RVAR
  | some f => ∀ inp : List Nat, (f inp).1 ≠ RVAR

/-- The input `w1;w2;...;wn;` for the words `ws`. -/
def semisOf : List (List Nat) → List Nat
  | [] => []
  | w :: ws => w ++ 59 :: semisOf ws

/-- The children of the tree `parse` builds for `semisOf ws`, the first one
at column `e + 1`: the words and the semicolons, one leaf each. -/
def semiLeavesOf : List (List Nat) → Nat → List node
  | [], _ => []
  | w :: ws, e =>
    .leaf ⟨WORD, 1, e + 1, w, [], []⟩ :: .leaf ⟨OTHER, 1, e + w.length + 1, [59], [], []⟩ ::
      semiLeavesOf ws (e + w.length + 1)

/-- The tokenizer on `semisOf ws`, in front of the first word at column
`e + 1`, or at the end of the input when there is no word. -/
def semiStateOf : List (List Nat) → Nat → tokenizer
  | [], e => tokState [] END (e + 1) [] e
  | w :: ws, e => tokState (59 :: semisOf ws) WORD (e + 1) w (e + w.length)

/-- The word `x...x` with `i + 1` letters. -/
def unaryWord (i : Nat) : List Nat := List.replicate (i + 1) 120

/-- The words `x`, `xx`, ... of up to `n` letters. -/
def unaryWords (n : Nat) : List (List Nat) := (List.range' 0 n).map unaryWord

/-- The symbol that stands for a token text in a regular expression and in
an encoded subject, when the text is a key of the `runemap`. -/
def code (rm : runemap) (text : List Nat) : Nat := writeRune ((rm.find text).getD 0)

/-- The node is a leaf other than a VAR or an RVAR. -/
def isLiteral : node → Bool
  | .leaf tok => !isVar tok.ttype
  | .interior _ _ => false

/-- The texts of the tokens of `semisOf ws`. -/
def semiTexts : List (List Nat) → List (List Nat)
  | [] => []
  | w :: ws => w :: [59] :: semiTexts ws

/-- The capture groups `gs` are those of a match of `atoms` in the text
`T` from offset `pos` to offset `e`: they follow one another without a gap, a
group other than `(.*)` holds one symbol, and the symbol of a group `(r)` is
`r`. -/
def groupsMatch : List atom → List (Nat × Nat) → List Nat → Nat → Nat → Prop
  | [], [], _, pos, e => e = pos
  | a :: atoms, g :: gs, T, pos, e =>
    g.1 = pos ∧ g.1 ≤ g.2 ∧ (a ≠ atom.star → g.2 = pos + 1) ∧
    (∀ r, a = atom.lit r → T[pos]? = some r) ∧ groupsMatch atoms gs T g.2 e
  | _, _, _, _, _ => False

/-- The rune of every entry of a `runemap` is 128 plus the index of the
entry: the value `len(runemap) + 128` at the time the entry was made. -/
def runesOk (rm : runemap) : Prop :=
  ∀ (i : Nat) (e : List Nat × Nat), rm[i]? = some e → e.2 = 128 + i

/-! ## The statement on the place of a capture -/

/-- What holds of an entry `en` of the map `vars` after a match of the
pattern list `plist` against `subject` with extent `lo`, `hi`, by the place
of the variable it was made for: the entry of a variable that is an element
of `plist` holds a run of the subject list between `lo` and `hi`; the entry
of a variable inside an interior node of `plist` holds a run of children of a
node below the matched part of the subject. -/
def captureAt (plist subject : List node) (lo hi : Nat) (en : List Nat × List node) : Prop :=
  (isRunOf subject en.2 lo hi ∧
    ∃ tok, node.leaf tok ∈ plist ∧ isVar tok.ttype = true ∧ tok.text = en.1) ∨
  (isNestedRunOf subject en.2 lo hi ∧
    ∃ c ∈ plist, c.isLeaf = false ∧
      ∃ tk ∈ leafTokens c, isVar tk.ttype = true ∧ tk.text = en.1)

/-- The pattern node `c` binds the name: it is a variable with that text or
an interior node with such a variable below it. -/
def bindsName (name : List Nat) (c : node) : Prop :=
  ∃ tk ∈ leafTokens c, isVar tk.ttype = true ∧ tk.text = name

/-! # Theorems -/

/-! ## Lemmas on the tokenizer -/

theorem readStringFrom_ge (d : Nat) (l : List Nat) (i e : Nat) :
    readStringFrom d l i = some e → 1 ≤ e := by
  induction l, i using readStringFrom.induct d with
  | case1 x => simp [readStringFrom]
  | case2 b rest i hb => rw [readStringFrom.eq_def]; simp [hb]; omega
  | case3 b i hb hc => simp [readStringFrom, hb, hc]
  | case4 b i hb hc c rest2 ih => rw [readStringFrom.eq_3]; simpa [hb, hc] using ih
  | case5 b rest i hb hc ih => rw [readStringFrom.eq_def]; simpa [hb, hc] using ih

theorem readLineCommentFrom_ge : ∀ (l : List Nat) (i e : Nat),
    readLineCommentFrom l i = some e → 1 ≤ e := by
  intro l
  induction l with
  | nil => intro i e h; simp [readLineCommentFrom] at h
  | cons b rest ih =>
    intro i e h
    simp only [readLineCommentFrom] at h
    split at h
    · simp at h; omega
    · exact ih _ e h

theorem readMultiLineCommentFrom_ge (l : List Nat) (i e : Nat) :
    readMultiLineCommentFrom l i = some e → 1 ≤ e := by
  induction l, i using readMultiLineCommentFrom.induct with
  | case1 b c rest i h => rw [readMultiLineCommentFrom]; simp [h]; omega
  | case2 b c rest i h ih => rw [readMultiLineCommentFrom]; simpa [h] using ih
  | case3 l i h => rw [readMultiLineCommentFrom.eq_def]; split <;> simp_all

theorem readWordFrom_ge : ∀ (l : List Nat) (i e : Nat), 1 ≤ i →
    readWordFrom l i = some e → 1 ≤ e := by
  intro l
  induction l with
  | nil => intro i e _ h; simp [readWordFrom] at h
  | cons b rest ih =>
    intro i e hi h
    simp only [readWordFrom] at h
    split at h
    · simp at h; omega
    · exact ih _ e (by omega) h

theorem readSpacesFrom_ge : ∀ (l : List Nat) (i e : Nat), 1 ≤ i →
    readSpacesFrom l i = some e → 1 ≤ e := by
  intro l
  induction l with
  | nil => intro i e _ h; simp [readSpacesFrom] at h
  | cons b rest ih =>
    intro i e hi h
    simp only [readSpacesFrom] at h
    split at h
    · simp at h; omega
    · exact ih _ e (by omega) h

theorem getD_ge_one (o : Option Nat) (n : Nat) (ho : ∀ e, o = some e → 1 ≤ e) (hn : 1 ≤ n) :
    1 ≤ o.getD n := by
  cases o with
  | none => simpa using hn
  | some e => simpa using ho e rfl

theorem length_pos_of_ne_nil (inp : List Nat) (h : inp ≠ []) : 1 ≤ inp.length := by
  cases inp with
  | nil => exact absurd rfl h
  | cons b r => simp

theorem readString_ok (d : Nat) : readerOk (fun inp => readString inp d) := by
  intro inp h
  refine ⟨by simp [readString], ?_⟩
  exact getD_ge_one _ _ (fun e he => readStringFrom_ge d _ _ e he)
    (length_pos_of_ne_nil inp h)

theorem readLineComment_ok : readerOk readLineComment := by
  intro inp h
  refine ⟨by simp [readLineComment], ?_⟩
  exact getD_ge_one _ _ (fun e he => readLineCommentFrom_ge _ _ e he)
    (length_pos_of_ne_nil inp h)

theorem readMultiLineComment_ok : readerOk readMultiLineComment := by
  intro inp h
  refine ⟨by simp [readMultiLineComment], ?_⟩
  exact getD_ge_one _ _ (fun e he => readMultiLineCommentFrom_ge _ _ e he)
    (length_pos_of_ne_nil inp h)

theorem readWord_ok : readerOk readWord := by
  intro inp h
  refine ⟨by simp [readWord], ?_⟩
  exact getD_ge_one _ _ (fun e he => readWordFrom_ge _ _ e (le_refl _) he)
    (length_pos_of_ne_nil inp h)

theorem readSpaces_ok : readerOk readSpaces := by
  intro inp h
  refine ⟨by simp [readSpaces], ?_⟩
  exact getD_ge_one _ _ (fun e he => readSpacesFrom_ge _ _ e (le_refl _) he)
    (length_pos_of_ne_nil inp h)

theorem readVar_ok : readerOk readVar := by
  intro inp _
  unfold readVar
  split
  · dsimp only
    split
    · exact ⟨by simp, by simp⟩
    · exact ⟨by simp, by simp⟩
  · exact ⟨by simp, by simp⟩

theorem scan_ok (inp : List Nat) (h : inp ≠ []) : ∀ es : List scanEntry,
    (∀ e ∈ es, entryOk e) → (scan inp es).1 ≠ END ∧ 1 ≤ (scan inp es).2 := by
  intro es
  induction es with
  | nil => intro _; simp [scan]
  | cons e es ih =>
    intro hes
    have he := hes e (by simp)
    simp only [scan]
    split
    · unfold entryOk at he
      split
      · rename_i hfn
        rw [hfn] at he
        exact ⟨he, by omega⟩
      · rename_i f hfn
        rw [hfn] at he
        exact he inp h
    · exact ih (fun e' he' => hes e' (by simp [he']))

theorem scanBase_ok (b : Nat) : ∀ e ∈ scanBase b, entryOk e := by
  intro e he
  unfold scanBase at he
  split at he
  · simp at he; subst he; exact readSpaces_ok
  split at he
  · simp at he; subst he; exact readWord_ok
  split at he
  · simp at he; subst he; simp [entryOk]
  split at he
  · simp at he; subst he; simp [entryOk]
  split at he
  · simp at he; subst he; exact readVar_ok
  split at he
  · simp at he; subst he; exact readString_ok 34
  split at he
  · simp at he; subst he; exact readString_ok 39
  split at he
  · simp at he
    rcases he with he | he
    · subst he; exact readLineComment_ok
    · subst he; exact readMultiLineComment_ok
  · simp at he

theorem scandata_ok (b : Nat) : ∀ e ∈ scandata b, entryOk e := by
  intro e he
  unfold scandata at he
  rcases List.mem_append.1 he with h | h
  · exact scanBase_ok b e h
  · obtain ⟨op, _, rfl⟩ := List.mem_map.1 h
    simp [entryOk]

theorem triviaText_append (a b : List rawToken) :
    triviaText (a ++ b) = triviaText a ++ triviaText b := by
  simp [triviaText]

theorem triviaText_single (a : rawToken) : triviaText [a] = a.text := by
  simp [triviaText]

theorem readRaw_spec (t : tokenizer) :
    (t.readRaw).1.text ++ (t.readRaw).2.input = t.input ∧
    (t.readRaw).2.buffered = t.buffered ∧
    (t.input = [] → (t.readRaw).1.ttype = END ∧ (t.readRaw).1.text = []) ∧
    (t.input ≠ [] → (t.readRaw).1.ttype ≠ END ∧ (t.readRaw).1.text ≠ [] ∧
      (t.readRaw).2.input.length < t.input.length) := by
  unfold tokenizer.readRaw
  cases hin : t.input with
  | nil => simp [hin]
  | cons b rest =>
    have hs := scan_ok (b :: rest) (by simp) (scandata b) (scandata_ok b)
    obtain ⟨h1, h2⟩ := hs
    refine ⟨by simp, by simp, by simp, fun _ => ⟨h1, ?_, ?_⟩⟩
    · intro h
      have := congrArg List.length h
      simp at this
      omega
    · simp
      omega

theorem readLoop_spec : ∀ (k : Nat) (t : tokenizer) (res : token) (sl : Bool),
    t.input.length < k → (sl = true → t.buffered = []) →
    (readLoop k t res sl).1.pre = res.pre ∧ (readLoop k t res sl).1.text = res.text ∧
    triviaText (readLoop k t res sl).1.suf ++ (readLoop k t res sl).2.rest
      = triviaText res.suf ++ triviaText t.buffered ++ t.input ∧
    (readLoop k t res sl).2.wf ∧ (readLoop k t res sl).2.size ≤ t.input.length ∧
    (t.input = [] → (readLoop k t res sl).1.suf = res.suf ∧
      (readLoop k t res sl).2.buffered = t.buffered) := by
  intro k
  induction k with
  | zero => intro t res sl h; omega
  | succ k ih =>
    intro t res sl hk hsl
    obtain ⟨h1, h2, h3, h4⟩ := readRaw_spec t
    simp only [readLoop]
    by_cases htr : isTrivia (t.readRaw).1.ttype = true
    · -- a comment or a space: the loop goes on
      have hne : t.input ≠ [] := by
        intro h
        have := (h3 h).1
        rw [this] at htr
        simp [isTrivia] at htr
      obtain ⟨_, _, h4c⟩ := h4 hne
      simp only [htr, Bool.not_true, Bool.false_eq_true, if_false]
      split
      · rename_i hsame
        have hb : t.buffered = [] := hsl (by simp at hsame; exact hsame.1)
        obtain ⟨i1, i2, i3, i4, i5, _⟩ := ih { (t.readRaw).2 with peek := (t.readRaw).1 }
          { res with suf := res.suf ++ [(t.readRaw).1] } sl (by simp; omega)
          (by intro _; simp [h2, hb])
        refine ⟨i1, i2, ?_, i4, ?_, fun h => absurd h hne⟩
        · rw [i3]
          simp only [triviaText_append, triviaText_single, h2, hb]
          simp only [List.append_assoc]
          rw [← h1]
          simp [triviaText]
        · simp at i5
          omega
      · obtain ⟨i1, i2, i3, i4, i5, _⟩ := ih
          { (t.readRaw).2 with peek := (t.readRaw).1,
                               buffered := (t.readRaw).2.buffered ++ [(t.readRaw).1] }
          res false (by simp; omega) (by simp)
        refine ⟨i1, i2, ?_, i4, ?_, fun h => absurd h hne⟩
        · rw [i3]
          simp only [triviaText_append, triviaText_single, h2]
          simp only [List.append_assoc]
          rw [← h1]
        · simp at i5
          omega
    · -- a content token: it becomes `peek`
      simp only [htr, Bool.not_false, if_true]
      simp only [Bool.not_eq_true] at htr
      refine ⟨trivial, trivial, ?_, ?_, ?_, fun _ => ⟨trivial, h2⟩⟩
      · simp only [tokenizer.rest, h2]
        simp only [List.append_assoc]
        rw [h1]
      · refine ⟨fun he => ?_, fun he => ?_, htr⟩
        · by_cases hin : t.input = []
          · have := h1
            rw [hin, (h3 hin).2] at this
            simp at this
            exact ⟨by simpa using this, (h3 hin).2⟩
          · exact absurd he (h4 hin).1
        · by_cases hin : t.input = []
          · exact absurd (h3 hin).1 he
          · exact (h4 hin).2.1
      · have := congrArg List.length h1
        simp only [List.length_append] at this
        simp only [tokenizer.size]
        omega

theorem read_spec (t : tokenizer) :
    (t.read).1.bytes ++ (t.read).2.rest = t.rest ∧ (t.read).2.wf ∧
    (t.read).2.size ≤ t.input.length ∧ (t.read).1.text = t.peek.text ∧
    (t.read).1.pre = t.buffered ∧ (t.input = [] → (t.read).1.suf = []) := by
  obtain ⟨i1, i2, i3, i4, i5, i6⟩ := readLoop_spec (t.input.length + 1) { t with buffered := [] }
    ⟨t.peek.ttype, t.peek.line, t.peek.column, t.peek.text, t.buffered, []⟩ true
    (by simp) (by simp)
  simp only [tokenizer.read]
  split
  · rename_i hend
    refine ⟨?_, ?_, ?_, i2, i1, fun h => ?_⟩
    · simp only [token.bytes, i1, i2, triviaText_append]
      simp only [tokenizer.rest, List.append_assoc] at i3 ⊢
      simp only [triviaText, List.map_nil, List.flatten_nil, List.nil_append] at i3 ⊢
      simp only [i3]
    · obtain ⟨w1, w2, w3⟩ := i4
      exact ⟨w1, w2, w3⟩
    · exact i5
    · have := (i6 h).2
      simp at this
      rw [this] at hend
      simp at hend
  · refine ⟨?_, i4, i5, i2, i1, fun h => ?_⟩
    · simp only [token.bytes, i1, i2]
      simp only [tokenizer.rest, List.append_assoc] at i3 ⊢
      simp only [triviaText, List.map_nil, List.flatten_nil, List.nil_append] at i3 ⊢
      simp only [i3]
    · exact (i6 h).1

theorem newTokenizerLoop_spec : ∀ (k : Nat) (t : tokenizer), t.input.length < k →
    (newTokenizerLoop k t).rest = triviaText t.buffered ++ t.input ∧
    (newTokenizerLoop k t).wf ∧ (newTokenizerLoop k t).size ≤ t.input.length := by
  intro k
  induction k with
  | zero => intro t h; omega
  | succ k ih =>
    intro t hk
    obtain ⟨h1, h2, h3, h4⟩ := readRaw_spec t
    simp only [newTokenizerLoop]
    by_cases htr : isTrivia (t.readRaw).1.ttype = true
    · have hne : t.input ≠ [] := by
        intro h
        have := (h3 h).1
        rw [this] at htr
        simp [isTrivia] at htr
      obtain ⟨_, _, h4c⟩ := h4 hne
      simp only [htr, Bool.not_true, Bool.false_eq_true, if_false]
      obtain ⟨i1, i2, i3⟩ := ih
        { (t.readRaw).2 with peek := (t.readRaw).1,
                             buffered := (t.readRaw).2.buffered ++ [(t.readRaw).1] }
        (by simp; omega)
      refine ⟨?_, i2, ?_⟩
      · rw [i1]
        simp only [triviaText_append, triviaText_single, h2]
        simp only [List.append_assoc]
        rw [← h1]
      · simp at i3
        omega
    · simp only [htr, Bool.not_false, if_true]
      simp only [Bool.not_eq_true] at htr
      refine ⟨?_, ?_, ?_⟩
      · simp only [tokenizer.rest, h2]
        simp only [List.append_assoc]
        rw [h1]
      · refine ⟨fun he => ?_, fun he => ?_, htr⟩
        · by_cases hin : t.input = []
          · have := h1
            rw [hin, (h3 hin).2] at this
            simp at this
            exact ⟨by simpa using this, (h3 hin).2⟩
          · exact absurd he (h4 hin).1
        · by_cases hin : t.input = []
          · exact absurd (h3 hin).1 he
          · exact (h4 hin).2.1
      · have := congrArg List.length h1
        simp only [List.length_append] at this
        simp only [tokenizer.size]
        omega

theorem newTokenizer_spec (data : List Nat) :
    (newTokenizer data).rest = data ∧ (newTokenizer data).wf ∧
    (newTokenizer data).size ≤ data.length := by
  obtain ⟨h1, h2, h3⟩ := newTokenizerLoop_spec (data.length + 1)
    ⟨data, [], ⟨END, 0, 0, []⟩, 1, 0⟩ (by simp)
  exact ⟨by simpa [newTokenizer, triviaText] using h1, h2, h3⟩

/-! ## Lemmas on the parser -/

theorem serialize_interior (tok : token) (cs : List node) :
    (node.interior tok cs).serialize = serializeList cs := by
  simp [node.serialize]

theorem serialize_leaf (tok : token) : (node.leaf tok).serialize = tok.bytes := by
  simp [node.serialize]

theorem serializeList_append (a b : List node) :
    serializeList (a ++ b) = serializeList a ++ serializeList b := by
  induction a with
  | nil => simp [serializeList]
  | cons c cs ih => simp [serializeList, ih]

theorem serializeList_cons (c : node) (cs : List node) :
    serializeList (c :: cs) = c.serialize ++ serializeList cs := by
  simp [serializeList]

theorem serializeList_nil : serializeList [] = [] := by
  simp [serializeList]

theorem lookingAt_text_ne (t : tokenizer) (tokens : List (List Nat))
    (hne : ∀ s ∈ tokens, s ≠ []) (h : lookingAt t tokens = true) : t.peek.text ≠ [] := by
  simp only [lookingAt, List.any_eq_true] at h
  obtain ⟨s, hs, he⟩ := h
  have : t.peek.text = s := by simpa using he
  rw [this]
  exact hne s hs

/-- Reading the token in `peek`: conservation of bytes and progress. -/
theorem read_step (t : tokenizer) :
    (t.read).1.bytes ++ (t.read).2.rest = t.rest ∧ (t.read).2.wf ∧
    (t.read).2.size ≤ t.size ∧ (t.peek.text ≠ [] → (t.read).2.size < t.size) := by
  obtain ⟨h1, h2, h3, _⟩ := read_spec t
  refine ⟨h1, h2, ?_, fun hne => ?_⟩
  · simp only [tokenizer.size] at h3 ⊢
    omega
  · have : 1 ≤ t.peek.text.length := by
      cases hp : t.peek.text with
      | nil => exact absurd hp hne
      | cons b r => simp
    simp only [tokenizer.size] at h3 ⊢
    omega

theorem parseLeftLoop_ok (sub : parserFn) (tokens : List (List Nat))
    (hne : ∀ s ∈ tokens, s ≠ []) (m : Nat)
    (hsub : ∀ t : tokenizer, t.wf → t.size ≤ m → parserOk sub t) :
    ∀ (k : Nat) (left : node) (t : tokenizer), t.wf → t.size ≤ m → t.size < k →
      loopOk (parseLeftLoop sub tokens k left t) left t := by
  intro k
  induction k with
  | zero => intro left t _ _ h; omega
  | succ k ih =>
    intro left t hwf hm hk
    simp only [parseLeftLoop]
    by_cases hla : lookingAt t tokens = true
    · simp only [hla, if_true]
      obtain ⟨r1, r2, r3, r4⟩ := read_step t
      have r4 := r4 (lookingAt_text_ne t tokens hne hla)
      obtain ⟨n, t2, e1, e2, e3, e4, _⟩ := hsub (t.read).2 r2 (by omega)
      simp only [e1]
      obtain ⟨n', t', f1, f2, f3, f4⟩ :=
        ih (.interior token.zero [left, .leaf (t.read).1, n]) t2 e3 (by omega) (by omega)
      refine ⟨n', t', f1, ?_, f3, by omega⟩
      rw [f2, serialize_interior]
      simp only [serializeList_cons, serializeList_nil, serialize_leaf, List.append_nil,
        List.append_assoc]
      rw [e2, r1]
    · simp only [hla, Bool.false_eq_true, if_false]
      exact ⟨left, t, rfl, rfl, hwf, le_refl _⟩

theorem parseLeft_ok (sub : parserFn) (tokens : List (List Nat))
    (hne : ∀ s ∈ tokens, s ≠ []) (m k : Nat) (hk : m < k)
    (hsub : ∀ t : tokenizer, t.wf → t.size ≤ m → parserOk sub t) :
    ∀ t : tokenizer, t.wf → t.size ≤ m → parserOk (parseLeft sub tokens k) t := by
  intro t hwf hm
  obtain ⟨n, t1, e1, e2, e3, e4, e5⟩ := hsub t hwf hm
  obtain ⟨n', t', f1, f2, f3, f4⟩ :=
    parseLeftLoop_ok sub tokens hne m hsub k n t1 e3 (by omega) (by omega)
  refine ⟨n', t', ?_, ?_, f3, by omega, fun h => ?_⟩
  · simp only [parseLeft, e1, f1]
  · rw [f2, e2]
  · have := e5 h
    omega

theorem parseRight_ok (sub : parserFn) (tokens : List (List Nat))
    (hne : ∀ s ∈ tokens, s ≠ []) (m : Nat)
    (hsub : ∀ t : tokenizer, t.wf → t.size ≤ m → parserOk sub t) :
    ∀ (k : Nat) (t : tokenizer), t.wf → t.size ≤ m → t.size < k →
      parserOk (parseRight sub tokens k) t := by
  intro k
  induction k with
  | zero => intro t _ _ h; omega
  | succ k ih =>
    intro t hwf hm hk
    obtain ⟨n, t1, e1, e2, e3, e4, e5⟩ := hsub t hwf hm
    unfold parserOk
    simp only [parseRight, e1]
    by_cases hla : lookingAt t1 tokens = true
    · simp only [hla, if_true]
      obtain ⟨r1, r2, r3, r4⟩ := read_step t1
      have r4 := r4 (lookingAt_text_ne t1 tokens hne hla)
      obtain ⟨n', t', f1, f2, f3, f4, _⟩ := ih (t1.read).2 r2 (by omega) (by omega)
      simp only [f1]
      refine ⟨_, _, rfl, ?_, f3, by omega, fun h => by have := e5 h; omega⟩
      rw [serialize_interior]
      simp only [serializeList_cons, serializeList_nil, serialize_leaf, List.append_nil,
        List.append_assoc]
      rw [f2, r1, e2]
    · simp only [hla, Bool.false_eq_true, if_false]
      exact ⟨n, t1, rfl, e2, e3, e4, e5⟩

/-- The ladder from `oror` down to `mult` succeeds when `unary` does. -/
theorem oror_ok (un : parserFn) (m k : Nat) (hk : m < k)
    (hsub : ∀ t : tokenizer, t.wf → t.size ≤ m → parserOk un t) :
    ∀ t : tokenizer, t.wf → t.size ≤ m → parserOk (oror un k) t := by
  have h1 := parseLeft_ok un [[42], [47], [37]] (by decide) m k hk hsub
  have h2 := parseLeft_ok (mult un k) [[43], [45]] (by decide) m k hk h1
  have h3 := parseLeft_ok (plus un k) [[60, 60], [62, 62]] (by decide) m k hk h2
  have h4 := parseLeft_ok (shift un k) [[60], [60, 61], [62], [62, 61]] (by decide) m k hk h3
  have h5 := parseLeft_ok (cmp un k) [[61, 61], [33, 61]] (by decide) m k hk h4
  have h6 := parseLeft_ok (eq un k) [[38]] (by decide) m k hk h5
  have h7 := parseLeft_ok (bitand un k) [[94]] (by decide) m k hk h6
  have h8 := parseLeft_ok (bitxor un k) [[124]] (by decide) m k hk h7
  have h9 := parseLeft_ok (bitor un k) [[38, 38]] (by decide) m k hk h8
  exact parseLeft_ok (andand un k) [[124, 124]] (by decide) m k hk h9

theorem closer_text_ne (t : tokenizer) (h : lookingAt t openers = true) :
    closerFor t.peek.text ≠ [] := by
  simp only [lookingAt, openers, List.any_cons, List.any_nil, Bool.or_false, Bool.or_eq_true,
    beq_iff_eq] at h
  rcases h with h | h | h <;> rw [h] <;> decide

/-- All recursive parser functions succeed once the fuel is six times the
number of unread bytes plus a small constant. -/
theorem parser_ok : ∀ (k : Nat) (t : tokenizer), t.wf →
    (6 * t.size + 3 ≤ k → parserOk (unary k) t) ∧
    (6 * t.size + 2 ≤ k → parserOk (suffix k) t) ∧
    (∀ n : node, 6 * t.size + 1 ≤ k → loopOk (suffixLoop k n t) n t) ∧
    (6 * t.size + 1 ≤ k → parserOk (term k) t) ∧
    (∀ closer : List Nat, 6 * t.size + 5 ≤ k → exprsOk (readExprs k t closer) t closer) ∧
    (6 * t.size + 4 ≤ k → parserOk (assign k) t) := by
  intro k
  induction k with
  | zero =>
    intro t _
    exact ⟨fun h => by omega, fun h => by omega, fun _ h => by omega, fun h => by omega,
      fun _ h => by omega, fun h => by omega⟩
  | succ k ih =>
    intro t hwf
    obtain ⟨r1, r2, r3, r4⟩ := read_step t
    refine ⟨fun hk => ?_, fun hk => ?_, fun n hk => ?_, fun hk => ?_, fun closer hk => ?_,
      fun hk => ?_⟩
    · -- unary
      unfold parserOk
      simp only [unary]
      split
      · rename_i hla
        have r4 := r4 (lookingAt_text_ne t _ (by decide) hla)
        obtain ⟨c, t2, e1, e2, e3, e4, _⟩ := (ih (t.read).2 r2).1 (by omega)
        simp only [e1]
        refine ⟨_, _, rfl, ?_, e3, by omega, fun _ => by omega⟩
        rw [serialize_interior]
        simp only [serializeList_cons, serializeList_nil, serialize_leaf, List.append_nil,
          List.append_assoc]
        rw [e2, r1]
      · exact (ih t hwf).2.1 (by omega)
    · -- suffix
      unfold parserOk
      simp only [suffix]
      obtain ⟨n, t1, e1, e2, e3, e4, e5⟩ := (ih t hwf).2.2.2.1 (by omega)
      simp only [e1]
      obtain ⟨n', t', f1, f2, f3, f4⟩ := (ih t1 e3).2.2.1 n (by omega)
      refine ⟨n', t', f1, ?_, f3, by omega, fun h => by have := e5 h; omega⟩
      rw [f2, e2]
    · -- suffixLoop
      unfold loopOk
      simp only [suffixLoop]
      split
      · rename_i hla
        have r4 := r4 (lookingAt_text_ne t _ (by decide) hla)
        obtain ⟨c, t2, e1, e2, e3, e4, _⟩ := (ih (t.read).2 r2).2.2.2.1 (by omega)
        simp only [e1]
        obtain ⟨n', t', f1, f2, f3, f4⟩ :=
          (ih t2 e3).2.2.1 (.interior token.zero [n, .leaf (t.read).1, c]) (by omega)
        refine ⟨n', t', f1, ?_, f3, by omega⟩
        rw [f2, serialize_interior]
        simp only [serializeList_cons, serializeList_nil, serialize_leaf, List.append_nil,
          List.append_assoc]
        rw [e2, r1]
      · split
        · rename_i hla
          have r4 := r4 (lookingAt_text_ne t _ (by decide) hla)
          obtain ⟨cs, t2, e1, e2, e3, e4, _⟩ :=
            (ih (t.read).2 r2).2.2.2.2.1 (closerFor t.peek.text) (by omega)
          simp only [e1]
          split
          · rename_i hcl
            obtain ⟨q1, q2, q3, q4⟩ := read_step t2
            obtain ⟨n', t', f1, f2, f3, f4⟩ := (ih (t2.read).2 q2).2.2.1
              (.interior token.zero ([n, .leaf (t.read).1] ++ cs ++ [.leaf (t2.read).1]))
              (by omega)
            refine ⟨n', t', f1, ?_, f3, by omega⟩
            rw [f2, serialize_interior]
            simp only [serializeList_append, serializeList_cons, serializeList_nil,
              serialize_leaf, List.append_nil, List.append_assoc]
            rw [q1, e2, r1]
          · obtain ⟨n', t', f1, f2, f3, f4⟩ := (ih t2 e3).2.2.1
              (.interior token.zero ([n, .leaf (t.read).1] ++ cs)) (by omega)
            refine ⟨n', t', f1, ?_, f3, by omega⟩
            rw [f2, serialize_interior]
            simp only [serializeList_append, serializeList_cons, serializeList_nil,
              serialize_leaf, List.append_nil, List.append_assoc]
            rw [e2, r1]
        · exact ⟨n, t, rfl, rfl, hwf, le_refl _⟩
    · -- term
      unfold parserOk
      simp only [term]
      split
      · rename_i hla
        have r4 := r4 (lookingAt_text_ne t _ (by decide) hla)
        obtain ⟨cs, t2, e1, e2, e3, e4, _⟩ :=
          (ih (t.read).2 r2).2.2.2.2.1 (closerFor t.peek.text) (by omega)
        simp only [e1]
        split
        · obtain ⟨q1, q2, q3, q4⟩ := read_step t2
          refine ⟨_, _, rfl, ?_, q2, by omega, fun _ => by omega⟩
          rw [serialize_interior]
          simp only [serializeList_append, serializeList_cons, serializeList_nil,
            serialize_leaf, List.append_nil, List.append_assoc]
          rw [q1, e2, r1]
        · refine ⟨_, _, rfl, ?_, e3, by omega, fun _ => by omega⟩
          rw [serialize_interior]
          simp only [serializeList_append, serializeList_cons, serializeList_nil,
            serialize_leaf, List.append_nil, List.append_assoc]
          rw [e2, r1]
      · exact ⟨_, _, rfl, by rw [serialize_leaf, r1], r2, r3, r4⟩
    · -- readExprs
      unfold exprsOk
      simp only [readExprs]
      split
      · rename_i hgo
        have htext : t.peek.text ≠ [] := hwf.2.1 hgo.1
        obtain ⟨n, t1, e1, e2, e3, e4, e5⟩ := (ih t hwf).2.2.2.2.2 (by omega)
        have e5 := e5 htext
        simp only [e1]
        obtain ⟨ns, t2, f1, f2, f3, f4, f5⟩ := (ih t1 e3).2.2.2.2.1 closer (by omega)
        simp only [f1]
        refine ⟨_, _, rfl, ?_, f3, by omega, f5⟩
        simp only [serializeList_cons, List.append_assoc]
        rw [f2, e2]
      · rename_i hstop
        refine ⟨[], t, rfl, by simp [serializeList_nil], hwf, le_refl _, ?_⟩
        by_cases he : t.peek.ttype = END
        · exact Or.inl he
        · right
          by_contra hl
          exact hstop ⟨he, by simpa using hl⟩
    · -- assign
      unfold parserOk
      simp only [assign]
      have hun : ∀ t' : tokenizer, t'.wf → t'.size ≤ t.size → parserOk (unary k) t' :=
        fun t' hw hs => (ih t' hw).1 (by omega)
      have hor := oror_ok (unary k) t.size k (by omega) hun
      exact parseRight_ok (oror (unary k) k) assignOps (by decide) t.size hor k t hwf
        (le_refl _) (by omega)

theorem stripLevels_serialize : ∀ n : node, (stripLevels n).serialize = n.serialize := by
  intro n
  induction n using stripLevels.induct with
  | case1 tok c ih =>
    rw [stripLevels, ih, serialize_interior, serializeList_cons, serializeList_nil,
      List.append_nil]
  | case2 n h =>
    rw [stripLevels]
    intro tok c hn
    exact h tok c hn

/-- The token `root` reads after `readExprs` is the END token: it holds
exactly the bytes the tokenizer still has, all of them in its prefix. -/
theorem read_at_end (t : tokenizer) (hwf : t.wf)
    (hend : t.peek.ttype = END ∨ lookingAt t [[]] = true) :
    (t.read).1.bytes = t.rest ∧ ((t.read).1.pre.length = 0 → t.rest = []) := by
  have he : t.peek.ttype = END := by
    rcases hend with h | h
    · exact h
    · by_contra hne
      have := hwf.2.1 hne
      simp [lookingAt] at h
      exact this h
  obtain ⟨hin, htx⟩ := hwf.1 he
  obtain ⟨_, _, _, h4, h5, h6⟩ := read_spec t
  have h6 := h6 hin
  constructor
  · simp [token.bytes, tokenizer.rest, h4, h5, h6, hin, htx, triviaText]
  · intro h0
    have : t.buffered = [] := by
      rw [h5] at h0
      exact List.length_eq_zero.1 h0
    simp [tokenizer.rest, this, hin, htx, triviaText]

theorem rootOf_serialize (cs : List node) (t : tokenizer) (hwf : t.wf)
    (hend : t.peek.ttype = END ∨ lookingAt t [[]] = true) :
    (rootOf cs t).serialize = serializeList cs ++ t.rest := by
  obtain ⟨h1, h2⟩ := read_at_end t hwf hend
  have key : (stripLevels (.interior token.zero
      (if 0 < (t.read).1.pre.length then cs ++ [.leaf (t.read).1] else cs))).serialize
      = serializeList cs ++ t.rest := by
    rw [stripLevels_serialize, serialize_interior]
    split
    · rw [serializeList_append, serializeList_cons, serializeList_nil, serialize_leaf, h1,
        List.append_nil]
    · rename_i hp
      rw [h2 (by omega), List.append_nil]
  have wrap : ∀ n : node,
      (if n.isLeaf = true then node.interior token.zero [n] else n).serialize = n.serialize := by
    intro n
    split
    · rw [serialize_interior, serializeList_cons, serializeList_nil, List.append_nil]
    · rfl
  simp only [rootOf]
  rw [wrap]
  exact key

/-- The parser reaches the end of every buffer, and the tree `root` builds
from what it read serializes to the buffer. -/
theorem readExprs_root_ok (B : List Nat) :
    ∃ (ns : List node) (t' : tokenizer),
      readExprs (parseFuel B) (newTokenizer B) [] = some (ns, t') ∧
      (rootOf ns t').serialize = B := by
  obtain ⟨h1, h2, h3⟩ := newTokenizer_spec B
  obtain ⟨ns, t', e1, e2, e3, _, e5⟩ :=
    (parser_ok (parseFuel B) (newTokenizer B) h2).2.2.2.2.1 []
      (by simp only [parseFuel]; omega)
  exact ⟨ns, t', e1, by rw [rootOf_serialize ns t' e3 e5, e2, h1]⟩

theorem serialize_of_parse (B : List Nat) (n : node) (h : parse B = some n) :
    n.serialize = B := by
  obtain ⟨ns, t', e1, e2⟩ := readExprs_root_ok B
  simp only [parse, root, e1, Option.some.injEq] at h
  rw [← h, e2]

/-- **C1** (round trip).  For every byte buffer `B` the parser returns a
tree, and serializing that tree gives back `B` byte for byte. -/
theorem parse_serialize_roundtrip (B : List Nat) :
    ∃ root : node, parse B = some root ∧ root.serialize = B := by
  obtain ⟨ns, t', e1, e2⟩ := readExprs_root_ok B
  refine ⟨rootOf ns t', ?_, e2⟩
  simp only [parse, root, e1]

/-! ## Substitution -/

mutual
theorem clone_eq : ∀ n : node, clone n = n
  | .leaf tok => by simp [clone]
  | .interior tok cs => by simp [clone, cloneList_eq cs]
theorem cloneList_eq : ∀ l : List node, cloneList l = l
  | [] => by simp [cloneList]
  | c :: cs => by simp [cloneList, clone_eq c, cloneList_eq cs]
end

theorem map_clone (l : List node) : l.map clone = l := by
  induction l with
  | nil => rfl
  | cons c cs ih => simp [clone_eq, ih]

mutual
theorem substitute_spec_node (vars : varmap) : ∀ n : node,
    (∀ tok ∈ leafTokens n, isVar tok.ttype = true → (vars.find tok.text).isSome = true) →
    substitute vars n = some (substituteSpec vars n)
  | .leaf tok => by
    intro h
    have h := h tok (by simp [leafTokens])
    by_cases hv : isVar tok.ttype = true
    · have hs := h hv
      have hne : ¬ (tok.ttype ≠ VAR ∧ tok.ttype ≠ RVAR) := by
        simp only [isVar, Bool.or_eq_true, beq_iff_eq] at hv
        intro hc
        rcases hv with hv | hv
        · exact hc.1 hv
        · exact hc.2 hv
      cases hf : vars.find tok.text with
      | none => simp [hf] at hs
      | some vals =>
        simp [substitute, hne, hf, substituteSpec, leafTokens, hv, map_clone]
    · have hne : tok.ttype ≠ VAR ∧ tok.ttype ≠ RVAR := by
        simp only [isVar, Bool.or_eq_true, beq_iff_eq, not_or] at hv
        exact hv
      simp [substitute, hne, substituteSpec, leafTokens, hv, clone]
  | .interior tok cs => by
    intro h
    have := substitute_spec_list vars cs (by simpa [leafTokens] using h)
    simp only [substitute, this]
    simp [substituteSpec, leafTokens]
theorem substitute_spec_list (vars : varmap) : ∀ l : List node,
    (∀ tok ∈ leafTokensList l, isVar tok.ttype = true → (vars.find tok.text).isSome = true) →
    substituteList vars l = some (((leafTokensList l).map (fun tok =>
      if isVar tok.ttype then (vars.find tok.text).getD [] else [node.leaf tok])).flatten)
  | [] => by intro _; simp [substituteList, leafTokensList]
  | c :: cs => by
    intro h
    have h1 := substitute_spec_node vars c (fun tok ht => h tok (by simp [leafTokensList, ht]))
    have h2 := substitute_spec_list vars cs (fun tok ht => h tok (by simp [leafTokensList, ht]))
    simp only [substituteList, h1, h2]
    simp [substituteSpec, leafTokensList]
end

/-- **C6** (variable substitution and duplication).  When every variable of
the replacement is bound in the match `m`, `substitute` returns the
concatenation, over the leaves of the replacement in order, of the leaf itself
for a literal and of all the nodes captured under its name for a VAR or RVAR,
once for every occurrence of the variable; the copies `clone` makes are equal
to the nodes copied. -/
theorem substitute_concatenates (m : Match) (replacement : node)
    (hbound : ∀ tok ∈ leafTokens replacement, isVar tok.ttype = true →
      (m.vars.find tok.text).isSome = true) :
    substitute m.vars replacement = some (substituteSpec m.vars replacement) ∧
    ∀ n : node, clone n = n :=
  ⟨substitute_spec_node m.vars replacement hbound, clone_eq⟩

/-! ## The regular expression and the matcher -/

theorem groupsOk_le : ∀ (atoms : List atom) (gs : List (Nat × Nat)) (pos e : Nat),
    groupsOk atoms gs pos e → pos ≤ e := by
  intro atoms
  induction atoms with
  | nil =>
    intro gs pos e h
    cases gs with
    | nil => simp [groupsOk] at h; omega
    | cons g gs => simp [groupsOk] at h
  | cons a atoms ih =>
    intro gs pos e h
    cases gs with
    | nil => simp [groupsOk] at h
    | cons g gs =>
      simp only [groupsOk] at h
      obtain ⟨h1, h2, _, h4⟩ := h
      have := ih gs g.2 e h4
      omega

theorem matchAtoms_ok (anch : Bool) : ∀ (atoms : List atom) (text : List Nat) (pos : Nat)
    (r : List (Nat × Nat) × Nat), matchAtoms anch atoms text pos = some r →
    groupsOk atoms r.1 pos r.2 ∧ r.2 ≤ pos + text.length := by
  intro atoms
  induction atoms with
  | nil =>
    intro text pos r h
    simp only [matchAtoms] at h
    split at h
    · simp at h
    · simp only [Option.some.injEq] at h
      subst h
      simp [groupsOk]
  | cons a atoms ih =>
    intro text pos r h
    cases a with
    | one =>
      cases text with
      | nil => simp [matchAtoms] at h
      | cons c text' =>
        simp only [matchAtoms] at h
        split at h
        · simp only [Option.map_eq_some'] at h
          obtain ⟨r', hr', rfl⟩ := h
          obtain ⟨i1, i2⟩ := ih text' (pos + 1) r' hr'
          refine ⟨?_, ?_⟩
          · simp only [groupsOk]
            exact ⟨trivial, by omega, fun _ => trivial, i1⟩
          · simp only [List.length_cons]
            omega
        · simp at h
    | lit x =>
      cases text with
      | nil => simp [matchAtoms] at h
      | cons c text' =>
        simp only [matchAtoms] at h
        split at h
        · simp only [Option.map_eq_some'] at h
          obtain ⟨r', hr', rfl⟩ := h
          obtain ⟨i1, i2⟩ := ih text' (pos + 1) r' hr'
          refine ⟨?_, ?_⟩
          · simp only [groupsOk]
            exact ⟨trivial, by omega, fun _ => trivial, i1⟩
          · simp only [List.length_cons]
            omega
        · simp at h
    | star =>
      simp only [matchAtoms] at h
      obtain ⟨k, hk, hf⟩ := List.exists_of_findSome?_eq_some h
      simp only [Option.map_eq_some'] at hf
      obtain ⟨r', hr', rfl⟩ := hf
      obtain ⟨i1, i2⟩ := ih (text.drop k) (pos + k) r' hr'
      have hk' : k ≤ text.length := by
        simp only [List.mem_reverse, List.mem_range] at hk
        have := (List.takeWhile_sublist dot (l := text)).length_le
        omega
      refine ⟨?_, ?_⟩
      · simp only [groupsOk]
        exact ⟨trivial, by omega, fun hc => absurd rfl hc, i1⟩
      · simp only [List.length_drop] at i2
        omega

theorem execute_ok (re : regexp) (text : List Nat) (pos : Nat) (m : submatch)
    (h : re.execute text pos = some m) :
    pos ≤ m.start ∧ groupsOk re.atoms m.groups m.start m.limit ∧ m.limit ≤ text.length := by
  simp only [regexp.execute] at h
  obtain ⟨s, hs, hf⟩ := List.exists_of_findSome?_eq_some h
  simp only [List.mem_map, List.mem_range] at hs
  obtain ⟨d, hd, rfl⟩ := hs
  split at hf
  · simp at hf
  · simp only [Option.map_eq_some'] at hf
    obtain ⟨r, hr, rfl⟩ := hf
    obtain ⟨i1, i2⟩ := matchAtoms_ok re.anchored re.atoms _ _ r hr
    simp only [List.length_drop] at i2
    exact ⟨by simp only; omega, i1, by simp only; omega⟩

theorem allMatches_ok (re : regexp) (text : List Nat) : ∀ (k pos : Nat) (prev : Option Nat)
    (m : submatch), m ∈ allMatches re text k pos prev →
    pos ≤ m.start ∧ groupsOk re.atoms m.groups m.start m.limit ∧ m.limit ≤ text.length := by
  intro k
  induction k with
  | zero => intro pos prev m h; simp [allMatches] at h
  | succ k ih =>
    intro pos prev m h
    simp only [allMatches] at h
    split at h
    · split at h
      · simp at h
      · rename_i m0 hm0
        obtain ⟨e1, e2, e3⟩ := execute_ok re text pos m0 hm0
        have e4 := groupsOk_le _ _ _ _ e2
        split at h
        · rename_i hlim
          split at h
          · obtain ⟨i1, i2, i3⟩ := ih _ _ m h
            refine ⟨?_, i2, i3⟩
            split at i1 <;> omega
          · rcases List.mem_cons.1 h with h | h
            · subst h; exact ⟨e1, e2, e3⟩
            · obtain ⟨i1, i2, i3⟩ := ih _ _ m h
              refine ⟨?_, i2, i3⟩
              split at i1 <;> omega
        · rcases List.mem_cons.1 h with h | h
          · subst h; exact ⟨e1, e2, e3⟩
          · obtain ⟨i1, i2, i3⟩ := ih _ _ m h
            exact ⟨by omega, i2, i3⟩
    · simp at h

theorem findAll_ok (re : regexp) (text : List Nat) (m : submatch)
    (h : m ∈ re.findAllSubmatchIndex text) :
    groupsOk re.atoms m.groups m.start m.limit ∧ m.start ≤ m.limit ∧ m.limit ≤ text.length := by
  obtain ⟨_, h2, h3⟩ := allMatches_ok re text _ _ _ m h
  exact ⟨h2, groupsOk_le _ _ _ _ h2, h3⟩

theorem slice_length {α : Type} (l : List α) (a b : Nat) :
    (slice l a b).length = min b l.length - a := by
  simp [slice]

theorem slice_head {α : Type} (l : List α) (a b : Nat) (x : α)
    (h : (slice l a b).head? = some x) : l[a]? = some x ∧ a < b := by
  simp only [slice] at h
  rw [List.head?_drop] at h
  rw [List.getElem?_take] at h
  split at h
  · rename_i hab
    exact ⟨h, hab⟩
  · simp at h

theorem isRunOf_mono (l nodes : List node) (lo hi lo' hi' : Nat) (h1 : lo' ≤ lo) (h2 : hi ≤ hi')
    (h : isRunOf l nodes lo hi) : isRunOf l nodes lo' hi' := by
  obtain ⟨a, b, e1, e2, e3, e4, e5⟩ := h
  exact ⟨a, b, by omega, e2, by omega, e4, e5⟩

theorem isNestedRunOf_mono (l nodes : List node) (lo hi lo' hi' : Nat) (h1 : lo' ≤ lo)
    (h2 : hi ≤ hi') (h : isNestedRunOf l nodes lo hi) : isNestedRunOf l nodes lo' hi' := by
  obtain ⟨i, s, path, n, e1, e2, e3⟩ := h
  exact ⟨i, s, path, n, by omega, by omega, e3⟩

theorem captureOk_mono (plist plist' subject : List node) (lo hi lo' hi' : Nat)
    (en : List Nat × List node) (h1 : lo' ≤ lo) (h2 : hi ≤ hi')
    (hp : ∀ tok ∈ leafTokensList plist, tok ∈ leafTokensList plist')
    (h : captureOk plist subject lo hi en) : captureOk plist' subject lo' hi' en := by
  obtain ⟨hr, tok, ht, hrest⟩ := h
  refine ⟨?_, tok, hp tok ht, hrest⟩
  rcases hr with hr | hr
  · exact Or.inl (isRunOf_mono _ _ _ _ _ _ h1 h2 hr)
  · exact Or.inr (isNestedRunOf_mono _ _ _ _ _ _ h1 h2 hr)

/-- A capture made one level down is a nested capture one level up. -/
theorem captureOk_lift (plist subject : List node) (cs : List node)
    (pos hi lo1 hi1 : Nat) (s : node) (en : List Nat × List node)
    (hs : subject[pos]? = some s) (hpos : pos < hi)
    (hp : ∀ tok ∈ leafTokensList cs, tok ∈ leafTokensList plist)
    (h : captureOk cs s.children lo1 hi1 en) : captureOk plist subject pos hi en := by
  obtain ⟨hr, tok, ht, hrest⟩ := h
  refine ⟨Or.inr ?_, tok, hp tok ht, hrest⟩
  rcases hr with hr | hr
  · obtain ⟨a, b, e1, e2, e3, e4, e5⟩ := hr
    exact ⟨pos, s, [], s, le_refl _, hpos, hs, by simp [node.at?],
      ⟨a, b, by omega, e2, e4, e4, e5⟩⟩
  · obtain ⟨i, s', path, n, e1, e2, e3, e4, e5⟩ := hr
    refine ⟨pos, s, i :: path, n, le_refl _, hpos, hs, ?_, e5⟩
    cases s with
    | leaf tk => simp [node.children] at e3
    | interior tk ss =>
      simp only [node.children] at e3
      simp [node.at?, e3, e4]

mutual
theorem matchChild_ok (rm : runemap) : ∀ (pnode : node) (subject : List node) (m : Match),
    matchChild rm pnode subject = some m →
    m.start ≤ m.limit ∧ m.limit ≤ subject.length ∧
    (∀ en ∈ m.vars, captureOk pnode.children subject m.start m.limit en) ∧
    (∀ tok ∈ leafTokensList pnode.children, isVar tok.ttype = true →
      ∃ en ∈ m.vars, en.1 = tok.text)
  | .leaf tok, subject, m => by
    intro h
    simp [matchChild] at h
  | .interior tok cs, subject, m => by
    intro h
    simp only [matchChild] at h
    obtain ⟨sm, hsm, hf⟩ := List.exists_of_findSome?_eq_some h
    simp only [Option.map_eq_some'] at hf
    obtain ⟨vars, hv, rfl⟩ := hf
    obtain ⟨g1, g2, g3⟩ := findAll_ok _ _ sm hsm
    simp only [encode, List.length_map] at g3
    obtain ⟨b1, b2⟩ := bindNodes_ok rm cs sm.groups subject sm.start sm.limit vars hv g1 g3
    exact ⟨g2, g3, b1, b2⟩
theorem bindNodes_ok (rm : runemap) : ∀ (ps : List node) (gs : List (Nat × Nat))
    (subject : List node) (pos e : Nat) (vars : varmap),
    bindNodes rm ps gs subject = some vars →
    groupsOk (compileList rm true ps).atoms gs pos e → e ≤ subject.length →
    (∀ en ∈ vars, captureOk ps subject pos e en) ∧
    (∀ tok ∈ leafTokensList ps, isVar tok.ttype = true → ∃ en ∈ vars, en.1 = tok.text)
  | [], gs, subject, pos, e, vars => by
    intro h _ _
    simp only [bindNodes, Option.some.injEq] at h
    subst h
    simp [leafTokensList]
  | pnode :: ps, [], subject, pos, e, vars => by
    intro h _ _
    simp [bindNodes] at h
  | pnode :: ps, g :: gs, subject, pos, e, vars => by
    intro h hg he
    simp only [compileList, List.map_cons, groupsOk] at hg
    obtain ⟨hg1, hg2, hg3, hg4⟩ := hg
    have hle := groupsOk_le _ _ _ _ hg4
    have ih := fun vs hvs => bindNodes_ok rm ps gs subject g.2 e vs hvs hg4 he
    have hsub : ∀ tok ∈ leafTokensList ps, tok ∈ leafTokensList (pnode :: ps) := by
      intro tok ht
      simp [leafTokensList, ht]
    cases pnode with
    | leaf tok =>
      simp only [bindNodes] at h
      split at h
      · rename_i hvar
        simp only [Option.map_eq_some'] at h
        obtain ⟨vs, hvs, rfl⟩ := h
        obtain ⟨i1, i2⟩ := ih vs hvs
        constructor
        · intro en hen
          rcases List.mem_append.1 hen with hen | hen
          · exact captureOk_mono _ _ _ _ _ _ _ _ (by omega) (le_refl _) hsub (i1 en hen)
          · simp only [List.mem_singleton] at hen
            subst hen
            refine ⟨Or.inl ⟨g.1, g.2, by omega, hg2, hle, by omega, rfl⟩, tok,
              by simp [leafTokensList, leafTokens], hvar, rfl, fun hv => ?_⟩
            have := hg3 (by simp [atomOf, hv])
            rw [slice_length]
            omega
        · intro tk htk hvk
          simp only [leafTokensList, leafTokens, List.singleton_append, List.mem_cons] at htk
          rcases htk with htk | htk
          · subst htk
            exact ⟨_, List.mem_append_right _ (List.mem_singleton.2 rfl), rfl⟩
          · obtain ⟨en, hen, hen2⟩ := i2 tk htk hvk
            exact ⟨en, List.mem_append_left _ hen, hen2⟩
      · rename_i hvar
        obtain ⟨i1, i2⟩ := ih vars h
        constructor
        · intro en hen
          exact captureOk_mono _ _ _ _ _ _ _ _ (by omega) (le_refl _) hsub (i1 en hen)
        · intro tk htk hvk
          simp only [leafTokensList, leafTokens, List.singleton_append, List.mem_cons] at htk
          rcases htk with htk | htk
          · subst htk
            exact absurd hvk hvar
          · exact i2 tk htk hvk
    | interior tok cs =>
      simp only [bindNodes] at h
      split at h
      · simp at h
      · rename_i s hs
        obtain ⟨hs1, hs2⟩ := slice_head _ _ _ _ hs
        split at h
        · simp at h
        · rename_i cmatch hcm
          simp only [Option.map_eq_some'] at h
          obtain ⟨vs, hvs, rfl⟩ := h
          obtain ⟨i1, i2⟩ := ih vs hvs
          obtain ⟨c1, c2, c3, c4⟩ := matchChild_ok rm (.interior tok cs) s.children cmatch hcm
          have hcs : ∀ tk ∈ leafTokensList cs, tk ∈ leafTokensList (node.interior tok cs :: ps) := by
            intro tk htk
            simp [leafTokensList, leafTokens, htk]
          constructor
          · intro en hen
            rcases List.mem_append.1 hen with hen | hen
            · exact captureOk_mono _ _ _ _ _ _ _ _ (by omega) (le_refl _) hsub (i1 en hen)
            · have := c3 en hen
              simp only [node.children] at this
              rw [hg1] at hs1
              exact captureOk_lift _ subject cs pos e _ _ s en hs1 (by omega) hcs this
          · intro tk htk hvk
            simp only [leafTokensList, leafTokens, List.mem_append] at htk
            rcases htk with htk | htk
            · obtain ⟨en, hen, hen2⟩ := c4 tk (by simpa [node.children] using htk) hvk
              exact ⟨en, List.mem_append_right _ hen, hen2⟩
            · obtain ⟨en, hen, hen2⟩ := i2 tk htk hvk
              exact ⟨en, List.mem_append_left _ hen, hen2⟩
end

theorem matchNodes_ok (p : pattern) (subject : List node) (m : Match)
    (h : p.matchNodes subject = some m) :
    m.start ≤ m.limit ∧ m.limit ≤ subject.length ∧
    (∀ en ∈ m.vars, captureOk p.list subject m.start m.limit en) ∧
    (∀ tok ∈ leafTokensList p.list, isVar tok.ttype = true → ∃ en ∈ m.vars, en.1 = tok.text) := by
  simp only [pattern.matchNodes] at h
  obtain ⟨sm, hsm, hf⟩ := List.exists_of_findSome?_eq_some h
  simp only [Option.map_eq_some'] at hf
  obtain ⟨vars, hv, rfl⟩ := hf
  obtain ⟨g1, g2, g3⟩ := findAll_ok _ _ sm hsm
  simp only [encode, List.length_map] at g3
  obtain ⟨b1, b2⟩ :=
    bindNodes_ok p.runemap p.list sm.groups subject sm.start sm.limit vars hv g1 g3
  exact ⟨g2, g3, b1, b2⟩

theorem varmap_find_some (vars : varmap) (name : List Nat) (nodes : List node)
    (h : vars.find name = some nodes) : (name, nodes) ∈ vars := by
  simp only [varmap.find, Option.map_eq_some'] at h
  obtain ⟨en, hen, rfl⟩ := h
  have h1 := List.mem_of_find?_eq_some hen
  have h2 := List.find?_some hen
  have : en.1 = name := by simpa using h2
  rw [← this]
  exact h1

theorem varmap_find_of_mem (vars : varmap) (en : List Nat × List node) (h : en ∈ vars) :
    ∃ nodes, vars.find en.1 = some nodes := by
  cases hf : vars.find? (fun e => e.1 == en.1) with
  | none =>
    rw [List.find?_eq_none] at hf
    have := hf en h
    simp at this
  | some e => exact ⟨e.2, by simp [varmap.find, hf]⟩

/-! ## The rewriter -/

/-- The inner loop of `replace` never changes the children in front of the
index it was started at. -/
theorem rewriteLoop_take (pat : pattern) (replacement : node) : ∀ (k start : Nat)
    (src out : List node), start ≤ src.length →
    rewriteLoop pat replacement k start src = some out → out.take start = src.take start := by
  intro k
  induction k with
  | zero => intro start src out _ h; simp [rewriteLoop] at h
  | succ k ih =>
    intro start src out hstart h
    simp only [rewriteLoop] at h
    split at h
    · split at h
      · simp only [Option.some.injEq] at h
        rw [h]
      · rename_i m hm
        split at h
        · simp at h
        · rename_i r hr
          obtain ⟨b1, b2, _, _⟩ := matchNodes_ok pat (src.drop start) m hm
          simp only [List.length_drop] at b2
          have hlen : (src.take (start + m.start)).length = start + m.start := by
            rw [List.length_take]
            omega
          have := ih _ _ out (by
            simp only [List.length_append, hlen, List.length_drop]
            omega) h
          have h2 := congrArg (List.take start) this
          rw [List.take_take, List.take_take] at h2
          rw [Nat.min_eq_left (by omega)] at h2
          rw [h2, List.append_assoc, List.take_append_of_le_length (by omega), List.take_take,
            Nat.min_eq_left (by omega)]
    · simp only [Option.some.injEq] at h
      rw [h]

theorem mem_nodesOf_self : ∀ n : node, n ∈ nodesOf n
  | .leaf tok => by simp [nodesOf]
  | .interior tok cs => by simp [nodesOf]

theorem nodesOfList_mem (cs : List node) : ∀ (c x : node), c ∈ cs → x ∈ nodesOf c →
    x ∈ nodesOfList cs := by
  induction cs with
  | nil => intro c x h; simp at h
  | cons d ds ih =>
    intro c x hc hx
    simp only [nodesOfList, List.mem_append]
    rcases List.mem_cons.1 hc with h | h
    · subst h; exact Or.inl hx
    · exact Or.inr (ih c x h hx)

theorem at_mem_nodesOf : ∀ (path : List Nat) (n x : node), n.at? path = some x →
    x ∈ nodesOf n := by
  intro path
  induction path with
  | nil =>
    intro n x h
    simp only [node.at?, Option.some.injEq] at h
    subst h
    exact mem_nodesOf_self n
  | cons i path ih =>
    intro n x h
    cases n with
    | leaf tok => simp [node.at?] at h
    | interior tok cs =>
      simp only [node.at?] at h
      split at h
      · simp at h
      · rename_i c hc
        have hmem : c ∈ cs := List.getElem?_mem hc
        simp only [nodesOf, List.mem_cons]
        exact Or.inr (nodesOfList_mem cs c x hmem (ih c x h))

theorem list_set_self {α : Type} : ∀ (l : List α) (i : Nat) (a : α), l[i]? = some a →
    l.set i a = l := by
  intro l
  induction l with
  | nil => intro i a h; simp at h
  | cons x xs ih =>
    intro i a h
    cases i with
    | zero =>
      simp only [List.getElem?_cons_zero, Option.some.injEq] at h
      simp [h]
    | succ j =>
      simp only [List.getElem?_cons_succ] at h
      simp [ih j a h]

theorem setChildrenAt_self : ∀ (path : List Nat) (n : node) (tok : token) (cs : List node),
    n.at? path = some (.interior tok cs) → n.setChildrenAt path cs = n := by
  intro path
  induction path with
  | nil =>
    intro n tok cs h
    simp only [node.at?, Option.some.injEq] at h
    subst h
    simp [node.setChildrenAt]
  | cons i path ih =>
    intro n tok cs h
    cases n with
    | leaf tk => simp [node.at?] at h
    | interior tk ds =>
      simp only [node.at?] at h
      split at h
      · simp at h
      · rename_i c hc
        simp only [node.setChildrenAt, hc, ih c tok cs h]
        congr 1
        exact list_set_self ds i _ hc

/-- One turn of the loop over the occurrences leaves the subject alone when
the pattern matches the children of none of its interior nodes. -/
theorem replaceStep_no_match (pat : pattern) (replacement : node) (ad : Nat)
    (st : replaceState) (o : occurrence)
    (h : ∀ n ∈ nodesOf st.subject, n.isLeaf = false → pat.matchNodes n.children = none) :
    ∃ st', replaceStep pat replacement ad st o = some st' ∧ st'.subject = st.subject := by
  simp only [replaceStep]
  split
  · exact ⟨st, rfl, rfl⟩
  · split
    · exact ⟨st, rfl, rfl⟩
    · split
      · exact ⟨_, rfl, rfl⟩
      · rename_i n hn
        have hmem := at_mem_nodesOf _ _ _ hn
        cases n with
        | leaf tok =>
          simp only [node.children, List.length_nil, rewriteLoop, Nat.lt_irrefl, if_false,
            node.isLeaf, if_true]
          exact ⟨_, rfl, rfl⟩
        | interior tok cs =>
          have hno := h _ hmem rfl
          simp only [node.children] at hno
          have hloop : rewriteLoop pat replacement (cs.length + 1) 0 cs = some cs := by
            simp only [rewriteLoop, List.drop_zero, hno]
            split <;> rfl
          simp only [node.children, hloop, node.isLeaf, Bool.false_eq_true, if_false]
          exact ⟨_, rfl, setChildrenAt_self _ _ _ _ hn⟩

theorem replaceLoop_no_match (pat : pattern) (replacement : node) (ad : Nat) :
    ∀ (occ : List occurrence) (st : replaceState),
    (∀ n ∈ nodesOf st.subject, n.isLeaf = false → pat.matchNodes n.children = none) →
    ∃ st', replaceLoop pat replacement ad st occ = some st' ∧ st'.subject = st.subject := by
  intro occ
  induction occ with
  | nil => intro st _; exact ⟨st, rfl, rfl⟩
  | cons o occ ih =>
    intro st h
    obtain ⟨st1, e1, e2⟩ := replaceStep_no_match pat replacement ad st o h
    obtain ⟨st2, f1, f2⟩ := ih st1 (by rw [e2]; exact h)
    exact ⟨st2, by simp only [replaceLoop, e1, f1], by rw [f2, e2]⟩

/-- **C2** (non-match yields identity).  When the compiled pattern matches
the children list of no interior node of the subject, `replace` returns the
subject unchanged, whatever order `sort.Slice` puts the occurrences of the
anchor in; so for a subject parsed from the bytes `B` the serialized result
is `B`. -/
theorem replace_no_match (sort : List occurrence → List occurrence)
    (subject pat replacement : node)
    (h : ∀ n ∈ nodesOf subject, n.isLeaf = false →
      (makePattern pat).matchNodes n.children = none) :
    replaceWith sort subject pat replacement = some subject ∧
    ∀ B : List Nat, parse B = some subject →
      (replaceWith sort subject pat replacement).map node.serialize = some B := by
  have key : replaceWith sort subject pat replacement = some subject := by
    simp only [replaceWith]
    split
    · rfl
    · split
      · rfl
      · rename_i anchor _ _
        obtain ⟨st', e1, e2⟩ := replaceLoop_no_match (makePattern pat) replacement
          anchor.depth (sort ((leaves [] subject).filter
            (fun o => o.tok.text == anchor.tok.text))) ⟨subject, none⟩ h
        simp only [e1, Option.map_some', e2]
  refine ⟨key, fun B hB => ?_⟩
  rw [key, Option.map_some', serialize_of_parse B subject hB]

/-! ## The claims of the specification on concrete inputs -/

set_option maxRecDepth 100000

/-- Witness of `replace_no_match` (C2): subject `x(y,z)`, pattern `x($a,w)`,
replacement `$a`. -/
theorem replace_no_match_witness :
    (∀ n ∈ nodesOf (tree (bytesOf "x(y,z)")), n.isLeaf = false →
      (makePattern (tree (bytesOf "x($a,w)"))).matchNodes n.children = none) ∧
    replaceWith sortSlice (tree (bytesOf "x(y,z)")) (tree (bytesOf "x($a,w)"))
      (tree (bytesOf "$a")) = some (tree (bytesOf "x(y,z)")) ∧
    rewrite (bytesOf "x(y,z)") (bytesOf "x($a,w)") (bytesOf "$a") = some (bytesOf "x(y,z)") :=
  ⟨by decide!,
   (replace_no_match sortSlice (tree (bytesOf "x(y,z)")) (tree (bytesOf "x($a,w)"))
      (tree (bytesOf "$a")) (by decide!)).1,
   by decide!⟩

/-- **C3** (comment preservation fails).  Subject `/*foo*/0+(x)`, pattern
`0+$a`, replacement `$a`: the comment is attached to the leaf `0` of the
matched region, `copyComments` stores it in the `token` of the interior node
`(x)`, no leaf of its result carries it, and the serialized output is `(x)`. -/
theorem copyComments_loses_comment :
    (⟨COMMENT, 1, 1, bytesOf "/*foo*/"⟩ : rawToken)
      ∈ leafTrivia (tree (bytesOf "/*foo*/0+(x)")).children ∧
    (matchText (bytesOf "/*foo*/0+(x)") (bytesOf "0+$a")).map (fun m => (m.start, m.limit))
      = some (0, 3) ∧
    ((matchText (bytesOf "/*foo*/0+(x)") (bytesOf "0+$a")).bind (fun m =>
      (substitute m.vars (tree (bytesOf "$a"))).map (fun dst =>
        leafTrivia (copyComments (tree (bytesOf "/*foo*/0+(x)")).children dst)))) = some [] ∧
    rewrite (bytesOf "/*foo*/0+(x)") (bytesOf "0+$a") (bytesOf "$a") = some (bytesOf "(x)") := by
  decide!

/-- **C4** (boundary whitespace is lost).  Subject `F x`, pattern `F`,
replacement `X Y`: the space after `F` has line 1, column 2, as has the space
after `X` in the replacement, so `copyComments` takes it for copied already
and the output is `X Yx`; and on subject `\n0+(x)`, pattern `0+$a`,
replacement `$a` the leading newline is stored in an interior node and the
output is `(x)`. -/
theorem replace_loses_boundary_space :
    rewrite (bytesOf "F x") (bytesOf "F") (bytesOf "X Y") = some (bytesOf "X Yx") ∧
    rewrite (bytesOf "\n0+(x)") (bytesOf "0+$a") (bytesOf "$a") = some (bytesOf "(x)") := by
  decide!

/-- Witness of `substitute_concatenates` (C6): subject `f(a,b,c)`, pattern
`f($x*)`, replacement `g($x*,$x*)`. -/
theorem substitute_concatenates_witness :
    ∃ m : Match, matchText (bytesOf "f(a,b,c)") (bytesOf "f($x*)") = some m ∧
      (∀ tok ∈ leafTokens (tree (bytesOf "g($x*,$x*)")), isVar tok.ttype = true →
        (m.vars.find tok.text).isSome = true) ∧
      substitute m.vars (tree (bytesOf "g($x*,$x*)"))
        = some (substituteSpec m.vars (tree (bytesOf "g($x*,$x*)"))) ∧
      (substitute m.vars (tree (bytesOf "g($x*,$x*)"))).map serializeList
        = some (bytesOf "g(a,b,c,a,b,c)") :=
  ⟨((matchText (bytesOf "f(a,b,c)") (bytesOf "f($x*)")).getD ⟨[], 0, 0⟩), by decide!, by decide!,
   (substitute_concatenates _ _ (by decide!)).1, by decide!⟩

/-- **C9** (counterexample to the claim as stated).  Pattern `1+($a)` matches
subject `1+(x)` with extent 0..3 and binds `$a` to the leaf `x`, which is a
child of the third subject node and not one of the three subject siblings. -/
theorem match_captures_counterexample :
    matchText (bytesOf "1+(x)") (bytesOf "1+($a)")
      = some ⟨[(bytesOf "$a", [node.leaf ⟨WORD, 1, 4, bytesOf "x", [], []⟩])], 0, 3⟩ ∧
    ¬ isRunOf (tree (bytesOf "1+(x)")).children
        [node.leaf ⟨WORD, 1, 4, bytesOf "x", [], []⟩] 0 3 := by
  refine ⟨by decide!, ?_⟩
  rintro ⟨a, b, _, h2, h3, _, h5⟩
  have hb : b ≤ 3 := h3
  interval_cases b <;> interval_cases a <;> revert h5 <;> decide!

/-- **C10** (a matching run is missed).  Subject `a+b c+d x`, pattern
`c+$x $y`: the run `c+d x` of subject siblings 1 and 2 matches the pattern
list in the sense of the specification, but `match` reports no match: the
regular expression `(.)(.)` yields the single candidate 0..2, its first node
`a+b` fails the recursive match, and the next search starts at offset 2. -/
theorem match_misses_run :
    specMatchList (tree (bytesOf "c+$x $y")).children
      (slice (tree (bytesOf "a+b c+d x")).children 1 3) = true ∧
    (compileList (makePattern (tree (bytesOf "c+$x $y"))).runemap false
        (tree (bytesOf "c+$x $y")).children).findAllSubmatchIndex
      (encode (makePattern (tree (bytesOf "c+$x $y"))).runemap
        (tree (bytesOf "a+b c+d x")).children) = [⟨0, 2, [(0, 1), (1, 2)]⟩] ∧
    matchText (bytesOf "a+b c+d x") (bytesOf "c+$x $y") = none ∧
    rewrite (bytesOf "a+b c+d x") (bytesOf "c+$x $y") (bytesOf "$y")
      = some (bytesOf "a+b c+d x") := by
  decide!

/-! ## The tokenizer on words and single bytes -/

theorem wordByte_cases (b : Nat) (h : isWordByte b = true) :
    (97 ≤ b ∧ b ≤ 122) ∨ (65 ≤ b ∧ b ≤ 90) ∨ (48 ≤ b ∧ b ≤ 57) ∨ b = 95 := by
  simp only [isWordByte, inRange, Bool.or_eq_true, Bool.and_eq_true, decide_eq_true_eq,
    beq_iff_eq] at h
  omega

theorem scandata_word (b : Nat) (h : isWordByte b = true) :
    scandata b = [⟨[], END, some readWord⟩] := by
  have hc := wordByte_cases b h
  have h1 : isSpace b = false := by
    simp only [isSpace, Bool.or_eq_false_iff, beq_eq_false_iff_ne, ne_eq]
    omega
  have h2 : operators.filter (fun op => op.head? == some b) = [] := by
    simp only [operators, List.filter_eq_nil_iff, List.mem_cons, List.mem_singleton,
      beq_iff_eq, forall_eq_or_imp, forall_eq, List.head?_cons, Option.some.injEq,
      List.not_mem_nil, false_implies, implies_true, and_true]
    omega
  simp [scandata, scanBase, h1, h, h2]

theorem readWordFrom_append : ∀ (w rest : List Nat) (i : Nat),
    (∀ b ∈ w, isWordByte b = true) → endsWord rest →
    readWordFrom (w ++ rest) i = if rest = [] then none else some (i + w.length) := by
  intro w
  induction w with
  | nil =>
    intro rest i _ hr
    cases rest with
    | nil => simp [readWordFrom]
    | cons c r =>
      have : isWordByte c = false := hr c (by simp)
      simp [readWordFrom, this]
  | cons b w ih =>
    intro rest i hw hr
    have hb : isWordByte b = true := hw b (by simp)
    have := ih rest (i + 1) (fun x hx => hw x (by simp [hx])) hr
    rw [List.cons_append, readWordFrom]
    simp only [hb, Bool.not_true, Bool.false_eq_true, if_false, this, List.length_cons]
    split
    · rfl
    · congr 1; omega

theorem foldl_advance_word : ∀ (w : List Nat) (l c : Nat), (∀ b ∈ w, isWordByte b = true) →
    w.foldl advance (l, c) = (l, c + w.length) := by
  intro w
  induction w with
  | nil => intro l c _; rfl
  | cons b w ih =>
    intro l c hw
    have hc := wordByte_cases b (hw b (by simp))
    have h9 : b ≠ 9 := by omega
    have h10 : b ≠ 10 := by omega
    simp only [List.foldl_cons, advance, h9, h10, if_false]
    rw [ih (l) (c + 1) (fun x hx => hw x (by simp [hx]))]
    simp only [List.length_cons]
    congr 1
    omega

theorem readRaw_word (t : tokenizer) (w rest : List Nat) (hin : t.input = w ++ rest)
    (hw : isWord w) (hr : endsWord rest) :
    t.readRaw = (⟨WORD, t.line, t.column + 1, w⟩,
      { t with input := rest, column := t.column + w.length }) := by
  obtain ⟨hne, hall⟩ := hw
  cases w with
  | nil => exact absurd rfl hne
  | cons b w' =>
    have hb := hall b (by simp)
    have hscan : scan (b :: (w' ++ rest)) (scandata b) = (WORD, (b :: w').length) := by
      rw [scandata_word b hb]
      simp only [scan, List.length_nil, Nat.add_zero, List.length_cons, List.take_zero,
        beq_self_eq_true, Bool.and_true, readWord, List.drop_succ_cons, List.drop_zero]
      rw [readWordFrom_append w' rest 1 (fun x hx => hall x (by simp [hx])) hr]
      by_cases hr0 : rest = []
      · simp [hr0]
      · simp [hr0, Nat.add_comm]
    simp only [tokenizer.readRaw, hin, List.cons_append, hscan]
    have htake : List.take (b :: w').length (b :: (w' ++ rest)) = b :: w' := by
      have := List.take_left (b :: w') rest
      simp at this ⊢
    have hdrop : List.drop (b :: w').length (b :: (w' ++ rest)) = rest := by
      have := List.drop_left (b :: w') rest
      simp at this ⊢
    rw [htake, hdrop, foldl_advance_word (b :: w') _ _ hall]

theorem readRaw_plus (t : tokenizer) (rest : List Nat) (hin : t.input = 43 :: rest)
    (h1 : rest.head? ≠ some 61) (h2 : rest.head? ≠ some 43) :
    t.readRaw = (⟨OTHER, t.line, t.column + 1, [43]⟩,
      { t with input := rest, column := t.column + 1 }) := by
  have hsd : scandata 43 = [⟨[61], OTHER, none⟩, ⟨[43], OTHER, none⟩] := by
    simp [scandata, scanBase, isSpace, isWordByte, inRange, operators]
  have hscan : scan (43 :: rest) (scandata 43) = (OTHER, 1) := by
    rw [hsd]
    cases rest with
    | nil => simp [scan]
    | cons c r =>
      have c1 : c ≠ 61 := by simpa using h1
      have c2 : c ≠ 43 := by simpa using h2
      simp [scan, c1, c2]
  simp only [tokenizer.readRaw, hin, hscan]
  simp [advance]

theorem readRaw_open (t : tokenizer) (rest : List Nat) (hin : t.input = 40 :: rest) :
    t.readRaw = (⟨OPENER, t.line, t.column + 1, [40]⟩,
      { t with input := rest, column := t.column + 1 }) := by
  have hscan : scan (40 :: rest) (scandata 40) = (OPENER, 1) := by
    simp [scandata, scanBase, isSpace, isWordByte, inRange, operators, scan]
  simp only [tokenizer.readRaw, hin, hscan]
  simp [advance]

theorem readRaw_close (t : tokenizer) (rest : List Nat) (hin : t.input = 41 :: rest) :
    t.readRaw = (⟨CLOSER, t.line, t.column + 1, [41]⟩,
      { t with input := rest, column := t.column + 1 }) := by
  have hscan : scan (41 :: rest) (scandata 41) = (CLOSER, 1) := by
    simp [scandata, scanBase, isSpace, isWordByte, inRange, operators, scan]
  simp only [tokenizer.readRaw, hin, hscan]
  simp [advance]

/-- A `read` that meets no comment and no space: the token in `peek` is
returned without a suffix and the next raw token becomes `peek`. -/
theorem read_content (t : tokenizer) (hb : t.buffered = [])
    (hnt : isTrivia (t.readRaw).1.ttype = false) :
    t.read = (⟨t.peek.ttype, t.peek.line, t.peek.column, t.peek.text, [], []⟩,
      { (t.readRaw).2 with peek := (t.readRaw).1 }) := by
  have ht : { t with buffered := [] } = t := by
    cases t
    simp only at hb
    simp [hb]
  have hbuf := (readRaw_spec t).2.1
  simp only [tokenizer.read, ht, readLoop, hnt, Bool.not_false, if_true, hb]
  simp [hbuf, hb]

theorem lookingAt_tokState (input : List Nat) (ty : tokenType) (col : Nat) (text : List Nat)
    (e : Nat) (tokens : List (List Nat)) :
    lookingAt (tokState input ty col text e) tokens = tokens.any (fun s => text == s) := rfl

theorem read_tokState_word (w rest : List Nat) (ty : tokenType) (col : Nat) (text : List Nat)
    (e : Nat) (hw : isWord w) (hr : endsWord rest) :
    (tokState (w ++ rest) ty col text e).read
      = (⟨ty, 1, col, text, [], []⟩, tokState rest WORD (e + 1) w (e + w.length)) := by
  have h := readRaw_word (tokState (w ++ rest) ty col text e) w rest rfl hw hr
  rw [read_content _ rfl (by rw [h]; rfl), h]
  rfl

theorem read_tokState_plus (rest : List Nat) (ty : tokenType) (col : Nat) (text : List Nat)
    (e : Nat) (h1 : rest.head? ≠ some 61) (h2 : rest.head? ≠ some 43) :
    (tokState (43 :: rest) ty col text e).read
      = (⟨ty, 1, col, text, [], []⟩, tokState rest OTHER (e + 1) [43] (e + 1)) := by
  have h := readRaw_plus (tokState (43 :: rest) ty col text e) rest rfl h1 h2
  rw [read_content _ rfl (by rw [h]; rfl), h]
  rfl

theorem read_tokState_open (rest : List Nat) (ty : tokenType) (col : Nat) (text : List Nat)
    (e : Nat) :
    (tokState (40 :: rest) ty col text e).read
      = (⟨ty, 1, col, text, [], []⟩, tokState rest OPENER (e + 1) [40] (e + 1)) := by
  have h := readRaw_open (tokState (40 :: rest) ty col text e) rest rfl
  rw [read_content _ rfl (by rw [h]; rfl), h]
  rfl

theorem read_tokState_close (rest : List Nat) (ty : tokenType) (col : Nat) (text : List Nat)
    (e : Nat) :
    (tokState (41 :: rest) ty col text e).read
      = (⟨ty, 1, col, text, [], []⟩, tokState rest CLOSER (e + 1) [41] (e + 1)) := by
  have h := readRaw_close (tokState (41 :: rest) ty col text e) rest rfl
  rw [read_content _ rfl (by rw [h]; rfl), h]
  rfl

theorem read_tokState_end (ty : tokenType) (col : Nat) (text : List Nat) (e : Nat) :
    (tokState [] ty col text e).read
      = (⟨ty, 1, col, text, [], []⟩, tokState [] END (e + 1) [] e) := by
  rw [read_content _ rfl (by rfl)]
  rfl

theorem newTokenizer_word (w rest : List Nat) (hw : isWord w) (hr : endsWord rest) :
    newTokenizer (w ++ rest) = tokState rest WORD 1 w w.length := by
  have h := readRaw_word ⟨w ++ rest, [], ⟨END, 0, 0, []⟩, 1, 0⟩ w rest rfl hw hr
  simp only [newTokenizer, newTokenizerLoop, h]
  simp [isTrivia, tokState]

theorem word_ne_of_notWordByte (w : List Nat) (hw : isWord w) (s : List Nat)
    (hs : ∃ b ∈ s, isWordByte b = false) : (w == s) = false := by
  rw [beq_eq_false_iff_ne]
  intro h
  obtain ⟨b, hb, hb2⟩ := hs
  rw [← h] at hb
  rw [hw.2 b hb] at hb2
  exact absurd hb2 (by simp)

theorem endsWord_cons (c : Nat) (r : List Nat) (h : isWordByte c = false) :
    endsWord (c :: r) := by
  intro x hx
  simp only [List.head?_cons, Option.mem_def, Option.some.injEq] at hx
  rw [← hx]
  exact h

/-! ## The parser on `A+(B+C)` -/

theorem unary_atom (k : Nat) (t : tokenizer)
    (h1 : lookingAt t [[38], [42], [33], [126], [43], [45], [43, 43], [45, 45]] = false)
    (h2 : lookingAt t openers = false)
    (h3 : lookingAt (t.read).2 [[43, 43], [45, 45], [46], [45, 62]] = false)
    (h4 : lookingAt (t.read).2 openers = false) :
    unary (k + 4) t = some (.leaf (t.read).1, (t.read).2) := by
  simp [unary, suffix, term, suffixLoop, h1, h2, h3, h4]

theorem parseLeft_pass (sub : parserFn) (tokens : List (List Nat)) (k : Nat) (t t1 : tokenizer)
    (n : node) (hs : sub t = some (n, t1)) (hl : lookingAt t1 tokens = false) :
    parseLeft sub tokens (k + 1) t = some (n, t1) := by
  simp [parseLeft, hs, parseLeftLoop, hl]

theorem parseLeft_once (sub : parserFn) (tokens : List (List Nat)) (k : Nat)
    (t t1 t2 : tokenizer) (l r : node) (hs : sub t = some (l, t1))
    (hl : lookingAt t1 tokens = true) (hr : sub (t1.read).2 = some (r, t2))
    (hl2 : lookingAt t2 tokens = false) :
    parseLeft sub tokens (k + 2) t
      = some (.interior token.zero [l, .leaf (t1.read).1, r], t2) := by
  simp [parseLeft, hs, parseLeftLoop, hl, hr, hl2]

theorem upper_pass (un : parserFn) (k : Nat) (t t1 : tokenizer) (n : node)
    (hs : plus un (k + 1) t = some (n, t1))
    (hl : ∀ ops ∈ upperOps, lookingAt t1 ops = false) :
    oror un (k + 1) t = some (n, t1) := by
  have a1 : shift un (k + 1) t = some (n, t1) :=
    parseLeft_pass (plus un (k + 1)) [[60, 60], [62, 62]] k t t1 n hs
      (hl _ (by simp [upperOps]))
  have a2 : cmp un (k + 1) t = some (n, t1) :=
    parseLeft_pass (shift un (k + 1)) [[60], [60, 61], [62], [62, 61]] k t t1 n a1
      (hl _ (by simp [upperOps]))
  have a3 : eq un (k + 1) t = some (n, t1) :=
    parseLeft_pass (cmp un (k + 1)) [[61, 61], [33, 61]] k t t1 n a2
      (hl _ (by simp [upperOps]))
  have a4 : bitand un (k + 1) t = some (n, t1) :=
    parseLeft_pass (eq un (k + 1)) [[38]] k t t1 n a3 (hl _ (by simp [upperOps]))
  have a5 : bitxor un (k + 1) t = some (n, t1) :=
    parseLeft_pass (bitand un (k + 1)) [[94]] k t t1 n a4 (hl _ (by simp [upperOps]))
  have a6 : bitor un (k + 1) t = some (n, t1) :=
    parseLeft_pass (bitxor un (k + 1)) [[124]] k t t1 n a5 (hl _ (by simp [upperOps]))
  have a7 : andand un (k + 1) t = some (n, t1) :=
    parseLeft_pass (bitor un (k + 1)) [[38, 38]] k t t1 n a6 (hl _ (by simp [upperOps]))
  exact parseLeft_pass (andand un (k + 1)) [[124, 124]] k t t1 n a7
    (hl _ (by simp [upperOps]))

theorem assign_pass (k : Nat) (t t1 : tokenizer) (n : node)
    (hs : oror (unary (k + 1)) (k + 1) t = some (n, t1))
    (hl : lookingAt t1 assignOps = false) :
    assign (k + 2) t = some (n, t1) := by
  simp [assign, parseRight, hs, hl]

theorem lookingAt_word_false (input : List Nat) (ty : tokenType) (col : Nat) (w : List Nat)
    (e : Nat) (hw : isWord w) (tokens : List (List Nat))
    (h : ∀ s ∈ tokens, ∃ b ∈ s, isWordByte b = false) :
    lookingAt (tokState input ty col w e) tokens = false := by
  rw [lookingAt_tokState, List.any_eq_false]
  intro s hs
  rw [word_ne_of_notWordByte w hw s (h s hs)]
  simp

theorem word_head (w rest : List Nat) (hw : isWord w) (x : Nat)
    (hx : isWordByte x = false) : (w ++ rest).head? ≠ some x := by
  obtain ⟨hne, hall⟩ := hw
  cases w with
  | nil => exact absurd rfl hne
  | cons b w' =>
    simp only [List.cons_append, List.head?_cons, ne_eq, Option.some.injEq]
    intro h
    have := hall b (by simp)
    rw [h, hx] at this
    exact absurd this (by simp)

theorem upper_close (input : List Nat) (col e : Nat) :
    ∀ ops ∈ upperOps, lookingAt (tokState input CLOSER col [41] e) ops = false := by
  intro ops hops
  rw [lookingAt_tokState]
  revert ops
  decide

theorem upper_end (input : List Nat) (col e : Nat) :
    ∀ ops ∈ upperOps, lookingAt (tokState input END col [] e) ops = false := by
  intro ops hops
  rw [lookingAt_tokState]
  revert ops
  decide

theorem term_group (k : Nat) (t t2 : tokenizer) (cs : List node)
    (h1 : lookingAt t openers = true)
    (h2 : readExprs k (t.read).2 (closerFor t.peek.text) = some (cs, t2))
    (h3 : lookingAt t2 [closerFor t.peek.text] = true) :
    term (k + 1) t
      = some (.interior token.zero ([.leaf (t.read).1] ++ cs ++ [.leaf (t2.read).1]),
          (t2.read).2) := by
  simp only [term, h1, if_true, h2, h3]

theorem unary_of_term (k : Nat) (t t1 : tokenizer) (n : node)
    (h1 : lookingAt t [[38], [42], [33], [126], [43], [45], [43, 43], [45, 45]] = false)
    (h2 : term (k + 1) t = some (n, t1))
    (h3 : lookingAt t1 [[43, 43], [45, 45], [46], [45, 62]] = false)
    (h4 : lookingAt t1 openers = false) :
    unary (k + 3) t = some (n, t1) := by
  simp [unary, suffix, suffixLoop, h1, h2, h3, h4]

theorem readExprs_stop (k : Nat) (t : tokenizer) (closer : List Nat)
    (h : t.peek.ttype = END ∨ lookingAt t [closer] = true) :
    readExprs (k + 1) t closer = some ([], t) := by
  simp only [readExprs]
  rw [if_neg]
  rintro ⟨h1, h2⟩
  rcases h with h | h
  · exact h1 h
  · rw [h] at h2
    simp at h2

theorem readExprs_one (k : Nat) (t t1 : tokenizer) (closer : List Nat) (n : node)
    (h1 : t.peek.ttype ≠ END) (h2 : lookingAt t [closer] = false)
    (h3 : assign (k + 1) t = some (n, t1))
    (h4 : t1.peek.ttype = END ∨ lookingAt t1 [closer] = true) :
    readExprs (k + 2) t closer = some ([n], t1) := by
  simp only [readExprs]
  rw [if_pos ⟨h1, by simp [h2]⟩, h3]
  have := readExprs_stop k t1 closer h4
  simp only [readExprs] at this
  simp only [this]

/-- The parser on `A+(B+C)` for words `A`, `B`, `C`. -/
theorem parse_exprABC (A B C : List Nat) (hA : isWord A) (hB : isWord B) (hC : isWord C) :
    parse (exprABC A B C) = some (treeABC A B C) := by
  -- the states of the tokenizer, one per token
  have e0 := newTokenizer_word A (43 :: 40 :: (B ++ (43 :: (C ++ [41])))) hA
    (endsWord_cons 43 _ (by decide))
  have r0 := read_tokState_plus (40 :: (B ++ (43 :: (C ++ [41])))) WORD 1 A A.length
    (by simp) (by simp)
  have r1 := read_tokState_open (B ++ (43 :: (C ++ [41]))) OTHER (A.length + 1) [43]
    (A.length + 1)
  have r2 := read_tokState_word B (43 :: (C ++ [41])) OPENER (A.length + 1 + 1) [40]
    (A.length + 1 + 1) hB (endsWord_cons 43 _ (by decide))
  have r3 := read_tokState_plus (C ++ [41]) WORD (A.length + 1 + 1 + 1) B
    (A.length + 1 + 1 + B.length) (word_head C [41] hC 61 (by decide))
    (word_head C [41] hC 43 (by decide))
  have r4 := read_tokState_word C [41] OTHER (A.length + 1 + 1 + B.length + 1) [43]
    (A.length + 1 + 1 + B.length + 1) hC (endsWord_cons 41 _ (by decide))
  have r5 := read_tokState_close [] WORD (A.length + 1 + 1 + B.length + 1 + 1) C
    (A.length + 1 + 1 + B.length + 1 + C.length)
  have r6 := read_tokState_end CLOSER (A.length + 1 + 1 + B.length + 1 + C.length + 1) [41]
    (A.length + 1 + 1 + B.length + 1 + C.length + 1)
  have r7 := read_tokState_end END (A.length + 1 + 1 + B.length + 1 + C.length + 1 + 1) []
    (A.length + 1 + 1 + B.length + 1 + C.length + 1)
  -- the fuel
  obtain ⟨j, hj⟩ : ∃ j, parseFuel (exprABC A B C) = j + 40 := by
    refine ⟨parseFuel (exprABC A B C) - 40, ?_⟩
    have h1 := length_pos_of_ne_nil A hA.1
    have h2 := length_pos_of_ne_nil B hB.1
    have h3 := length_pos_of_ne_nil C hC.1
    simp only [parseFuel, exprABC, List.length_append, List.length_cons, List.length_nil]
    omega
  -- the inner sum `B+C`
  have uB := unary_atom (j + 29) _ (lookingAt_word_false (43 :: (C ++ [41])) WORD
      (A.length + 1 + 1 + 1) B (A.length + 1 + 1 + B.length) hB _ (by decide))
    (lookingAt_word_false _ _ _ _ _ hB _ (by decide)) (by rw [r3]; rfl) (by rw [r3]; rfl)
  rw [r3] at uB
  have mB := parseLeft_pass (unary (j + 33)) [[42], [47], [37]] (j + 32) _ _ _ uB (by rfl)
  have uC := unary_atom (j + 29) _ (lookingAt_word_false [41] WORD
      (A.length + 1 + 1 + B.length + 1 + 1) C (A.length + 1 + 1 + B.length + 1 + C.length)
      hC _ (by decide))
    (lookingAt_word_false _ _ _ _ _ hC _ (by decide)) (by rw [r5]; rfl) (by rw [r5]; rfl)
  rw [r5] at uC
  have mC := parseLeft_pass (unary (j + 33)) [[42], [47], [37]] (j + 32) _ _ _ uC (by rfl)
  have pBC := parseLeft_once (mult (unary (j + 33)) (j + 33)) [[43], [45]] (j + 31) _ _ _ _ _
    mB (by rfl) (by rw [r4]; exact mC) (by rfl)
  rw [r4] at pBC
  have oBC := upper_pass (unary (j + 33)) (j + 32) _ _ _ pBC (upper_close _ _ _)
  have aBC := assign_pass (j + 32) _ _ _ oBC (by rfl)
  -- the group `(B+C)`
  have xBC := readExprs_one (j + 33) _ _ [41] _ (by simp [tokState])
    (lookingAt_word_false _ _ _ _ _ hB _ (by decide)) aBC (Or.inr (by rfl))
  have tP := term_group (j + 35) (tokState (B ++ (43 :: (C ++ [41]))) OPENER
      (A.length + 1 + 1) [40] (A.length + 1 + 1)) _ _ (by rfl)
    (by rw [r2]; exact xBC) (by rfl)
  rw [r2, r6] at tP
  have uP := unary_of_term (j + 35) _ _ _ (by rfl) tP (by rfl) (by rfl)
  have mP := parseLeft_pass (unary (j + 38)) [[42], [47], [37]] (j + 37) _ _ _ uP (by rfl)
  -- the sum `A+(B+C)`
  have uA := unary_atom (j + 34) _ (lookingAt_word_false
      (43 :: 40 :: (B ++ (43 :: (C ++ [41])))) WORD 1 A A.length hA _ (by decide))
    (lookingAt_word_false _ _ _ _ _ hA _ (by decide)) (by rw [r0]; rfl) (by rw [r0]; rfl)
  rw [r0] at uA
  have mA := parseLeft_pass (unary (j + 38)) [[42], [47], [37]] (j + 37) _ _ _ uA (by rfl)
  have pA := parseLeft_once (mult (unary (j + 38)) (j + 38)) [[43], [45]] (j + 36) _ _ _ _ _
    mA (by rfl) (by rw [r1]; exact mP) (by rfl)
  rw [r1] at pA
  have oA := upper_pass (unary (j + 38)) (j + 37) _ _ _ pA (upper_end _ _ _)
  have aA := assign_pass (j + 37) _ _ _ oA (by rfl)
  have xA := readExprs_one (j + 38) _ _ [] _ (by simp [tokState])
    (by rw [lookingAt_tokState]; simp [hA.1]) aA (Or.inl (by rfl))
  -- the root
  have e0' : newTokenizer (exprABC A B C)
      = tokState (43 :: 40 :: (B ++ (43 :: (C ++ [41])))) WORD 1 A A.length := e0
  rw [parse, hj, e0']
  simp only [root, xA, rootOf, r7]
  rfl

/-! ## The rewriter on `A+(B+C)` -/

set_option maxRecDepth 100000 in
theorem parse_patAB : parse (bytesOf "$a+$b") = some patAB := by decide!
set_option maxRecDepth 100000 in
theorem parse_repBA : parse (bytesOf "$b+$a") = some repBA := by decide!

theorem makePattern_patAB : makePattern patAB = ⟨patAB.children, false, [([43], 128)]⟩ := by
  rfl

theorem matchNodes_triple (x y : node) (col : Nat)
    (hx : symbolOf [([43], 128)] x = 95) (hy : symbolOf [([43], 128)] y = 95) :
    (makePattern patAB).matchNodes [x, .leaf ⟨OTHER, 1, col, [43], [], []⟩, y]
      = some ⟨[([36, 98], [y]), ([36, 97], [x])], 0, 3⟩ := by
  have henc : encode [([43], 128)] [x, .leaf ⟨OTHER, 1, col, [43], [], []⟩, y]
      = [95, 128, 95] := by
    simp only [encode, List.map_cons, List.map_nil, hx, hy]
    rfl
  have hall : (compileList [([43], 128)] false patAB.children).findAllSubmatchIndex
      [95, 128, 95] = [⟨0, 3, [(0, 1), (1, 2), (2, 3)]⟩] := by decide
  rw [makePattern_patAB]
  simp only [pattern.matchNodes, henc, hall]
  simp only [List.findSome?, patAB, node.children, bindNodes, isVar]
  rfl

theorem substitute_repBA (x y : node) :
    substitute [([36, 98], [y]), ([36, 97], [x])] repBA
      = some [y, .leaf ⟨OTHER, 1, 3, [43], [], []⟩, x] := by
  simp only [repBA, substitute, substituteList, varmap.find, map_clone]
  rfl

theorem rewriteLoop_triple (k : Nat) (x y : node) (col : Nat)
    (hx : symbolOf [([43], 128)] x = 95) (hy : symbolOf [([43], 128)] y = 95)
    (hcc : copyComments [x, .leaf ⟨OTHER, 1, col, [43], [], []⟩, y]
        [y, .leaf ⟨OTHER, 1, 3, [43], [], []⟩, x] = [y, .leaf ⟨OTHER, 1, 3, [43], [], []⟩, x]) :
    rewriteLoop (makePattern patAB) repBA (k + 2) 0
        [x, .leaf ⟨OTHER, 1, col, [43], [], []⟩, y]
      = some [y, .leaf ⟨OTHER, 1, 3, [43], [], []⟩, x] := by
  have hm := matchNodes_triple x y col hx hy
  have hs := substitute_repBA x y
  rw [rewriteLoop]
  have h0 : (0 : Nat) < [x, node.leaf ⟨OTHER, 1, col, [43], [], []⟩, y].length := by simp
  rw [if_pos h0, List.drop_zero, hm]
  simp only [hs]
  have hsl : slice [x, node.leaf ⟨OTHER, 1, col, [43], [], []⟩, y] (0 + 0) (0 + 3)
      = [x, node.leaf ⟨OTHER, 1, col, [43], [], []⟩, y] := rfl
  rw [hsl, hcc]
  rw [rewriteLoop]
  rfl
theorem symbolOf_word (w : List Nat) (hw : isWord w) (ty : tokenType) (l c : Nat) :
    symbolOf [([43], 128)] (.leaf ⟨ty, l, c, w, [], []⟩) = 95 := by
  have h : ([43] == w) = false := by
    rw [beq_eq_false_iff_ne]
    intro h
    have := word_ne_of_notWordByte w hw [43] (by decide)
    rw [← h] at this
    simp at this
  simp [symbolOf, runemap.find, List.find?, h]

theorem replace_treeABC (A B C : List Nat) (hA : isWord A) (hB : isWord B) (hC : isWord C) :
    replace (treeABC A B C) patAB repBA = some (outABC A B C) := by
  have hA' := word_ne_of_notWordByte A hA [43] (by decide)
  have hB' := word_ne_of_notWordByte B hB [43] (by decide)
  have hC' := word_ne_of_notWordByte C hC [43] (by decide)
  have hleaves : leaves [] (treeABC A B C) =
      [⟨[0], ⟨WORD, 1, 1, A, [], []⟩⟩, ⟨[1], ⟨OTHER, 1, A.length + 1, [43], [], []⟩⟩,
       ⟨[2, 0], ⟨OPENER, 1, A.length + 1 + 1, [40], [], []⟩⟩,
       ⟨[2, 1, 0], ⟨WORD, 1, A.length + 1 + 1 + 1, B, [], []⟩⟩,
       ⟨[2, 1, 1], ⟨OTHER, 1, A.length + 1 + 1 + B.length + 1, [43], [], []⟩⟩,
       ⟨[2, 1, 2], ⟨WORD, 1, A.length + 1 + 1 + B.length + 1 + 1, C, [], []⟩⟩,
       ⟨[2, 2], ⟨CLOSER, 1, A.length + 1 + 1 + B.length + 1 + C.length + 1, [41], [], []⟩⟩] := by
    rfl
  have hocc : (leaves [] (treeABC A B C)).filter (fun o => o.tok.text == [43]) =
      [⟨[1], ⟨OTHER, 1, A.length + 1, [43], [], []⟩⟩,
       ⟨[2, 1, 1], ⟨OTHER, 1, A.length + 1 + 1 + B.length + 1, [43], [], []⟩⟩] := by
    rw [hleaves]
    simp [List.filter, hA', hB', hC']
  have hanchor : ((leaves [] patAB).foldl
      (pickAnchor (fun text =>
        ((leaves [] (treeABC A B C)).filter (fun o => o.tok.text == text)).length))
      (none, 1000000000)).1 = some ⟨[1], ⟨OTHER, 1, 3, [43], [], []⟩⟩ := by
    have hl : leaves [] patAB = [⟨[0], ⟨VAR, 1, 1, [36, 97], [], []⟩⟩,
        ⟨[1], ⟨OTHER, 1, 3, [43], [], []⟩⟩, ⟨[2], ⟨VAR, 1, 4, [36, 98], [], []⟩⟩] := rfl
    rw [hl]
    simp only [List.foldl, pickAnchor, hocc]
    rfl
  have hsort : sortSlice [⟨[1], ⟨OTHER, 1, A.length + 1, [43], [], []⟩⟩,
       ⟨[2, 1, 1], ⟨OTHER, 1, A.length + 1 + 1 + B.length + 1, [43], [], []⟩⟩]
       = [⟨[2, 1, 1], ⟨OTHER, 1, A.length + 1 + 1 + B.length + 1, [43], [], []⟩⟩,
          ⟨[1], ⟨OTHER, 1, A.length + 1, [43], [], []⟩⟩] := by
    rfl
  -- the inner list `B+C`, reached from the deeper `+`
  have hin := rewriteLoop_triple 2 (.leaf ⟨WORD, 1, A.length + 1 + 1 + 1, B, [], []⟩)
    (.leaf ⟨WORD, 1, A.length + 1 + 1 + B.length + 1 + 1, C, [], []⟩)
    (A.length + 1 + 1 + B.length + 1) (symbolOf_word B hB _ _ _) (symbolOf_word C hC _ _ _) rfl
  have step1 : replaceStep (makePattern patAB) repBA 1 ⟨treeABC A B C, none⟩
      ⟨[2, 1, 1], ⟨OTHER, 1, A.length + 1 + 1 + B.length + 1, [43], [], []⟩⟩
      = some ⟨(treeABC A B C).setChildrenAt [2, 1]
          [.leaf ⟨WORD, 1, A.length + 1 + 1 + B.length + 1 + 1, C, [], []⟩,
           .leaf ⟨OTHER, 1, 3, [43], [], []⟩,
           .leaf ⟨WORD, 1, A.length + 1 + 1 + 1, B, [], []⟩], some [2, 1]⟩ := by
    have hat : (treeABC A B C).at? [2, 1] = some (.interior token.zero
        [.leaf ⟨WORD, 1, A.length + 1 + 1 + 1, B, [], []⟩,
         .leaf ⟨OTHER, 1, A.length + 1 + 1 + B.length + 1, [43], [], []⟩,
         .leaf ⟨WORD, 1, A.length + 1 + 1 + B.length + 1 + 1, C, [], []⟩]) := rfl
    simp only [replaceStep, occurrence.depth, List.length_cons, List.length_nil]
    rw [if_neg (by omega), if_neg (by simp)]
    simp only [Nat.reduceAdd, Nat.reduceSub, List.take_succ_cons, List.take_zero, hat,
      node.children, List.length_cons, List.length_nil, hin, node.isLeaf]
    rfl
  -- the outer list, reached from the first `+`
  have hout := rewriteLoop_triple 2 (.leaf ⟨WORD, 1, 1, A, [], []⟩)
    (.interior token.zero
       [.leaf ⟨OPENER, 1, A.length + 1 + 1, [40], [], []⟩,
        .interior token.zero
          [.leaf ⟨WORD, 1, A.length + 1 + 1 + B.length + 1 + 1, C, [], []⟩,
           .leaf ⟨OTHER, 1, 3, [43], [], []⟩,
           .leaf ⟨WORD, 1, A.length + 1 + 1 + 1, B, [], []⟩],
        .leaf ⟨CLOSER, 1, A.length + 1 + 1 + B.length + 1 + C.length + 1, [41], [], []⟩])
    (A.length + 1) (symbolOf_word A hA _ _ _) rfl rfl
  have step2 : replaceStep (makePattern patAB) repBA 1
      ⟨(treeABC A B C).setChildrenAt [2, 1]
          [.leaf ⟨WORD, 1, A.length + 1 + 1 + B.length + 1 + 1, C, [], []⟩,
           .leaf ⟨OTHER, 1, 3, [43], [], []⟩,
           .leaf ⟨WORD, 1, A.length + 1 + 1 + 1, B, [], []⟩], some [2, 1]⟩
      ⟨[1], ⟨OTHER, 1, A.length + 1, [43], [], []⟩⟩
      = some ⟨outABC A B C, some []⟩ := by
    simp only [replaceStep, occurrence.depth, List.length_cons, List.length_nil]
    rw [if_neg (by omega), if_neg (by simp)]
    have hat : ((treeABC A B C).setChildrenAt [2, 1]
          [.leaf ⟨WORD, 1, A.length + 1 + 1 + B.length + 1 + 1, C, [], []⟩,
           .leaf ⟨OTHER, 1, 3, [43], [], []⟩,
           .leaf ⟨WORD, 1, A.length + 1 + 1 + 1, B, [], []⟩]).at? [] = some (.interior token.zero
        [.leaf ⟨WORD, 1, 1, A, [], []⟩,
         .leaf ⟨OTHER, 1, A.length + 1, [43], [], []⟩,
         .interior token.zero
           [.leaf ⟨OPENER, 1, A.length + 1 + 1, [40], [], []⟩,
            .interior token.zero
              [.leaf ⟨WORD, 1, A.length + 1 + 1 + B.length + 1 + 1, C, [], []⟩,
               .leaf ⟨OTHER, 1, 3, [43], [], []⟩,
               .leaf ⟨WORD, 1, A.length + 1 + 1 + 1, B, [], []⟩],
            .leaf ⟨CLOSER, 1, A.length + 1 + 1 + B.length + 1 + C.length + 1, [41], [], []⟩]]) :=
      rfl
    simp only [Nat.reduceAdd, Nat.reduceSub, List.take_zero, hat,
      node.children, List.length_cons, List.length_nil, hout, node.isLeaf]
    rfl
  simp only [replace, replaceWith, hanchor, hocc, hsort]
  rw [if_neg (by simp)]
  simp only [replaceLoop, occurrence.depth, List.length_cons, List.length_nil, Nat.reduceAdd,
    step1, step2, Option.map_some']

/-- **C8** (bottom-up application).  The occurrences of the anchor are handled
in the order `sort.Slice` leaves them in, which is by non-increasing depth;
and for all words `A`, `B`, `C` a single `replace` with pattern `$a+$b` and
replacement `$b+$a` turns the subject `A+(B+C)` into `(C+B)+A`: the inner sum
is rewritten first and the outer match captures the rewritten group. -/
theorem replace_bottom_up (A B C : List Nat) (hA : isWord A) (hB : isWord B) (hC : isWord C) :
    (∀ occ : List occurrence,
      (sortSlice occ).Sorted (fun a b => a.depth ≥ b.depth) ∧ (sortSlice occ).Perm occ) ∧
    rewrite (exprABC A B C) (bytesOf "$a+$b") (bytesOf "$b+$a")
      = some ([40] ++ C ++ [43] ++ B ++ [41, 43] ++ A) := by
  constructor
  · intro occ
    haveI : IsTotal occurrence (fun a b => a.depth ≥ b.depth) :=
      ⟨fun a b => Nat.le_total b.depth a.depth⟩
    haveI : IsTrans occurrence (fun a b => a.depth ≥ b.depth) :=
      ⟨fun a b c hab hbc => Nat.le_trans hbc hab⟩
    exact ⟨List.sorted_insertionSort _ occ, List.perm_insertionSort _ occ⟩
  · simp only [rewrite, parse_exprABC A B C hA hB hC, parse_patAB, parse_repBA,
      replace_treeABC A B C hA hB hC, Option.map_some']
    simp [outABC, node.serialize, serializeList, token.bytes, triviaText]

set_option maxRecDepth 100000 in
/-- Witness of `replace_bottom_up` (C8): the words `x`, `y`, `z`; `x+(y+z)`
becomes `(z+y)+x`. -/
theorem replace_bottom_up_witness :
    isWord (bytesOf "x") ∧ isWord (bytesOf "y") ∧ isWord (bytesOf "z") ∧
    exprABC (bytesOf "x") (bytesOf "y") (bytesOf "z") = bytesOf "x+(y+z)" ∧
    rewrite (bytesOf "x+(y+z)") (bytesOf "$a+$b") (bytesOf "$b+$a") = some (bytesOf "(z+y)+x") :=
  ⟨⟨by decide, by decide⟩, ⟨by decide, by decide⟩, ⟨by decide, by decide⟩, by decide,
   (replace_bottom_up (bytesOf "x") (bytesOf "y") (bytesOf "z") ⟨by decide, by decide⟩
      ⟨by decide, by decide⟩ ⟨by decide, by decide⟩).2⟩

/-! ## Invariants of the tokenizer carried through the parser -/

theorem leafTokens_interior (tok : token) (cs : List node) :
    leafTokens (.interior tok cs) = leafTokensList cs := by
  simp [leafTokens]

theorem leafTokens_leaf (tok : token) : leafTokens (.leaf tok) = [tok] := by
  simp [leafTokens]

theorem leafTokensList_append (a b : List node) :
    leafTokensList (a ++ b) = leafTokensList a ++ leafTokensList b := by
  induction a with
  | nil => simp [leafTokensList]
  | cons c cs ih => simp [leafTokensList, ih]

theorem leafTokensList_cons (c : node) (cs : List node) :
    leafTokensList (c :: cs) = leafTokens c ++ leafTokensList cs := by
  simp [leafTokensList]

theorem leafTokensList_mem (tok : token) : ∀ cs : List node,
    tok ∈ leafTokensList cs ↔ ∃ c ∈ cs, tok ∈ leafTokens c := by
  intro cs
  induction cs with
  | nil => simp [leafTokensList]
  | cons c cs ih => simp [leafTokensList, ih]

theorem allLeaves_interior (Q : token → Prop) (tok : token) (cs : List node)
    (h : ∀ c ∈ cs, allLeaves Q c) : allLeaves Q (.interior tok cs) := by
  intro tk htk
  rw [leafTokens_interior, leafTokensList_mem] at htk
  obtain ⟨c, hc, hm⟩ := htk
  exact h c hc tk hm

theorem allLeaves_leaf (Q : token → Prop) (tok : token) (h : Q tok) :
    allLeaves Q (.leaf tok) := by
  intro tk htk
  rw [leafTokens_leaf, List.mem_singleton] at htk
  rw [htk]; exact h

theorem allLeaves_of_list (Q : token → Prop) (cs : List node)
    (h : ∀ tok ∈ leafTokensList cs, Q tok) : ∀ c ∈ cs, allLeaves Q c := by
  intro c hc tok htok
  exact h tok ((leafTokensList_mem tok cs).2 ⟨c, hc, htok⟩)

theorem allLeaves_three (Q : token → Prop) (a c : node) (op : token)
    (ha : allLeaves Q a) (hop : Q op) (hc : allLeaves Q c) :
    allLeaves Q (.interior token.zero [a, .leaf op, c]) := by
  refine allLeaves_interior Q _ _ ?_
  intro x hx
  simp only [List.mem_cons, List.mem_singleton, List.not_mem_nil, or_false] at hx
  rcases hx with rfl | rfl | rfl
  · exact ha
  · exact allLeaves_leaf Q _ hop
  · exact hc

theorem parseLeftLoop_keeps (K : tokenizer → Prop) (Q : token → Prop)
    (hread : ∀ t, K t → Q (t.read).1 ∧ K (t.read).2)
    (sub : parserFn) (tokens : List (List Nat)) (hsub : parserKeeps K Q sub) :
    ∀ (k : Nat) (left : node) (t : tokenizer) (n : node) (t' : tokenizer), K t →
      allLeaves Q left → parseLeftLoop sub tokens k left t = some (n, t') →
      allLeaves Q n ∧ K t' := by
  intro k
  induction k with
  | zero => intro left t n t' _ _ h; simp [parseLeftLoop] at h
  | succ k ih =>
    intro left t n t' hK hl h
    simp only [parseLeftLoop] at h
    split at h
    · obtain ⟨q1, q2⟩ := hread t hK
      split at h
      · simp at h
      · rename_i r t2 hr
        obtain ⟨s1, s2⟩ := hsub _ _ _ q2 hr
        exact ih _ _ _ _ s2 (allLeaves_three Q _ _ _ hl q1 s1) h
    · simp only [Option.some.injEq, Prod.mk.injEq] at h
      obtain ⟨rfl, rfl⟩ := h
      exact ⟨hl, hK⟩

theorem parseLeft_keeps (K : tokenizer → Prop) (Q : token → Prop)
    (hread : ∀ t, K t → Q (t.read).1 ∧ K (t.read).2)
    (sub : parserFn) (tokens : List (List Nat)) (k : Nat) (hsub : parserKeeps K Q sub) :
    parserKeeps K Q (parseLeft sub tokens k) := by
  intro t n t' hK h
  simp only [parseLeft] at h
  split at h
  · simp at h
  · rename_i left t1 hl
    obtain ⟨s1, s2⟩ := hsub _ _ _ hK hl
    exact parseLeftLoop_keeps K Q hread sub tokens hsub k left t1 n t' s2 s1 h

theorem parseRight_keeps (K : tokenizer → Prop) (Q : token → Prop)
    (hread : ∀ t, K t → Q (t.read).1 ∧ K (t.read).2)
    (sub : parserFn) (tokens : List (List Nat)) (hsub : parserKeeps K Q sub) :
    ∀ k : Nat, parserKeeps K Q (parseRight sub tokens k) := by
  intro k
  induction k with
  | zero => intro t n t' _ h; simp [parseRight] at h
  | succ k ih =>
    intro t n t' hK h
    simp only [parseRight] at h
    split at h
    · simp at h
    · rename_i left t1 hl
      obtain ⟨s1, s2⟩ := hsub _ _ _ hK hl
      split at h
      · obtain ⟨q1, q2⟩ := hread t1 s2
        split at h
        · simp at h
        · rename_i r t3 hr
          obtain ⟨u1, u2⟩ := ih _ _ _ q2 hr
          simp only [Option.some.injEq, Prod.mk.injEq] at h
          obtain ⟨rfl, rfl⟩ := h
          exact ⟨allLeaves_three Q _ _ _ s1 q1 u1, u2⟩
      · simp only [Option.some.injEq, Prod.mk.injEq] at h
        obtain ⟨rfl, rfl⟩ := h
        exact ⟨s1, s2⟩

theorem oror_keeps (K : tokenizer → Prop) (Q : token → Prop)
    (hread : ∀ t, K t → Q (t.read).1 ∧ K (t.read).2)
    (un : parserFn) (k : Nat) (hun : parserKeeps K Q un) : parserKeeps K Q (oror un k) := by
  have h1 := parseLeft_keeps K Q hread un [[42], [47], [37]] k hun
  have h2 := parseLeft_keeps K Q hread (mult un k) [[43], [45]] k h1
  have h3 := parseLeft_keeps K Q hread (plus un k) [[60, 60], [62, 62]] k h2
  have h4 := parseLeft_keeps K Q hread (shift un k) [[60], [60, 61], [62], [62, 61]] k h3
  have h5 := parseLeft_keeps K Q hread (cmp un k) [[61, 61], [33, 61]] k h4
  have h6 := parseLeft_keeps K Q hread (eq un k) [[38]] k h5
  have h7 := parseLeft_keeps K Q hread (bitand un k) [[94]] k h6
  have h8 := parseLeft_keeps K Q hread (bitxor un k) [[124]] k h7
  have h9 := parseLeft_keeps K Q hread (bitor un k) [[38, 38]] k h8
  exact parseLeft_keeps K Q hread (andand un k) [[124, 124]] k h9

/-- Whatever `read` guarantees of the tokens it returns holds of every leaf
the parser builds, and the invariant of the tokenizer is kept. -/
theorem parser_keeps (K : tokenizer → Prop) (Q : token → Prop)
    (hread : ∀ t, K t → Q (t.read).1 ∧ K (t.read).2) :
    ∀ k : Nat,
      parserKeeps K Q (unary k) ∧ parserKeeps K Q (suffix k) ∧
      (∀ (n0 : node) (t : tokenizer) (n : node) (t' : tokenizer), K t → allLeaves Q n0 →
        suffixLoop k n0 t = some (n, t') → allLeaves Q n ∧ K t') ∧
      parserKeeps K Q (term k) ∧
      (∀ (t : tokenizer) (closer : List Nat) (ns : List node) (t' : tokenizer), K t →
        readExprs k t closer = some (ns, t') → (∀ tok ∈ leafTokensList ns, Q tok) ∧ K t') ∧
      parserKeeps K Q (assign k) := by
  intro k
  induction k with
  | zero =>
    refine ⟨?_, ?_, ?_, ?_, ?_, ?_⟩
    · intro t n t' _ h; simp [unary] at h
    · intro t n t' _ h; simp [suffix] at h
    · intro n0 t n t' _ _ h; simp [suffixLoop] at h
    · intro t n t' _ h; simp [term] at h
    · intro t closer ns t' _ h; simp [readExprs] at h
    · intro t n t' _ h; simp [assign] at h
  | succ k ih =>
    obtain ⟨iu, is, il, it, ie, ia⟩ := ih
    refine ⟨?_, ?_, ?_, ?_, ?_, ?_⟩
    · -- unary
      intro t n t' hK h
      simp only [unary] at h
      split at h
      · obtain ⟨q1, q2⟩ := hread t hK
        split at h
        · simp at h
        · rename_i c t2 hc
          obtain ⟨s1, s2⟩ := iu _ _ _ q2 hc
          simp only [Option.some.injEq, Prod.mk.injEq] at h
          obtain ⟨rfl, rfl⟩ := h
          refine ⟨allLeaves_interior Q _ _ ?_, s2⟩
          intro c hc
          simp only [List.mem_cons, List.mem_singleton, List.not_mem_nil, or_false] at hc
          rcases hc with rfl | rfl
          · exact allLeaves_leaf Q _ q1
          · exact s1
      · exact is _ _ _ hK h
    · -- suffix
      intro t n t' hK h
      simp only [suffix] at h
      split at h
      · simp at h
      · rename_i n1 t1 hn1
        obtain ⟨s1, s2⟩ := it _ _ _ hK hn1
        exact il _ _ _ _ s2 s1 h
    · -- suffixLoop
      intro n0 t n t' hK h0 h
      simp only [suffixLoop] at h
      obtain ⟨q1, q2⟩ := hread t hK
      split at h
      · split at h
        · simp at h
        · rename_i c t2 hc
          obtain ⟨s1, s2⟩ := it _ _ _ q2 hc
          exact il _ _ _ _ s2 (allLeaves_three Q _ _ _ h0 q1 s1) h
      · split at h
        · split at h
          · simp at h
          · rename_i cs t2 hcs
            obtain ⟨s1, s2⟩ := ie _ _ _ _ q2 hcs
            split at h
            · obtain ⟨u1, u2⟩ := hread t2 s2
              refine il _ _ _ _ u2 (allLeaves_interior Q _ _ ?_) h
              intro c hc
              simp only [List.mem_append, List.mem_cons, List.mem_singleton, List.not_mem_nil,
                or_false, or_assoc] at hc
              rcases hc with rfl | rfl | hc | rfl
              · exact h0
              · exact allLeaves_leaf Q _ q1
              · exact allLeaves_of_list Q cs s1 c hc
              · exact allLeaves_leaf Q _ u1
            · refine il _ _ _ _ s2 (allLeaves_interior Q _ _ ?_) h
              intro c hc
              simp only [List.mem_append, List.mem_cons, List.mem_singleton, List.not_mem_nil,
                or_false, or_assoc] at hc
              rcases hc with rfl | rfl | hc
              · exact h0
              · exact allLeaves_leaf Q _ q1
              · exact allLeaves_of_list Q cs s1 c hc
        · simp only [Option.some.injEq, Prod.mk.injEq] at h
          obtain ⟨rfl, rfl⟩ := h
          exact ⟨h0, hK⟩
    · -- term
      intro t n t' hK h
      simp only [term] at h
      obtain ⟨q1, q2⟩ := hread t hK
      split at h
      · split at h
        · simp at h
        · rename_i cs t2 hcs
          obtain ⟨s1, s2⟩ := ie _ _ _ _ q2 hcs
          split at h
          · obtain ⟨u1, u2⟩ := hread t2 s2
            simp only [Option.some.injEq, Prod.mk.injEq] at h
            obtain ⟨rfl, rfl⟩ := h
            refine ⟨allLeaves_interior Q _ _ ?_, u2⟩
            intro c hc
            simp only [List.mem_append, List.mem_cons, List.mem_singleton, List.not_mem_nil,
              or_false, or_assoc] at hc
            rcases hc with rfl | hc | rfl
            · exact allLeaves_leaf Q _ q1
            · exact allLeaves_of_list Q cs s1 c hc
            · exact allLeaves_leaf Q _ u1
          · simp only [Option.some.injEq, Prod.mk.injEq] at h
            obtain ⟨rfl, rfl⟩ := h
            refine ⟨allLeaves_interior Q _ _ ?_, s2⟩
            intro c hc
            simp only [List.mem_append, List.mem_cons, List.mem_singleton, List.not_mem_nil,
              or_false, or_assoc] at hc
            rcases hc with rfl | hc
            · exact allLeaves_leaf Q _ q1
            · exact allLeaves_of_list Q cs s1 c hc
      · simp only [Option.some.injEq, Prod.mk.injEq] at h
        obtain ⟨rfl, rfl⟩ := h
        exact ⟨allLeaves_leaf Q _ q1, q2⟩
    · -- readExprs
      intro t closer ns t' hK h
      simp only [readExprs] at h
      split at h
      · split at h
        · simp at h
        · rename_i n1 t1 hn1
          obtain ⟨s1, s2⟩ := ia _ _ _ hK hn1
          split at h
          · simp at h
          · rename_i ns2 t2 hns2
            obtain ⟨u1, u2⟩ := ie _ _ _ _ s2 hns2
            simp only [Option.some.injEq, Prod.mk.injEq] at h
            obtain ⟨rfl, rfl⟩ := h
            refine ⟨?_, u2⟩
            intro tok htok
            simp only [leafTokensList_cons, List.mem_append] at htok
            rcases htok with htok | htok
            · exact s1 tok htok
            · exact u1 tok htok
      · simp only [Option.some.injEq, Prod.mk.injEq] at h
        obtain ⟨rfl, rfl⟩ := h
        exact ⟨by simp [leafTokensList], hK⟩
    · -- assign
      intro t n t' hK h
      simp only [assign] at h
      exact parseRight_keeps K Q hread _ assignOps (oror_keeps K Q hread _ k iu) k _ _ _ hK h

/-! ## Positions of the trivia -/

theorem advance_foldl (bytes : List Nat) : ∀ (l c : Nat),
    l < (bytes.foldl advance (l, c)).1 ∨
      ((bytes.foldl advance (l, c)).1 = l ∧ c + bytes.length ≤ (bytes.foldl advance (l, c)).2) := by
  induction bytes with
  | nil => intro l c; right; simp
  | cons b bs ih =>
    intro l c
    simp only [List.foldl_cons, List.length_cons]
    by_cases h10 : b = 10
    · have hadv : advance (l, c) b = (l + 1, 0) := by simp [advance, h10]
      rw [hadv]
      rcases ih (l + 1) 0 with h | ⟨h, _⟩
      · left; omega
      · left; omega
    · have hadv : (advance (l, c) b).1 = l ∧ c + 1 ≤ (advance (l, c) b).2 := by
        simp only [advance, h10, if_false]
        refine ⟨trivial, ?_⟩
        split
        · split <;> omega
        · omega
      obtain ⟨a1, a2⟩ := hadv
      have := ih (advance (l, c) b).1 (advance (l, c) b).2
      simp only [Prod.mk.eta] at this
      rcases this with h | ⟨h, h'⟩
      · left; omega
      · right; exact ⟨by omega, by omega⟩

/-- After a raw token the position of that token, and all positions passed
before, are passed; and the positions passed before precede the token. -/
theorem readRaw_passed (t : tokenizer) (hin : t.input ≠ []) :
    pos (t.readRaw).1 = (t.line, t.column + 1) ∧
    passed (t.line, t.column + 1) (t.readRaw).2.line (t.readRaw).2.column ∧
    (∀ p : position, passed p t.line t.column →
      posLt p (t.line, t.column + 1) ∧ passed p (t.readRaw).2.line (t.readRaw).2.column) := by
  have hspec := (readRaw_spec t).2.2.2 hin
  have htext : 1 ≤ (t.readRaw).1.text.length := length_pos_of_ne_nil _ hspec.2.1
  cases hi : t.input with
  | nil => exact absurd hi hin
  | cons b rest =>
    simp only [tokenizer.readRaw, hi] at htext ⊢
    have hadv := advance_foldl (List.take (scan (b :: rest) (scandata b)).2 (b :: rest))
      t.line t.column
    refine ⟨rfl, ?_, fun p hp => ⟨?_, ?_⟩⟩
    · simp only [passed]
      rcases hadv with h | ⟨h1, h2⟩
      · left; exact h
      · right; exact ⟨h1.symm, by omega⟩
    · simp only [passed, posLt] at hp ⊢
      rcases hp with hp | ⟨hp1, hp2⟩
      · left; exact hp
      · right; exact ⟨hp1, by omega⟩
    · simp only [passed] at hp ⊢
      rcases hadv with h | ⟨h1, h2⟩
      · left
        rcases hp with hp | ⟨hp1, _⟩ <;> omega
      · rcases hp with hp | ⟨hp1, hp2⟩
        · left; omega
        · right; exact ⟨by omega, by omega⟩

theorem pairwise_append_one (l : List rawToken) (x : rawToken)
    (h1 : List.Pairwise posLt (l.map pos)) (h2 : ∀ b ∈ l, posLt (pos b) (pos x)) :
    List.Pairwise posLt ((l ++ [x]).map pos) := by
  rw [List.map_append, List.pairwise_append]
  refine ⟨h1, by simp, ?_⟩
  intro a ha b hb
  simp only [List.map_cons, List.map_nil, List.mem_singleton] at hb
  obtain ⟨a', ha', rfl⟩ := List.mem_map.1 ha
  rw [hb]
  exact h2 a' ha'

/-- The loop of `read` keeps the trivia collected so far (prefix, suffix
and buffer, in that order) at increasing, passed positions. -/
theorem readLoop_ordered : ∀ (k : Nat) (t : tokenizer) (res : token) (sl : Bool),
    List.Pairwise posLt ((res.pre ++ res.suf ++ t.buffered).map pos) →
    (∀ b ∈ res.pre ++ res.suf ++ t.buffered, passed (pos b) t.line t.column) →
    (sl = true → t.buffered = []) →
    List.Pairwise posLt (((readLoop k t res sl).1.pre ++ (readLoop k t res sl).1.suf
      ++ (readLoop k t res sl).2.buffered).map pos) ∧
    (∀ b ∈ (readLoop k t res sl).1.pre ++ (readLoop k t res sl).1.suf
        ++ (readLoop k t res sl).2.buffered,
      passed (pos b) (readLoop k t res sl).2.line (readLoop k t res sl).2.column) := by
  intro k
  induction k with
  | zero => intro t res sl h1 h2 _; exact ⟨h1, h2⟩
  | succ k ih =>
    intro t res sl h1 h2 h3
    have hbuf := (readRaw_spec t).2.1
    simp only [readLoop]
    by_cases hin : t.input = []
    · -- at the end of the input the raw token is END
      have hend := ((readRaw_spec t).2.2.1 hin).1
      have hnt : isTrivia (t.readRaw).1.ttype = false := by rw [hend]; rfl
      simp only [hnt, Bool.not_false, if_true]
      have hsame : (t.readRaw).2 = t := by simp [tokenizer.readRaw, hin]
      simp only [hsame]
      exact ⟨h1, h2⟩
    · obtain ⟨p1, p2, p3⟩ := readRaw_passed t hin
      by_cases htr : isTrivia (t.readRaw).1.ttype = true
      · simp only [htr, Bool.not_true, Bool.false_eq_true, if_false]
        have hlt : ∀ b ∈ res.pre ++ res.suf ++ t.buffered, posLt (pos b) (pos (t.readRaw).1) := by
          intro b hb
          rw [p1]
          exact (p3 _ (h2 b hb)).1
        have hall : ∀ b ∈ res.pre ++ res.suf ++ t.buffered ++ [(t.readRaw).1],
            passed (pos b) (t.readRaw).2.line (t.readRaw).2.column := by
          intro b hb
          rcases List.mem_append.1 hb with hb | hb
          · exact (p3 _ (h2 b hb)).2
          · rw [List.mem_singleton.1 hb, p1]
            exact p2
        have hpw := pairwise_append_one _ _ h1 hlt
        split
        · rename_i hsame
          have hb : t.buffered = [] := h3 (by simp at hsame; exact hsame.1)
          refine ih _ _ sl ?_ ?_ (by intro _; simp [hbuf, hb])
          · simpa [hbuf, hb] using hpw
          · simpa [hbuf, hb] using hall
        · refine ih _ _ false ?_ ?_ (by simp)
          · simpa [hbuf, List.append_assoc] using hpw
          · simpa [hbuf, List.append_assoc] using hall
      · simp only [htr, Bool.not_false, if_true]
        refine ⟨by simpa [hbuf] using h1, ?_⟩
        intro b hb
        exact (p3 _ (h2 b (by simpa [hbuf] using hb))).2

/-- `read` returns a token whose trivia stand at increasing positions, and
leaves the buffer ordered. -/
theorem read_ordered (t : tokenizer) (hK : bufferOrdered t) :
    triviaOrdered (t.read).1 ∧ bufferOrdered (t.read).2 := by
  obtain ⟨k1, k2⟩ := hK
  obtain ⟨i1, i2⟩ := readLoop_ordered (t.input.length + 1) { t with buffered := [] }
    ⟨t.peek.ttype, t.peek.line, t.peek.column, t.peek.text, t.buffered, []⟩ true
    (by simpa using k1) (by simpa using k2) (by simp)
  simp only [tokenizer.read]
  split
  · refine ⟨?_, by simp [bufferOrdered], by simp⟩
    simp only [triviaOrdered]
    rw [← List.append_assoc]
    exact i1
  · refine ⟨?_, ?_, ?_⟩
    · simp only [triviaOrdered]
      rw [List.map_append] at i1
      exact (List.pairwise_append.1 i1).1
    · rw [List.map_append] at i1
      exact (List.pairwise_append.1 i1).2.1
    · intro b hb
      exact i2 b (List.mem_append_right _ hb)

theorem newTokenizerLoop_ordered : ∀ (k : Nat) (t : tokenizer), bufferOrdered t →
    bufferOrdered (newTokenizerLoop k t) := by
  intro k
  induction k with
  | zero => intro t h; exact h
  | succ k ih =>
    intro t hK
    obtain ⟨k1, k2⟩ := hK
    have hbuf := (readRaw_spec t).2.1
    simp only [newTokenizerLoop]
    by_cases hin : t.input = []
    · have hend := ((readRaw_spec t).2.2.1 hin).1
      have hnt : isTrivia (t.readRaw).1.ttype = false := by rw [hend]; rfl
      simp only [hnt, Bool.not_false, if_true]
      have hsame : (t.readRaw).2 = t := by simp [tokenizer.readRaw, hin]
      simp only [hsame]
      exact ⟨k1, k2⟩
    · obtain ⟨p1, p2, p3⟩ := readRaw_passed t hin
      by_cases htr : isTrivia (t.readRaw).1.ttype = true
      · simp only [htr, Bool.not_true, Bool.false_eq_true, if_false]
        refine ih _ ⟨?_, ?_⟩
        · simp only [hbuf]
          refine pairwise_append_one _ _ k1 ?_
          intro b hb
          rw [p1]
          exact (p3 _ (k2 b hb)).1
        · intro b hb
          simp only [hbuf] at hb
          rcases List.mem_append.1 hb with hb | hb
          · exact (p3 _ (k2 b hb)).2
          · rw [List.mem_singleton.1 hb, p1]
            exact p2
      · simp only [htr, Bool.not_false, if_true]
        refine ⟨by simpa [hbuf] using k1, ?_⟩
        intro b hb
        exact (p3 _ (k2 b (by simpa [hbuf] using hb))).2

theorem leafTokens_stripLevels : ∀ n : node, leafTokens (stripLevels n) = leafTokens n := by
  intro n
  induction n using stripLevels.induct with
  | case1 tok c ih =>
    rw [stripLevels, ih, leafTokens_interior, leafTokensList_cons]
    simp [leafTokensList]
  | case2 n h =>
    rw [stripLevels]
    intro tok c hn
    exact h tok c hn

theorem wrap_isLeaf (n : node) :
    (if n.isLeaf = true then node.interior token.zero [n] else n).isLeaf = false := by
  split
  · rfl
  · rename_i h
    simpa using h

theorem wrap_leafTokens (n : node) :
    leafTokens (if n.isLeaf = true then node.interior token.zero [n] else n) = leafTokens n := by
  split
  · rw [leafTokens_interior, leafTokensList_cons]
    simp [leafTokensList]
  · rfl

theorem isLeaf_rootOf (cs : List node) (t : tokenizer) : (rootOf cs t).isLeaf = false := by
  simp only [rootOf]
  exact wrap_isLeaf _

/-- Every leaf of a parsed tree has its trivia at increasing positions, and
the root is an interior node. -/
theorem parse_ordered (B : List Nat) (n : node) (h : parse B = some n) :
    allLeaves triviaOrdered n ∧ n.isLeaf = false := by
  simp only [parse, root] at h
  split at h
  · simp at h
  · rename_i cs t1 hcs
    simp only [Option.some.injEq] at h
    subst h
    refine ⟨?_, isLeaf_rootOf cs t1⟩
    have hK0 : bufferOrdered (newTokenizer B) :=
      newTokenizerLoop_ordered _ _ ⟨by simp, by simp⟩
    obtain ⟨q1, q2⟩ := (parser_keeps bufferOrdered triviaOrdered read_ordered
      (parseFuel B)).2.2.2.2.1 _ _ _ _ hK0 hcs
    have hend := (read_ordered t1 q2).1
    have key : allLeaves triviaOrdered (stripLevels (.interior token.zero
        (if 0 < (t1.read).1.pre.length then cs ++ [.leaf (t1.read).1] else cs))) := by
      intro tok htok
      rw [leafTokens_stripLevels, leafTokens_interior] at htok
      split at htok
      · rw [leafTokensList_append, List.mem_append] at htok
        rcases htok with htok | htok
        · exact q1 tok htok
        · simp only [leafTokensList, leafTokens_leaf, List.append_nil,
            List.mem_singleton] at htok
          rw [htok]; exact hend
      · exact q1 tok htok
    intro tok htok
    simp only [rootOf] at htok
    rw [wrap_leafTokens] at htok
    exact key tok htok

/-! ## The replacement of a word by a word -/

theorem lookingAt_end_false (input : List Nat) (col e : Nat) (tokens : List (List Nat))
    (h : ∀ s ∈ tokens, s ≠ []) : lookingAt (tokState input END col [] e) tokens = false := by
  rw [lookingAt_tokState, List.any_eq_false]
  intro s hs
  have := h s hs
  simp only [beq_iff_eq]
  exact fun hc => this hc.symm

/-- The parser on a single word. -/
theorem parse_word (F : List Nat) (hF : isWord F) : parse F = some (wordTree F) := by
  have e0 : newTokenizer F = tokState [] WORD 1 F F.length := by
    have := newTokenizer_word F [] hF (by intro c hc; simp at hc)
    simpa using this
  have r0 := read_tokState_end WORD 1 F F.length
  have r1 := read_tokState_end END (F.length + 1) [] F.length
  obtain ⟨j, hj⟩ : ∃ j, parseFuel F = j + 10 := by
    refine ⟨parseFuel F - 10, ?_⟩
    have h1 := length_pos_of_ne_nil F hF.1
    simp only [parseFuel]
    omega
  have uF := unary_atom (j + 4) (tokState [] WORD 1 F F.length)
    (lookingAt_word_false _ _ _ _ _ hF _ (by decide))
    (lookingAt_word_false _ _ _ _ _ hF _ (by decide)) (by rw [r0]; rfl) (by rw [r0]; rfl)
  rw [r0] at uF
  have mF := parseLeft_pass (unary (j + 8)) [[42], [47], [37]] (j + 7) _ _ _ uF (by rfl)
  have pF : plus (unary (j + 8)) (j + 8) (tokState [] WORD 1 F F.length) = some (_, _) :=
    parseLeft_pass (mult (unary (j + 8)) (j + 8)) [[43], [45]] (j + 7) _ _ _ mF (by rfl)
  have oF := upper_pass (unary (j + 8)) (j + 7) _ _ _ pF (upper_end _ _ _)
  have aF := assign_pass (j + 7) _ _ _ oF (by rfl)
  have xF := readExprs_one (j + 8) _ _ [] _ (by simp [tokState])
    (by rw [lookingAt_tokState]; simp [hF.1]) aF (Or.inl (by rfl))
  rw [parse, hj, e0]
  simp only [root, xF, rootOf, r1]
  rfl

theorem makePattern_wordTree (F : List Nat) :
    makePattern (wordTree F) = ⟨[.leaf ⟨WORD, 1, 1, F, [], []⟩], false, [(F, 128)]⟩ := by
  simp [makePattern, makeListPattern, wordTree, node.children, assignRunesList, assignRunes,
    runemap.find]

theorem symbolOf_lit (F : List Nat) (n : node) :
    symbolOf [(F, 128)] n = if isLit F n then 128 else 95 := by
  cases n with
  | interior tok cs => simp [symbolOf, isLit]
  | leaf tok =>
    by_cases h : tok.text = F
    · simp [symbolOf, isLit, runemap.find, h, writeRune]
    · have h' : ¬ F = tok.text := fun hc => h hc.symm
      simp [symbolOf, isLit, runemap.find, h, h']

theorem compileList_lit (F : List Nat) :
    compileList [(F, 128)] false [.leaf ⟨WORD, 1, 1, F, [], []⟩] = ⟨false, [atom.lit 128]⟩ := by
  simp [compileList, atomOf, runemap.find, writeRune]

theorem findSome_range {β : Type} (f : Nat → Option β) (b : β) : ∀ (n s : Nat), s < n →
    f s = some b → (∀ i < s, f i = none) → (List.range n).findSome? f = some b := by
  intro n
  induction n with
  | zero => intro s hs; omega
  | succ n ih =>
    intro s hs hf hnone
    rw [List.range_succ, List.findSome?_append]
    by_cases h : s < n
    · rw [ih s h hf hnone]
      rfl
    · have hsn : s = n := by omega
      have : (List.range n).findSome? f = none := by
        rw [List.findSome?_eq_none_iff]
        intro x hx
        exact hnone x (by rw [hsn]; exact List.mem_range.1 hx)
      rw [this, ← hsn]
      simp [hf]

theorem matchAtoms_lit_drop (text : List Nat) (s : Nat) :
    matchAtoms false [atom.lit 128] (text.drop s) s
      = if text[s]? = some 128 then some ([(s, s + 1)], s + 1) else none := by
  cases hd : text.drop s with
  | nil =>
    have : text[s]? = none := by
      rw [List.getElem?_eq_none_iff]
      exact List.drop_eq_nil_iff.1 hd
    simp [matchAtoms, this]
  | cons c rest =>
    have hc : text[s]? = some c := by
      have := List.head?_drop text s
      rw [hd] at this
      simpa using this.symm
    by_cases h : c = 128
    · simp [matchAtoms, hc, h]
    · simp [matchAtoms, hc, h]

/-- The pattern made of the word `F` finds no match in a list without a
leaf `F`. -/
theorem matchNodes_lit_none (F : List Nat) (S : List node)
    (h : ∀ n ∈ S, isLit F n = false) : (makePattern (wordTree F)).matchNodes S = none := by
  rw [makePattern_wordTree]
  simp only [pattern.matchNodes, compileList_lit]
  have hex : ∀ pos, regexp.execute ⟨false, [atom.lit 128]⟩ (encode [(F, 128)] S) pos = none := by
    intro pos
    simp only [regexp.execute, List.findSome?_eq_none_iff, List.mem_map, List.mem_range]
    rintro s ⟨d, _, rfl⟩
    simp only [Bool.false_and, Bool.false_eq_true, if_false, matchAtoms_lit_drop]
    rw [if_neg]
    · rfl
    · intro hc
      simp only [encode, List.getElem?_map, Option.map_eq_some'] at hc
      obtain ⟨n, hn, hsym⟩ := hc
      rw [symbolOf_lit, h n (List.getElem?_mem hn)] at hsym
      simp at hsym
  simp [regexp.findAllSubmatchIndex, allMatches, hex]

/-- The pattern made of the word `F` matches at the first leaf `F` of the
list. -/
theorem matchNodes_lit_some (F : List Nat) (S1 S2 : List node) (x : node)
    (hx : isLit F x = true) (h : ∀ n ∈ S1, isLit F n = false) :
    (makePattern (wordTree F)).matchNodes (S1 ++ x :: S2)
      = some ⟨[], S1.length, S1.length + 1⟩ := by
  rw [makePattern_wordTree]
  simp only [pattern.matchNodes, compileList_lit]
  have hex : regexp.execute ⟨false, [atom.lit 128]⟩ (encode [(F, 128)] (S1 ++ x :: S2)) 0
      = some ⟨S1.length, S1.length + 1, [(S1.length, S1.length + 1)]⟩ := by
    simp only [regexp.execute, Nat.sub_zero, List.findSome?_map]
    refine findSome_range _ _ _ S1.length (by simp [encode]; omega) ?_ ?_
    · simp only [Function.comp, Nat.zero_add, Bool.false_and, Bool.false_eq_true, if_false,
        matchAtoms_lit_drop]
      have : (encode [(F, 128)] (S1 ++ x :: S2))[S1.length]? = some 128 := by
        simp only [encode, List.getElem?_map]
        rw [List.getElem?_append_right (le_refl _)]
        simp [symbolOf_lit, hx]
      simp [this]
    · intro i hi
      simp only [Function.comp, Nat.zero_add, Bool.false_and, Bool.false_eq_true, if_false,
        matchAtoms_lit_drop]
      have : (encode [(F, 128)] (S1 ++ x :: S2))[i]? ≠ some 128 := by
        simp only [encode, List.getElem?_map, List.getElem?_append_left hi]
        intro hc
        simp only [Option.map_eq_some'] at hc
        obtain ⟨n, hn, hsym⟩ := hc
        rw [symbolOf_lit, h n (List.getElem?_mem hn)] at hsym
        simp at hsym
      simp [this]
  simp only [regexp.findAllSubmatchIndex, allMatches, Nat.zero_le, if_true, hex]
  simp [bindNodes, isVar]

theorem posLt_ne (a b : position) (h : posLt a b) : a ≠ b := by
  intro hab
  rw [hab] at h
  rcases h with h | ⟨_, h⟩ <;> omega

theorem copyTokens_left : ∀ (l : List rawToken) (c : copier),
    (∀ x ∈ l, pos x ∉ c.seen) → List.Pairwise posLt (l.map pos) →
    c.copyCommentTokens l true false = ⟨(l.map pos).reverse ++ c.seen, c.pre ++ l, c.suf⟩ := by
  intro l
  induction l with
  | nil => intro c _ _; simp [copier.copyCommentTokens]
  | cons x l ih =>
    intro c hseen hpw
    have hx : c.seen.contains (pos x) = false := by
      have := hseen x (by simp)
      simpa using this
    rw [List.map_cons, List.pairwise_cons] at hpw
    simp only [copier.copyCommentTokens, List.foldl_cons, copyCommentToken, hx,
      Bool.false_eq_true, if_false, Bool.not_true, and_false, false_and, if_true]
    have := ih ⟨pos x :: c.seen, c.pre ++ [x], c.suf⟩ (by
      intro y hy
      simp only [List.mem_cons, not_or]
      refine ⟨?_, hseen y (by simp [hy])⟩
      intro hc
      exact posLt_ne _ _ (hpw.1 (pos y) (List.mem_map.2 ⟨y, hy, rfl⟩)) hc.symm) hpw.2
    simp only [copier.copyCommentTokens] at this
    rw [this]
    simp

theorem copyTokens_right : ∀ (l : List rawToken) (c : copier),
    (∀ x ∈ l, pos x ∉ c.seen) → List.Pairwise posLt (l.map pos) →
    c.copyCommentTokens l false true = ⟨(l.map pos).reverse ++ c.seen, c.pre, c.suf ++ l⟩ := by
  intro l
  induction l with
  | nil => intro c _ _; simp [copier.copyCommentTokens]
  | cons x l ih =>
    intro c hseen hpw
    have hx : c.seen.contains (pos x) = false := by
      have := hseen x (by simp)
      simpa using this
    rw [List.map_cons, List.pairwise_cons] at hpw
    simp only [copier.copyCommentTokens, List.foldl_cons, copyCommentToken, hx,
      Bool.false_eq_true, if_false, Bool.not_true, Bool.not_false, and_false, if_true]
    have := ih ⟨pos x :: c.seen, c.pre, c.suf ++ [x]⟩ (by
      intro y hy
      simp only [List.mem_cons, not_or]
      refine ⟨?_, hseen y (by simp [hy])⟩
      intro hc
      exact posLt_ne _ _ (hpw.1 (pos y) (List.mem_map.2 ⟨y, hy, rfl⟩)) hc.symm) hpw.2
    simp only [copier.copyCommentTokens] at this
    rw [this]
    simp

/-- `copyComments` moves the trivia of a matched leaf to the single leaf
that replaces it. -/
theorem copyComments_single (t : token) (G : List Nat) (ht : triviaOrdered t) :
    copyComments [.leaf t] [.leaf ⟨WORD, 1, 1, G, [], []⟩]
      = [.leaf ⟨WORD, 1, 1, G, t.pre, t.suf⟩] := by
  simp only [triviaOrdered, List.map_append, List.pairwise_append] at ht
  obtain ⟨h1, h2, h3⟩ := ht
  have hc : collectComments [.leaf t] [.leaf ⟨WORD, 1, 1, G, [], []⟩]
      = ⟨(t.suf.map pos).reverse ++ ((t.pre.map pos).reverse ++ []), t.pre, t.suf⟩ := by
    simp only [collectComments, seenOfList, seenOf, List.map_nil, List.append_nil,
      copySrcComments, copier.copyNodeComments, List.length_cons, List.length_nil,
      beq_self_eq_true]
    rw [copyTokens_left t.pre _ (by simp) h1]
    rw [copyTokens_right t.suf _ (by
      intro x hx
      simp only [List.append_nil, List.mem_reverse]
      intro hc
      exact posLt_ne _ _ (h3 _ hc _ (List.mem_map.2 ⟨x, hx, rfl⟩)) rfl) h2]
    simp
  simp only [copyComments, hc]
  split
  · rename_i h0
    have hp : t.pre = [] := List.length_eq_zero.1 (by omega)
    have hs : t.suf = [] := List.length_eq_zero.1 (by omega)
    rw [hp, hs]
  · simp [modifyFirst, modifyLast, node.addPrefix, node.addSuffix]

theorem isLit_leaf (F : List Nat) (x : node) (h : isLit F x = true) :
    ∃ t : token, x = .leaf t ∧ t.text = F := by
  cases x with
  | leaf t => exact ⟨t, rfl, by simpa [isLit] using h⟩
  | interior tok cs => simp [isLit] at h

theorem renameLeaf_of_not_lit (F G : List Nat) (x : node) (h : isLit F x = false) :
    renameLeaf F G x = x := by
  cases x with
  | leaf t =>
    have : t.text ≠ F := by simpa [isLit] using h
    simp [renameLeaf, renameTok, this]
  | interior tok cs => rfl

theorem map_renameLeaf_of_not_lit (F G : List Nat) (S : List node)
    (h : ∀ n ∈ S, isLit F n = false) : S.map (renameLeaf F G) = S := by
  induction S with
  | nil => rfl
  | cons x S ih =>
    rw [List.map_cons, renameLeaf_of_not_lit F G x (h x (by simp)),
      ih (fun n hn => h n (by simp [hn]))]

theorem first_lit (F : List Nat) : ∀ S : List node,
    (∀ n ∈ S, isLit F n = false) ∨
      ∃ (S1 : List node) (x : node) (S2 : List node), S = S1 ++ x :: S2 ∧ isLit F x = true ∧
        ∀ n ∈ S1, isLit F n = false := by
  intro S
  induction S with
  | nil => left; simp
  | cons a S ih =>
    by_cases ha : isLit F a = true
    · right
      exact ⟨[], a, S, rfl, ha, by simp⟩
    · rcases ih with h | ⟨S1, x, S2, e1, e2, e3⟩
      · left
        intro n hn
        rcases List.mem_cons.1 hn with rfl | hn
        · simpa using ha
        · exact h n hn
      · right
        refine ⟨a :: S1, x, S2, by rw [e1]; rfl, e2, ?_⟩
        intro n hn
        rcases List.mem_cons.1 hn with rfl | hn
        · simpa using ha
        · exact e3 n hn

theorem substitute_wordTree (G : List Nat) (vars : varmap) :
    substitute vars (wordTree G) = some [.leaf ⟨WORD, 1, 1, G, [], []⟩] := by
  simp [wordTree, substitute, substituteList, clone]

/-- The inner loop of `replace` for the pattern `F` and the replacement `G`
renames the leaves `F` among the children from `start` on. -/
theorem rewriteLoop_lit (F G : List Nat) : ∀ (k start : Nat) (src : List node),
    leavesOrdered src → src.length - start < k →
    rewriteLoop (makePattern (wordTree F)) (wordTree G) k start src
      = some (src.take start ++ (src.drop start).map (renameLeaf F G)) := by
  intro k
  induction k with
  | zero => intro start src _ h; omega
  | succ k ih =>
    intro start src hord hk
    simp only [rewriteLoop]
    split
    · rename_i hlt
      rcases first_lit F (src.drop start) with hno | ⟨S1, x, S2, e1, e2, e3⟩
      · rw [matchNodes_lit_none F _ hno, map_renameLeaf_of_not_lit F G _ hno,
          List.take_append_drop]
      · obtain ⟨t, rfl, htext⟩ := isLit_leaf F x e2
        have hsrc : src = src.take start ++ (S1 ++ node.leaf t :: S2) := by
          rw [← e1, List.take_append_drop]
        have hlen : src.length = start + (S1.length + (S2.length + 1)) := by
          have := congrArg List.length hsrc
          simp only [List.length_append, List.length_take, List.length_cons] at this
          omega
        have htake : src.take (start + S1.length) = src.take start ++ S1 := by
          have h1 : (src.take start).length = start := by
            rw [List.length_take]; omega
          conv_lhs => rw [hsrc]
          rw [List.take_append_eq_append_take, h1]
          simp only [Nat.add_sub_cancel_left]
          rw [List.take_of_length_le (by rw [h1]; omega), List.take_left]
        have hdrop : src.drop (start + S1.length + 1) = S2 := by
          have : src.drop (start + S1.length + 1)
              = (src.drop start).drop (S1.length + 1) := by
            rw [List.drop_drop]
            congr 1
          rw [this, e1]
          have := List.drop_left (S1 ++ [node.leaf t]) S2
          simp only [List.append_assoc, List.singleton_append, List.length_append,
            List.length_cons, List.length_nil] at this
          exact this
        have hslice : slice src (start + S1.length) (start + (S1.length + 1))
            = [node.leaf t] := by
          have h2 : src.take (start + (S1.length + 1)) = src.take start ++ S1 ++ [node.leaf t] := by
            have h1 : (src.take start).length = start := by
              rw [List.length_take]; omega
            conv_lhs => rw [hsrc]
            rw [List.take_append_eq_append_take, h1]
            rw [List.take_of_length_le (by rw [h1]; omega)]
            have : start + (S1.length + 1) - start = (S1 ++ [node.leaf t]).length := by
              simp
            rw [this]
            have := List.take_left (S1 ++ [node.leaf t]) S2
            simp only [List.append_assoc, List.singleton_append] at this ⊢
            rw [this]
          simp only [slice, h2]
          have h3 : (src.take start ++ S1).length = start + S1.length := by
            rw [List.length_append, List.length_take]; omega
          rw [← h3, List.drop_left]
        have hcopy := copyComments_single t G (hord t (by
          rw [hsrc]; simp))
        rw [e1, matchNodes_lit_some F S1 S2 _ e2 e3]
        simp only [substitute_wordTree, hslice, hcopy, List.length_cons, List.length_nil]
        have hrem : src.length - (src.length - start - (S1.length + 1))
            = start + S1.length + 1 := by omega
        rw [hrem, hdrop, htake]
        have hord' : leavesOrdered (src.take start ++ S1
            ++ [node.leaf ⟨WORD, 1, 1, G, t.pre, t.suf⟩] ++ S2) := by
          intro u hu
          simp only [List.mem_append, List.mem_singleton] at hu
          rcases hu with ((hu | hu) | hu) | hu
          · exact hord u (by rw [hsrc]; simp [hu])
          · exact hord u (by rw [hsrc]; simp [hu])
          · have := hord t (by rw [hsrc]; simp)
            simp only [node.leaf.injEq] at hu
            rw [hu]
            exact this
          · exact hord u (by rw [hsrc]; simp [hu])
        have hlen' : (src.take start ++ S1 ++ [node.leaf ⟨WORD, 1, 1, G, t.pre, t.suf⟩]).length
            = start + S1.length + (0 + 1) := by
          simp only [List.length_append, List.length_take, List.length_cons, List.length_nil]
          omega
        rw [ih _ _ hord' (by
          simp only [List.length_append, List.length_take, List.length_cons, List.length_nil]
          omega)]
        rw [← hlen', List.take_left, List.drop_left]
        simp only [List.map_append, List.map_cons, renameLeaf, renameTok, htext, if_true,
          map_renameLeaf_of_not_lit F G S1 e3, List.append_assoc, List.singleton_append]
    · rename_i hge
      rw [List.drop_eq_nil_of_le (by omega)]
      simp only [List.map_nil, List.append_nil]
      rw [List.take_of_length_le (by omega)]

/-! ## The reader of variables -/

theorem readWordFrom_takeWhile : ∀ (l : List Nat) (i : Nat),
    (readWordFrom l i).getD (i + l.length) = i + (l.takeWhile isWordByte).length := by
  intro l
  induction l with
  | nil => intro i; simp [readWordFrom]
  | cons b l ih =>
    intro i
    by_cases hb : isWordByte b = true
    · have := ih (i + 1)
      simp only [readWordFrom, hb, Bool.not_true, Bool.false_eq_true, if_false,
        List.takeWhile_cons, if_true, List.length_cons]
      rw [show i + (l.length + 1) = i + 1 + l.length by omega, this]
      omega
    · have hb' : isWordByte b = false := by simpa using hb
      simp [readWordFrom, hb', List.takeWhile_cons]

/-- C20: on a buffer that starts with `$`, `readVar` returns OTHER and
length 1 when the next byte is missing or no word byte; else it consumes the
maximal run `w` of word bytes and returns RVAR and `len(w)+2` when a `*`
follows the run, VAR and `len(w)+1` when not; the length returned never
exceeds the length of the buffer. -/
theorem readVar_spec (rest : List Nat) :
    readVar (36 :: rest) = readVarSpec rest ∧ (readVar (36 :: rest)).2 ≤ (36 :: rest).length := by
  cases rest with
  | nil => simp [readVar, readVarSpec]
  | cons b r =>
    by_cases hb : isWordByte b = true
    · have hw := readWordFrom_takeWhile r 1
      have hlen : (r.takeWhile isWordByte).length ≤ r.length :=
        (List.takeWhile_sublist isWordByte (l := r)).length_le
      have he : (readWord (b :: r)).2 = 1 + (r.takeWhile isWordByte).length := by
        simp only [readWord, List.drop_succ_cons, List.drop_zero, List.length_cons]
        rw [show r.length + 1 = 1 + r.length by omega, hw]
      have htw : (b :: r).takeWhile isWordByte = b :: r.takeWhile isWordByte := by
        simp [List.takeWhile_cons, hb]
      simp only [readVar, readVarSpec, hb, List.length_cons, List.drop_succ_cons,
        List.drop_zero, he, htw, if_true]
      have h1 : 1 < r.length + 1 + 1 := by omega
      simp only [h1, decide_True, List.getD_cons_succ, List.getD_cons_zero, hb, Bool.and_self,
        if_true]
      set n := (r.takeWhile isWordByte).length with hn
      by_cases hstar : (List.drop n r).head? = some 42
      · have hlt : n < r.length := by
          by_contra hge
          rw [List.drop_eq_nil_of_le (by omega)] at hstar
          simp at hstar
        have hget : (b :: r).getD (1 + n) 0 = 42 := by
          rw [show 1 + n = n + 1 by omega, List.getD_cons_succ]
          rw [List.head?_drop] at hstar
          rw [List.getD_eq_getElem?_getD, hstar]
          rfl
        have hc : (decide (1 + n + 1 < r.length + 1 + 1) && (b :: r).getD (1 + n) 0 == 42)
            = true := by
          rw [hget]
          simp
          omega
        rw [if_pos hc, if_pos hstar]
        simp only [and_true, Prod.mk.injEq, true_and]
        constructor <;> omega
      · have hc : (decide (1 + n + 1 < r.length + 1 + 1) && (b :: r).getD (1 + n) 0 == 42)
            = false := by
          rw [Bool.and_eq_false_iff]
          by_cases hlt : n < r.length
          · right
            rw [show 1 + n = n + 1 by omega, List.getD_cons_succ]
            rw [List.head?_drop] at hstar
            rw [List.getD_eq_getElem?_getD]
            rw [List.getElem?_eq_getElem hlt] at hstar ⊢
            simp only [Option.some.injEq] at hstar
            simpa using hstar
          · left
            simp
            omega
        have hc' : ¬ ((decide (1 + n + 1 < r.length + 1 + 1) && (b :: r).getD (1 + n) 0 == 42)
            = true) := by rw [hc]; simp
        rw [if_neg hc', if_neg hstar]
        simp only [Prod.mk.injEq, true_and]
        constructor <;> omega
    · have hb' : isWordByte b = false := by simpa using hb
      simp [readVar, readVarSpec, hb']

/-! ## The operators -/

theorem scan_operator (a b : Nat) (tl : List Nat)
    (hop : [a, b] ∈ operators ∨ ∃ c, [a, b, c] ∈ operators ∧ tl.head? = some c) :
    ∃ n, scan (a :: b :: tl) (scandata a) = (OTHER, n) ∧ n ≤ (a :: b :: tl).length ∧
      (a :: b :: tl).take n ∈ operators ∧
      ∀ op2 ∈ operators, op2 <+: a :: b :: tl → op2.length ≤ n := by
  by_cases h3 : ∃ c, [a, b, c] ∈ operators ∧ tl.head? = some c
  · obtain ⟨c, hc, htl⟩ := h3
    cases tl with
    | nil => simp at htl
    | cons c' r =>
      simp only [List.head?_cons, Option.some.injEq] at htl
      subst htl
      refine ⟨3, ?_, by simp, ?_, ?_⟩
      · simp only [operators, List.mem_cons, List.cons.injEq, List.mem_singleton] at hc
        simp at hc
        rcases hc with ⟨rfl, rfl, rfl⟩ | ⟨rfl, rfl, rfl⟩ <;>
          simp [scan, scandata, scanBase, operators, isSpace, isWordByte, inRange]
      · simpa using hc
      · intro op2 h2 _
        have : ∀ op2 ∈ operators, op2.length ≤ 3 := by decide
        exact this op2 h2
  · have h2 : [a, b] ∈ operators := by
      rcases hop with h | h
      · exact h
      · exact absurd h h3
    have hne : ∀ c, [a, b, c] ∈ operators → tl.head? ≠ some c := by
      intro c hc htl
      exact h3 ⟨c, hc, htl⟩
    refine ⟨2, ?_, by simp, by simpa using h2, ?_⟩
    · simp only [operators, List.mem_cons, List.cons.injEq, List.mem_singleton] at h2
      simp at h2
      rcases h2 with ⟨rfl, rfl⟩ | ⟨rfl, rfl⟩ | ⟨rfl, rfl⟩ | ⟨rfl, rfl⟩ | ⟨rfl, rfl⟩ |
        ⟨rfl, rfl⟩ | ⟨rfl, rfl⟩ | ⟨rfl, rfl⟩ | ⟨rfl, rfl⟩ | ⟨rfl, rfl⟩ | ⟨rfl, rfl⟩ |
        ⟨rfl, rfl⟩ | ⟨rfl, rfl⟩ | ⟨rfl, rfl⟩ | ⟨rfl, rfl⟩ | ⟨rfl, rfl⟩ | ⟨rfl, rfl⟩ |
        ⟨rfl, rfl⟩ | ⟨rfl, rfl⟩
      all_goals first
        | (simp [scan, scandata, scanBase, operators, isSpace, isWordByte, inRange]; done)
        | (have hh := hne 61 (by decide)
           cases tl with
           | nil => simp [scan, scandata, scanBase, operators, isSpace, isWordByte, inRange]
           | cons c r =>
             have hc : c ≠ 61 := by simpa using hh
             simp [scan, scandata, scanBase, operators, isSpace, isWordByte, inRange, hc])
    · intro op2 hop2 hpre
      by_contra hlt
      have hlen : op2.length ≤ 3 := by
        have : ∀ op2 ∈ operators, op2.length ≤ 3 := by decide
        exact this op2 hop2
      have h3' : op2.length = 3 := by omega
      match op2, h3' with
      | [x, y, z], _ =>
        cases tl with
        | nil =>
          have := hpre.length_le
          simp at this
        | cons c r =>
          simp only [List.cons_prefix_cons, List.nil_prefix, and_true] at hpre
          obtain ⟨rfl, rfl, rfl⟩ := hpre
          exact hne z hop2 rfl

/-- C19: each of the multi-character operators, taken as the whole input, is
one content token of type OTHER at line 1, column 1, whose text is the
operator; and on any input that starts with one of the operators `readRaw`
returns the longest operator the input starts with. -/
theorem operators_single_token (op : List Nat) (hop : op ∈ operators) :
    tokenize op = [⟨OTHER, 1, 1, op, [], []⟩] ∧
    ∀ t : tokenizer, op <+: t.input →
      (t.readRaw).1.ttype = OTHER ∧ (t.readRaw).1.line = t.line ∧
      (t.readRaw).1.column = t.column + 1 ∧
      (t.readRaw).1.text ∈ operators ∧ (t.readRaw).1.text <+: t.input ∧
      ∀ op2 ∈ operators, op2 <+: t.input → op2.length ≤ (t.readRaw).1.text.length := by
  constructor
  · have h : ∀ op ∈ operators, tokenize op = [⟨OTHER, 1, 1, op, [], []⟩] := by decide!
    exact h op hop
  · intro t hpre
    have hlen : ∀ op ∈ operators, op.length = 2 ∨ op.length = 3 := by decide
    have hin : ∃ a b tl, t.input = a :: b :: tl ∧
        ([a, b] ∈ operators ∨ ∃ c, [a, b, c] ∈ operators ∧ tl.head? = some c) := by
      obtain ⟨rest, hrest⟩ := hpre
      rcases hlen op hop with h | h
      · match op, h with
        | [a, b], _ => exact ⟨a, b, rest, hrest.symm, Or.inl hop⟩
      · match op, h with
        | [a, b, c], _ => exact ⟨a, b, c :: rest, hrest.symm, Or.inr ⟨c, hop, rfl⟩⟩
    obtain ⟨a, b, tl, hinp, hops⟩ := hin
    obtain ⟨n, hscan, hn, hmem, hlong⟩ := scan_operator a b tl hops
    simp only [tokenizer.readRaw, hinp, hscan]
    refine ⟨trivial, trivial, trivial, hmem, List.take_prefix _ _, ?_⟩
    intro op2 h2 hp
    rw [List.length_take, Nat.min_eq_left hn]
    exact hlong op2 h2 hp

set_option maxRecDepth 100000 in
/-- The operator `<<=` as the whole input, and in front of `x`: one token,
not `<<` or `<=`. -/
theorem operators_single_token_witness :
    [60, 60, 61] ∈ operators ∧ tokenize [60, 60, 61] = [⟨OTHER, 1, 1, [60, 60, 61], [], []⟩] ∧
    ((tokenizer.mk [60, 60, 61, 120] [] ⟨END, 0, 0, []⟩ 1 0).readRaw).1
      = ⟨OTHER, 1, 1, [60, 60, 61]⟩ :=
  ⟨by decide, (operators_single_token [60, 60, 61] (by decide)).1, by decide⟩

/-! ## The closer of a bracket -/

set_option maxRecDepth 100000 in
/-- C17: `closerFor` pairs `[` with the closer of the braces, so the `]`
of `a[b]+c` does not end the index: it is read as an operand, and the tree
is `([a] [[] [b] ([]] [+] [c]))`, while `a(b)+c` and `a{b}+c` give a call
node that ends with its closer, under a sum. -/
theorem closerFor_bracket_unpaired :
    closerFor [91] = [125] ∧
    (parse (bytesOf "a[b]+c")).map node.String
      = some (bytesOf "([a] [[] [b] ([]] [+] [c]))") ∧
    (parse (bytesOf "a(b)+c")).map node.String
      = some (bytesOf "(([a] [(] [b] [)]) [+] [c])") ∧
    (parse (bytesOf "a\x7bb\x7d+c")).map node.String
      = some (bytesOf "(([a] [\x7b] [b] [\x7d]) [+] [c])") := by
  decide!

/-! ## The anchor -/

mutual
theorem leaves_tok : ∀ (n : node) (path : List Nat),
    (leaves path n).map (fun o => o.tok) = leafTokens n
  | .leaf tok, path => by simp [leaves, leafTokens]
  | .interior tok cs, path => by
    simp only [leaves, leafTokens]
    exact leavesList_tok cs path 0
theorem leavesList_tok : ∀ (cs : List node) (path : List Nat) (i : Nat),
    (leavesList path i cs).map (fun o => o.tok) = leafTokensList cs
  | [], path, i => by simp [leavesList, leafTokensList]
  | c :: cs, path, i => by
    simp only [leavesList, leafTokensList, List.map_append]
    rw [leaves_tok c (path ++ [i]), leavesList_tok cs path (i + 1)]
end

theorem pickAnchor_vars (freq : List Nat → Nat) : ∀ (l : List occurrence)
    (st : Option occurrence × Nat), (∀ o ∈ l, isVar o.tok.ttype = true) →
    l.foldl (pickAnchor freq) st = st := by
  intro l
  induction l with
  | nil => intro st _; rfl
  | cons o l ih =>
    intro st h
    simp only [List.foldl_cons, pickAnchor, h o (by simp), if_true]
    exact ih st (fun x hx => h x (by simp [hx]))

/-- C12: when the pattern tree has no literal leaf (every leaf is a VAR or
an RVAR, or there is no leaf), `replace` returns the subject unchanged,
whatever the subject and the replacement are. -/
theorem replace_no_anchor (sort : List occurrence → List occurrence)
    (subject pat replacement : node)
    (h : ∀ tok ∈ leafTokens pat, isVar tok.ttype = true) :
    replaceWith sort subject pat replacement = some subject ∧
    replace subject pat replacement = some subject := by
  have key : ∀ s : List occurrence → List occurrence,
      replaceWith s subject pat replacement = some subject := by
    intro s
    have hv : ∀ o ∈ leaves [] pat, isVar o.tok.ttype = true := by
      intro o ho
      apply h
      rw [← leaves_tok pat []]
      exact List.mem_map.2 ⟨o, ho, rfl⟩
    simp only [replaceWith, pickAnchor_vars _ _ _ hv]
  exact ⟨key sort, key sortSlice⟩

set_option maxRecDepth 100000 in
/-- The pattern `$a $b*` on the subject `x y` with the replacement `z`. -/
theorem replace_no_anchor_witness :
    (∀ tok ∈ leafTokens (tree (bytesOf "$a $b*")), isVar tok.ttype = true) ∧
    rewrite (bytesOf "x y") (bytesOf "$a $b*") (bytesOf "z") = some (bytesOf "x y") ∧
    replace (tree (bytesOf "x y")) (tree (bytesOf "$a $b*")) (tree (bytesOf "z"))
      = some (tree (bytesOf "x y")) :=
  ⟨by decide!, by decide!,
    (replace_no_anchor sortSlice (tree (bytesOf "x y")) (tree (bytesOf "$a $b*"))
      (tree (bytesOf "z")) (by decide!)).2⟩

/-! ## The attachment of trivia -/

theorem foldl_advance_line : ∀ (bytes : List Nat) (l c : Nat),
    (bytes.foldl advance (l, c)).1 = l + bytes.count 10 := by
  intro bytes
  induction bytes with
  | nil => intro l c; rfl
  | cons b bs ih =>
    intro l c
    by_cases h10 : b = 10
    · simp only [List.foldl_cons, advance, h10, if_true, ih, List.count_cons_self]
      omega
    · have : (advance (l, c) b).1 = l := by simp [advance, h10]
      rw [List.foldl_cons, ← Prod.mk.eta (p := advance (l, c) b), ih, this,
        List.count_cons_of_ne (Ne.symm h10)]

theorem readRaw_endLine (t : tokenizer) :
    (t.readRaw).2.line = (t.readRaw).1.endLine ∧ (t.readRaw).1.line = t.line := by
  unfold tokenizer.readRaw
  cases hin : t.input with
  | nil => simp [rawToken.endLine]
  | cons b rest => simp [rawToken.endLine, foldl_advance_line]

theorem readRaw_buffered (t : tokenizer) (b : List rawToken) :
    ({ t with buffered := b } : tokenizer).readRaw
      = ((t.readRaw).1, { (t.readRaw).2 with buffered := b }) := by
  unfold tokenizer.readRaw
  cases hin : t.input with
  | nil => simp [hin]
  | cons c rest => simp [hin]

theorem triviaRun_buffered : ∀ (k : Nat) (t : tokenizer) (b : List rawToken),
    triviaRun k { t with buffered := b }
      = ((triviaRun k t).1, { (triviaRun k t).2 with buffered := b }) := by
  intro k
  induction k with
  | zero => intro t b; rfl
  | succ k ih =>
    intro t b
    simp only [triviaRun, readRaw_buffered]
    split
    · rfl
    · have := ih { (t.readRaw).2 with peek := (t.readRaw).1 } b
      simp only at this
      rw [this]

theorem triviaRun_trivia : ∀ (k : Nat) (t : tokenizer),
    ∀ x ∈ (triviaRun k t).1, isTrivia x.ttype = true := by
  intro k
  induction k with
  | zero => intro t x hx; simp [triviaRun] at hx
  | succ k ih =>
    intro t x hx
    simp only [triviaRun] at hx
    split at hx
    · simp at hx
    · rename_i h
      rcases List.mem_cons.1 hx with rfl | hx
      · simpa using h
      · exact ih _ x hx

/-- The loop of `read` in terms of the run of trivia in front of it: while
`onSameLine` holds, the trivia that end on the line of `res` go to its
suffix, and the rest of the run goes to the buffer. -/
theorem readLoop_run : ∀ (k : Nat) (t : tokenizer) (res : token) (sl : Bool),
    readLoop k t res sl =
      ({ res with suf := res.suf ++
          (if sl then (triviaRun k t).1.takeWhile (fun x => x.endLine == res.line) else []) },
       { (triviaRun k t).2 with buffered := t.buffered ++
          (if sl then (triviaRun k t).1.dropWhile (fun x => x.endLine == res.line)
           else (triviaRun k t).1) }) := by
  intro k
  induction k with
  | zero =>
    intro t res sl
    cases sl <;> simp [readLoop, triviaRun]
  | succ k ih =>
    intro t res sl
    have hb := (readRaw_spec t).2.1
    obtain ⟨hl, _⟩ := readRaw_endLine t
    simp only [readLoop, triviaRun]
    by_cases htr : isTrivia (t.readRaw).1.ttype = true
    · simp only [htr, Bool.not_true, Bool.false_eq_true, if_false]
      by_cases hsame : (sl && (t.readRaw).2.line == res.line) = true
      · rw [if_pos hsame]
        simp only [Bool.and_eq_true] at hsame
        obtain ⟨hsl, hline⟩ := hsame
        rw [hl] at hline
        rw [ih]
        simp only [hsl, if_true, List.takeWhile_cons, List.dropWhile_cons, hline, hb,
          List.append_assoc, List.singleton_append]
      · rw [if_neg hsame]
        have e := triviaRun_buffered k { (t.readRaw).2 with peek := (t.readRaw).1 }
          ((t.readRaw).2.buffered ++ [(t.readRaw).1])
        dsimp only at e
        rw [ih]
        dsimp only
        rw [e]
        simp only [Bool.false_eq_true, if_false, List.append_nil, hb, List.append_assoc,
          List.singleton_append]
        cases sl with
        | false => simp
        | true =>
          have hline : ((t.readRaw).1.endLine == res.line) = false := by
            rw [← hl]
            simpa using hsame
          simp [List.takeWhile_cons, List.dropWhile_cons, hline]
    · have htr' : isTrivia (t.readRaw).1.ttype = false := by simpa using htr
      simp only [htr', Bool.not_false, if_true, List.takeWhile_nil, List.dropWhile_nil,
        ite_self, List.append_nil, hb]

theorem triviaRun_peek : ∀ (k : Nat) (t : tokenizer), t.input.length < k →
    isTrivia (triviaRun k t).2.peek.ttype = false ∧
    triviaText (triviaRun k t).1 ++ (triviaRun k t).2.peek.text ++ (triviaRun k t).2.input
      = t.input := by
  intro k
  induction k with
  | zero => intro t h; omega
  | succ k ih =>
    intro t hk
    obtain ⟨h1, h2, h3, h4⟩ := readRaw_spec t
    simp only [triviaRun]
    by_cases htr : isTrivia (t.readRaw).1.ttype = true
    · have hne : t.input ≠ [] := by
        intro h
        rw [(h3 h).1] at htr
        simp [isTrivia] at htr
      simp only [htr, Bool.not_true, Bool.false_eq_true, if_false]
      obtain ⟨i1, i2⟩ := ih { (t.readRaw).2 with peek := (t.readRaw).1 }
        (by have := (h4 hne).2.2; simp only; omega)
      refine ⟨i1, ?_⟩
      simp only at i2
      conv_rhs => rw [← h1, ← i2]
      simp [triviaText, List.append_assoc]
    · have htr' : isTrivia (t.readRaw).1.ttype = false := by simpa using htr
      simp only [htr', Bool.not_false, if_true]
      exact ⟨trivial, by simpa [triviaText] using h1⟩

/-- C18, as the code has it: the prefix of the token `read` returns is the
buffer; of the run of trivia that follows the token, those in front of the
first one that ends on another line than the line the token starts on are
its suffix, and the rest of the run is the buffer, that is the prefix of the
token the next `read` returns; in front of END the whole run is the suffix. -/
theorem read_attaches (t : tokenizer) :
    (t.read).1.pre = t.buffered ∧
    (t.read).1.suf =
      (if (triviaRun (t.input.length + 1) t).2.peek.ttype = END
        then (triviaRun (t.input.length + 1) t).1
        else (triviaRun (t.input.length + 1) t).1.takeWhile
          (fun x => x.endLine == t.peek.line)) ∧
    ((t.read).2.read).1.pre =
      (if (triviaRun (t.input.length + 1) t).2.peek.ttype = END then []
        else (triviaRun (t.input.length + 1) t).1.dropWhile
          (fun x => x.endLine == t.peek.line)) ∧
    (t.read).2.peek = (triviaRun (t.input.length + 1) t).2.peek ∧
    isTrivia (t.read).2.peek.ttype = false ∧
    (∀ x ∈ (triviaRun (t.input.length + 1) t).1, isTrivia x.ttype = true) ∧
    triviaText (triviaRun (t.input.length + 1) t).1 ++ (t.read).2.peek.text ++ (t.read).2.input
      = t.input := by
  have hrun := readLoop_run (t.input.length + 1) { t with buffered := [] }
    ⟨t.peek.ttype, t.peek.line, t.peek.column, t.peek.text, t.buffered, []⟩ true
  have hbuf := triviaRun_buffered (t.input.length + 1) t []
  obtain ⟨hp1, hp2⟩ := triviaRun_peek (t.input.length + 1) t (by omega)
  have hpre : ((t.read).2.read).1.pre = (t.read).2.buffered := (read_spec (t.read).2).2.2.2.2.1
  rw [hpre]
  dsimp only at hrun hbuf
  rw [hbuf] at hrun
  simp only [if_true, List.nil_append] at hrun
  have htriv := triviaRun_trivia (t.input.length + 1) t
  generalize triviaRun (t.input.length + 1) t = r at hrun hp1 hp2 htriv ⊢
  have htd := List.takeWhile_append_dropWhile (fun x : rawToken => x.endLine == t.peek.line) r.1
  have hread : t.read =
      (⟨t.peek.ttype, t.peek.line, t.peek.column, t.peek.text, t.buffered,
          if r.2.peek.ttype = END then r.1
          else r.1.takeWhile (fun x => x.endLine == t.peek.line)⟩,
        ⟨r.2.input, if r.2.peek.ttype = END then []
          else r.1.dropWhile (fun x => x.endLine == t.peek.line), r.2.peek, r.2.line,
          r.2.column⟩) := by
    simp only [tokenizer.read, hrun]
    by_cases hend : r.2.peek.ttype = END
    · by_cases hb : 0 < (r.1.dropWhile (fun x => x.endLine == t.peek.line)).length
      · rw [if_pos ⟨hend, hb⟩]
        simp only [hend, if_true, htd]
      · rw [if_neg (fun h => hb h.2)]
        have hnil : r.1.dropWhile (fun x => x.endLine == t.peek.line) = [] :=
          List.length_eq_zero.1 (by omega)
        rw [hnil, List.append_nil] at htd
        simp only [hend, if_true, htd, hnil]
    · rw [if_neg (fun h => hend h.1)]
      simp only [hend, if_false]
  rw [hread]
  exact ⟨rfl, rfl, rfl, rfl, hp1, htriv, by simpa using hp2⟩

set_option maxRecDepth 100000 in
/-- C18, as the specification has it, fails on `a // c` followed by a line
break and `b`: the line comment starts on the line of `a`, and it is not in
the suffix of `a`, which holds the blank only, but in the prefix of `b`. -/
theorem read_attaches_counterexample :
    ((newTokenizer (bytesOf "a // c\nb")).read).1
      = ⟨WORD, 1, 1, bytesOf "a", [], [⟨SPACE, 1, 2, bytesOf " "⟩]⟩ ∧
    (((newTokenizer (bytesOf "a // c\nb")).read).2.read).1
      = ⟨WORD, 2, 1, bytesOf "b", [⟨COMMENT, 1, 3, bytesOf "// c\n"⟩], []⟩ := by
  decide!

/-! ## The panic of `substitute` -/

mutual
theorem substitute_eq_toOption (vars : varmap) : ∀ n : node,
    substitute vars n = (substituteE vars n).toOption
  | .leaf tok => by
    simp only [substitute, substituteE]
    split
    · rfl
    · cases vars.find tok.text <;> rfl
  | .interior tok cs => by
    simp only [substitute, substituteE]
    exact substituteList_eq_toOption vars cs
theorem substituteList_eq_toOption (vars : varmap) : ∀ l : List node,
    substituteList vars l = (substituteEList vars l).toOption
  | [] => rfl
  | c :: cs => by
    simp only [substituteList, substituteEList, substitute_eq_toOption vars c,
      substituteList_eq_toOption vars cs]
    cases substituteE vars c with
    | error e => rfl
    | ok r =>
      cases substituteEList vars cs with
      | error e => rfl
      | ok rs => rfl
end

mutual
theorem substituteE_error (vars : varmap) : ∀ (n : node) (msg : List Nat),
    substituteE vars n = .error msg →
    ∃ tok ∈ leafTokens n, isVar tok.ttype = true ∧ vars.find tok.text = none ∧
      msg = bytesOf "variable not found + " ++ tok.text
  | .leaf tok, msg => by
    intro h
    simp only [substituteE] at h
    split at h
    · simp at h
    · rename_i hv
      split at h
      · rename_i hf
        simp only [Except.error.injEq] at h
        refine ⟨tok, by simp [leafTokens], ?_, hf, h.symm⟩
        simp only [isVar, Bool.or_eq_true, beq_iff_eq]
        by_contra hc
        exact hv ⟨fun a => hc (Or.inl a), fun a => hc (Or.inr a)⟩
      · simp at h
  | .interior tok cs, msg => by
    intro h
    simp only [substituteE] at h
    obtain ⟨t, ht, r⟩ := substituteEList_error vars cs msg h
    exact ⟨t, by simpa [leafTokens] using ht, r⟩
theorem substituteEList_error (vars : varmap) : ∀ (l : List node) (msg : List Nat),
    substituteEList vars l = .error msg →
    ∃ tok ∈ leafTokensList l, isVar tok.ttype = true ∧ vars.find tok.text = none ∧
      msg = bytesOf "variable not found + " ++ tok.text
  | [], msg => by intro h; simp [substituteEList] at h
  | c :: cs, msg => by
    intro h
    simp only [substituteEList] at h
    split at h
    · rename_i e he
      simp only [Except.error.injEq] at h
      subst h
      obtain ⟨t, ht, r⟩ := substituteE_error vars c e he
      exact ⟨t, by simp [leafTokensList, ht], r⟩
    · split at h
      · rename_i e he
        simp only [Except.error.injEq] at h
        subst h
        obtain ⟨t, ht, r⟩ := substituteEList_error vars cs e he
        exact ⟨t, by simp [leafTokensList, ht], r⟩
      · simp at h
end

mutual
theorem substitute_some_bound (vars : varmap) : ∀ (n : node) (r : List node),
    substitute vars n = some r →
    ∀ tok ∈ leafTokens n, isVar tok.ttype = true → (vars.find tok.text).isSome = true
  | .leaf tok, r => by
    intro h t ht hv
    simp only [leafTokens, List.mem_singleton] at ht
    subst ht
    simp only [substitute] at h
    split at h
    · rename_i hn
      simp only [isVar, Bool.or_eq_true, beq_iff_eq] at hv
      rcases hv with hv | hv
      · exact absurd hv hn.1
      · exact absurd hv hn.2
    · split at h
      · simp at h
      · rename_i vals hf
        simp [hf]
  | .interior tok cs, r => by
    intro h t ht hv
    simp only [substitute] at h
    exact substituteList_some_bound vars cs r h t (by simpa [leafTokens] using ht) hv
theorem substituteList_some_bound (vars : varmap) : ∀ (l : List node) (r : List node),
    substituteList vars l = some r →
    ∀ tok ∈ leafTokensList l, isVar tok.ttype = true → (vars.find tok.text).isSome = true
  | [], r => by intro _ t ht; simp [leafTokensList] at ht
  | c :: cs, r => by
    intro h t ht hv
    simp only [substituteList] at h
    split at h
    · simp at h
    · rename_i r1 h1
      split at h
      · simp at h
      · rename_i r2 h2
        simp only [leafTokensList, List.mem_append] at ht
        rcases ht with ht | ht
        · exact substitute_some_bound vars c r1 h1 t ht hv
        · exact substituteList_some_bound vars cs r2 h2 t ht hv
end

theorem substitute_none_iff (vars : varmap) (n : node) :
    substitute vars n = none ↔
      ∃ tok ∈ leafTokens n, isVar tok.ttype = true ∧ vars.find tok.text = none := by
  constructor
  · intro h
    by_contra hc
    have hall : ∀ tok ∈ leafTokens n, isVar tok.ttype = true →
        (vars.find tok.text).isSome = true := by
      intro tok ht hv
      cases hf : vars.find tok.text with
      | none => exact absurd ⟨tok, ht, hv, hf⟩ hc
      | some v => rfl
    rw [substitute_spec_node vars n hall] at h
    simp at h
  · rintro ⟨tok, ht, hv, hf⟩
    cases hs : substitute vars n with
    | none => rfl
    | some r =>
      have := substitute_some_bound vars n r hs tok ht hv
      rw [hf] at this
      simp at this

/-! ## When `replace` aborts -/

theorem groupsOk_lt : ∀ (atoms : List atom) (gs : List (Nat × Nat)) (pos e : Nat),
    groupsOk atoms gs pos e → (∃ a ∈ atoms, a ≠ atom.star) → pos < e := by
  intro atoms
  induction atoms with
  | nil => intro gs pos e _ h; simp at h
  | cons a atoms ih =>
    intro gs pos e h hex
    cases gs with
    | nil => simp [groupsOk] at h
    | cons g gs =>
      simp only [groupsOk] at h
      obtain ⟨h1, h2, h3, h4⟩ := h
      have hle := groupsOk_le _ _ _ _ h4
      by_cases ha : a = atom.star
      · obtain ⟨b, hb, hne⟩ := hex
        rcases List.mem_cons.1 hb with rfl | hb
        · exact absurd ha hne
        · have := ih gs g.2 e h4 ⟨b, hb, hne⟩
          omega
      · have := h3 ha
        omega

theorem matchNodes_pos (p : pattern) (subject : List node) (m : Match)
    (h : p.matchNodes subject = some m) (hex : ∃ c ∈ p.list, atomOf p.runemap c ≠ atom.star) :
    m.start < m.limit := by
  simp only [pattern.matchNodes] at h
  obtain ⟨sm, hsm, hf⟩ := List.exists_of_findSome?_eq_some h
  simp only [Option.map_eq_some'] at hf
  obtain ⟨vars, hv, rfl⟩ := hf
  obtain ⟨g1, _, _⟩ := findAll_ok _ _ sm hsm
  apply groupsOk_lt _ _ _ _ g1
  obtain ⟨c, hc, hne⟩ := hex
  exact ⟨atomOf p.runemap c, by simp only [compileList]; exact List.mem_map.2 ⟨c, hc, rfl⟩, hne⟩

theorem pickAnchor_some (freq : List Nat → Nat) : ∀ (l : List occurrence)
    (st : Option occurrence × Nat) (a : occurrence),
    (l.foldl (pickAnchor freq) st).1 = some a →
    st.1 = some a ∨ (a ∈ l ∧ isVar a.tok.ttype = false) := by
  intro l
  induction l with
  | nil => intro st a h; exact Or.inl h
  | cons o l ih =>
    intro st a h
    rw [List.foldl_cons] at h
    rcases ih _ a h with h1 | ⟨h1, h2⟩
    · simp only [pickAnchor] at h1
      split at h1
      · exact Or.inl h1
      · rename_i hv
        split at h1
        · simp only [Option.some.injEq] at h1
          subst h1
          exact Or.inr ⟨by simp, by simpa using hv⟩
        · exact Or.inl h1
    · exact Or.inr ⟨by simp [h1], h2⟩

theorem leafTokensList_exists (cs : List node) (tok : token) (h : tok ∈ leafTokensList cs) :
    ∃ c ∈ cs, tok ∈ leafTokens c := by
  induction cs with
  | nil => simp [leafTokensList] at h
  | cons d ds ih =>
    simp only [leafTokensList, List.mem_append] at h
    rcases h with h | h
    · exact ⟨d, by simp, h⟩
    · obtain ⟨c, hc, ht⟩ := ih h
      exact ⟨c, by simp [hc], ht⟩

/-- A pattern with an anchor has a node in its list that the regular
expression does not write as `(.*)`. -/
theorem anchor_atom (subject pat : node) (a : occurrence) (rm : runemap)
    (h : anchorOf subject pat = some a) (hpat : pat.isLeaf = false) :
    ∃ c ∈ pat.children, atomOf rm c ≠ atom.star := by
  rcases pickAnchor_some _ _ _ a h with h1 | ⟨h1, h2⟩
  · simp at h1
  · have hmem : a.tok ∈ leafTokens pat := by
      rw [← leaves_tok pat []]
      exact List.mem_map.2 ⟨a, h1, rfl⟩
    cases pat with
    | leaf tok => simp [node.isLeaf] at hpat
    | interior tok cs =>
      simp only [leafTokens] at hmem
      obtain ⟨c, hc, ht⟩ := leafTokensList_exists cs a.tok hmem
      refine ⟨c, hc, ?_⟩
      cases c with
      | interior t2 ds => simp [atomOf]
      | leaf t2 =>
        simp only [leafTokens, List.mem_singleton] at ht
        subst ht
        simp only [isVar, Bool.or_eq_false_iff, beq_eq_false_iff_ne, ne_eq] at h2
        simp [atomOf, h2.1, h2.2]

/-- The inner loop of `replace` ends when every match takes a node and
`substitute` does not panic. -/
theorem rewriteLoop_total (pat : pattern) (replacement : node)
    (hex : ∃ c ∈ pat.list, atomOf pat.runemap c ≠ atom.star)
    (hsub : ∀ src m, pat.matchNodes src = some m → substitute m.vars replacement ≠ none) :
    ∀ (k start : Nat) (src : List node), src.length - start < k →
    ∃ out, rewriteLoop pat replacement k start src = some out := by
  intro k
  induction k with
  | zero => intro start src h; omega
  | succ k ih =>
    intro start src hk
    simp only [rewriteLoop]
    split
    · rename_i hlt
      cases hm : pat.matchNodes (src.drop start) with
      | none => exact ⟨src, rfl⟩
      | some m =>
        simp only
        cases hs : substitute m.vars replacement with
        | none => exact absurd hs (hsub _ m hm)
        | some result =>
          simp only
          have hpos := matchNodes_pos pat _ m hm hex
          obtain ⟨_, hlim, _, _⟩ := matchNodes_ok pat _ m hm
          simp only [List.length_drop] at hlim
          apply ih
          simp only [List.length_append, List.length_take, List.length_drop]
          omega
    · exact ⟨src, rfl⟩

theorem makePattern_list (pat : node) : (makePattern pat).list = pat.children := rfl

theorem leafTokens_children (pat : node) (hpat : pat.isLeaf = false) :
    leafTokensList pat.children = leafTokens pat := by
  cases pat with
  | leaf tok => simp [node.isLeaf] at hpat
  | interior tok cs => simp [node.children, leafTokens]

/-- With a variable the pattern does not bind in the replacement,
`substitute` panics after every match. -/
theorem substitute_unbound (pat replacement : node) (hpat : pat.isLeaf = false)
    (hu : unbound pat replacement) (src : List node) (m : Match)
    (hm : (makePattern pat).matchNodes src = some m) :
    substitute m.vars replacement = none := by
  obtain ⟨tok, ht, hv, hno⟩ := hu
  rw [substitute_none_iff]
  refine ⟨tok, ht, hv, ?_⟩
  cases hf : m.vars.find tok.text with
  | none => rfl
  | some nodes =>
    obtain ⟨_, _, h3, _⟩ := matchNodes_ok _ _ m hm
    obtain ⟨_, p, hp, hpv, hpt, _⟩ := h3 _ (varmap_find_some _ _ _ hf)
    rw [makePattern_list, leafTokens_children pat hpat] at hp
    exact absurd hpt (hno p hp hpv)

/-- When the pattern binds every variable of the replacement, `substitute`
does not panic after a match. -/
theorem substitute_bound (pat replacement : node) (hpat : pat.isLeaf = false)
    (hu : ¬ unbound pat replacement) (src : List node) (m : Match)
    (hm : (makePattern pat).matchNodes src = some m) :
    substitute m.vars replacement ≠ none := by
  intro hs
  rw [substitute_none_iff] at hs
  obtain ⟨tok, ht, hv, hf⟩ := hs
  apply hu
  refine ⟨tok, ht, hv, ?_⟩
  intro p hp hpv hpt
  obtain ⟨_, _, _, h4⟩ := matchNodes_ok _ _ m hm
  rw [makePattern_list, leafTokens_children pat hpat] at h4
  obtain ⟨en, hen, hname⟩ := h4 p hp hpv
  obtain ⟨nodes, hfind⟩ := varmap_find_of_mem m.vars en hen
  rw [hname, hpt, hf] at hfind
  simp at hfind

theorem replaceLoop_total (pat : pattern) (replacement : node) (ad : Nat)
    (hex : ∃ c ∈ pat.list, atomOf pat.runemap c ≠ atom.star)
    (hsub : ∀ src m, pat.matchNodes src = some m → substitute m.vars replacement ≠ none) :
    ∀ (occ : List occurrence) (st : replaceState),
    ∃ st', replaceLoop pat replacement ad st occ = some st' := by
  intro occ
  induction occ with
  | nil => intro st; exact ⟨st, rfl⟩
  | cons o occ ih =>
    intro st
    have hstep : ∃ st1, replaceStep pat replacement ad st o = some st1 := by
      simp only [replaceStep]
      split
      · exact ⟨_, rfl⟩
      · split
        · exact ⟨_, rfl⟩
        · split
          · exact ⟨_, rfl⟩
          · rename_i n hn
            obtain ⟨out, hout⟩ := rewriteLoop_total pat replacement hex hsub
              (n.children.length + 1) 0 n.children (by omega)
            simp only [hout]
            split <;> exact ⟨_, rfl⟩
    obtain ⟨st1, h1⟩ := hstep
    obtain ⟨st2, h2⟩ := ih st1
    exact ⟨st2, by simp only [replaceLoop, h1, h2]⟩

/-- One turn of the loop over the occurrences, on the subject as it was at
the start, when `substitute` panics after every match: the turn aborts, or
it leaves the subject as it is, and the list node noted in `last` is one on
which no match fires. -/
theorem replaceStep_unbound (pat : pattern) (replacement : node) (ad : Nat) (subject : node)
    (hsub : ∀ src m, pat.matchNodes src = some m → substitute m.vars replacement = none)
    (st : replaceState) (o : occurrence) (hst : st.subject = subject)
    (hlast : ∀ q, st.last = some q → ∀ n, subject.at? q = some n →
      n.children.length = 0 ∨ pat.matchNodes n.children = none) :
    (replaceStep pat replacement ad st o = none ∧
      ad ≤ o.depth ∧ ∃ n, subject.at? (o.path.take (o.path.length - ad)) = some n ∧
        0 < n.children.length ∧ (pat.matchNodes n.children).isSome = true) ∨
    (∃ st', replaceStep pat replacement ad st o = some st' ∧ st'.subject = subject ∧
      (∀ q, st'.last = some q → ∀ n, subject.at? q = some n →
        n.children.length = 0 ∨ pat.matchNodes n.children = none) ∧
      (ad ≤ o.depth → ∀ n, subject.at? (o.path.take (o.path.length - ad)) = some n →
        n.children.length = 0 ∨ pat.matchNodes n.children = none)) := by
  simp only [replaceStep]
  by_cases hd : o.depth < ad
  · right
    rw [if_pos hd]
    exact ⟨st, rfl, hst, hlast, fun h => by omega⟩
  · rw [if_neg hd]
    by_cases hl : some (o.path.take (o.path.length - ad)) = st.last
    · right
      rw [if_pos hl]
      exact ⟨st, rfl, hst, hlast, fun _ => hlast _ hl.symm⟩
    · rw [if_neg hl, hst]
      cases hn : subject.at? (o.path.take (o.path.length - ad)) with
      | none =>
        right
        refine ⟨_, rfl, rfl, ?_, ?_⟩
        · intro q hq n hqn
          simp only [Option.some.injEq] at hq
          rw [← hq, hn] at hqn
          simp at hqn
        · intro _ n hqn
          simp at hqn
      | some n =>
        simp only
        cases n with
        | leaf tok =>
          right
          simp only [node.children, List.length_nil, rewriteLoop, Nat.lt_irrefl, if_false,
            node.isLeaf, if_true]
          refine ⟨_, rfl, rfl, ?_, ?_⟩
          · intro q hq n hqn
            simp only [Option.some.injEq] at hq
            rw [← hq, hn] at hqn
            simp only [Option.some.injEq] at hqn
            rw [← hqn]
            left; rfl
          · intro _ n hqn
            simp only [Option.some.injEq] at hqn
            rw [← hqn]
            left; rfl
        | interior tok cs =>
          simp only [node.children, node.isLeaf, Bool.false_eq_true, if_false]
          by_cases hlen : 0 < cs.length
          · cases hm : pat.matchNodes cs with
            | none =>
              right
              have hloop : rewriteLoop pat replacement (cs.length + 1) 0 cs = some cs := by
                simp only [rewriteLoop, List.drop_zero, hm, hlen, if_true]
              simp only [hloop]
              refine ⟨_, rfl, ?_, ?_, ?_⟩
              · exact setChildrenAt_self _ _ _ _ hn
              · intro q hq n hqn
                simp only [Option.some.injEq] at hq
                rw [← hq, hn] at hqn
                simp only [Option.some.injEq] at hqn
                rw [← hqn]
                right; exact hm
              · intro _ n hqn
                simp only [Option.some.injEq] at hqn
                rw [← hqn]
                right; exact hm
            | some m =>
              left
              have hloop : rewriteLoop pat replacement (cs.length + 1) 0 cs = none := by
                simp only [rewriteLoop, List.drop_zero, hm, hlen, if_true, hsub cs m hm]
              simp only [hloop]
              exact ⟨trivial, by omega, _, rfl, hlen, by simp [node.children, hm]⟩
          · right
            have hloop : rewriteLoop pat replacement (cs.length + 1) 0 cs = some cs := by
              simp only [rewriteLoop, hlen, if_false]
            simp only [hloop]
            refine ⟨_, rfl, ?_, ?_, ?_⟩
            · exact setChildrenAt_self _ _ _ _ hn
            · intro q hq n hqn
              simp only [Option.some.injEq] at hq
              rw [← hq, hn] at hqn
              simp only [Option.some.injEq] at hqn
              rw [← hqn]
              left; simp only [node.children]; omega
            · intro _ n hqn
              simp only [Option.some.injEq] at hqn
              rw [← hqn]
              left; simp only [node.children]; omega

theorem replaceLoop_unbound (pat : pattern) (replacement : node) (ad : Nat) (subject : node)
    (hsub : ∀ src m, pat.matchNodes src = some m → substitute m.vars replacement = none) :
    ∀ (occ : List occurrence) (st : replaceState), st.subject = subject →
    (∀ q, st.last = some q → ∀ n, subject.at? q = some n →
      n.children.length = 0 ∨ pat.matchNodes n.children = none) →
    (replaceLoop pat replacement ad st occ = none ∧
      ∃ o ∈ occ, ad ≤ o.depth ∧ ∃ n, subject.at? (o.path.take (o.path.length - ad)) = some n ∧
        0 < n.children.length ∧ (pat.matchNodes n.children).isSome = true) ∨
    ((∃ st', replaceLoop pat replacement ad st occ = some st' ∧ st'.subject = subject) ∧
      ∀ o ∈ occ, ad ≤ o.depth → ∀ n, subject.at? (o.path.take (o.path.length - ad)) = some n →
        n.children.length = 0 ∨ pat.matchNodes n.children = none) := by
  intro occ
  induction occ with
  | nil =>
    intro st hst _
    right
    exact ⟨⟨st, rfl, hst⟩, by simp⟩
  | cons o occ ih =>
    intro st hst hlast
    rcases replaceStep_unbound pat replacement ad subject hsub st o hst hlast with
      ⟨h1, h2⟩ | ⟨st1, h1, h2, h3, h4⟩
    · left
      exact ⟨by simp only [replaceLoop, h1], o, by simp, h2⟩
    · rcases ih st1 h2 h3 with ⟨i1, o', ho', i2⟩ | ⟨⟨st2, i1, i2⟩, i3⟩
      · left
        exact ⟨by simp only [replaceLoop, h1, i1], o', by simp [ho'], i2⟩
      · right
        refine ⟨⟨st2, by simp only [replaceLoop, h1, i1], i2⟩, ?_⟩
        intro x hx
        rcases List.mem_cons.1 hx with rfl | hx
        · exact h4
        · exact i3 x hx

theorem replaceWith_anchorOf (sort : List occurrence → List occurrence)
    (subject pat replacement : node) :
    replaceWith sort subject pat replacement =
      match anchorOf subject pat with
      | none => some subject
      | some anchor =>
        if ((leaves [] subject).filter (fun o => o.tok.text == anchor.tok.text)).isEmpty
        then some subject
        else
          (replaceLoop (makePattern pat) replacement anchor.depth ⟨subject, none⟩
            (sort ((leaves [] subject).filter (fun o => o.tok.text == anchor.tok.text)))).map
            (fun st => st.subject) := rfl

/-- When `replace` aborts: exactly when a match fires and the replacement
uses a variable the pattern does not bind; `sort` is any function that
returns its argument in some order. -/
theorem replaceWith_none_iff (sort : List occurrence → List occurrence)
    (hsort : ∀ l o, o ∈ sort l ↔ o ∈ l) (subject pat replacement : node)
    (hpat : pat.isLeaf = false) :
    replaceWith sort subject pat replacement = none ↔
      fires subject pat ∧ unbound pat replacement := by
  rw [replaceWith_anchorOf]
  constructor
  · intro h
    cases ha : anchorOf subject pat with
    | none => simp [ha] at h
    | some a =>
      simp only [ha] at h
      split at h
      · simp at h
      · rename_i hne
        simp only [Option.map_eq_none'] at h
        have hu : unbound pat replacement := by
          by_contra hu
          obtain ⟨st', hst'⟩ := replaceLoop_total (makePattern pat) replacement a.depth
            (anchor_atom subject pat a _ ha hpat)
            (fun src m hm => substitute_bound pat replacement hpat hu src m hm)
            (sort ((leaves [] subject).filter (fun o => o.tok.text == a.tok.text)))
            ⟨subject, none⟩
          rw [hst'] at h
          simp at h
        refine ⟨?_, hu⟩
        rcases replaceLoop_unbound (makePattern pat) replacement a.depth subject
          (fun src m hm => substitute_unbound pat replacement hpat hu src m hm)
          (sort ((leaves [] subject).filter (fun o => o.tok.text == a.tok.text)))
          ⟨subject, none⟩ rfl (by simp) with ⟨_, o, ho, h1, n, h2, h3, h4⟩ | ⟨⟨st', h1, _⟩, _⟩
        · rw [hsort, List.mem_filter] at ho
          exact ⟨a, ha, o, ho.1, ho.2, h1, n, h2, h3, h4⟩
        · rw [h1] at h
          simp at h
  · rintro ⟨⟨a, ha, o, ho, htext, hdepth, n, hn, hlen, hm⟩, hu⟩
    simp only [ha]
    have hocc : o ∈ (leaves [] subject).filter (fun o => o.tok.text == a.tok.text) :=
      List.mem_filter.2 ⟨ho, htext⟩
    have hne : ¬ ((leaves [] subject).filter (fun o => o.tok.text == a.tok.text)).isEmpty
        = true := by
      intro he
      rw [List.isEmpty_iff] at he
      rw [he] at hocc
      simp at hocc
    rw [if_neg hne]
    rcases replaceLoop_unbound (makePattern pat) replacement a.depth subject
      (fun src m hm => substitute_unbound pat replacement hpat hu src m hm)
      (sort ((leaves [] subject).filter (fun o => o.tok.text == a.tok.text)))
      ⟨subject, none⟩ rfl (by simp) with ⟨h1, _⟩ | ⟨_, hq⟩
    · rw [h1]; rfl
    · rcases hq o ((hsort _ _).2 hocc) hdepth n hn with h | h
      · omega
      · rw [h] at hm
        simp at hm

theorem sortSlice_mem (l : List occurrence) (o : occurrence) : o ∈ sortSlice l ↔ o ∈ l :=
  (List.perm_insertionSort _ l).mem_iff

/-! ## The tokenizer on operators between words -/

theorem oror_eq_ladder (un : parserFn) (k : Nat) : oror un k = ladder un k ladderOps := rfl

theorem readRaw_op (t : tokenizer) (op w rest : List Nat)
    (hop : op ∈ ladderOps.flatten ++ assignOps) (hin : t.input = op ++ (w ++ rest))
    (hw : isWord w) :
    t.readRaw = (⟨OTHER, t.line, t.column + 1, op⟩,
      { t with input := w ++ rest, column := t.column + op.length }) := by
  obtain ⟨hne, hall⟩ := hw
  cases w with
  | nil => exact absurd rfl hne
  | cons c r =>
    have hw := wordByte_cases c (hall c (by simp))
    have c1 : c ≠ 61 := by omega
    have c2 : c ≠ 60 := by omega
    have c3 : c ≠ 62 := by omega
    have c4 : c ≠ 43 := by omega
    have c5 : c ≠ 45 := by omega
    have c6 : c ≠ 38 := by omega
    have c7 : c ≠ 124 := by omega
    have c8 : c ≠ 47 := by omega
    have c9 : c ≠ 42 := by omega
    simp only [ladderOps, assignOps, List.flatten_cons, List.flatten_nil, List.append_nil,
      List.cons_append, List.nil_append, List.mem_cons, List.mem_singleton, List.not_mem_nil,
      or_false] at hop
    rcases hop with rfl | rfl | rfl | rfl | rfl | rfl | rfl | rfl | rfl | rfl | rfl | rfl |
      rfl | rfl | rfl | rfl | rfl | rfl | rfl | rfl | rfl | rfl | rfl | rfl | rfl | rfl | rfl |
      rfl | rfl
    all_goals
      simp [tokenizer.readRaw, hin, scan, scandata, scanBase, operators, isSpace, isWordByte,
        inRange, advance, c1, c2, c3, c4, c5, c6, c7, c8, c9]

theorem read_tokState_op (op w rest : List Nat) (ty : tokenType) (col : Nat) (text : List Nat)
    (e : Nat) (hop : op ∈ ladderOps.flatten ++ assignOps) (hw : isWord w) :
    (tokState (op ++ (w ++ rest)) ty col text e).read
      = (⟨ty, 1, col, text, [], []⟩, tokState (w ++ rest) OTHER (e + 1) op (e + op.length)) := by
  have h := readRaw_op (tokState (op ++ (w ++ rest)) ty col text e) op w rest hop rfl hw
  rw [read_content _ rfl (by rw [h]; rfl), h]
  rfl

theorem endsWord_op (op rest : List Nat) (hop : op ∈ ladderOps.flatten ++ assignOps) :
    endsWord (op ++ rest) := by
  have h : ∀ op ∈ ladderOps.flatten ++ assignOps,
      (op.head?.map isWordByte) = some false := by decide
  have h1 := h op hop
  cases op with
  | nil => simp at h1
  | cons c r =>
    simp only [List.head?_cons, Option.map_some', Option.some.injEq] at h1
    exact endsWord_cons c _ h1

theorem endsWord_nil : endsWord [] := by
  intro c hc
  simp at hc

/-- The states of the tokenizer on `a op1 b op2 c`, one per token: `peek`
holds the tokens `a`, `op1`, `b`, `op2`, `c` and END in turn. -/
theorem states_binary (a b c op1 op2 : List Nat) (ha : isWord a) (hb : isWord b)
    (hc : isWord c) (h1 : op1 ∈ ladderOps.flatten ++ assignOps)
    (h2 : op2 ∈ ladderOps.flatten ++ assignOps) :
    newTokenizer (a ++ (op1 ++ (b ++ (op2 ++ c))))
      = tokState (op1 ++ (b ++ (op2 ++ c))) WORD 1 a a.length ∧
    (tokState (op1 ++ (b ++ (op2 ++ c))) WORD 1 a a.length).read
      = (⟨WORD, 1, 1, a, [], []⟩,
          tokState (b ++ (op2 ++ c)) OTHER (a.length + 1) op1 (a.length + op1.length)) ∧
    (tokState (b ++ (op2 ++ c)) OTHER (a.length + 1) op1 (a.length + op1.length)).read
      = (⟨OTHER, 1, a.length + 1, op1, [], []⟩,
          tokState (op2 ++ c) WORD (a.length + op1.length + 1) b
            (a.length + op1.length + b.length)) ∧
    (tokState (op2 ++ c) WORD (a.length + op1.length + 1) b
        (a.length + op1.length + b.length)).read
      = (⟨WORD, 1, a.length + op1.length + 1, b, [], []⟩,
          tokState c OTHER (a.length + op1.length + b.length + 1) op2
            (a.length + op1.length + b.length + op2.length)) ∧
    (tokState c OTHER (a.length + op1.length + b.length + 1) op2
        (a.length + op1.length + b.length + op2.length)).read
      = (⟨OTHER, 1, a.length + op1.length + b.length + 1, op2, [], []⟩,
          tokState [] WORD (a.length + op1.length + b.length + op2.length + 1) c
            (a.length + op1.length + b.length + op2.length + c.length)) ∧
    (tokState [] WORD (a.length + op1.length + b.length + op2.length + 1) c
        (a.length + op1.length + b.length + op2.length + c.length)).read
      = (⟨WORD, 1, a.length + op1.length + b.length + op2.length + 1, c, [], []⟩,
          tokState [] END (a.length + op1.length + b.length + op2.length + c.length + 1) []
            (a.length + op1.length + b.length + op2.length + c.length)) := by
  refine ⟨newTokenizer_word a _ ha (endsWord_op op1 _ h1),
    read_tokState_op op1 b (op2 ++ c) WORD 1 a a.length h1 hb,
    read_tokState_word b (op2 ++ c) OTHER (a.length + 1) op1 (a.length + op1.length) hb
      (endsWord_op op2 _ h2), ?_, ?_, read_tokState_end _ _ _ _⟩
  · have := read_tokState_op op2 c [] WORD (a.length + op1.length + 1) b
      (a.length + op1.length + b.length) h2 hc
    simpa using this
  · have := read_tokState_word c [] OTHER (a.length + op1.length + b.length + 1) op2
      (a.length + op1.length + b.length + op2.length) hc endsWord_nil
    simpa using this

/-! ## The precedence ladder -/

theorem ladder_pass (un : parserFn) (k : Nat) (t t1 : tokenizer) (n : node) :
    ∀ (upper lower : List (List (List Nat))),
    ladder un (k + 1) lower t = some (n, t1) →
    (∀ ops ∈ upper, lookingAt t1 ops = false) →
    ladder un (k + 1) (upper ++ lower) t = some (n, t1) := by
  intro upper
  induction upper with
  | nil => intro lower h _; exact h
  | cons ops upper ih =>
    intro lower h hl
    rw [List.cons_append, ladder]
    exact parseLeft_pass _ ops k t t1 n (ih lower h (fun o ho => hl o (by simp [ho])))
      (hl ops (by simp))

theorem ladder_pass_all (un : parserFn) (k : Nat) (t t1 : tokenizer) (n : node)
    (levels : List (List (List Nat))) (h : un t = some (n, t1))
    (hl : ∀ ops ∈ levels, lookingAt t1 ops = false) :
    ladder un (k + 1) levels t = some (n, t1) := by
  have := ladder_pass un k t t1 n levels [] h hl
  simpa using this

/-- One operator of the level `ops`, between operands of the levels below. -/
theorem ladder_once (un : parserFn) (k : Nat) (upper lower : List (List (List Nat)))
    (ops : List (List Nat)) (t t1 t2 : tokenizer) (l r : node)
    (hs : ladder un (k + 2) lower t = some (l, t1)) (hl : lookingAt t1 ops = true)
    (hr : ladder un (k + 2) lower (t1.read).2 = some (r, t2))
    (hl2 : ∀ o ∈ upper ++ [ops], lookingAt t2 o = false) :
    ladder un (k + 2) (upper ++ ops :: lower) t
      = some (.interior token.zero [l, .leaf (t1.read).1, r], t2) := by
  apply ladder_pass un (k + 1) t t2 _ upper (ops :: lower)
  · rw [ladder]
    exact parseLeft_once _ ops k t t1 t2 l r hs hl hr (hl2 ops (by simp))
  · intro o ho
    exact hl2 o (by simp [ho])

theorem parseLeft_twice (sub : parserFn) (tokens : List (List Nat)) (k : Nat)
    (t t1 t2 t3 : tokenizer) (l m r : node) (hs : sub t = some (l, t1))
    (hl : lookingAt t1 tokens = true) (hm : sub (t1.read).2 = some (m, t2))
    (hl2 : lookingAt t2 tokens = true) (hr : sub (t2.read).2 = some (r, t3))
    (hl3 : lookingAt t3 tokens = false) :
    parseLeft sub tokens (k + 3) t
      = some (.interior token.zero
          [.interior token.zero [l, .leaf (t1.read).1, m], .leaf (t2.read).1, r], t3) := by
  simp [parseLeft, hs, parseLeftLoop, hl, hm, hl2, hr, hl3]

/-- Two operators of the level `ops` in a row. -/
theorem ladder_twice (un : parserFn) (k : Nat) (upper lower : List (List (List Nat)))
    (ops : List (List Nat)) (t t1 t2 t3 : tokenizer) (l m r : node)
    (hs : ladder un (k + 3) lower t = some (l, t1)) (hl : lookingAt t1 ops = true)
    (hm : ladder un (k + 3) lower (t1.read).2 = some (m, t2)) (hl2 : lookingAt t2 ops = true)
    (hr : ladder un (k + 3) lower (t2.read).2 = some (r, t3))
    (hl3 : ∀ o ∈ upper ++ [ops], lookingAt t3 o = false) :
    ladder un (k + 3) (upper ++ ops :: lower) t
      = some (.interior token.zero
          [.interior token.zero [l, .leaf (t1.read).1, m], .leaf (t2.read).1, r], t3) := by
  apply ladder_pass un (k + 2) t t3 _ upper (ops :: lower)
  · rw [ladder]
    exact parseLeft_twice _ ops k t t1 t2 t3 l m r hs hl hm hl2 hr (hl3 ops (by simp))
  · intro o ho
    exact hl3 o (by simp [ho])

theorem unary_word (k : Nat) (inp : List Nat) (col e : Nat) (w : List Nat) (hw : isWord w)
    (h3 : lookingAt ((tokState inp WORD col w e).read).2 [[43, 43], [45, 45], [46], [45, 62]]
      = false)
    (h4 : lookingAt ((tokState inp WORD col w e).read).2 openers = false) :
    unary (k + 4) (tokState inp WORD col w e)
      = some (.leaf ((tokState inp WORD col w e).read).1, ((tokState inp WORD col w e).read).2) :=
  unary_atom k _ (lookingAt_word_false inp WORD col w e hw _ (by decide))
    (lookingAt_word_false inp WORD col w e hw _ (by decide)) h3 h4

theorem op_not_suffix : ∀ op ∈ ladderOps.flatten ++ assignOps,
    [[43, 43], [45, 45], [46], [45, 62]].any (fun s => op == s) = false ∧
    openers.any (fun s => op == s) = false := by
  decide

theorem end_not_op : ∀ ops ∈ assignOps :: ladderOps, ops.any (fun s => ([] : List Nat) == s) = false := by
  decide

/-- The end of `parse` for an input that is one expression with three
children. -/
theorem parse_of_assign (input rest : List Nat) (w : List Nat) (hw : isWord w) (e col e2 : Nat)
    (k : Nat) (x y z : node) (hfuel : parseFuel input = k + 2)
    (h0 : newTokenizer input = tokState rest WORD 1 w e)
    (ha : assign (k + 1) (tokState rest WORD 1 w e)
      = some (.interior token.zero [x, y, z], tokState [] END col [] e2)) :
    parse input = some (.interior token.zero [x, y, z]) := by
  have xA := readExprs_one k _ _ [] _ (by simp [tokState])
    (by rw [lookingAt_tokState]; simp [hw.1]) ha (Or.inl (by rfl))
  rw [parse, hfuel, h0]
  simp only [root, xA, rootOf, read_tokState_end]
  rfl

theorem ladder_split : ∀ i < 10, ∀ j < 10, j ≤ i ∨
    (ladderOps = ladderOps.take i ++ ladderOps.getD i [] ::
      ((ladderOps.drop (i + 1)).take (j - i - 1) ++ ladderOps.getD j [] ::
        ladderOps.drop (j + 1)) ∧
     ladderOps.drop (i + 1) = (ladderOps.drop (i + 1)).take (j - i - 1) ++
        ladderOps.getD j [] :: ladderOps.drop (j + 1)) := by
  decide

theorem ladder_own : ∀ i < 10, ∀ lo ∈ ladderOps.getD i [],
    (ladderOps.getD i []).any (fun s => lo == s) = true ∧
      lo ∈ ladderOps.flatten ++ assignOps := by
  decide

theorem ladder_disjoint : ∀ i < 10, ∀ j < 10, i = j ∨ ∀ lo ∈ ladderOps.getD i [],
    (ladderOps.getD j []).any (fun s => lo == s) = false := by
  decide

theorem ladder_index (op : List Nat) (i : Nat) (h : op ∈ ladderOps.getD i []) : i < 10 := by
  by_contra hge
  rw [List.getD_eq_default _ _ (by simp [ladderOps]; omega)] at h
  simp at h

theorem mem_drop_getD {α : Type} (d : α) : ∀ (l : List α) (n : Nat) (o : α), o ∈ l.drop n →
    ∃ p, n ≤ p ∧ p < l.length ∧ o = l.getD p d := by
  intro l
  induction l with
  | nil => intro n o h; simp at h
  | cons x xs ih =>
    intro n o h
    cases n with
    | zero =>
      simp only [List.drop_zero, List.mem_cons] at h
      rcases h with rfl | h
      · exact ⟨0, by omega, by simp, rfl⟩
      · obtain ⟨p, _, hp, rfl⟩ := ih 0 o (by simpa using h)
        exact ⟨p + 1, by omega, by simp; omega, rfl⟩
    | succ n =>
      simp only [List.drop_succ_cons] at h
      obtain ⟨p, hn, hp, rfl⟩ := ih n o h
      exact ⟨p + 1, by omega, by simp; omega, rfl⟩

/-- An operator of level `i` is in no list of the levels below `i`. -/
theorem ladder_below (i : Nat) (lo : List Nat) (hlo : lo ∈ ladderOps.getD i []) (n : Nat)
    (hn : i < n) : ∀ o ∈ ladderOps.drop n, o.any (fun s => lo == s) = false := by
  intro o ho
  obtain ⟨p, hp1, hp2, rfl⟩ := mem_drop_getD [] ladderOps n o ho
  have hp : p < 10 := by simpa [ladderOps] using hp2
  rcases ladder_disjoint i (ladder_index lo i hlo) p hp with h | h
  · omega
  · exact h lo hlo

theorem ladder_all (o : List (List Nat)) (ho : o ∈ ladderOps) (col e : Nat) :
    lookingAt (tokState [] END col [] e) o = false := by
  rw [lookingAt_tokState]
  exact end_not_op o (by simp [ho])

/-- The expression `a lo b hi c`, with `lo` of a level above the level of
`hi` in the ladder: the operator `hi` binds its operands first. -/
theorem ladder_right (k : Nat) (a b c lo hi : List Nat) (i j : Nat) (ha : isWord a)
    (hb : isWord b) (hc : isWord c) (hij : i < j) (hlo : lo ∈ ladderOps.getD i [])
    (hhi : hi ∈ ladderOps.getD j []) :
    ladder (unary (k + 4)) (k + 4) ladderOps
        (tokState (lo ++ (b ++ (hi ++ c))) WORD 1 a a.length)
      = some (.interior token.zero
          [.leaf ⟨WORD, 1, 1, a, [], []⟩,
           .leaf ⟨OTHER, 1, a.length + 1, lo, [], []⟩,
           .interior token.zero
             [.leaf ⟨WORD, 1, a.length + lo.length + 1, b, [], []⟩,
              .leaf ⟨OTHER, 1, a.length + lo.length + b.length + 1, hi, [], []⟩,
              .leaf ⟨WORD, 1, a.length + lo.length + b.length + hi.length + 1, c, [], []⟩]],
        tokState [] END (a.length + lo.length + b.length + hi.length + c.length + 1) []
          (a.length + lo.length + b.length + hi.length + c.length)) := by
  have hi10 := ladder_index lo i hlo
  have hj10 := ladder_index hi j hhi
  obtain ⟨hlo1, hlo2⟩ := ladder_own i hi10 lo hlo
  obtain ⟨hhi1, hhi2⟩ := ladder_own j hj10 hi hhi
  obtain ⟨hsplit, hdrop⟩ : _ ∧ _ := by
    rcases ladder_split i hi10 j hj10 with h | h
    · omega
    · exact h
  obtain ⟨e0, r1, r2, r3, r4, r5⟩ := states_binary a b c lo hi ha hb hc hlo2 hhi2
  have hloD : ∀ o ∈ (ladderOps.drop (i + 1)).take (j - i - 1) ++ ladderOps.getD j [] ::
      ladderOps.drop (j + 1), o.any (fun s => lo == s) = false := by
    rw [← hdrop]
    exact ladder_below i lo hlo (i + 1) (by omega)
  have hhiD := ladder_below j hi hhi (j + 1) (by omega)
  have hmem1 : ∀ o ∈ (ladderOps.drop (i + 1)).take (j - i - 1) ++ [ladderOps.getD j []],
      o ∈ ladderOps := by
    intro o ho
    rw [hsplit]
    simp only [List.mem_append, List.mem_cons, List.mem_singleton, List.not_mem_nil,
      or_false] at ho ⊢
    tauto
  have hmem2 : ∀ o ∈ ladderOps.take i ++ [ladderOps.getD i []], o ∈ ladderOps := by
    intro o ho
    rw [hsplit]
    simp only [List.mem_append, List.mem_cons, List.mem_singleton, List.not_mem_nil,
      or_false] at ho ⊢
    tauto
  -- the operands
  have uA := unary_word k _ 1 a.length a ha
    (by rw [r1, lookingAt_tokState]; exact (op_not_suffix lo hlo2).1)
    (by rw [r1, lookingAt_tokState]; exact (op_not_suffix lo hlo2).2)
  rw [r1] at uA
  have uB := unary_word k _ (a.length + lo.length + 1) (a.length + lo.length + b.length) b hb
    (by rw [r3, lookingAt_tokState]; exact (op_not_suffix hi hhi2).1)
    (by rw [r3, lookingAt_tokState]; exact (op_not_suffix hi hhi2).2)
  rw [r3] at uB
  have uC := unary_word k _ (a.length + lo.length + b.length + hi.length + 1)
    (a.length + lo.length + b.length + hi.length + c.length) c hc
    (by rw [r5]; rfl) (by rw [r5]; rfl)
  rw [r5] at uC
  -- the inner expression `b hi c`
  have pB := ladder_pass_all (unary (k + 4)) (k + 3) _ _ _ (ladderOps.drop (j + 1)) uB
    (by intro o ho; rw [lookingAt_tokState]; exact hhiD o ho)
  have pC := ladder_pass_all (unary (k + 4)) (k + 3) _ _ _ (ladderOps.drop (j + 1)) uC
    (by intro o ho; exact ladder_all o (List.mem_of_mem_drop ho) _ _)
  have pBC := ladder_once (unary (k + 4)) (k + 2) ((ladderOps.drop (i + 1)).take (j - i - 1))
    (ladderOps.drop (j + 1)) (ladderOps.getD j []) _ _ _ _ _ pB
    (by rw [lookingAt_tokState]; exact hhi1) (by rw [r4]; exact pC)
    (by intro o ho; exact ladder_all o (hmem1 o ho) _ _)
  rw [r4] at pBC
  -- the outer expression
  have pA := ladder_pass_all (unary (k + 4)) (k + 3) _ _ _
    ((ladderOps.drop (i + 1)).take (j - i - 1) ++ ladderOps.getD j [] :: ladderOps.drop (j + 1))
    uA (by intro o ho; rw [lookingAt_tokState]; exact hloD o ho)
  have pAll := ladder_once (unary (k + 4)) (k + 2) (ladderOps.take i)
    ((ladderOps.drop (i + 1)).take (j - i - 1) ++ ladderOps.getD j [] :: ladderOps.drop (j + 1))
    (ladderOps.getD i []) _ _ _ _ _ pA
    (by rw [lookingAt_tokState]; exact hlo1) (by rw [r2]; exact pBC)
    (by intro o ho; exact ladder_all o (hmem2 o ho) _ _)
  rw [r2, ← hsplit] at pAll
  exact pAll

/-- The expression `a hi b lo c`, with `lo` of a level above the level of
`hi` in the ladder: `a hi b` is the left operand of `lo`. -/
theorem ladder_left (k : Nat) (a b c lo hi : List Nat) (i j : Nat) (ha : isWord a)
    (hb : isWord b) (hc : isWord c) (hij : i < j) (hlo : lo ∈ ladderOps.getD i [])
    (hhi : hi ∈ ladderOps.getD j []) :
    ladder (unary (k + 4)) (k + 4) ladderOps
        (tokState (hi ++ (b ++ (lo ++ c))) WORD 1 a a.length)
      = some (.interior token.zero
          [.interior token.zero
             [.leaf ⟨WORD, 1, 1, a, [], []⟩,
              .leaf ⟨OTHER, 1, a.length + 1, hi, [], []⟩,
              .leaf ⟨WORD, 1, a.length + hi.length + 1, b, [], []⟩],
           .leaf ⟨OTHER, 1, a.length + hi.length + b.length + 1, lo, [], []⟩,
           .leaf ⟨WORD, 1, a.length + hi.length + b.length + lo.length + 1, c, [], []⟩],
        tokState [] END (a.length + hi.length + b.length + lo.length + c.length + 1) []
          (a.length + hi.length + b.length + lo.length + c.length)) := by
  have hi10 := ladder_index lo i hlo
  have hj10 := ladder_index hi j hhi
  obtain ⟨hlo1, hlo2⟩ := ladder_own i hi10 lo hlo
  obtain ⟨hhi1, hhi2⟩ := ladder_own j hj10 hi hhi
  obtain ⟨hsplit, hdrop⟩ : _ ∧ _ := by
    rcases ladder_split i hi10 j hj10 with h | h
    · omega
    · exact h
  obtain ⟨e0, r1, r2, r3, r4, r5⟩ := states_binary a b c hi lo ha hb hc hhi2 hlo2
  have hloD : ∀ o ∈ (ladderOps.drop (i + 1)).take (j - i - 1) ++ ladderOps.getD j [] ::
      ladderOps.drop (j + 1), o.any (fun s => lo == s) = false := by
    rw [← hdrop]
    exact ladder_below i lo hlo (i + 1) (by omega)
  have hhiD := ladder_below j hi hhi (j + 1) (by omega)
  have hmem2 : ∀ o ∈ ladderOps.take i ++ [ladderOps.getD i []], o ∈ ladderOps := by
    intro o ho
    rw [hsplit]
    simp only [List.mem_append, List.mem_cons, List.mem_singleton, List.not_mem_nil,
      or_false] at ho ⊢
    tauto
  -- the operands
  have uA := unary_word k _ 1 a.length a ha
    (by rw [r1, lookingAt_tokState]; exact (op_not_suffix hi hhi2).1)
    (by rw [r1, lookingAt_tokState]; exact (op_not_suffix hi hhi2).2)
  rw [r1] at uA
  have uB := unary_word k _ (a.length + hi.length + 1) (a.length + hi.length + b.length) b hb
    (by rw [r3, lookingAt_tokState]; exact (op_not_suffix lo hlo2).1)
    (by rw [r3, lookingAt_tokState]; exact (op_not_suffix lo hlo2).2)
  rw [r3] at uB
  have uC := unary_word k _ (a.length + hi.length + b.length + lo.length + 1)
    (a.length + hi.length + b.length + lo.length + c.length) c hc
    (by rw [r5]; rfl) (by rw [r5]; rfl)
  rw [r5] at uC
  -- the left operand `a hi b`
  have pA := ladder_pass_all (unary (k + 4)) (k + 3) _ _ _ (ladderOps.drop (j + 1)) uA
    (by intro o ho; rw [lookingAt_tokState]; exact hhiD o ho)
  have pB := ladder_pass_all (unary (k + 4)) (k + 3) _ _ _ (ladderOps.drop (j + 1)) uB
    (by
      intro o ho
      rw [lookingAt_tokState]
      exact hloD o (by simp [ho]))
  have pAB := ladder_once (unary (k + 4)) (k + 2) ((ladderOps.drop (i + 1)).take (j - i - 1))
    (ladderOps.drop (j + 1)) (ladderOps.getD j []) _ _ _ _ _ pA
    (by rw [lookingAt_tokState]; exact hhi1) (by rw [r2]; exact pB)
    (by
      intro o ho
      rw [lookingAt_tokState]
      apply hloD o
      simp only [List.mem_append, List.mem_cons, List.mem_singleton, List.not_mem_nil,
        or_false] at ho ⊢
      tauto)
  rw [r2] at pAB
  -- the right operand `c`
  have pC := ladder_pass_all (unary (k + 4)) (k + 3) _ _ _
    ((ladderOps.drop (i + 1)).take (j - i - 1) ++ ladderOps.getD j [] :: ladderOps.drop (j + 1))
    uC (by
      intro o ho
      rw [← hdrop] at ho
      exact ladder_all o (List.mem_of_mem_drop ho) _ _)
  have pAll := ladder_once (unary (k + 4)) (k + 2) (ladderOps.take i)
    ((ladderOps.drop (i + 1)).take (j - i - 1) ++ ladderOps.getD j [] :: ladderOps.drop (j + 1))
    (ladderOps.getD i []) _ _ _ _ _ pAB
    (by rw [lookingAt_tokState]; exact hlo1) (by rw [r4]; exact pC)
    (by intro o ho; exact ladder_all o (hmem2 o ho) _ _)
  rw [r4, ← hsplit] at pAll
  exact pAll

theorem ladder_split_one : ∀ i < 10,
    ladderOps = ladderOps.take i ++ ladderOps.getD i [] :: ladderOps.drop (i + 1) := by
  decide

/-- The expression `a op b op c`, with `op` of a level of the ladder: the
operator groups to the left. -/
theorem ladder_assoc (k : Nat) (a b c op : List Nat) (i : Nat) (ha : isWord a)
    (hb : isWord b) (hc : isWord c) (hop : op ∈ ladderOps.getD i []) :
    ladder (unary (k + 4)) (k + 4) ladderOps
        (tokState (op ++ (b ++ (op ++ c))) WORD 1 a a.length)
      = some (.interior token.zero
          [.interior token.zero
             [.leaf ⟨WORD, 1, 1, a, [], []⟩,
              .leaf ⟨OTHER, 1, a.length + 1, op, [], []⟩,
              .leaf ⟨WORD, 1, a.length + op.length + 1, b, [], []⟩],
           .leaf ⟨OTHER, 1, a.length + op.length + b.length + 1, op, [], []⟩,
           .leaf ⟨WORD, 1, a.length + op.length + b.length + op.length + 1, c, [], []⟩],
        tokState [] END (a.length + op.length + b.length + op.length + c.length + 1) []
          (a.length + op.length + b.length + op.length + c.length)) := by
  have hi10 := ladder_index op i hop
  obtain ⟨hop1, hop2⟩ := ladder_own i hi10 op hop
  have hsplit := ladder_split_one i hi10
  obtain ⟨e0, r1, r2, r3, r4, r5⟩ := states_binary a b c op op ha hb hc hop2 hop2
  have hopD := ladder_below i op hop (i + 1) (by omega)
  have hmem2 : ∀ o ∈ ladderOps.take i ++ [ladderOps.getD i []], o ∈ ladderOps := by
    intro o ho
    rw [hsplit]
    simp only [List.mem_append, List.mem_cons, List.mem_singleton, List.not_mem_nil,
      or_false] at ho ⊢
    tauto
  have uA := unary_word k _ 1 a.length a ha
    (by rw [r1, lookingAt_tokState]; exact (op_not_suffix op hop2).1)
    (by rw [r1, lookingAt_tokState]; exact (op_not_suffix op hop2).2)
  rw [r1] at uA
  have uB := unary_word k _ (a.length + op.length + 1) (a.length + op.length + b.length) b hb
    (by rw [r3, lookingAt_tokState]; exact (op_not_suffix op hop2).1)
    (by rw [r3, lookingAt_tokState]; exact (op_not_suffix op hop2).2)
  rw [r3] at uB
  have uC := unary_word k _ (a.length + op.length + b.length + op.length + 1)
    (a.length + op.length + b.length + op.length + c.length) c hc
    (by rw [r5]; rfl) (by rw [r5]; rfl)
  rw [r5] at uC
  have pA := ladder_pass_all (unary (k + 4)) (k + 3) _ _ _ (ladderOps.drop (i + 1)) uA
    (by intro o ho; rw [lookingAt_tokState]; exact hopD o ho)
  have pB := ladder_pass_all (unary (k + 4)) (k + 3) _ _ _ (ladderOps.drop (i + 1)) uB
    (by intro o ho; rw [lookingAt_tokState]; exact hopD o ho)
  have pC := ladder_pass_all (unary (k + 4)) (k + 3) _ _ _ (ladderOps.drop (i + 1)) uC
    (by intro o ho; exact ladder_all o (List.mem_of_mem_drop ho) _ _)
  have pAll := ladder_twice (unary (k + 4)) (k + 1) (ladderOps.take i)
    (ladderOps.drop (i + 1)) (ladderOps.getD i []) _ _ _ _ _ _ _ pA
    (by rw [lookingAt_tokState]; exact hop1) (by rw [r2]; exact pB)
    (by rw [lookingAt_tokState]; exact hop1) (by rw [r4]; exact pC)
    (by intro o ho; exact ladder_all o (hmem2 o ho) _ _)
  rw [r2, r4, ← hsplit] at pAll
  exact pAll

/-! ## Precedence and associativity -/

theorem binary_fuel (a op1 b op2 c : List Nat) (ha : isWord a) (hb : isWord b) (hc : isWord c) :
    ∃ k, parseFuel (binaryInput a op1 b op2 c) = k + 4 + 2 := by
  have h1 := length_pos_of_ne_nil a ha.1
  have h2 := length_pos_of_ne_nil b hb.1
  have h3 := length_pos_of_ne_nil c hc.1
  refine ⟨parseFuel (binaryInput a op1 b op2 c) - 6, ?_⟩
  simp only [parseFuel, binaryInput, List.length_append]
  omega

theorem shape_rightTree (a op1 b op2 c : List Nat) :
    (rightTree a op1 b op2 c).String = shapeRight a op1 b op2 c := by
  simp [rightTree, shapeRight, node.String, stringList]

theorem shape_leftTree (a op1 b op2 c : List Nat) :
    (leftTree a op1 b op2 c).String = shapeLeft a op1 b op2 c := by
  simp [leftTree, shapeLeft, node.String, stringList]

/-- From the ladder to `parse`, for an expression of three children that
takes the whole input. -/
theorem parse_of_ladder (a op1 b op2 c : List Nat) (ha : isWord a) (hb : isWord b)
    (hc : isWord c) (h1 : op1 ∈ ladderOps.flatten ++ assignOps)
    (h2 : op2 ∈ ladderOps.flatten ++ assignOps) (x y z : node)
    (h : ∀ k, ladder (unary (k + 4)) (k + 4) ladderOps
        (tokState (op1 ++ (b ++ (op2 ++ c))) WORD 1 a a.length)
      = some (.interior token.zero [x, y, z],
          tokState [] END (a.length + op1.length + b.length + op2.length + c.length + 1) []
            (a.length + op1.length + b.length + op2.length + c.length))) :
    parse (binaryInput a op1 b op2 c) = some (.interior token.zero [x, y, z]) := by
  obtain ⟨k, hk⟩ := binary_fuel a op1 b op2 c ha hb hc
  obtain ⟨e0, _⟩ := states_binary a b c op1 op2 ha hb hc h1 h2
  have hA := assign_pass (k + 3) _ _ _ (h k) (by
    rw [lookingAt_tokState]
    exact end_not_op assignOps (by simp))
  exact parse_of_assign _ _ a ha _ _ _ (k + 4) x y z hk e0 hA

/-- C14: for words `a`, `b`, `c` and operators `lo`, `hi` of two levels of
the ladder from `oror` down to `mult`, `lo` of the level nearer to `oror`,
`a lo b hi c` parses to `([a] [lo] ([b] [hi] [c]))` and `a hi b lo c` to
`(([a] [hi] [b]) [lo] [c])`; and `a+b*c/d` parses to
`([a] [+] (([b] [*] [c]) [/] [d]))`. -/
theorem parse_precedence (a b c lo hi : List Nat) (i j : Nat) (ha : isWord a) (hb : isWord b)
    (hc : isWord c) (hij : i < j) (hlo : lo ∈ ladderOps.getD i [])
    (hhi : hi ∈ ladderOps.getD j []) :
    parse (binaryInput a lo b hi c) = some (rightTree a lo b hi c) ∧
    (rightTree a lo b hi c).String = shapeRight a lo b hi c ∧
    parse (binaryInput a hi b lo c) = some (leftTree a hi b lo c) ∧
    (leftTree a hi b lo c).String = shapeLeft a hi b lo c ∧
    (parse (bytesOf "a+b*c/d")).map node.String
      = some (bytesOf "([a] [+] (([b] [*] [c]) [/] [d]))") := by
  have hlo2 := (ladder_own i (ladder_index lo i hlo) lo hlo).2
  have hhi2 := (ladder_own j (ladder_index hi j hhi) hi hhi).2
  refine ⟨?_, shape_rightTree a lo b hi c, ?_, shape_leftTree a hi b lo c, by decide!⟩
  · exact parse_of_ladder a lo b hi c ha hb hc hlo2 hhi2 _ _ _
      (fun k => ladder_right k a b c lo hi i j ha hb hc hij hlo hhi)
  · exact parse_of_ladder a hi b lo c ha hb hc hhi2 hlo2 _ _ _
      (fun k => ladder_left k a b c lo hi i j ha hb hc hij hlo hhi)

set_option maxRecDepth 100000 in
/-- The operators `+` and `*` between `x`, `y` and `z`. -/
theorem parse_precedence_witness :
    (isWord [120] ∧ isWord [121] ∧ isWord [122] ∧ 8 < 9 ∧ [43] ∈ ladderOps.getD 8 [] ∧
      [42] ∈ ladderOps.getD 9 []) ∧
    parse (bytesOf "x+y*z") = some (rightTree [120] [43] [121] [42] [122]) ∧
    parse (bytesOf "x*y+z") = some (leftTree [120] [42] [121] [43] [122]) :=
  ⟨⟨⟨by decide, by decide⟩, ⟨by decide, by decide⟩, ⟨by decide, by decide⟩, by decide,
      by decide, by decide⟩,
    (parse_precedence [120] [121] [122] [43] [42] 8 9 ⟨by decide, by decide⟩
      ⟨by decide, by decide⟩ ⟨by decide, by decide⟩ (by decide) (by decide) (by decide)).1,
    (parse_precedence [120] [121] [122] [43] [42] 8 9 ⟨by decide, by decide⟩
      ⟨by decide, by decide⟩ ⟨by decide, by decide⟩ (by decide) (by decide)
      (by decide)).2.2.1⟩

theorem ladder_level : ∀ op ∈ ladderOps.flatten, ∃ i, i < 10 ∧ op ∈ ladderOps.getD i [] := by
  decide

/-- C15: for every operator `op` of the levels `oror` to `mult` and words
`a`, `b`, `c`, `a op b op c` parses to `(([a] [op] [b]) [op] [c])`; `!=` is
one of them. -/
theorem parse_left_assoc (a b c op : List Nat) (ha : isWord a) (hb : isWord b)
    (hc : isWord c) (hop : op ∈ ladderOps.flatten) :
    parse (binaryInput a op b op c) = some (leftTree a op b op c) ∧
    (leftTree a op b op c).String = shapeLeft a op b op c ∧
    ladderOps.flatten = [[124, 124], [38, 38], [124], [94], [38], [61, 61], [33, 61], [60],
      [60, 61], [62], [62, 61], [60, 60], [62, 62], [43], [45], [42], [47], [37]] := by
  obtain ⟨i, hi, hmem⟩ := ladder_level op hop
  have hop2 := (ladder_own i hi op hmem).2
  refine ⟨?_, shape_leftTree a op b op c, by decide⟩
  exact parse_of_ladder a op b op c ha hb hc hop2 hop2 _ _ _
    (fun k => ladder_assoc k a b c op i ha hb hc hmem)

set_option maxRecDepth 100000 in
/-- The operator `!=` between `x`, `y` and `z`. -/
theorem parse_left_assoc_witness :
    (isWord [120] ∧ isWord [121] ∧ isWord [122] ∧ [33, 61] ∈ ladderOps.flatten) ∧
    parse (bytesOf "x!=y!=z") = some (leftTree [120] [33, 61] [121] [33, 61] [122]) ∧
    (parse (bytesOf "x!=y!=z")).map node.String = some (bytesOf "(([x] [!=] [y]) [!=] [z])") :=
  ⟨⟨⟨by decide, by decide⟩, ⟨by decide, by decide⟩, ⟨by decide, by decide⟩, by decide⟩,
    (parse_left_assoc [120] [121] [122] [33, 61] ⟨by decide, by decide⟩
      ⟨by decide, by decide⟩ ⟨by decide, by decide⟩ (by decide)).1, by decide!⟩

theorem parseRight_stop (sub : parserFn) (tokens : List (List Nat)) (k : Nat)
    (t t1 : tokenizer) (n : node) (hs : sub t = some (n, t1))
    (hl : lookingAt t1 tokens = false) :
    parseRight sub tokens (k + 1) t = some (n, t1) := by
  simp [parseRight, hs, hl]

theorem parseRight_step (sub : parserFn) (tokens : List (List Nat)) (k : Nat)
    (t t1 t3 : tokenizer) (n r : node) (hs : sub t = some (n, t1))
    (hl : lookingAt t1 tokens = true)
    (hr : parseRight sub tokens k (t1.read).2 = some (r, t3)) :
    parseRight sub tokens (k + 1) t
      = some (.interior token.zero [n, .leaf (t1.read).1, r], t3) := by
  simp [parseRight, hs, hl, hr]

theorem assign_not_ladder : ∀ op ∈ assignOps, op = [33, 61] ∨
    ((∀ o ∈ ladderOps, o.any (fun s => op == s) = false) ∧
      assignOps.any (fun s => op == s) = true) := by
  decide

/-- C16: for every operator `op` among `=`, `+=`, `-=`, `*=`, `/=`, `%=`,
`<<=`, `>>=`, `&=`, `^=` (the list of `assign` without `!=`) and words `a`,
`b`, `c`, `a op b op c` parses to `([a] [op] ([b] [op] [c]))`. -/
theorem parse_right_assoc (a b c op : List Nat) (ha : isWord a) (hb : isWord b)
    (hc : isWord c) (hop : op ∈ assignOps) (hne : op ≠ [33, 61]) :
    parse (binaryInput a op b op c) = some (rightTree a op b op c) ∧
    (rightTree a op b op c).String = shapeRight a op b op c ∧
    assignOps.erase [33, 61] = [[61], [43, 61], [45, 61], [42, 61], [47, 61], [37, 61],
      [60, 60, 61], [62, 62, 61], [38, 61], [94, 61]] := by
  refine ⟨?_, shape_rightTree a op b op c, by decide⟩
  have hop2 : op ∈ ladderOps.flatten ++ assignOps := by simp [hop]
  obtain ⟨hno, hyes⟩ : _ ∧ _ := by
    rcases assign_not_ladder op hop with h | h
    · exact absurd h hne
    · exact h
  obtain ⟨k, hk⟩ := binary_fuel a op b op c ha hb hc
  obtain ⟨e0, r1, r2, r3, r4, r5⟩ := states_binary a b c op op ha hb hc hop2 hop2
  have uA := unary_word k _ 1 a.length a ha
    (by rw [r1, lookingAt_tokState]; exact (op_not_suffix op hop2).1)
    (by rw [r1, lookingAt_tokState]; exact (op_not_suffix op hop2).2)
  rw [r1] at uA
  have uB := unary_word k _ (a.length + op.length + 1) (a.length + op.length + b.length) b hb
    (by rw [r3, lookingAt_tokState]; exact (op_not_suffix op hop2).1)
    (by rw [r3, lookingAt_tokState]; exact (op_not_suffix op hop2).2)
  rw [r3] at uB
  have uC := unary_word k _ (a.length + op.length + b.length + op.length + 1)
    (a.length + op.length + b.length + op.length + c.length) c hc
    (by rw [r5]; rfl) (by rw [r5]; rfl)
  rw [r5] at uC
  have pA := ladder_pass_all (unary (k + 4)) (k + 3) _ _ _ ladderOps uA
    (by intro o ho; rw [lookingAt_tokState]; exact hno o ho)
  have pB := ladder_pass_all (unary (k + 4)) (k + 3) _ _ _ ladderOps uB
    (by intro o ho; rw [lookingAt_tokState]; exact hno o ho)
  have pC := ladder_pass_all (unary (k + 4)) (k + 3) _ _ _ ladderOps uC
    (by intro o ho; exact ladder_all o ho _ _)
  have qC := parseRight_stop _ assignOps (k + 1) _ _ _ pC (by
    rw [lookingAt_tokState]
    exact end_not_op assignOps (by simp))
  have qB := parseRight_step _ assignOps (k + 2) _ _ _ _ _ pB
    (by rw [lookingAt_tokState]; exact hyes) (by rw [r4]; exact qC)
  rw [r4] at qB
  have qA := parseRight_step _ assignOps (k + 3) _ _ _ _ _ pA
    (by rw [lookingAt_tokState]; exact hyes) (by rw [r2]; exact qB)
  rw [r2] at qA
  have hA : assign (k + 4 + 1) (tokState (op ++ (b ++ (op ++ c))) WORD 1 a a.length)
      = some ((rightTree a op b op c),
          tokState [] END (a.length + op.length + b.length + op.length + c.length + 1) []
            (a.length + op.length + b.length + op.length + c.length)) := by
    rw [assign]
    exact qA
  exact parse_of_assign _ _ a ha _ _ _ (k + 4) _ _ _ hk e0 hA

set_option maxRecDepth 100000 in
/-- The operator `<<=` between `x`, `y` and `z`. -/
theorem parse_right_assoc_witness :
    (isWord [120] ∧ isWord [121] ∧ isWord [122] ∧ [60, 60, 61] ∈ assignOps ∧
      [60, 60, 61] ≠ [33, 61]) ∧
    parse (bytesOf "x<<=y<<=z") = some (rightTree [120] [60, 60, 61] [121] [60, 60, 61] [122]) ∧
    (parse (bytesOf "a=b=c")).map node.String = some (bytesOf "([a] [=] ([b] [=] [c]))") :=
  ⟨⟨⟨by decide, by decide⟩, ⟨by decide, by decide⟩, ⟨by decide, by decide⟩, by decide,
      by decide⟩,
    (parse_right_assoc [120] [121] [122] [60, 60, 61] ⟨by decide, by decide⟩
      ⟨by decide, by decide⟩ ⟨by decide, by decide⟩ (by decide) (by decide)).1, by decide!⟩

/-! ## The fields `parent` and `depth` -/

set_option maxRecDepth 1000000 in
/-- C13: a variable bound to an interior node and used twice breaks the
invariant.  After `replace` on the subject `(x)+0` with the pattern `$a+0`
and the replacement `$a+$a` the children of the root are the two copies of
`(x)` (the structs 11 and 16) around `+`; both have the same children array,
whose elements `clone` has overwritten, and `fixFields` has left the parent
of these three children at the second copy: a child of the node 11 has the
parent 16.  The tree `parse` returns for `(x)+0`, and the subject `x+(y+z)`
after the rewrite with `$a+$b` and `$b+$a`, satisfy the invariant. -/
theorem clone_shares_children :
    (rewriteMem 100 (bytesOf "(x)+0") (bytesOf "$a+0") (bytesOf "$a+$a")).map
        (fun r => fieldsOk 100 r.1 r.2) = some false ∧
    (rewriteMem 100 (bytesOf "(x)+0") (bytesOf "$a+0") (bytesOf "$a+$a")).map
        (fun r => r.1.childrenOf r.2) = some [11, 15, 16] ∧
    (rewriteMem 100 (bytesOf "(x)+0") (bytesOf "$a+0") (bytesOf "$a+$a")).map
        (fun r => r.1.childrenOf 11) = some [17, 18, 19] ∧
    (rewriteMem 100 (bytesOf "(x)+0") (bytesOf "$a+0") (bytesOf "$a+$a")).map
        (fun r => r.1.childrenOf 16) = some [17, 18, 19] ∧
    (rewriteMem 100 (bytesOf "(x)+0") (bytesOf "$a+0") (bytesOf "$a+$a")).bind
        (fun r => (r.1.cells[17]?).map (fun c => c.parent)) = some (some 16) ∧
    (rewriteMem 100 (bytesOf "(x)+0") (bytesOf "$a+0") (bytesOf "$a+$a")).bind
        (fun r => (view 100 r.1 r.2).map node.serialize) = some (bytesOf "(x)+(x)") ∧
    (parseMem 100 ⟨[], []⟩ (bytesOf "(x)+0")).map (fun r => fieldsOk 100 r.1 r.2) = some true ∧
    (rewriteMem 100 (bytesOf "x+(y+z)") (bytesOf "$a+$b") (bytesOf "$b+$a")).map
        (fun r => fieldsOk 100 r.1 r.2) = some true := by
  decide!

/-! ## The replacement of a word by a word: the loop over the occurrences -/

theorem renameTok_idem (F G : List Nat) (tok : token) :
    renameTok F G (renameTok F G tok) = renameTok F G tok := by
  simp only [renameTok]
  split
  · split <;> rfl
  · rename_i h
    simp [h]

theorem renameLeaf_ren (F G : List Nat) (D : List Nat → Bool) (pd : Bool) (c : node) :
    renameLeaf F G (ren F G D pd c) = ren F G D true c := by
  cases c with
  | leaf tok =>
    cases pd <;> simp [ren, renameLeaf, renameTok_idem]
  | interior tok cs => simp [ren, renameLeaf]

theorem renList_length (F G : List Nat) (D : List Nat → Bool) (pd : Bool) :
    ∀ (cs : List node) (i : Nat), (renList F G D pd i cs).length = cs.length := by
  intro cs
  induction cs with
  | nil => intro i; simp [renList]
  | cons c cs ih => intro i; simp [renList, ih]

theorem renList_getElem (F G : List Nat) (D : List Nat → Bool) (pd : Bool) :
    ∀ (cs : List node) (i j : Nat),
    (renList F G D pd i cs)[j]? = (cs[j]?).map (ren F G (fun x => D ((i + j) :: x)) pd) := by
  intro cs
  induction cs with
  | nil => intro i j; simp [renList]
  | cons c cs ih =>
    intro i j
    cases j with
    | zero => simp [renList]
    | succ j =>
      simp only [renList, List.getElem?_cons_succ, ih]
      rw [show i + 1 + j = i + (j + 1) by omega]

theorem renList_map_renameLeaf (F G : List Nat) (D : List Nat → Bool) (pd : Bool) :
    ∀ (cs : List node) (i : Nat),
    (renList F G D pd i cs).map (renameLeaf F G) = renList F G D true i cs := by
  intro cs
  induction cs with
  | nil => intro i; simp [renList]
  | cons c cs ih =>
    intro i
    simp only [renList, List.map_cons, renameLeaf_ren, ih]

/-- The node at the path `q` of a tree in the course of the replacement. -/
theorem ren_at (F G : List Nat) : ∀ (q : List Nat) (D : List Nat → Bool) (pd : Bool) (n : node)
    (tok : token) (cs : List node), n.at? q = some (.interior tok cs) →
    (ren F G D pd n).at? q
      = some (.interior tok (renList F G (fun x => D (q ++ x)) (D q) 0 cs)) := by
  intro q
  induction q with
  | nil =>
    intro D pd n tok cs h
    simp only [node.at?, Option.some.injEq] at h
    subst h
    simp [node.at?, ren]
  | cons i q ih =>
    intro D pd n tok cs h
    cases n with
    | leaf t => simp [node.at?] at h
    | interior t ds =>
      simp only [node.at?] at h
      split at h
      · simp at h
      · rename_i c hc
        have hget := renList_getElem F G D (D []) ds 0 i
        rw [hc] at hget
        simp only [Nat.zero_add, Option.map_some'] at hget
        simp only [ren, node.at?, hget]
        exact ih (fun x => D (i :: x)) (D []) c tok cs h

theorem renList_congr (F G : List Nat) (D1 D2 : List Nat → Bool) (pd : Bool) :
    ∀ (cs : List node) (i : Nat), (∀ j x, i ≤ j → D1 (j :: x) = D2 (j :: x)) →
    renList F G D1 pd i cs = renList F G D2 pd i cs := by
  intro cs
  induction cs with
  | nil => intro i _; simp [renList]
  | cons c cs ih =>
    intro i h
    simp only [renList]
    have : (fun x => D1 (i :: x)) = (fun x => D2 (i :: x)) := by
      funext x
      exact h i x (le_refl _)
    rw [this, ih (i + 1) (fun j x hj => h j x (by omega))]

theorem renList_set (F G : List Nat) (D D2 : List Nat → Bool) (E : List Nat → Bool) (pd : Bool) :
    ∀ (ds : List node) (k i : Nat) (c : node), ds[i]? = some c →
    (∀ x, D2 ((k + i) :: x) = E x) → (∀ j x, j ≠ k + i → D2 (j :: x) = D (j :: x)) →
    renList F G D2 pd k ds = (renList F G D pd k ds).set i (ren F G E pd c) := by
  intro ds
  induction ds with
  | nil => intro k i c h; simp at h
  | cons d ds ih =>
    intro k i c h hE hD
    cases i with
    | zero =>
      simp only [List.getElem?_cons_zero, Option.some.injEq] at h
      subst h
      simp only [renList, List.set_cons_zero]
      have h1 : (fun x => D2 (k :: x)) = E := by
        funext x
        exact hE x
      rw [h1, renList_congr F G D2 D pd ds (k + 1) (fun j x hj => hD j x (by omega))]
    | succ i =>
      simp only [List.getElem?_cons_succ] at h
      simp only [renList, List.set_cons_succ]
      have h1 : (fun x => D2 (k :: x)) = (fun x => D (k :: x)) := by
        funext x
        exact hD k x (by omega)
      rw [h1, ih (k + 1) i c h (fun x => by rw [← hE x]; congr 2; omega)
        (fun j x hj => hD j x (by omega))]

/-- The rewrite of the list node at `q`: its leaves are renamed. -/
theorem ren_set (F G : List Nat) : ∀ (q : List Nat) (D : List Nat → Bool) (pd : Bool)
    (n : node) (tok : token) (cs : List node), n.at? q = some (.interior tok cs) →
    (ren F G D pd n).setChildrenAt q (renList F G (fun x => D (q ++ x)) true 0 cs)
      = ren F G (fun x => x == q || D x) pd n := by
  intro q
  induction q with
  | nil =>
    intro D pd n tok cs h
    simp only [node.at?, Option.some.injEq] at h
    subst h
    simp only [ren, node.setChildrenAt, List.nil_append, beq_self_eq_true, Bool.true_or]
    congr 1
    exact renList_congr F G _ _ true cs 0 (fun j x _ => by simp)
  | cons i q ih =>
    intro D pd n tok cs h
    cases n with
    | leaf t => simp [node.at?] at h
    | interior t ds =>
      simp only [node.at?] at h
      split at h
      · simp at h
      · rename_i c hc
        have hget := renList_getElem F G D (D []) ds 0 i
        rw [hc] at hget
        simp only [Nat.zero_add, Option.map_some'] at hget
        have hih := ih (fun x => D (i :: x)) (D []) c tok cs h
        simp only [ren, node.setChildrenAt, hget]
        have hnil : (([] : List Nat) == i :: q || D []) = D [] := by simp
        rw [hnil]
        congr 1
        have hset := renList_set F G D (fun x => x == i :: q || D x)
          (fun x => x == q || D (i :: x)) (D []) ds 0 i c hc
          (by intro x; simp)
          (by
            intro j x hj
            have : (j :: x == i :: q) = false := by
              simp only [beq_eq_false_iff_ne, ne_eq, List.cons.injEq, not_and]
              intro hji
              omega
            simp [this])
        rw [hset, ← hih]
        rfl

mutual
theorem leaves_path : ∀ (n : node) (p : List Nat),
    leaves p n = (leaves [] n).map (fun o => ⟨p ++ o.path, o.tok⟩)
  | .leaf tok, p => by simp [leaves]
  | .interior tok cs, p => by
    simp only [leaves]
    exact leavesList_path cs p 0
theorem leavesList_path : ∀ (cs : List node) (p : List Nat) (i : Nat),
    leavesList p i cs = (leavesList [] i cs).map (fun o => ⟨p ++ o.path, o.tok⟩)
  | [], p, i => by simp [leavesList]
  | c :: cs, p, i => by
    simp only [leavesList, List.map_append, List.nil_append]
    rw [leaves_path c (p ++ [i]), leavesList_path cs p (i + 1), leaves_path c [i]]
    simp [List.map_map, Function.comp]
end

theorem leavesList_mem (cs : List node) : ∀ (i : Nat) (o : occurrence),
    o ∈ leavesList [] i cs →
    ∃ j c o', cs[j]? = some c ∧ o' ∈ leaves [] c ∧ o = ⟨(i + j) :: o'.path, o'.tok⟩ := by
  induction cs with
  | nil => intro i o h; simp [leavesList] at h
  | cons d ds ih =>
    intro i o h
    simp only [leavesList, List.nil_append, List.mem_append] at h
    rcases h with h | h
    · rw [leaves_path d [i]] at h
      obtain ⟨o', ho', rfl⟩ := List.mem_map.1 h
      exact ⟨0, d, o', by simp, ho', by simp⟩
    · obtain ⟨j, c, o', h1, h2, h3⟩ := ih (i + 1) o h
      exact ⟨j + 1, c, o', by simpa using h1, h2, by rw [h3]; congr 2; omega⟩

theorem leaves_at_leaf : ∀ (path : List Nat) (n : node) (tok : token),
    (⟨path, tok⟩ : occurrence) ∈ leaves [] n → n.at? path = some (.leaf tok) := by
  intro path
  induction path with
  | nil =>
    intro n tok h
    cases n with
    | leaf t =>
      simp only [leaves, List.mem_singleton, occurrence.mk.injEq, true_and] at h
      simp [node.at?, h]
    | interior t cs =>
      simp only [leaves] at h
      obtain ⟨j, c, o', _, _, h3⟩ := leavesList_mem cs 0 _ h
      simp at h3
  | cons i q ih =>
    intro n tok h
    cases n with
    | leaf t => simp [leaves] at h
    | interior t cs =>
      simp only [leaves] at h
      obtain ⟨j, c, o', h1, h2, h3⟩ := leavesList_mem cs 0 _ h
      simp only [Nat.zero_add, occurrence.mk.injEq, List.cons.injEq] at h3
      obtain ⟨⟨rfl, rfl⟩, rfl⟩ := h3
      simp only [node.at?, h1]
      exact ih c o'.tok h2

theorem at_snoc : ∀ (p : List Nat) (n : node) (i : Nat) (m : node),
    n.at? (p ++ [i]) = some m →
    ∃ tok cs, n.at? p = some (.interior tok cs) ∧ cs[i]? = some m := by
  intro p
  induction p with
  | nil =>
    intro n i m h
    cases n with
    | leaf t => simp [node.at?] at h
    | interior t cs =>
      simp only [List.nil_append, node.at?] at h
      split at h
      · simp at h
      · rename_i c hc
        simp only [node.at?, Option.some.injEq] at h
        subst h
        exact ⟨t, cs, rfl, hc⟩
  | cons j p ih =>
    intro n i m h
    cases n with
    | leaf t => simp [node.at?] at h
    | interior t cs =>
      simp only [List.cons_append, node.at?] at h
      split at h
      · simp at h
      · rename_i c hc
        obtain ⟨tok, ds, h1, h2⟩ := ih c i m h
        exact ⟨tok, ds, by simp only [node.at?, hc, h1], h2⟩

/-- A leaf of a tree, other than the root, lies in the children of the node
at the path of its parent. -/
theorem leaves_at (n : node) (o : occurrence) (h : o ∈ leaves [] n) (hn : n.isLeaf = false) :
    1 ≤ o.path.length ∧ ∃ tok cs, n.at? (o.path.take (o.path.length - 1))
      = some (.interior tok cs) ∧ node.leaf o.tok ∈ cs := by
  have hat := leaves_at_leaf o.path n o.tok h
  rcases List.eq_nil_or_concat o.path with hp | ⟨p, i, hp⟩
  · rw [hp] at hat
    simp only [node.at?, Option.some.injEq] at hat
    rw [hat] at hn
    simp [node.isLeaf] at hn
  · rw [List.concat_eq_append] at hp
    rw [hp] at hat ⊢
    obtain ⟨tok, cs, h1, h2⟩ := at_snoc p n i _ hat
    refine ⟨by simp, tok, cs, ?_, List.getElem?_mem h2⟩
    simpa using h1

theorem at_leafTokens : ∀ (q : List Nat) (n m : node), n.at? q = some m →
    ∀ t ∈ leafTokens m, t ∈ leafTokens n := by
  intro q
  induction q with
  | nil =>
    intro n m h t ht
    simp only [node.at?, Option.some.injEq] at h
    rw [h]; exact ht
  | cons i q ih =>
    intro n m h t ht
    cases n with
    | leaf tk => simp [node.at?] at h
    | interior tk cs =>
      simp only [node.at?] at h
      split at h
      · simp at h
      · rename_i c hc
        rw [leafTokens_interior, leafTokensList_mem]
        exact ⟨c, List.getElem?_mem hc, ih c m h t ht⟩

theorem renList_leaf (F G : List Nat) (D : List Nat → Bool) (pd : Bool) :
    ∀ (cs : List node) (i : Nat) (t' : token), node.leaf t' ∈ renList F G D pd i cs →
    ∃ t, node.leaf t ∈ cs ∧ t'.pre = t.pre ∧ t'.suf = t.suf := by
  intro cs
  induction cs with
  | nil => intro i t' h; simp [renList] at h
  | cons c cs ih =>
    intro i t' h
    simp only [renList, List.mem_cons] at h
    rcases h with h | h
    · cases c with
      | leaf t =>
        refine ⟨t, by simp, ?_⟩
        simp only [ren] at h
        split at h
        · simp only [node.leaf.injEq] at h
          rw [h]
          simp only [renameTok]
          split <;> exact ⟨rfl, rfl⟩
        · simp only [node.leaf.injEq] at h
          rw [h]
          exact ⟨rfl, rfl⟩
      | interior t ds => simp [ren] at h
    · obtain ⟨t, h1, h2⟩ := ih (i + 1) t' h
      exact ⟨t, by simp [h1], h2⟩

/-- The loop over the occurrences of `F`, in any order: every list node
that holds one of them is rewritten. -/
theorem replaceLoop_lit (F G : List Nat) (S : node) (hS : S.isLeaf = false)
    (hord : allLeaves triviaOrdered S) :
    ∀ (occ : List occurrence) (D : List Nat → Bool) (last : Option (List Nat)),
    (∀ o ∈ occ, o ∈ leaves [] S) → (∀ q, last = some q → D q = true) →
    ∃ D' last', replaceLoop (makePattern (wordTree F)) (wordTree G) 1
        ⟨ren F G D false S, last⟩ occ = some ⟨ren F G D' false S, last'⟩ ∧
      (∀ x, D x = true → D' x = true) ∧
      ∀ o ∈ occ, D' (o.path.take (o.path.length - 1)) = true := by
  intro occ
  induction occ with
  | nil =>
    intro D last _ _
    exact ⟨D, last, rfl, fun _ h => h, by simp⟩
  | cons o occ ih =>
    intro D last hocc hlast
    obtain ⟨hlen, tok, cs, hat, _⟩ := leaves_at S o (hocc o (by simp)) hS
    have hd : ¬ o.depth < 1 := by simp only [occurrence.depth]; omega
    by_cases hl : some (o.path.take (o.path.length - 1)) = last
    · obtain ⟨D', last', h1, h2, h3⟩ := ih D last (fun x hx => hocc x (by simp [hx])) hlast
      refine ⟨D', last', ?_, h2, ?_⟩
      · simp only [replaceLoop, replaceStep, hd, if_false, hl, if_true]
        exact h1
      · intro x hx
        rcases List.mem_cons.1 hx with rfl | hx
        · exact h2 _ (hlast _ hl.symm)
        · exact h3 x hx
    · have hat' := ren_at F G _ D false S tok cs hat
      have hordc : leavesOrdered (renList F G
          (fun x => D (o.path.take (o.path.length - 1) ++ x))
          (D (o.path.take (o.path.length - 1))) 0 cs) := by
        intro t' ht'
        obtain ⟨t, h1, h2, h3⟩ := renList_leaf F G _ _ cs 0 t' ht'
        have hmem : t ∈ leafTokens S := by
          apply at_leafTokens _ S _ hat
          rw [leafTokens_interior, leafTokensList_mem]
          exact ⟨_, h1, by simp [leafTokens]⟩
        have := hord t hmem
        simp only [triviaOrdered] at this ⊢
        rw [h2, h3]
        exact this
      have hloop := rewriteLoop_lit F G
        ((renList F G (fun x => D (o.path.take (o.path.length - 1) ++ x))
          (D (o.path.take (o.path.length - 1))) 0 cs).length + 1) 0 _ hordc (by omega)
      simp only [List.take_zero, List.nil_append, List.drop_zero,
        renList_map_renameLeaf] at hloop
      have hset := ren_set F G _ D false S tok cs hat
      obtain ⟨D', last', h1, h2, h3⟩ := ih
        (fun x => x == o.path.take (o.path.length - 1) || D x)
        (some (o.path.take (o.path.length - 1)))
        (fun x hx => hocc x (by simp [hx]))
        (by intro q hq; simp only [Option.some.injEq] at hq; simp [hq])
      refine ⟨D', last', ?_, fun x hx => h2 x (by simp [hx]), ?_⟩
      · simp only [replaceLoop, replaceStep, hd, if_false, hl, hat', node.children, hloop,
          node.isLeaf, Bool.false_eq_true, hset]
        exact h1
      · intro x hx
        rcases List.mem_cons.1 hx with rfl | hx
        · exact h2 _ (by simp)
        · exact h3 x hx

theorem leavesList_mem_intro : ∀ (cs : List node) (i j : Nat) (c : node) (o' : occurrence),
    cs[j]? = some c → o' ∈ leaves [] c →
    (⟨(i + j) :: o'.path, o'.tok⟩ : occurrence) ∈ leavesList [] i cs := by
  intro cs
  induction cs with
  | nil => intro i j c o' h; simp at h
  | cons d ds ih =>
    intro i j c o' h ho
    simp only [leavesList, List.nil_append, List.mem_append]
    cases j with
    | zero =>
      simp only [List.getElem?_cons_zero, Option.some.injEq] at h
      subst h
      left
      rw [leaves_path d [i]]
      exact List.mem_map.2 ⟨o', ho, by simp⟩
    | succ j =>
      right
      simp only [List.getElem?_cons_succ] at h
      have := ih (i + 1) j c o' h ho
      rw [show i + 1 + j = i + (j + 1) by omega] at this
      exact this

/-- The bytes a token has after the replacement of `F` by `G`. -/
theorem renameTok_bytes (F G : List Nat) (tok : token) :
    (renameTok F G tok).bytes
      = triviaText tok.pre ++ (if tok.text = F then G else tok.text) ++ triviaText tok.suf := by
  simp only [renameTok]
  split <;> simp [token.bytes]

mutual
/-- The bytes of a tree in the course of the replacement, when every leaf
`F` lies below a list node that has been rewritten. -/
theorem serialize_ren (F G : List Nat) : ∀ (n : node) (D : List Nat → Bool) (pd : Bool),
    (∀ o ∈ leaves [] n, o.tok.text = F →
      (if o.path = [] then pd else D (o.path.take (o.path.length - 1))) = true) →
    (ren F G D pd n).serialize = replaceTextSpec F G n
  | .leaf tok, D, pd => by
    intro h
    have h := h ⟨[], tok⟩ (by simp [leaves])
    simp only [if_true] at h
    simp only [ren, replaceTextSpec, leafTokens, List.map_cons, List.map_nil,
      List.flatten_cons, List.flatten_nil, List.append_nil]
    by_cases ht : tok.text = F
    · rw [h ht]
      simp only [if_true, node.serialize, renameTok_bytes]
    · have : (if pd = true then node.leaf (renameTok F G tok) else node.leaf tok)
          = node.leaf tok := by
        split
        · simp [renameTok, ht]
        · rfl
      rw [this]
      simp [node.serialize, token.bytes, ht]
  | .interior tok cs, D, pd => by
    intro h
    simp only [ren, node.serialize, replaceTextSpec, leafTokens]
    apply serializeList_ren F G cs D (D []) 0
    intro j c o' hc ho' ht
    have hmem := leavesList_mem_intro cs 0 j c o' hc ho'
    have := h ⟨(0 + j) :: o'.path, o'.tok⟩ (by simpa [leaves] using hmem) ht
    simp only [List.cons_ne_nil, if_false, List.length_cons, Nat.add_sub_cancel,
      Nat.zero_add] at this ⊢
    split
    · rename_i hp
      rw [hp] at this
      simpa using this
    · rename_i hp
      have htake : List.take o'.path.length (j :: o'.path)
          = j :: List.take (o'.path.length - 1) o'.path := by
        cases hq : o'.path with
        | nil => exact absurd hq hp
        | cons a l => simp
      rw [htake] at this
      exact this
theorem serializeList_ren (F G : List Nat) : ∀ (cs : List node) (D : List Nat → Bool)
    (pd : Bool) (i : Nat),
    (∀ j c o', cs[j]? = some c → o' ∈ leaves [] c → o'.tok.text = F →
      (if o'.path = [] then pd
        else D ((i + j) :: o'.path.take (o'.path.length - 1))) = true) →
    serializeList (renList F G D pd i cs)
      = ((leafTokensList cs).map (fun tok =>
          triviaText tok.pre ++ (if tok.text = F then G else tok.text)
            ++ triviaText tok.suf)).flatten
  | [], D, pd, i => by intro _; simp [renList, serializeList, leafTokensList]
  | c :: cs, D, pd, i => by
    intro h
    simp only [renList, serializeList, leafTokensList, List.map_append, List.flatten_append]
    have h1 := serialize_ren F G c (fun x => D (i :: x)) pd (by
      intro o ho ht
      have := h 0 c o (by simp) ho ht
      simpa using this)
    have h2 := serializeList_ren F G cs D pd (i + 1) (by
      intro j c' o' hc ho ht
      have := h (j + 1) c' o' (by simpa using hc) ho ht
      rw [show i + (j + 1) = i + 1 + j by omega] at this
      exact this)
    rw [h1, h2]
    rfl
end

mutual
theorem ren_id (F G : List Nat) : ∀ n : node, ren F G (fun _ => false) false n = n
  | .leaf tok => by simp [ren]
  | .interior tok cs => by
    simp only [ren]
    rw [renList_id F G cs 0]
theorem renList_id (F G : List Nat) : ∀ (cs : List node) (i : Nat),
    renList F G (fun _ => false) false i cs = cs
  | [], i => by simp [renList]
  | c :: cs, i => by
    simp only [renList]
    rw [ren_id F G c, renList_id F G cs (i + 1)]
end

mutual
theorem serialize_leafTokens : ∀ n : node,
    n.serialize = ((leafTokens n).map token.bytes).flatten
  | .leaf tok => by simp [node.serialize, leafTokens]
  | .interior tok cs => by
    simp only [node.serialize, leafTokens]
    exact serializeList_leafTokens cs
theorem serializeList_leafTokens : ∀ cs : List node,
    serializeList cs = ((leafTokensList cs).map token.bytes).flatten
  | [] => by simp [serializeList, leafTokensList]
  | c :: cs => by
    simp only [serializeList, leafTokensList, List.map_append, List.flatten_append]
    rw [serialize_leafTokens c, serializeList_leafTokens cs]
end

theorem parse_tree (B : List Nat) : parse B = some (tree B) := by
  obtain ⟨ns, t', e1, _⟩ := readExprs_root_ok B
  have h : parse B = some (rootOf ns t') := by simp only [parse, root, e1]
  simp only [tree, h, Option.getD_some]

theorem anchorOf_wordTree (S : node) (F : List Nat)
    (hcount : (leafTokens S).countP (fun t => t.text == F) < 1000000000) :
    anchorOf S (wordTree F) = some ⟨[0], ⟨WORD, 1, 1, F, [], []⟩⟩ := by
  have hfreq : ((leaves [] S).filter (fun o => o.tok.text == F)).length
      = (leafTokens S).countP (fun t => t.text == F) := by
    rw [← leaves_tok S [], List.countP_map, List.countP_eq_length_filter]
    rfl
  simp only [anchorOf, wordTree, leaves, leavesList, List.nil_append, List.append_nil,
    List.foldl_cons, List.foldl_nil, pickAnchor, isVar, hfreq]
  simp [hcount]

/-- The function `replace` for the pattern `F` and the replacement `G`, two
words, on a tree whose root is a list node, whose trivia stand at increasing
positions and in which `F` occurs fewer than 1000000000 times: the bytes of
the result are those of the tree with `G` for every leaf `F`. -/
theorem replaceWith_lit (sort : List occurrence → List occurrence)
    (hsort : ∀ l o, o ∈ sort l ↔ o ∈ l) (F G : List Nat) (S : node) (hS : S.isLeaf = false)
    (hord : allLeaves triviaOrdered S)
    (hcount : (leafTokens S).countP (fun t => t.text == F) < 1000000000) :
    (replaceWith sort S (wordTree F) (wordTree G)).map node.serialize
      = some (replaceTextSpec F G S) := by
  rw [replaceWith_anchorOf, anchorOf_wordTree S F hcount]
  simp only
  split
  · rename_i hempty
    rw [List.isEmpty_iff] at hempty
    rw [Option.map_some', ← serialize_ren F G S (fun _ => false) false, ren_id]
    intro o ho ht
    have : o ∈ (leaves [] S).filter (fun o => o.tok.text == F) :=
      List.mem_filter.2 ⟨ho, by simpa using ht⟩
    rw [hempty] at this
    simp at this
  · obtain ⟨D', last', h1, _, h3⟩ := replaceLoop_lit F G S hS hord
      (sort ((leaves [] S).filter (fun o => o.tok.text == F))) (fun _ => false) none
      (by
        intro o ho
        rw [hsort] at ho
        exact (List.mem_filter.1 ho).1)
      (by simp)
    rw [ren_id] at h1
    simp only [occurrence.depth, List.length_singleton] at h1 ⊢
    rw [h1]
    simp only [Option.map_some']
    rw [← serialize_ren F G S D' false]
    intro o ho ht
    obtain ⟨hlen, _⟩ := leaves_at S o ho hS
    have hne : o.path ≠ [] := by
      intro h
      rw [h] at hlen
      simp at hlen
    rw [if_neg hne]
    apply h3
    rw [hsort]
    exact List.mem_filter.2 ⟨ho, by simpa using ht⟩

/-! ## An input with 1000000000 occurrences of a word -/

theorem assign_atom (k : Nat) (t : tokenizer)
    (h1 : lookingAt t [[38], [42], [33], [126], [43], [45], [43, 43], [45, 45]] = false)
    (h2 : lookingAt t openers = false)
    (h3 : lookingAt (t.read).2 [[43, 43], [45, 45], [46], [45, 62]] = false)
    (h4 : lookingAt (t.read).2 openers = false)
    (h5 : ∀ ops ∈ assignOps :: ladderOps, lookingAt (t.read).2 ops = false) :
    assign (k + 6) t = some (.leaf (t.read).1, (t.read).2) := by
  have u := unary_atom (k + 1) t h1 h2 h3 h4
  have l := ladder_pass_all (unary (k + 5)) (k + 4) _ _ _ ladderOps u
    (fun ops ho => h5 ops (by simp [ho]))
  exact assign_pass (k + 4) _ _ _ l (h5 assignOps (by simp))

theorem readRaw_semi (t : tokenizer) (rest : List Nat) (hin : t.input = 59 :: rest) :
    t.readRaw = (⟨OTHER, t.line, t.column + 1, [59]⟩,
      { t with input := rest, column := t.column + 1 }) := by
  have hscan : scan (59 :: rest) (scandata 59) = (OTHER, 1) := by
    simp [scandata, scanBase, isSpace, isWordByte, inRange, operators, scan]
  simp only [tokenizer.readRaw, hin, hscan]
  simp [advance]

theorem read_tokState_semi (rest : List Nat) (ty : tokenType) (col : Nat) (text : List Nat)
    (e : Nat) :
    (tokState (59 :: rest) ty col text e).read
      = (⟨ty, 1, col, text, [], []⟩, tokState rest OTHER (e + 1) [59] (e + 1)) := by
  have h := readRaw_semi (tokState (59 :: rest) ty col text e) rest rfl
  rw [read_content _ rfl (by rw [h]; rfl), h]
  rfl

/-- The token after a semicolon. -/
theorem read_semi (F : List Nat) (hF : isWord F) (n c : Nat) :
    (tokState (semis F n) OTHER c [59] c).read
      = (⟨OTHER, 1, c, [59], [], []⟩, semiState F n c) := by
  cases n with
  | zero => exact read_tokState_end OTHER c [59] c
  | succ n =>
    exact read_tokState_word F (59 :: semis F n) OTHER c [59] c hF
      (endsWord_cons 59 _ (by decide))

theorem ops_not_word : ∀ ops ∈ assignOps :: ladderOps, ∀ s ∈ ops,
    ∃ b ∈ s, isWordByte b = false := by
  decide

theorem ops_not_semi : ∀ ops ∈ assignOps :: ladderOps,
    ops.any (fun s => ([59] : List Nat) == s) = false := by
  decide

theorem lookingAt_semiState (F : List Nat) (hF : isWord F) (n e : Nat)
    (tokens : List (List Nat)) (h1 : ∀ s ∈ tokens, ∃ b ∈ s, isWordByte b = false)
    (h2 : tokens.any (fun s => ([] : List Nat) == s) = false) :
    lookingAt (semiState F n e) tokens = false := by
  cases n with
  | zero => exact h2
  | succ n => exact lookingAt_word_false _ WORD _ F _ hF tokens h1

/-- The parser on `semis F n`: one leaf for every word and every
semicolon. -/
theorem readExprs_semis (F : List Nat) (hF : isWord F) : ∀ (n e k : Nat),
    ∃ e', readExprs (k + 2 * n + 7) (semiState F n e) []
      = some (semiLeaves F n e, tokState [] END (e' + 1) [] e') := by
  intro n
  induction n with
  | zero =>
    intro e k
    exact ⟨e, readExprs_stop _ _ [] (Or.inl rfl)⟩
  | succ n ih =>
    intro e k
    obtain ⟨e', hrest⟩ := ih (e + F.length + 1) k
    refine ⟨e', ?_⟩
    have r1 := read_tokState_semi (semis F n) WORD (e + 1) F (e + F.length)
    have r2 := read_semi F hF n (e + F.length + 1)
    have a1 := assign_atom (k + 2 * n + 2) (tokState (59 :: semis F n) WORD (e + 1) F
        (e + F.length))
      (lookingAt_word_false _ WORD _ F _ hF _ (by decide))
      (lookingAt_word_false _ WORD _ F _ hF _ (by decide))
      (by rw [r1]; rfl) (by rw [r1]; rfl)
      (by
        intro ops ho
        rw [r1, lookingAt_tokState]
        exact ops_not_semi ops ho)
    rw [r1] at a1
    have a2 := assign_atom (k + 2 * n + 1) (tokState (semis F n) OTHER (e + F.length + 1) [59]
        (e + F.length + 1))
      (by rfl) (by rfl)
      (by rw [r2]; exact lookingAt_semiState F hF n _ _ (by decide) (by decide))
      (by rw [r2]; exact lookingAt_semiState F hF n _ _ (by decide) (by decide))
      (by
        intro ops ho
        rw [r2]
        exact lookingAt_semiState F hF n _ ops (ops_not_word ops ho) (end_not_op ops ho))
    rw [r2] at a2
    have hfuel : k + 2 * (n + 1) + 7 = (k + 2 * n + 7) + 1 + 1 := by omega
    rw [hfuel, semiState, semiLeaves]
    rw [readExprs]
    rw [if_pos ⟨by show WORD ≠ END; decide, by
      rw [lookingAt_tokState]
      simp [hF.1]⟩]
    rw [show k + 2 * n + 7 + 1 = k + 2 * n + 2 + 6 by omega, a1]
    simp only
    rw [show k + 2 * n + 2 + 6 = (k + 2 * n + 7) + 1 by omega, readExprs]
    rw [if_pos ⟨by show OTHER ≠ END; decide, by rfl⟩]
    rw [show k + 2 * n + 7 = k + 2 * n + 1 + 6 by omega, a2]
    simp only
    rw [show k + 2 * n + 1 + 6 = k + 2 * n + 7 by omega, hrest]

theorem semis_length (F : List Nat) : ∀ n, (semis F n).length = n * (F.length + 1) := by
  intro n
  induction n with
  | zero => simp [semis]
  | succ n ih =>
    simp only [semis, List.length_append, List.length_cons, ih]
    rw [Nat.succ_mul]
    omega

theorem parse_semis (F : List Nat) (hF : isWord F) (n : Nat) :
    parse (semis F (n + 1)) = some (.interior token.zero (semiLeaves F (n + 1) 0)) := by
  have e0 : newTokenizer (semis F (n + 1)) = semiState F (n + 1) 0 := by
    have := newTokenizer_word F (59 :: semis F n) hF (endsWord_cons 59 _ (by decide))
    simpa [semis, semiState] using this
  obtain ⟨k, hk⟩ : ∃ k, parseFuel (semis F (n + 1)) = k + 2 * (n + 1) + 7 := by
    refine ⟨parseFuel (semis F (n + 1)) - (2 * (n + 1) + 7), ?_⟩
    have h1 := semis_length F (n + 1)
    have h2 : (n + 1) * 1 ≤ (n + 1) * (F.length + 1) := Nat.mul_le_mul_left _ (by omega)
    simp only [parseFuel, h1]
    omega
  obtain ⟨e', hx⟩ := readExprs_semis F hF (n + 1) 0 k
  rw [parse, hk, e0]
  simp only [root, hx, rootOf, read_tokState_end]
  simp [semiLeaves, stripLevels, node.isLeaf]

theorem word_ne_semi (F : List Nat) (hF : isWord F) : ([59] : List Nat) ≠ F := by
  intro h
  have := hF.2 59 (by rw [← h]; simp)
  exact absurd this (by decide)

theorem count_semiLeaves (F : List Nat) (hF : isWord F) : ∀ n e,
    (leafTokensList (semiLeaves F n e)).countP (fun t => t.text == F) = n := by
  intro n
  induction n with
  | zero => intro e; simp [semiLeaves, leafTokensList]
  | succ n ih =>
    intro e
    have hne : (([59] : List Nat) == F) = false := by
      rw [beq_eq_false_iff_ne]
      exact word_ne_semi F hF
    simp only [semiLeaves, leafTokensList, leafTokens, List.singleton_append, List.countP_cons,
      beq_self_eq_true, if_true, hne, ih]
    simp

theorem spec_semiLeaves (F G : List Nat) (hF : isWord F) : ∀ n e,
    ((leafTokensList (semiLeaves F n e)).map (fun tok =>
      triviaText tok.pre ++ (if tok.text = F then G else tok.text)
        ++ triviaText tok.suf)).flatten = semis G n := by
  intro n
  induction n with
  | zero => intro e; simp [semiLeaves, leafTokensList, semis]
  | succ n ih =>
    intro e
    simp only [semiLeaves, leafTokensList, leafTokens, List.singleton_append, List.map_cons,
      List.flatten_cons, ih, if_true, if_neg (word_ne_semi F hF), semis]
    simp [triviaText]

theorem anchorOf_wordTree_many (S : node) (F : List Nat)
    (hcount : 1000000000 ≤ (leafTokens S).countP (fun t => t.text == F)) :
    anchorOf S (wordTree F) = none := by
  have hfreq : ((leaves [] S).filter (fun o => o.tok.text == F)).length
      = (leafTokens S).countP (fun t => t.text == F) := by
    rw [← leaves_tok S [], List.countP_map, List.countP_eq_length_filter]
    rfl
  simp only [anchorOf, wordTree, leaves, leavesList, List.nil_append, List.append_nil,
    List.foldl_cons, List.foldl_nil, pickAnchor, isVar, hfreq]
  have : ¬ (leafTokens S).countP (fun t => t.text == F) < 1000000000 := by omega
  simp [this]

/-- With 1000000000 occurrences of `F` or more no anchor is picked and
`replace` leaves the subject as it is. -/
theorem rewrite_semis (F G : List Nat) (hF : isWord F) (hG : isWord G) (n : Nat)
    (hn : 1000000000 ≤ n) :
    rewrite (semis F n) F G = some (semis F n) ∧
    replaceTextSpec F G (tree (semis F n)) = semis G n ∧
    (leafTokens (tree (semis F n))).countP (fun t => t.text == F) = n := by
  obtain ⟨m, rfl⟩ : ∃ m, n = m + 1 := ⟨n - 1, by omega⟩
  have hp := parse_semis F hF m
  have ht : tree (semis F (m + 1)) = .interior token.zero (semiLeaves F (m + 1) 0) := by
    simp only [tree, hp, Option.getD_some]
  have hcount := count_semiLeaves F hF (m + 1) 0
  have hcount2 : (leafTokens (node.interior token.zero (semiLeaves F (m + 1) 0))).countP
      (fun t => t.text == F) = m + 1 := by
    rw [leafTokens_interior]
    exact hcount
  refine ⟨?_, ?_, ?_⟩
  · have hanchor := anchorOf_wordTree_many (node.interior token.zero (semiLeaves F (m + 1) 0)) F
      (by rw [hcount2]; exact hn)
    simp only [rewrite, hp, parse_word F hF, parse_word G hG, replace, replaceWith_anchorOf,
      hanchor, Option.map_some']
    rw [serialize_of_parse _ _ hp]
  · rw [ht, replaceTextSpec, leafTokens_interior]
    exact spec_semiLeaves F G hF (m + 1) 0
  · rw [ht]
    exact hcount2

theorem semis_ne (n : Nat) (hn : 1 ≤ n) : semis [71] n ≠ semis [70] n := by
  obtain ⟨m, rfl⟩ : ∃ m, n = m + 1 := ⟨n - 1, by omega⟩
  intro h
  simp [semis] at h

/-! ## The inner loop of `replace` ends -/

/-- A pattern tree with a literal leaf has, in its list, a node that the
regular expression does not write as `(.*)`. -/
theorem literal_atom (pat : node) (rm : runemap) (hpat : pat.isLeaf = false)
    (hlit : ∃ tok ∈ leafTokens pat, isVar tok.ttype = false) :
    ∃ c ∈ pat.children, atomOf rm c ≠ atom.star := by
  obtain ⟨tok, hmem, h2⟩ := hlit
  cases pat with
  | leaf tok => simp [node.isLeaf] at hpat
  | interior tok0 cs =>
    simp only [leafTokens] at hmem
    obtain ⟨c, hc, ht⟩ := leafTokensList_exists cs tok hmem
    refine ⟨c, hc, ?_⟩
    cases c with
    | interior t2 ds => simp [atomOf]
    | leaf t2 =>
      simp only [leafTokens, List.mem_singleton] at ht
      subst ht
      simp only [isVar, Bool.or_eq_false_iff, beq_eq_false_iff_ne, ne_eq] at h2
      simp [atomOf, h2.1, h2.2]

/-- C27: for a pattern tree (a list node, as `parse` returns it) with a
literal leaf and a replacement whose variables the pattern binds, every
successful match has `start + 1 ≤ limit`; a turn of the inner loop of
`replace` that finds a match goes on with a list and a start index for which
the number of children from the start index on is the former number minus
`m.limit`, which is smaller; and the loop over any sibling list ends, with
the fuel the model runs it with and with any larger fuel. -/
theorem rewriteLoop_terminates (pat replacement : node) (hpat : pat.isLeaf = false)
    (hlit : ∃ tok ∈ leafTokens pat, isVar tok.ttype = false)
    (hbound : ¬ unbound pat replacement) :
    (∀ (sub : List node) (m : Match), (makePattern pat).matchNodes sub = some m →
      m.start + 1 ≤ m.limit ∧ 1 ≤ m.limit ∧ m.limit ≤ sub.length) ∧
    (∀ (k start : Nat) (src : List node) (m : Match), start < src.length →
      (makePattern pat).matchNodes (src.drop start) = some m →
      ∃ result : List node, substitute m.vars replacement = some result ∧
        rewriteLoop (makePattern pat) replacement (k + 1) start src =
          rewriteLoop (makePattern pat) replacement k
            (start + m.start +
              (copyComments (slice src (start + m.start) (start + m.limit)) result).length)
            (src.take (start + m.start) ++
              copyComments (slice src (start + m.start) (start + m.limit)) result ++
              src.drop (src.length - (src.length - start - m.limit))) ∧
        (src.take (start + m.start) ++
              copyComments (slice src (start + m.start) (start + m.limit)) result ++
              src.drop (src.length - (src.length - start - m.limit))).length -
            (start + m.start +
              (copyComments (slice src (start + m.start) (start + m.limit)) result).length)
          = src.length - start - m.limit ∧
        src.length - start - m.limit < src.length - start) ∧
    (∀ (src : List node) (k : Nat), src.length < k →
      ∃ out, rewriteLoop (makePattern pat) replacement k 0 src = some out ∧
        rewriteLoop (makePattern pat) replacement (src.length + 1) 0 src = some out) := by
  have hex : ∃ c ∈ (makePattern pat).list, atomOf (makePattern pat).runemap c ≠ atom.star :=
    literal_atom pat _ hpat hlit
  have hsub : ∀ src m, (makePattern pat).matchNodes src = some m →
      substitute m.vars replacement ≠ none :=
    fun src m hm => substitute_bound pat replacement hpat hbound src m hm
  have hmono : ∀ (k start : Nat) (src out : List node),
      rewriteLoop (makePattern pat) replacement k start src = some out →
      rewriteLoop (makePattern pat) replacement (k + 1) start src = some out := by
    intro k
    induction k with
    | zero => intro start src out h; simp [rewriteLoop] at h
    | succ k ih =>
      intro start src out h
      rw [rewriteLoop] at h
      rw [rewriteLoop]
      split
      · rename_i hlt
        rw [if_pos hlt] at h
        cases hm : (makePattern pat).matchNodes (src.drop start) with
        | none => rw [hm] at h; exact h
        | some m =>
          rw [hm] at h
          simp only at h ⊢
          cases hs : substitute m.vars replacement with
          | none => rw [hs] at h; simp at h
          | some result =>
            rw [hs] at h
            simp only at h ⊢
            exact ih _ _ _ h
      · rename_i hlt
        rw [if_neg hlt] at h
        exact h
  refine ⟨?_, ?_, ?_⟩
  · intro sub m hm
    have h1 := matchNodes_pos _ _ m hm hex
    obtain ⟨_, h2, _, _⟩ := matchNodes_ok _ _ m hm
    omega
  · intro k start src m hlt hm
    have h1 := matchNodes_pos _ _ m hm hex
    obtain ⟨_, h2, _, _⟩ := matchNodes_ok _ _ m hm
    simp only [List.length_drop] at h2
    cases hs : substitute m.vars replacement with
    | none => exact absurd hs (hsub _ m hm)
    | some result =>
      refine ⟨result, rfl, ?_, ?_, ?_⟩
      · rw [rewriteLoop, if_pos hlt, hm]
        simp only [hs]
      · simp only [List.length_append, List.length_take, List.length_drop]
        omega
      · omega
  · intro src k hk
    obtain ⟨out, ho⟩ := rewriteLoop_total (makePattern pat) replacement hex hsub
      (src.length + 1) 0 src (by omega)
    refine ⟨out, ?_, ho⟩
    obtain ⟨d, rfl⟩ : ∃ d, k = src.length + 1 + d := ⟨k - (src.length + 1), by omega⟩
    induction d with
    | zero => exact ho
    | succ d ih => exact hmono _ _ _ _ (ih (by omega))

set_option maxRecDepth 100000 in
/-- The pattern `$a+0` and the replacement `$a $a` on the children of
`x+0`. -/
theorem rewriteLoop_terminates_witness :
    ((tree (bytesOf "$a+0")).isLeaf = false ∧
      (∃ tok ∈ leafTokens (tree (bytesOf "$a+0")), isVar tok.ttype = false) ∧
      ¬ unbound (tree (bytesOf "$a+0")) (tree (bytesOf "$a $a"))) ∧
    ∃ out, rewriteLoop (makePattern (tree (bytesOf "$a+0"))) (tree (bytesOf "$a $a")) 4 0
      (tree (bytesOf "x+0")).children = some out :=
  ⟨⟨by decide!, ⟨⟨OTHER, 1, 3, [43], [], []⟩, by decide!, by decide⟩, by
      intro ⟨tok, ht, hv, hno⟩
      have h1 : leafTokens (tree (bytesOf "$a $a")) =
          [⟨VAR, 1, 1, [36, 97], [], [⟨SPACE, 1, 3, [32]⟩]⟩, ⟨VAR, 1, 4, [36, 97], [], []⟩] := by
        decide!
      have h2 : (⟨VAR, 1, 1, [36, 97], [], []⟩ : token) ∈ leafTokens (tree (bytesOf "$a+0")) := by
        decide!
      rw [h1] at ht
      simp only [List.mem_cons, List.mem_singleton, List.not_mem_nil, or_false] at ht
      rcases ht with rfl | rfl
      · exact hno _ h2 (by decide) rfl
      · exact hno _ h2 (by decide) rfl⟩,
    ((rewriteLoop_terminates (tree (bytesOf "$a+0")) (tree (bytesOf "$a $a")) (by decide!)
      ⟨⟨OTHER, 1, 3, [43], [], []⟩, by decide!, by decide⟩ (by
      intro ⟨tok, ht, hv, hno⟩
      have h1 : leafTokens (tree (bytesOf "$a $a")) =
          [⟨VAR, 1, 1, [36, 97], [], [⟨SPACE, 1, 3, [32]⟩]⟩, ⟨VAR, 1, 4, [36, 97], [], []⟩] := by
        decide!
      have h2 : (⟨VAR, 1, 1, [36, 97], [], []⟩ : token) ∈ leafTokens (tree (bytesOf "$a+0")) := by
        decide!
      rw [h1] at ht
      simp only [List.mem_cons, List.mem_singleton, List.not_mem_nil, or_false] at ht
      rcases ht with rfl | rfl
      · exact hno _ h2 (by decide) rfl
      · exact hno _ h2 (by decide) rfl)).2.2 (tree (bytesOf "x+0")).children 4
      (by decide!)).imp (fun _ h => h.1)⟩

/-! ## Where `copyComments` attaches the trivia -/

set_option maxRecDepth 100000 in
/-- C22 fails in the code: `copyComments` attaches the prefix buffer to the
`token` of the node `dst[0]` and the suffix buffer to the `token` of the
last node of `dst`, whatever these nodes are.  With nothing to carry `dst` is
returned as it is, with an empty `dst` the result is one OTHER leaf with the
trivia, and a leaf at `dst[0]` gets the prefix buffer in front of its prefix;
but an interior node at `dst[0]` gets the buffer in its own `token`, and the
leaves under it are left as they were.  For the subject `/*foo*/0+(x)`, the
pattern `0+$a` and the replacement `$a` the substitution is the interior node
`(x)`, and after `copyComments` that interior node carries the comment
`/*foo*/` while its first leaf `(` has an empty prefix. -/
theorem copyComments_attaches_to_interior :
    (∀ src dst : List node,
      (collectComments src dst).pre.length + (collectComments src dst).suf.length = 0 →
      copyComments src dst = dst) ∧
    (∀ src : List node,
      (collectComments src []).pre.length + (collectComments src []).suf.length ≠ 0 →
      copyComments src [] =
        [.leaf ⟨OTHER, 0, 0, [], (collectComments src []).pre, (collectComments src []).suf⟩]) ∧
    (∀ (src : List node) (tok : token) (d : node) (rest : List node),
      (collectComments src (.leaf tok :: d :: rest)).pre.length
        + (collectComments src (.leaf tok :: d :: rest)).suf.length ≠ 0 →
      (copyComments src (.leaf tok :: d :: rest)).head? =
        some (.leaf { tok with
          pre := (collectComments src (.leaf tok :: d :: rest)).pre ++ tok.pre })) ∧
    (∀ (src : List node) (tok : token) (cs : List node),
      (collectComments src [.interior tok cs]).pre.length
        + (collectComments src [.interior tok cs]).suf.length ≠ 0 →
      copyComments src [.interior tok cs] =
        [.interior { tok with
          pre := (collectComments src [.interior tok cs]).pre ++ tok.pre,
          suf := tok.suf ++ (collectComments src [.interior tok cs]).suf } cs] ∧
      leafTokensList (copyComments src [.interior tok cs]) = leafTokensList cs) ∧
    (∀ (src : List node) (tok : token) (cs : List node) (d : node) (rest : List node),
      (collectComments src (.interior tok cs :: d :: rest)).pre.length
        + (collectComments src (.interior tok cs :: d :: rest)).suf.length ≠ 0 →
      (copyComments src (.interior tok cs :: d :: rest)).head? =
        some (.interior { tok with
          pre := (collectComments src (.interior tok cs :: d :: rest)).pre ++ tok.pre } cs)) ∧
    (matchText (bytesOf "/*foo*/0+(x)") (bytesOf "0+$a")).map (fun m => (m.start, m.limit))
      = some (0, 3) ∧
    (matchText (bytesOf "/*foo*/0+(x)") (bytesOf "0+$a")).bind (fun m =>
        substitute m.vars (tree (bytesOf "$a")))
      = some [.interior token.zero
          [.leaf ⟨OPENER, 1, 10, [40], [], []⟩, .leaf ⟨WORD, 1, 11, [120], [], []⟩,
           .leaf ⟨CLOSER, 1, 12, [41], [], []⟩]] ∧
    copyComments (slice (tree (bytesOf "/*foo*/0+(x)")).children 0 3)
        [.interior token.zero
          [.leaf ⟨OPENER, 1, 10, [40], [], []⟩, .leaf ⟨WORD, 1, 11, [120], [], []⟩,
           .leaf ⟨CLOSER, 1, 12, [41], [], []⟩]]
      = [.interior ⟨END, 0, 0, [], [⟨COMMENT, 1, 1, bytesOf "/*foo*/"⟩], []⟩
          [.leaf ⟨OPENER, 1, 10, [40], [], []⟩, .leaf ⟨WORD, 1, 11, [120], [], []⟩,
           .leaf ⟨CLOSER, 1, 12, [41], [], []⟩]] ∧
    serializeList (copyComments (slice (tree (bytesOf "/*foo*/0+(x)")).children 0 3)
        [.interior token.zero
          [.leaf ⟨OPENER, 1, 10, [40], [], []⟩, .leaf ⟨WORD, 1, 11, [120], [], []⟩,
           .leaf ⟨CLOSER, 1, 12, [41], [], []⟩]]) = bytesOf "(x)" := by
  refine ⟨?_, ?_, ?_, ?_, ?_, by decide!, by decide!, by decide!, by decide!⟩
  · intro src dst h
    simp only [copyComments, h, if_true]
  · intro src h
    simp only [copyComments, if_neg h, List.length_nil, if_true, modifyFirst, modifyLast,
      node.addPrefix, node.addSuffix, List.append_nil, List.nil_append]
  · intro src tok d rest h
    simp only [copyComments, if_neg h, List.length_cons]
    rw [if_neg (by omega)]
    simp only [modifyFirst, modifyLast, node.addPrefix, List.head?_cons]
  · intro src tok cs h
    constructor
    · simp only [copyComments, if_neg h, List.length_cons, List.length_nil]
      rw [if_neg (by omega)]
      simp only [modifyFirst, modifyLast, node.addPrefix, node.addSuffix]
    · simp only [copyComments, if_neg h, List.length_cons, List.length_nil]
      rw [if_neg (by omega)]
      simp only [modifyFirst, modifyLast, node.addPrefix, node.addSuffix, leafTokensList,
        leafTokens, List.append_nil]
  · intro src tok cs d rest h
    simp only [copyComments, if_neg h, List.length_cons]
    rw [if_neg (by omega)]
    simp only [modifyFirst, modifyLast, node.addPrefix, List.head?_cons]

/-! ## Line and column tracking -/

theorem nextTabStop_spec (v : Nat) :
    8 ∣ nextTabStop v ∧ v < nextTabStop v ∧ ∀ m, 8 ∣ m → v < m → nextTabStop v ≤ m := by
  refine ⟨⟨v / 8 + 1, rfl⟩, ?_, ?_⟩
  · simp only [nextTabStop]; omega
  · rintro m ⟨q, rfl⟩ h
    simp only [nextTabStop]
    omega

theorem advance_eq_trackByte (lc : Nat × Nat) (c : Nat) : advance lc c = trackByte lc c := by
  simp only [advance, trackByte, nextTabStop]
  by_cases h10 : c = 10
  · simp [h10]
  · by_cases h9 : c = 9
    · simp only [h9, if_true]
      simp only [show ¬ (9 = 10) by decide, if_false]
      split <;> (congr 1; omega)
    · simp [h10, h9]

theorem foldl_advance_eq (bytes : List Nat) (lc : Nat × Nat) :
    bytes.foldl advance lc = bytes.foldl trackByte lc := by
  have : advance = trackByte := by
    funext lc c
    exact advance_eq_trackByte lc c
  rw [this]

theorem readRaw_track (t : tokenizer) (hin : t.input ≠ []) :
    (t.readRaw).1.line = t.line ∧ (t.readRaw).1.column = t.column + 1 ∧
    ((t.readRaw).2.line, (t.readRaw).2.column)
      = (t.readRaw).1.text.foldl trackByte (t.line, t.column) := by
  cases h : t.input with
  | nil => exact absurd h hin
  | cons b rest =>
    simp [tokenizer.readRaw, h, foldl_advance_eq]

theorem rawTokensFrom_track : ∀ (k : Nat) (t : tokenizer) (p : List Nat),
    t.input.length < k → (t.line, t.column) = p.foldl trackByte (1, 0) →
    triviaText (rawTokensFrom k t) = t.input ∧
    ∀ (i : Nat) (r : rawToken), (rawTokensFrom k t)[i]? = some r →
      (r.line, r.column) = positionOf (p ++ triviaText ((rawTokensFrom k t).take i)) := by
  intro k
  induction k with
  | zero => intro t p h; omega
  | succ k ih =>
    intro t p hk hp
    by_cases hin : t.input = []
    · simp [rawTokensFrom, hin, triviaText]
    · obtain ⟨e1, e2, e3⟩ := readRaw_track t hin
      obtain ⟨s1, _, _, s4⟩ := readRaw_spec t
      obtain ⟨_, _, hlt⟩ := s4 hin
      have hp' : ((t.readRaw).2.line, (t.readRaw).2.column)
          = (p ++ (t.readRaw).1.text).foldl trackByte (1, 0) := by
        rw [List.foldl_append, ← hp, e3]
      obtain ⟨i1, i2⟩ := ih (t.readRaw).2 (p ++ (t.readRaw).1.text) (by omega) hp'
      simp only [rawTokensFrom, if_neg hin]
      refine ⟨?_, ?_⟩
      · simp only [triviaText, List.map_cons, List.flatten_cons] at i1 ⊢
        rw [i1, s1]
      · intro i r hr
        cases i with
        | zero =>
          simp only [List.getElem?_cons_zero, Option.some.injEq] at hr
          subst hr
          simp only [List.take_zero, triviaText, List.map_nil, List.flatten_nil, List.append_nil,
            positionOf, ← hp, e1, e2]
        | succ i =>
          simp only [List.getElem?_cons_succ] at hr
          have := i2 i r hr
          rw [this]
          simp only [List.take_succ_cons, triviaText, List.map_cons, List.flatten_cons,
            List.append_assoc]

/-! ### The tokens `read` returns are raw tokens of the buffer -/

theorem readRaw_core (t u : tokenizer) (h : t.core = u.core) :
    (t.readRaw).1 = (u.readRaw).1 ∧ (t.readRaw).2.core = (u.readRaw).2.core := by
  simp only [tokenizer.core, Prod.mk.injEq] at h
  obtain ⟨h1, h2, h3⟩ := h
  simp only [tokenizer.readRaw, h1, h2, h3]
  cases u.input with
  | nil => simp [tokenizer.core, h1, h2, h3]
  | cons b rest => simp [tokenizer.core]

theorem rawTokensFrom_core : ∀ (k : Nat) (t u : tokenizer), t.core = u.core →
    rawTokensFrom k t = rawTokensFrom k u := by
  intro k
  induction k with
  | zero => intro t u h; rfl
  | succ k ih =>
    intro t u h
    obtain ⟨h1, h2⟩ := readRaw_core t u h
    have hin : t.input = u.input := by
      simp only [tokenizer.core, Prod.mk.injEq] at h
      exact h.1
    simp only [rawTokensFrom, hin, h1, ih _ _ h2]

theorem stream_of_core (S : List rawToken) (t u : tokenizer)
    (hu : ∀ k, ∀ r ∈ rawTokensFrom k u, r ∈ S) (h : t.core = u.core) :
    ∀ k, ∀ r ∈ rawTokensFrom k t, r ∈ S := by
  intro k r hr
  rw [rawTokensFrom_core k t u h] at hr
  exact hu k r hr

theorem readRaw_inStream (S : List rawToken) (t : tokenizer)
    (h : ∀ k, ∀ r ∈ rawTokensFrom k t, r ∈ S) :
    ((t.readRaw).1.ttype ≠ END → (t.readRaw).1 ∈ S) ∧
    ∀ k, ∀ r ∈ rawTokensFrom k (t.readRaw).2, r ∈ S := by
  by_cases hin : t.input = []
  · have hend := ((readRaw_spec t).2.2.1 hin).1
    have hsame : (t.readRaw).2 = t := by simp [tokenizer.readRaw, hin]
    rw [hsame]
    exact ⟨fun hne => absurd hend hne, h⟩
  · refine ⟨fun _ => h 1 _ (by simp [rawTokensFrom, hin]), ?_⟩
    intro k r hr
    exact h (k + 1) r (by simp [rawTokensFrom, hin, hr])

theorem readLoop_inStream (S : List rawToken) : ∀ (k : Nat) (t : tokenizer) (res : token)
    (sl : Bool), inStream S t → tokenIn S res →
    tokenIn S (readLoop k t res sl).1 ∧ inStream S (readLoop k t res sl).2 ∧
    (readLoop k t res sl).1.raw = res.raw ∧ (readLoop k t res sl).1.pre = res.pre := by
  intro k
  induction k with
  | zero => intro t res sl ht hres; exact ⟨hres, ht, rfl, rfl⟩
  | succ k ih =>
    intro t res sl ht hres
    obtain ⟨r1, r2⟩ := readRaw_inStream S t ht.1
    have hbuf := (readRaw_spec t).2.1
    simp only [readLoop]
    by_cases htr : isTrivia (t.readRaw).1.ttype = true
    · have hne : (t.readRaw).1.ttype ≠ END := by
        intro h; rw [h] at htr; exact absurd htr (by decide)
      simp only [htr, Bool.not_true, Bool.false_eq_true, if_false]
      split
      · refine ih _ _ _ ⟨stream_of_core S _ _ r2 rfl, ?_, fun _ => r1 hne⟩
          ⟨hres.1, hres.2.1, ?_⟩
        · intro b hb
          exact ht.2.1 b (by simpa [hbuf] using hb)
        · intro r hr
          rcases List.mem_append.1 hr with hr | hr
          · exact hres.2.2 r hr
          · rw [List.mem_singleton.1 hr]; exact r1 hne
      · refine ih _ _ _ ⟨stream_of_core S _ _ r2 rfl, ?_, fun _ => r1 hne⟩ hres
        intro b hb
        rcases List.mem_append.1 hb with hb | hb
        · exact ht.2.1 b (by simpa [hbuf] using hb)
        · rw [List.mem_singleton.1 hb]; exact r1 hne
    · simp only [htr, Bool.not_false, if_true]
      refine ⟨hres, ⟨stream_of_core S _ _ r2 rfl, ?_, r1⟩, trivial, trivial⟩
      intro b hb
      exact ht.2.1 b (by simpa [hbuf] using hb)

/-- The token `read` returns is the token in `peek`, and it and its
attachments are raw tokens of the buffer. -/
theorem read_inStream (S : List rawToken) (t : tokenizer) (ht : inStream S t) :
    tokenIn S (t.read).1 ∧ inStream S (t.read).2 := by
  have h0 : inStream S { t with buffered := [] } :=
    ⟨stream_of_core S _ t ht.1 rfl, by simp, ht.2.2⟩
  have hres : tokenIn S ⟨t.peek.ttype, t.peek.line, t.peek.column, t.peek.text, t.buffered, []⟩ :=
    ⟨ht.2.2, ht.2.1, by simp⟩
  obtain ⟨q1, q2, _, _⟩ := readLoop_inStream S (t.input.length + 1) _ _ true h0 hres
  simp only [tokenizer.read]
  split
  · refine ⟨⟨q1.1, q1.2.1, ?_⟩, ⟨stream_of_core S _ _ q2.1 rfl, by simp, q2.2.2⟩⟩
    intro r hr
    rcases List.mem_append.1 hr with hr | hr
    · exact q1.2.2 r hr
    · exact q2.2.1 r hr
  · exact ⟨q1, q2⟩

theorem newTokenizerLoop_inStream (S : List rawToken) : ∀ (k : Nat) (t : tokenizer),
    inStream S t → inStream S (newTokenizerLoop k t) := by
  intro k
  induction k with
  | zero => intro t ht; exact ht
  | succ k ih =>
    intro t ht
    obtain ⟨r1, r2⟩ := readRaw_inStream S t ht.1
    have hbuf := (readRaw_spec t).2.1
    simp only [newTokenizerLoop]
    by_cases htr : isTrivia (t.readRaw).1.ttype = true
    · have hne : (t.readRaw).1.ttype ≠ END := by
        intro h; rw [h] at htr; exact absurd htr (by decide)
      simp only [htr, Bool.not_true, Bool.false_eq_true, if_false]
      refine ih _ ⟨stream_of_core S _ _ r2 rfl, ?_, fun _ => r1 hne⟩
      intro b hb
      rcases List.mem_append.1 hb with hb | hb
      · exact ht.2.1 b (by simpa [hbuf] using hb)
      · rw [List.mem_singleton.1 hb]; exact r1 hne
    · simp only [htr, Bool.not_false, if_true]
      refine ⟨stream_of_core S _ _ r2 rfl, ?_, r1⟩
      intro b hb
      exact ht.2.1 b (by simpa [hbuf] using hb)

theorem rawTokensFrom_fuel : ∀ (k j : Nat) (t : tokenizer), t.input.length < k →
    t.input.length < j → rawTokensFrom k t = rawTokensFrom j t := by
  intro k
  induction k with
  | zero => intro j t h; omega
  | succ k ih =>
    intro j t hk hj
    cases j with
    | zero => omega
    | succ j =>
      by_cases hin : t.input = []
      · simp [rawTokensFrom, hin]
      · obtain ⟨_, _, hlt⟩ := (readRaw_spec t).2.2.2 hin
        simp only [rawTokensFrom, if_neg hin]
        rw [ih j _ (by omega) (by omega)]

theorem rawTokensFrom_mem_fuel (k : Nat) (t : tokenizer) (r : rawToken)
    (h : r ∈ rawTokensFrom k t) : r ∈ rawTokensFrom (t.input.length + 1) t := by
  induction k generalizing t with
  | zero => simp [rawTokensFrom] at h
  | succ k ih =>
    by_cases hin : t.input = []
    · simp [rawTokensFrom, hin] at h
    · obtain ⟨_, _, hlt⟩ := (readRaw_spec t).2.2.2 hin
      simp only [rawTokensFrom, if_neg hin, List.mem_cons] at h ⊢
      rcases h with h | h
      · exact Or.inl h
      · right
        have := ih _ h
        rw [rawTokensFrom_fuel _ t.input.length _ (by omega) hlt] at this
        exact this

theorem newTokenizer_inStream (B : List Nat) : inStream (rawTokens B) (newTokenizer B) := by
  apply newTokenizerLoop_inStream
  refine ⟨?_, by simp, by simp⟩
  intro k r hr
  exact rawTokensFrom_mem_fuel k _ r hr

theorem contentTokens_inStream (S : List rawToken) : ∀ (k : Nat) (t : tokenizer),
    inStream S t → ∀ tok ∈ contentTokens k t, tokenIn S tok := by
  intro k
  induction k with
  | zero => intro t ht tok h; simp [contentTokens] at h
  | succ k ih =>
    intro t ht tok h
    obtain ⟨q1, q2⟩ := read_inStream S t ht
    simp only [contentTokens] at h
    split at h
    · simp at h
    · rcases List.mem_cons.1 h with h | h
      · rw [h]; exact q1
      · exact ih _ q2 tok h

/-- What `read` guarantees of its tokens holds of every leaf of the tree
`parse` returns. -/
theorem parse_keeps (K : tokenizer → Prop) (Q : token → Prop)
    (hread : ∀ t, K t → Q (t.read).1 ∧ K (t.read).2) (B : List Nat)
    (hK0 : K (newTokenizer B)) : allLeaves Q (tree B) := by
  have hp := parse_tree B
  simp only [parse, root] at hp
  split at hp
  · simp at hp
  · rename_i cs t1 hcs
    simp only [Option.some.injEq] at hp
    rw [← hp]
    obtain ⟨q1, q2⟩ := (parser_keeps K Q hread (parseFuel B)).2.2.2.2.1 _ _ _ _ hK0 hcs
    have hend := (hread t1 q2).1
    intro tok htok
    simp only [rootOf] at htok
    rw [wrap_leafTokens, leafTokens_stripLevels, leafTokens_interior] at htok
    split at htok
    · rw [leafTokensList_append, List.mem_append] at htok
      rcases htok with htok | htok
      · exact q1 tok htok
      · simp only [leafTokensList, leafTokens_leaf, List.append_nil,
          List.mem_singleton] at htok
        rw [htok]; exact hend
    · exact q1 tok htok

set_option maxRecDepth 100000 in
/-- C21: the raw tokens of a buffer `B` are its bytes cut into pieces, and
the line and column of each of them is the position the specification
computes from the bytes in front of it: line 1 and counter 0 at the start,
one added to the counter for a byte, the next multiple of 8 above the counter
for a tab, the next line and counter 0 for a newline, and the column is the
counter plus 1.  The tokens `read` returns, the leaves of the parsed tree and
the trivia attached to them are raw tokens of the buffer, with these
positions.  On `a1b /*x\ny*/$a$b* 200` the positions are 1.1, 2.4, 2.6 and
2.10. -/
theorem position_tracking (B : List Nat) :
    triviaText (rawTokens B) = B ∧
    (∀ (i : Nat) (r : rawToken), (rawTokens B)[i]? = some r →
      (r.line, r.column) = positionOf (triviaText ((rawTokens B).take i))) ∧
    (∀ tok ∈ tokenize B, tokenIn (rawTokens B) tok) ∧
    (∀ tok ∈ leafTokens (tree B), tokenIn (rawTokens B) tok) ∧
    (∀ v : Nat, 8 ∣ nextTabStop v ∧ v < nextTabStop v ∧
      ∀ m, 8 ∣ m → v < m → nextTabStop v ≤ m) ∧
    (tokenize (bytesOf "a1b /*x\ny*/$a$b* 200")).map (fun t => (t.ttype, t.line, t.column))
      = [(WORD, 1, 1), (VAR, 2, 4), (RVAR, 2, 6), (WORD, 2, 10)] ∧
    positionOf (bytesOf "a\tb\t") = (1, 17) := by
  obtain ⟨h1, h2⟩ := rawTokensFrom_track (B.length + 1) ⟨B, [], ⟨END, 0, 0, []⟩, 1, 0⟩ []
    (by simp) rfl
  refine ⟨h1, ?_, ?_, ?_, nextTabStop_spec, by decide!, by decide!⟩
  · intro i r hr
    have := h2 i r hr
    simpa using this
  · exact contentTokens_inStream _ _ _ (newTokenizer_inStream B)
  · exact parse_keeps (inStream (rawTokens B)) (tokenIn (rawTokens B))
      (read_inStream (rawTokens B)) B (newTokenizer_inStream B)

/-! ## Trailing trivia and the END leaf -/

theorem readLoop_raw : ∀ (k : Nat) (t : tokenizer) (res : token) (sl : Bool),
    (readLoop k t res sl).1.raw = res.raw := by
  intro k
  induction k with
  | zero => intro t res sl; rfl
  | succ k ih =>
    intro t res sl
    simp only [readLoop]
    split
    · rfl
    · split
      · rw [ih]; rfl
      · rw [ih]

theorem read_raw (t : tokenizer) : (t.read).1.raw = t.peek := by
  have h := readLoop_raw (t.input.length + 1) { t with buffered := [] }
    ⟨t.peek.ttype, t.peek.line, t.peek.column, t.peek.text, t.buffered, []⟩ true
  simp only [tokenizer.read]
  split
  · simp only [token.raw] at h ⊢
    exact h
  · exact h

theorem read_ttype (t : tokenizer) : (t.read).1.ttype = t.peek.ttype := by
  have := read_raw t
  rw [← this]
  rfl

/-- After `read` the buffer is empty when the next token is END. -/
theorem read_endClean (t : tokenizer) : endClean (t.read).2 := by
  simp only [endClean, tokenizer.read]
  split
  · intro _; rfl
  · rename_i h
    intro hend
    by_contra hne
    exact h ⟨hend, List.length_pos.2 hne⟩

/-- In front of END the suffix of the token `read` returns holds all the
input that was left. -/
theorem read_before_end (t : tokenizer) (hend : (t.read).2.peek.ttype = END) :
    (t.read).2.buffered = [] ∧ triviaText (t.read).1.suf = t.input ∧
    ((t.read).2.read).1.pre = [] := by
  have hb := read_endClean t hend
  obtain ⟨h1, h2, _, h4, h5, _⟩ := read_spec t
  obtain ⟨w1, _, _⟩ := h2
  obtain ⟨w2, w3⟩ := w1 hend
  refine ⟨hb, ?_, ?_⟩
  · simp only [token.bytes, tokenizer.rest, hb, w2, w3, h4, h5, triviaText, List.map_nil,
      List.flatten_nil, List.append_nil, List.append_assoc] at h1
    have h1' := List.append_cancel_left h1
    have h1'' := List.append_cancel_left h1'
    exact h1''
  · rw [(read_spec (t.read).2).2.2.2.2.1, hb]

theorem newTokenizerLoop_end : ∀ (k : Nat) (t : tokenizer), t.input.length < k →
    ((newTokenizerLoop k t).peek.ttype = END ↔
      (rawTokensFrom k t).any (fun r => !isTrivia r.ttype) = false) ∧
    ((newTokenizerLoop k t).peek.ttype = END →
      (newTokenizerLoop k t).buffered = t.buffered ++ rawTokensFrom k t ∧
      (newTokenizerLoop k t).input = []) := by
  intro k
  induction k with
  | zero => intro t h; omega
  | succ k ih =>
    intro t hk
    obtain ⟨_, hbuf, s3, s4⟩ := readRaw_spec t
    simp only [newTokenizerLoop, rawTokensFrom]
    by_cases hin : t.input = []
    · have hend := (s3 hin).1
      have hsame : (t.readRaw).2 = t := by simp [tokenizer.readRaw, hin]
      have hnt : isTrivia (t.readRaw).1.ttype = false := by rw [hend]; rfl
      simp only [hnt, Bool.not_false, if_true, hin, hsame, List.any_nil, List.append_nil]
      exact ⟨⟨fun _ => trivial, fun _ => hend⟩, fun _ => ⟨trivial, trivial⟩⟩
    · obtain ⟨hne, _, hlt⟩ := s4 hin
      simp only [if_neg hin, List.any_cons]
      by_cases htr : isTrivia (t.readRaw).1.ttype = true
      · simp only [htr, Bool.not_true, Bool.false_eq_true, if_false, Bool.false_or]
        obtain ⟨i1, i2⟩ := ih ⟨(t.readRaw).2.input, (t.readRaw).2.buffered ++ [(t.readRaw).1],
          (t.readRaw).1, (t.readRaw).2.line, (t.readRaw).2.column⟩ (by simp only; omega)
        have hcore := rawTokensFrom_core k ⟨(t.readRaw).2.input,
          (t.readRaw).2.buffered ++ [(t.readRaw).1], (t.readRaw).1, (t.readRaw).2.line,
          (t.readRaw).2.column⟩ (t.readRaw).2 rfl
        rw [hcore] at i1 i2
        refine ⟨i1, fun h => ?_⟩
        obtain ⟨j1, j2⟩ := i2 h
        refine ⟨?_, j2⟩
        rw [j1, hbuf, List.append_assoc]
        rfl
      · have htr' : isTrivia (t.readRaw).1.ttype = false := by simpa using htr
        simp only [htr', Bool.not_false, if_true, Bool.true_or]
        exact ⟨by simp [hne], fun h => absurd h hne⟩

theorem newTokenizer_end (B : List Nat) :
    ((newTokenizer B).peek.ttype = END ↔ hasContent B = false) ∧
    ((newTokenizer B).peek.ttype = END →
      (newTokenizer B).buffered = rawTokens B ∧ (newTokenizer B).input = []) := by
  have h := newTokenizerLoop_end (B.length + 1) ⟨B, [], ⟨END, 0, 0, []⟩, 1, 0⟩ (by simp)
  simpa [newTokenizer, hasContent, rawTokens] using h

theorem rawTokens_eq_nil (B : List Nat) : rawTokens B = [] ↔ B = [] := by
  have h := (rawTokensFrom_track (B.length + 1) ⟨B, [], ⟨END, 0, 0, []⟩, 1, 0⟩ []
    (by simp) rfl).1
  constructor
  · intro h0
    simp only [rawTokens] at h0
    rw [h0] at h
    simpa [triviaText] using h.symm
  · intro h0
    subst h0
    rfl

theorem contentTokens_bytes : ∀ (k : Nat) (t : tokenizer), t.wf → t.size < k → endClean t →
    ((contentTokens k t).map token.bytes).flatten = t.rest := by
  intro k
  induction k with
  | zero => intro t _ h; omega
  | succ k ih =>
    intro t hwf hk hc
    obtain ⟨r1, r2, r3, r4⟩ := read_step t
    simp only [contentTokens, read_ttype]
    by_cases hend : t.peek.ttype = END
    · obtain ⟨w1, w2⟩ := hwf.1 hend
      simp [hend, tokenizer.rest, hc hend, w1, w2, triviaText]
    · have hne := hwf.2.1 hend
      simp only [if_neg hend, List.map_cons, List.flatten_cons]
      rw [ih _ r2 (by have := r4 hne; omega) (read_endClean t), r1]

theorem stripLevels_of_leaf (tok : token) :
    stripLevels (.interior token.zero [.leaf tok]) = .leaf tok := by
  rw [stripLevels, stripLevels]
  intro _ _ h
  cases h

set_option maxRecDepth 100000 in
/-- C25: when the token after the one `read` returns is END, the buffer is
empty, the suffix of the token returned holds all the input that was left,
and the END token has an empty prefix.  For a buffer with a content token
the tokens `read` returns hold all its bytes, `root` reads an END token with
an empty prefix and appends no leaf.  The END token `root` reads has a
non-empty prefix exactly when the buffer is non-empty and all its raw tokens
are comments and spaces; the tree is then one END leaf whose prefix is the
list of these raw tokens.  `/*foo*/` parses to `([])`. -/
theorem trailing_trivia (B : List Nat) :
    (∀ t : tokenizer, (t.read).2.peek.ttype = END →
      (t.read).2.buffered = [] ∧ triviaText (t.read).1.suf = t.input ∧
      ((t.read).2.read).1.pre = []) ∧
    (hasContent B = true →
      tokenize B ≠ [] ∧ ((tokenize B).map token.bytes).flatten = B) ∧
    (∃ (cs : List node) (t1 : tokenizer),
      readExprs (parseFuel B) (newTokenizer B) [] = some (cs, t1) ∧
      parse B = some (rootOf cs t1) ∧ (t1.read).1.ttype = END ∧
      (hasContent B = true → (t1.read).1.pre = [] ∧
        rootOf cs t1 = (if (stripLevels (.interior token.zero cs)).isLeaf
          then .interior token.zero [stripLevels (.interior token.zero cs)]
          else stripLevels (.interior token.zero cs))) ∧
      (0 < (t1.read).1.pre.length ↔ B ≠ [] ∧ hasContent B = false) ∧
      (B ≠ [] → hasContent B = false →
        cs = [] ∧ (t1.read).1.pre = rawTokens B ∧ (t1.read).1.text = [] ∧
        (t1.read).1.suf = [] ∧
        rootOf cs t1 = .interior token.zero [.leaf (t1.read).1])) ∧
    node.String (tree (bytesOf "/*foo*/")) = bytesOf "([])" ∧
    leafTokens (tree (bytesOf "/*foo*/"))
      = [⟨END, 1, 8, [], [⟨COMMENT, 1, 1, bytesOf "/*foo*/"⟩], []⟩] ∧
    leafTokens (tree (bytesOf "a /*foo*/\n"))
      = [⟨WORD, 1, 1, bytesOf "a",
          [], [⟨SPACE, 1, 2, [32]⟩, ⟨COMMENT, 1, 3, bytesOf "/*foo*/"⟩, ⟨SPACE, 1, 10, [10]⟩]⟩] := by
  obtain ⟨n1, n2, n3⟩ := newTokenizer_spec B
  obtain ⟨e1, e2⟩ := newTokenizer_end B
  refine ⟨read_before_end, ?_, ?_, by decide!, by decide!, by decide!⟩
  · intro hc
    have hne : (newTokenizer B).peek.ttype ≠ END := by
      intro h; rw [e1.1 h] at hc; exact absurd hc (by decide)
    refine ⟨?_, ?_⟩
    · simp only [tokenize, contentTokens, read_ttype, if_neg hne]
      exact List.cons_ne_nil _ _
    · rw [tokenize, contentTokens_bytes _ _ n2 (by omega) (fun h => absurd h hne), n1]
  · obtain ⟨cs, t1, x1, _, x3, _, x5⟩ :=
      (parser_ok (parseFuel B) (newTokenizer B) n2).2.2.2.2.1 []
        (by simp only [parseFuel]; omega)
    have hend : t1.peek.ttype = END := by
      rcases x5 with h | h
      · exact h
      · by_contra hne
        have := x3.2.1 hne
        simp only [lookingAt, List.any_cons, List.any_nil, Bool.or_false, beq_iff_eq] at h
        exact this h
    have hpre : (t1.read).1.pre = t1.buffered := (read_spec t1).2.2.2.2.1
    refine ⟨cs, t1, x1, by simp only [parse, root, x1], by rw [read_ttype, hend], ?_, ?_, ?_⟩
    · intro hc
      have hne : (newTokenizer B).peek.ttype ≠ END := by
        intro h; rw [e1.1 h] at hc; exact absurd hc (by decide)
      obtain ⟨_, q2⟩ := (parser_keeps endClean (fun _ => True)
        (fun t _ => ⟨trivial, read_endClean t⟩) (parseFuel B)).2.2.2.2.1 _ _ _ _
        (fun h => absurd h hne) x1
      have hb : (t1.read).1.pre = [] := by rw [hpre, q2 hend]
      refine ⟨hb, ?_⟩
      simp only [rootOf, hb, List.length_nil, Nat.lt_irrefl, if_false]
    · by_cases hc : hasContent B = true
      · have hne : (newTokenizer B).peek.ttype ≠ END := by
          intro h; rw [e1.1 h] at hc; exact absurd hc (by decide)
        obtain ⟨_, q2⟩ := (parser_keeps endClean (fun _ => True)
          (fun t _ => ⟨trivial, read_endClean t⟩) (parseFuel B)).2.2.2.2.1 _ _ _ _
          (fun h => absurd h hne) x1
        rw [hpre, q2 hend]
        simp [hc]
      · have hc' : hasContent B = false := by simpa using hc
        have h0 := e1.2 hc'
        obtain ⟨b1, _⟩ := e2 h0
        have hx : readExprs (parseFuel B) (newTokenizer B) [] = some ([], newTokenizer B) := by
          simp only [parseFuel, readExprs, h0]
          simp
        rw [hx] at x1
        simp only [Option.some.injEq, Prod.mk.injEq] at x1
        obtain ⟨rfl, rfl⟩ := x1
        rw [hpre, b1, List.length_pos, Ne, rawTokens_eq_nil]
        simp [hc']
    · intro hB hc
      have h0 := e1.2 hc
      obtain ⟨b1, b2⟩ := e2 h0
      have hx : readExprs (parseFuel B) (newTokenizer B) [] = some ([], newTokenizer B) := by
        simp only [parseFuel, readExprs, h0]
        simp
      rw [hx] at x1
      simp only [Option.some.injEq, Prod.mk.injEq] at x1
      obtain ⟨rfl, rfl⟩ := x1
      have hp : (newTokenizer B).read.1.pre = rawTokens B := by rw [hpre, b1]
      have hlen : 0 < (newTokenizer B).read.1.pre.length := by
        rw [hp, List.length_pos, Ne, rawTokens_eq_nil]
        exact hB
      refine ⟨rfl, hp, ?_, (read_spec _).2.2.2.2.2 b2, ?_⟩
      · rw [(read_spec _).2.2.2.1]
        exact (n2.1 h0).2
      · simp only [rootOf, hlen, if_true, List.nil_append, stripLevels_of_leaf, node.isLeaf]

/-! ## What the parser hands over from the tokenizer to the tree -/

theorem sumLeaves_leaf {α : Type} (g : token → List α) (tok : token) :
    sumLeaves g (.leaf tok) = g tok := by
  simp [sumLeaves, leafTokens]

theorem sumLeaves_interior {α : Type} (g : token → List α) (tok : token) (cs : List node) :
    sumLeaves g (.interior tok cs) = sumLeavesList g cs := by
  simp [sumLeaves, sumLeavesList, leafTokens]

theorem sumLeavesList_nil {α : Type} (g : token → List α) : sumLeavesList g [] = [] := by
  simp [sumLeavesList, leafTokensList]

theorem sumLeavesList_cons {α : Type} (g : token → List α) (c : node) (cs : List node) :
    sumLeavesList g (c :: cs) = sumLeaves g c ++ sumLeavesList g cs := by
  simp [sumLeaves, sumLeavesList, leafTokensList]

theorem sumLeavesList_append {α : Type} (g : token → List α) (as bs : List node) :
    sumLeavesList g (as ++ bs) = sumLeavesList g as ++ sumLeavesList g bs := by
  simp [sumLeavesList, leafTokensList_append]

theorem parseLeftLoop_conserves {α : Type} (K : tokenizer → Prop) (g : token → List α)
    (R : tokenizer → List α) (hread : ∀ t, K t → g (t.read).1 ++ R (t.read).2 = R t ∧ K (t.read).2)
    (sub : parserFn) (tokens : List (List Nat)) (hsub : parserConserves K g R sub) :
    ∀ (k : Nat) (left : node) (t : tokenizer) (n : node) (t' : tokenizer), K t →
      parseLeftLoop sub tokens k left t = some (n, t') →
      sumLeaves g n ++ R t' = sumLeaves g left ++ R t ∧ K t' := by
  intro k
  induction k with
  | zero => intro left t n t' _ h; simp [parseLeftLoop] at h
  | succ k ih =>
    intro left t n t' hK h
    simp only [parseLeftLoop] at h
    split at h
    · obtain ⟨q1, q2⟩ := hread t hK
      split at h
      · simp at h
      · rename_i r t2 hr
        obtain ⟨s1, s2⟩ := hsub _ _ _ q2 hr
        obtain ⟨u1, u2⟩ := ih _ _ _ _ s2 h
        refine ⟨?_, u2⟩
        rw [u1, ← q1, ← s1]
        simp only [sumLeaves_interior, sumLeavesList_cons, sumLeavesList_nil, sumLeaves_leaf,
          List.append_assoc, List.append_nil]
    · simp only [Option.some.injEq, Prod.mk.injEq] at h
      obtain ⟨rfl, rfl⟩ := h
      exact ⟨rfl, hK⟩

theorem parseLeft_conserves {α : Type} (K : tokenizer → Prop) (g : token → List α)
    (R : tokenizer → List α) (hread : ∀ t, K t → g (t.read).1 ++ R (t.read).2 = R t ∧ K (t.read).2)
    (sub : parserFn) (tokens : List (List Nat)) (k : Nat) (hsub : parserConserves K g R sub) :
    parserConserves K g R (parseLeft sub tokens k) := by
  intro t n t' hK h
  simp only [parseLeft] at h
  split at h
  · simp at h
  · rename_i left t1 hl
    obtain ⟨s1, s2⟩ := hsub _ _ _ hK hl
    obtain ⟨u1, u2⟩ := parseLeftLoop_conserves K g R hread sub tokens hsub k left t1 n t' s2 h
    exact ⟨by rw [u1, s1], u2⟩

theorem parseRight_conserves {α : Type} (K : tokenizer → Prop) (g : token → List α)
    (R : tokenizer → List α) (hread : ∀ t, K t → g (t.read).1 ++ R (t.read).2 = R t ∧ K (t.read).2)
    (sub : parserFn) (tokens : List (List Nat)) (hsub : parserConserves K g R sub) :
    ∀ k : Nat, parserConserves K g R (parseRight sub tokens k) := by
  intro k
  induction k with
  | zero => intro t n t' _ h; simp [parseRight] at h
  | succ k ih =>
    intro t n t' hK h
    simp only [parseRight] at h
    split at h
    · simp at h
    · rename_i left t1 hl
      obtain ⟨s1, s2⟩ := hsub _ _ _ hK hl
      split at h
      · obtain ⟨q1, q2⟩ := hread t1 s2
        split at h
        · simp at h
        · rename_i r t3 hr
          obtain ⟨u1, u2⟩ := ih _ _ _ q2 hr
          simp only [Option.some.injEq, Prod.mk.injEq] at h
          obtain ⟨rfl, rfl⟩ := h
          refine ⟨?_, u2⟩
          rw [← s1, ← q1, ← u1]
          simp only [sumLeaves_interior, sumLeavesList_cons, sumLeavesList_nil, sumLeaves_leaf,
            List.append_assoc, List.append_nil]
      · simp only [Option.some.injEq, Prod.mk.injEq] at h
        obtain ⟨rfl, rfl⟩ := h
        exact ⟨s1, s2⟩

theorem oror_conserves {α : Type} (K : tokenizer → Prop) (g : token → List α)
    (R : tokenizer → List α) (hread : ∀ t, K t → g (t.read).1 ++ R (t.read).2 = R t ∧ K (t.read).2)
    (un : parserFn) (k : Nat) (hun : parserConserves K g R un) :
    parserConserves K g R (oror un k) := by
  have h1 := parseLeft_conserves K g R hread un [[42], [47], [37]] k hun
  have h2 := parseLeft_conserves K g R hread (mult un k) [[43], [45]] k h1
  have h3 := parseLeft_conserves K g R hread (plus un k) [[60, 60], [62, 62]] k h2
  have h4 := parseLeft_conserves K g R hread (shift un k) [[60], [60, 61], [62], [62, 61]] k h3
  have h5 := parseLeft_conserves K g R hread (cmp un k) [[61, 61], [33, 61]] k h4
  have h6 := parseLeft_conserves K g R hread (eq un k) [[38]] k h5
  have h7 := parseLeft_conserves K g R hread (bitand un k) [[94]] k h6
  have h8 := parseLeft_conserves K g R hread (bitxor un k) [[124]] k h7
  have h9 := parseLeft_conserves K g R hread (bitor un k) [[38, 38]] k h8
  exact parseLeft_conserves K g R hread (andand un k) [[124, 124]] k h9

/-- Whatever `read` hands over from the tokenizer to the token it returns,
the parser hands over to the tree it builds, in the order of the leaves. -/
theorem parser_conserves {α : Type} (K : tokenizer → Prop) (g : token → List α)
    (R : tokenizer → List α)
    (hread : ∀ t, K t → g (t.read).1 ++ R (t.read).2 = R t ∧ K (t.read).2) :
    ∀ k : Nat,
      parserConserves K g R (unary k) ∧ parserConserves K g R (suffix k) ∧
      (∀ (n0 : node) (t : tokenizer) (n : node) (t' : tokenizer), K t →
        suffixLoop k n0 t = some (n, t') →
        sumLeaves g n ++ R t' = sumLeaves g n0 ++ R t ∧ K t') ∧
      parserConserves K g R (term k) ∧
      (∀ (t : tokenizer) (closer : List Nat) (ns : List node) (t' : tokenizer), K t →
        readExprs k t closer = some (ns, t') → sumLeavesList g ns ++ R t' = R t ∧ K t') ∧
      parserConserves K g R (assign k) := by
  intro k
  induction k with
  | zero =>
    refine ⟨?_, ?_, ?_, ?_, ?_, ?_⟩
    · intro t n t' _ h; simp [unary] at h
    · intro t n t' _ h; simp [suffix] at h
    · intro n0 t n t' _ h; simp [suffixLoop] at h
    · intro t n t' _ h; simp [term] at h
    · intro t closer ns t' _ h; simp [readExprs] at h
    · intro t n t' _ h; simp [assign] at h
  | succ k ih =>
    obtain ⟨iu, is, il, it, ie, ia⟩ := ih
    refine ⟨?_, ?_, ?_, ?_, ?_, ?_⟩
    · -- unary
      intro t n t' hK h
      simp only [unary] at h
      split at h
      · obtain ⟨q1, q2⟩ := hread t hK
        split at h
        · simp at h
        · rename_i c t2 hc
          obtain ⟨s1, s2⟩ := iu _ _ _ q2 hc
          simp only [Option.some.injEq, Prod.mk.injEq] at h
          obtain ⟨rfl, rfl⟩ := h
          refine ⟨?_, s2⟩
          rw [← q1, ← s1]
          simp only [sumLeaves_interior, sumLeavesList_cons, sumLeavesList_nil, sumLeaves_leaf,
            List.append_assoc, List.append_nil]
      · exact is _ _ _ hK h
    · -- suffix
      intro t n t' hK h
      simp only [suffix] at h
      split at h
      · simp at h
      · rename_i n1 t1 hn1
        obtain ⟨s1, s2⟩ := it _ _ _ hK hn1
        obtain ⟨u1, u2⟩ := il _ _ _ _ s2 h
        exact ⟨by rw [u1, s1], u2⟩
    · -- suffixLoop
      intro n0 t n t' hK h
      simp only [suffixLoop] at h
      obtain ⟨q1, q2⟩ := hread t hK
      split at h
      · split at h
        · simp at h
        · rename_i c t2 hc
          obtain ⟨s1, s2⟩ := it _ _ _ q2 hc
          obtain ⟨u1, u2⟩ := il _ _ _ _ s2 h
          refine ⟨?_, u2⟩
          rw [u1, ← q1, ← s1]
          simp only [sumLeaves_interior, sumLeavesList_cons, sumLeavesList_nil, sumLeaves_leaf,
            List.append_assoc, List.append_nil]
      · split at h
        · split at h
          · simp at h
          · rename_i cs t2 hcs
            obtain ⟨s1, s2⟩ := ie _ _ _ _ q2 hcs
            split at h
            · obtain ⟨u1, u2⟩ := hread t2 s2
              obtain ⟨v1, v2⟩ := il _ _ _ _ u2 h
              refine ⟨?_, v2⟩
              rw [v1, ← q1, ← s1, ← u1]
              simp only [sumLeaves_interior, sumLeavesList_cons, sumLeavesList_nil,
                sumLeaves_leaf, sumLeavesList_append, List.append_assoc, List.append_nil]
            · obtain ⟨v1, v2⟩ := il _ _ _ _ s2 h
              refine ⟨?_, v2⟩
              rw [v1, ← q1, ← s1]
              simp only [sumLeaves_interior, sumLeavesList_cons, sumLeavesList_nil,
                sumLeaves_leaf, sumLeavesList_append, List.append_assoc, List.append_nil]
        · simp only [Option.some.injEq, Prod.mk.injEq] at h
          obtain ⟨rfl, rfl⟩ := h
          exact ⟨rfl, hK⟩
    · -- term
      intro t n t' hK h
      simp only [term] at h
      obtain ⟨q1, q2⟩ := hread t hK
      split at h
      · split at h
        · simp at h
        · rename_i cs t2 hcs
          obtain ⟨s1, s2⟩ := ie _ _ _ _ q2 hcs
          split at h
          · obtain ⟨u1, u2⟩ := hread t2 s2
            simp only [Option.some.injEq, Prod.mk.injEq] at h
            obtain ⟨rfl, rfl⟩ := h
            refine ⟨?_, u2⟩
            rw [← q1, ← s1, ← u1]
            simp only [sumLeaves_interior, sumLeavesList_cons, sumLeavesList_nil,
              sumLeaves_leaf, sumLeavesList_append, List.append_assoc, List.append_nil]
          · simp only [Option.some.injEq, Prod.mk.injEq] at h
            obtain ⟨rfl, rfl⟩ := h
            refine ⟨?_, s2⟩
            rw [← q1, ← s1]
            simp only [sumLeaves_interior, sumLeavesList_cons, sumLeavesList_nil,
              sumLeaves_leaf, sumLeavesList_append, List.append_assoc, List.append_nil]
      · simp only [Option.some.injEq, Prod.mk.injEq] at h
        obtain ⟨rfl, rfl⟩ := h
        exact ⟨by rw [sumLeaves_leaf, q1], q2⟩
    · -- readExprs
      intro t closer ns t' hK h
      simp only [readExprs] at h
      split at h
      · split at h
        · simp at h
        · rename_i n1 t1 hn1
          obtain ⟨s1, s2⟩ := ia _ _ _ hK hn1
          split at h
          · simp at h
          · rename_i ns2 t2 hns2
            obtain ⟨u1, u2⟩ := ie _ _ _ _ s2 hns2
            simp only [Option.some.injEq, Prod.mk.injEq] at h
            obtain ⟨rfl, rfl⟩ := h
            refine ⟨?_, u2⟩
            rw [← s1, ← u1]
            simp only [sumLeavesList_cons, List.append_assoc]
      · simp only [Option.some.injEq, Prod.mk.injEq] at h
        obtain ⟨rfl, rfl⟩ := h
        exact ⟨by simp [sumLeavesList_nil], hK⟩
    · -- assign
      intro t n t' hK h
      simp only [assign] at h
      exact parseRight_conserves K g R hread _ assignOps (oror_conserves K g R hread _ k iu) k
        _ _ _ hK h

/-! ## Every comment and space is attached once -/

theorem rawTokensFrom_passed : ∀ (k : Nat) (t : tokenizer) (p : position),
    passed p t.line t.column → ∀ r ∈ rawTokensFrom k t, posLt p (pos r) := by
  intro k
  induction k with
  | zero => intro t p _ r hr; simp [rawTokensFrom] at hr
  | succ k ih =>
    intro t p hp r hr
    by_cases hin : t.input = []
    · simp [rawTokensFrom, hin] at hr
    · obtain ⟨p1, p2, p3⟩ := readRaw_passed t hin
      simp only [rawTokensFrom, if_neg hin, List.mem_cons] at hr
      rcases hr with rfl | hr
      · rw [p1]; exact (p3 p hp).1
      · exact ih _ p (p3 p hp).2 r hr

theorem rawTokensFrom_ordered : ∀ (k : Nat) (t : tokenizer),
    List.Pairwise posLt ((rawTokensFrom k t).map pos) := by
  intro k
  induction k with
  | zero => intro t; simp [rawTokensFrom]
  | succ k ih =>
    intro t
    by_cases hin : t.input = []
    · simp [rawTokensFrom, hin]
    · obtain ⟨p1, p2, p3⟩ := readRaw_passed t hin
      simp only [rawTokensFrom, if_neg hin, List.map_cons, List.pairwise_cons]
      refine ⟨?_, ih _⟩
      intro q hq
      obtain ⟨r, hr, rfl⟩ := List.mem_map.1 hq
      rw [p1]
      exact rawTokensFrom_passed k _ _ p2 r hr

theorem trivia_step (t : tokenizer) (hin : t.input ≠ []) :
    t.trivia = t.buffered ++ (if isTrivia (t.readRaw).1.ttype then [(t.readRaw).1] else []) ++
      (rawTokensFrom ((t.readRaw).2.input.length + 1) (t.readRaw).2).filter
        (fun r => isTrivia r.ttype) := by
  obtain ⟨_, _, hlt⟩ := (readRaw_spec t).2.2.2 hin
  have e : rawTokensFrom (t.input.length + 1) t
      = (t.readRaw).1 :: rawTokensFrom t.input.length (t.readRaw).2 := by
    rw [rawTokensFrom, if_neg hin]
  rw [tokenizer.trivia, e, List.filter_cons,
    rawTokensFrom_fuel t.input.length ((t.readRaw).2.input.length + 1) _ hlt (by omega)]
  split <;> simp

theorem trivia_core (t u : tokenizer) (h : t.core = u.core) (hb : t.buffered = u.buffered) :
    t.trivia = u.trivia := by
  have hin : t.input = u.input := by
    simp only [tokenizer.core, Prod.mk.injEq] at h
    exact h.1
  simp only [tokenizer.trivia, hb, hin, rawTokensFrom_core _ t u h]

theorem trivia_at_end (t : tokenizer) (hin : t.input = []) : t.trivia = t.buffered := by
  simp [tokenizer.trivia, rawTokensFrom, hin]

theorem readLoop_trivia : ∀ (k : Nat) (t : tokenizer) (res : token) (sl : Bool),
    (sl = true → t.buffered = []) →
    (readLoop k t res sl).1.pre = res.pre ∧
    (k = 0 ∨ t.input.length < k →
      (readLoop k t res sl).1.suf ++ (readLoop k t res sl).2.trivia = res.suf ++ t.trivia) := by
  intro k
  induction k with
  | zero => intro t res sl _; exact ⟨rfl, fun _ => rfl⟩
  | succ k ih =>
    intro t res sl hsl
    obtain ⟨_, hbuf, s3, s4⟩ := readRaw_spec t
    simp only [readLoop]
    by_cases htr : isTrivia (t.readRaw).1.ttype = true
    · have hin : t.input ≠ [] := by
        intro h
        rw [(s3 h).1] at htr
        exact absurd htr (by decide)
      obtain ⟨_, _, hlt⟩ := s4 hin
      have hstep := trivia_step t hin
      simp only [htr, if_true] at hstep
      simp only [htr, Bool.not_true, Bool.false_eq_true, if_false]
      split
      · rename_i hc
        have hsl' : sl = true := by
          cases sl
          · simp at hc
          · rfl
        have hb0 := hsl hsl'
        obtain ⟨i1, i2⟩ := ih ⟨(t.readRaw).2.input, (t.readRaw).2.buffered, (t.readRaw).1,
          (t.readRaw).2.line, (t.readRaw).2.column⟩ { res with suf := res.suf ++ [(t.readRaw).1] }
          sl (fun _ => by simp only [hbuf, hb0])
        refine ⟨i1, fun hk => ?_⟩
        rw [i2 (Or.inr (by simp only; omega)), hstep, hb0]
        rw [trivia_core ⟨(t.readRaw).2.input, (t.readRaw).2.buffered, (t.readRaw).1,
          (t.readRaw).2.line, (t.readRaw).2.column⟩ (t.readRaw).2 rfl rfl]
        simp only [tokenizer.trivia, hbuf, hb0, List.nil_append, List.append_assoc,
          List.singleton_append]
      · obtain ⟨i1, i2⟩ := ih ⟨(t.readRaw).2.input, (t.readRaw).2.buffered ++ [(t.readRaw).1],
          (t.readRaw).1, (t.readRaw).2.line, (t.readRaw).2.column⟩ res false (by simp)
        refine ⟨i1, fun hk => ?_⟩
        rw [i2 (Or.inr (by simp only; omega)), hstep]
        simp only [tokenizer.trivia, hbuf, List.append_assoc, List.singleton_append]
        rw [rawTokensFrom_core _ ⟨(t.readRaw).2.input, t.buffered ++ [(t.readRaw).1],
          (t.readRaw).1, (t.readRaw).2.line, (t.readRaw).2.column⟩ (t.readRaw).2 rfl]
    · have htr' : isTrivia (t.readRaw).1.ttype = false := by simpa using htr
      simp only [htr', Bool.not_false, if_true]
      refine ⟨trivial, fun hk => ?_⟩
      congr 1
      by_cases hin : t.input = []
      · have hsame : (t.readRaw).2 = t := by simp [tokenizer.readRaw, hin]
        rw [trivia_at_end t hin, trivia_at_end _ (by simp only [hsame, hin]), hbuf]
      · have hstep := trivia_step t hin
        simp only [htr', Bool.false_eq_true, if_false, List.append_nil] at hstep
        rw [hstep]
        simp only [tokenizer.trivia, hbuf]
        rw [rawTokensFrom_core _ ⟨(t.readRaw).2.input, t.buffered,
          (t.readRaw).1, (t.readRaw).2.line, (t.readRaw).2.column⟩ (t.readRaw).2 rfl]

theorem trivia_clear (t : tokenizer) :
    t.trivia = t.buffered ++ ({ t with buffered := [] } : tokenizer).trivia := by
  simp only [tokenizer.trivia, List.nil_append]
  rw [rawTokensFrom_core _ { t with buffered := [] } t rfl]

/-- The comments and spaces `read` attaches to the token it returns, and
those the tokenizer holds afterwards, are those it held before, in order. -/
theorem read_trivia (t : tokenizer) :
    (t.read).1.trivia ++ (t.read).2.trivia = t.trivia := by
  obtain ⟨h1, h2⟩ := readLoop_trivia (t.input.length + 1) { t with buffered := [] }
    ⟨t.peek.ttype, t.peek.line, t.peek.column, t.peek.text, t.buffered, []⟩ true (fun _ => rfl)
  have h3 := h2 (Or.inr (by simp))
  simp only [List.nil_append] at h3 h1
  rw [trivia_clear t, ← h3]
  simp only [tokenizer.read]
  generalize readLoop (t.input.length + 1) { t with buffered := [] }
    ⟨t.peek.ttype, t.peek.line, t.peek.column, t.peek.text, t.buffered, []⟩ true = out at h1 ⊢
  split
  · simp only [token.trivia, h1, List.append_assoc]
    rw [trivia_clear out.2]
  · simp only [token.trivia, h1, List.append_assoc]

theorem newTokenizerLoop_trivia : ∀ (k : Nat) (t : tokenizer), t.input.length < k →
    (newTokenizerLoop k t).trivia = t.trivia := by
  intro k
  induction k with
  | zero => intro t h; omega
  | succ k ih =>
    intro t hk
    obtain ⟨_, hbuf, s3, s4⟩ := readRaw_spec t
    simp only [newTokenizerLoop]
    by_cases htr : isTrivia (t.readRaw).1.ttype = true
    · have hin : t.input ≠ [] := by
        intro h
        rw [(s3 h).1] at htr
        exact absurd htr (by decide)
      obtain ⟨_, _, hlt⟩ := s4 hin
      have hstep := trivia_step t hin
      simp only [htr, if_true] at hstep
      simp only [htr, Bool.not_true, Bool.false_eq_true, if_false]
      rw [ih ⟨(t.readRaw).2.input, (t.readRaw).2.buffered ++ [(t.readRaw).1],
          (t.readRaw).1, (t.readRaw).2.line, (t.readRaw).2.column⟩ (by simp only; omega), hstep]
      simp only [tokenizer.trivia, hbuf, List.append_assoc, List.singleton_append]
      rw [rawTokensFrom_core _ ⟨(t.readRaw).2.input, t.buffered ++ [(t.readRaw).1],
        (t.readRaw).1, (t.readRaw).2.line, (t.readRaw).2.column⟩ (t.readRaw).2 rfl]
    · have htr' : isTrivia (t.readRaw).1.ttype = false := by simpa using htr
      simp only [htr', Bool.not_false, if_true]
      by_cases hin : t.input = []
      · have hsame : (t.readRaw).2 = t := by simp [tokenizer.readRaw, hin]
        rw [trivia_at_end t hin, trivia_at_end _ (by simp only [hsame, hin]), hbuf]
      · have hstep := trivia_step t hin
        simp only [htr', Bool.false_eq_true, if_false, List.append_nil] at hstep
        rw [hstep]
        simp only [tokenizer.trivia, hbuf]
        rw [rawTokensFrom_core _ ⟨(t.readRaw).2.input, t.buffered,
          (t.readRaw).1, (t.readRaw).2.line, (t.readRaw).2.column⟩ (t.readRaw).2 rfl]

theorem newTokenizer_trivia (B : List Nat) :
    (newTokenizer B).trivia = (rawTokens B).filter (fun r => isTrivia r.ttype) := by
  rw [newTokenizer, newTokenizerLoop_trivia _ _ (by simp)]
  simp [tokenizer.trivia, rawTokens]

/-- The comments and spaces attached to the leaves of the parsed tree are,
in order, those among the raw tokens of the buffer. -/
theorem parse_trivia (B : List Nat) :
    sumLeaves token.trivia (tree B) = (rawTokens B).filter (fun r => isTrivia r.ttype) := by
  obtain ⟨n1, n2, n3⟩ := newTokenizer_spec B
  obtain ⟨cs, t1, x1, _, x3, _, x5⟩ :=
    (parser_ok (parseFuel B) (newTokenizer B) n2).2.2.2.2.1 []
      (by simp only [parseFuel]; omega)
  have hend : t1.peek.ttype = END := by
    rcases x5 with h | h
    · exact h
    · by_contra hne
      have := x3.2.1 hne
      simp only [lookingAt, List.any_cons, List.any_nil, Bool.or_false, beq_iff_eq] at h
      exact this h
  have hin := (x3.1 hend).1
  obtain ⟨c1, _⟩ := (parser_conserves (fun _ => True) token.trivia tokenizer.trivia
    (fun t _ => ⟨read_trivia t, trivial⟩) (parseFuel B)).2.2.2.2.1 _ _ _ _ trivial x1
  have hp : tree B = rootOf cs t1 := by
    simp only [tree, parse, root, x1, Option.getD_some]
  have hsz := (read_spec t1).2.2.1
  have hwf2 := (read_spec t1).2.1
  rw [hin] at hsz
  simp only [tokenizer.size, List.length_nil, Nat.le_zero, Nat.add_eq_zero_iff,
    List.length_eq_zero] at hsz
  have hend2 : (t1.read).2.peek.ttype = END := by
    by_contra hne
    exact hwf2.2.1 hne hsz.1
  have hr := read_trivia t1
  rw [trivia_at_end _ hsz.2, read_endClean t1 hend2, List.append_nil] at hr
  have hsuf := (read_spec t1).2.2.2.2.2 hin
  simp only [token.trivia, hsuf, List.append_nil] at hr
  rw [hp, ← newTokenizer_trivia, ← c1, ← hr]
  simp only [sumLeaves, rootOf]
  rw [wrap_leafTokens, leafTokens_stripLevels, leafTokens_interior]
  split
  · rename_i hpos
    simp only [sumLeavesList, leafTokensList_append, leafTokensList, leafTokens_leaf,
      List.append_nil, List.map_append, List.flatten_append, List.map_cons, List.map_nil,
      List.flatten_cons, List.flatten_nil, token.trivia, hsuf]
  · rename_i hpos
    have : (t1.read).1.pre = [] := List.length_eq_zero.1 (by omega)
    simp only [sumLeavesList, this, List.append_nil]

set_option maxRecDepth 100000 in
/-- C26: the raw tokens of a buffer stand at strictly increasing positions
(by line, then by column).  The comments and spaces attached to the leaves of
the parsed tree, prefix then suffix, leaf after leaf, are exactly the comments
and spaces among the raw tokens, in order; so their positions are strictly
increasing and pairwise distinct, and every comment and space of the buffer
occurs exactly once among them. -/
theorem trivia_positions_unique (B : List Nat) :
    List.Pairwise posLt ((rawTokens B).map pos) ∧
    ((leafTokens (tree B)).map (fun tok => tok.pre ++ tok.suf)).flatten
      = (rawTokens B).filter (fun r => isTrivia r.ttype) ∧
    List.Pairwise posLt
      ((((leafTokens (tree B)).map (fun tok => tok.pre ++ tok.suf)).flatten).map pos) ∧
    ((((leafTokens (tree B)).map (fun tok => tok.pre ++ tok.suf)).flatten).map pos).Nodup ∧
    (∀ r ∈ rawTokens B, isTrivia r.ttype = true →
      (((leafTokens (tree B)).map (fun tok => tok.pre ++ tok.suf)).flatten).count r = 1) ∧
    (∀ r ∈ ((leafTokens (tree B)).map (fun tok => tok.pre ++ tok.suf)).flatten,
      r ∈ rawTokens B ∧ isTrivia r.ttype = true) ∧
    ((leafTokens (tree (bytesOf "a /*x*/
 /*y*/ b"))).map (fun tok =>
        ((tok.pre ++ tok.suf).map pos))) = [[(1, 2), (1, 3)], [(1, 8), (2, 2), (2, 7)]] := by
  have h1 : List.Pairwise posLt ((rawTokens B).map pos) := rawTokensFrom_ordered _ _
  have h2 : ((leafTokens (tree B)).map (fun tok => tok.pre ++ tok.suf)).flatten
      = (rawTokens B).filter (fun r => isTrivia r.ttype) := parse_trivia B
  have h3 : List.Pairwise posLt
      (((rawTokens B).filter (fun r => isTrivia r.ttype)).map pos) :=
    h1.sublist ((List.filter_sublist _).map pos)
  have h4 : (((rawTokens B).filter (fun r => isTrivia r.ttype)).map pos).Nodup :=
    h3.imp (fun h => posLt_ne _ _ h)
  refine ⟨h1, h2, by rw [h2]; exact h3, by rw [h2]; exact h4, ?_, ?_, by decide!⟩
  · intro r hr htr
    rw [h2]
    exact List.count_eq_one_of_mem (List.Nodup.of_map pos h4)
      (List.mem_filter.2 ⟨hr, htr⟩)
  · intro r hr
    rw [h2] at hr
    exact List.mem_filter.1 hr

/-! ## The interior nodes the parser builds -/

theorem lookingAt_mono (t : tokenizer) (a b : List (List Nat)) (h : ∀ s ∈ a, s ∈ b)
    (ha : lookingAt t a = true) : lookingAt t b = true := by
  simp only [lookingAt, List.any_eq_true] at ha ⊢
  obtain ⟨s, hs, hx⟩ := ha
  exact ⟨s, h s hs, hx⟩

theorem parseLeftLoop_builds (K : tokenizer → Prop) (P : node → Prop)
    (hleaf : ∀ t, K t → P (.leaf (t.read).1) ∧ K (t.read).2)
    (hnode : ∀ (t : tokenizer) (cs : List node), K t → lookingAt t opTexts = true →
      node.leaf (t.read).1 ∈ cs → (∀ c ∈ cs, P c) → P (.interior token.zero cs))
    (sub : parserFn) (tokens : List (List Nat)) (htok : ∀ s ∈ tokens, s ∈ opTexts)
    (hsub : parserBuilds K P sub) :
    ∀ (k : Nat) (left : node) (t : tokenizer) (n : node) (t' : tokenizer), K t →
      P left → parseLeftLoop sub tokens k left t = some (n, t') → P n ∧ K t' := by
  intro k
  induction k with
  | zero => intro left t n t' _ _ h; simp [parseLeftLoop] at h
  | succ k ih =>
    intro left t n t' hK hl h
    simp only [parseLeftLoop] at h
    split at h
    · rename_i hla
      obtain ⟨q1, q2⟩ := hleaf t hK
      split at h
      · simp at h
      · rename_i r t2 hr
        obtain ⟨s1, s2⟩ := hsub _ _ _ q2 hr
        refine ih _ _ _ _ s2 (hnode t _ hK (lookingAt_mono t _ _ htok hla) (by simp) ?_) h
        intro c hc
        simp only [List.mem_cons, List.mem_singleton, List.not_mem_nil, or_false] at hc
        rcases hc with rfl | rfl | rfl
        · exact hl
        · exact q1
        · exact s1
    · simp only [Option.some.injEq, Prod.mk.injEq] at h
      obtain ⟨rfl, rfl⟩ := h
      exact ⟨hl, hK⟩

theorem parseLeft_builds (K : tokenizer → Prop) (P : node → Prop)
    (hleaf : ∀ t, K t → P (.leaf (t.read).1) ∧ K (t.read).2)
    (hnode : ∀ (t : tokenizer) (cs : List node), K t → lookingAt t opTexts = true →
      node.leaf (t.read).1 ∈ cs → (∀ c ∈ cs, P c) → P (.interior token.zero cs))
    (sub : parserFn) (tokens : List (List Nat)) (k : Nat) (htok : ∀ s ∈ tokens, s ∈ opTexts)
    (hsub : parserBuilds K P sub) : parserBuilds K P (parseLeft sub tokens k) := by
  intro t n t' hK h
  simp only [parseLeft] at h
  split at h
  · simp at h
  · rename_i left t1 hl
    obtain ⟨s1, s2⟩ := hsub _ _ _ hK hl
    exact parseLeftLoop_builds K P hleaf hnode sub tokens htok hsub k left t1 n t' s2 s1 h

theorem parseRight_builds (K : tokenizer → Prop) (P : node → Prop)
    (hleaf : ∀ t, K t → P (.leaf (t.read).1) ∧ K (t.read).2)
    (hnode : ∀ (t : tokenizer) (cs : List node), K t → lookingAt t opTexts = true →
      node.leaf (t.read).1 ∈ cs → (∀ c ∈ cs, P c) → P (.interior token.zero cs))
    (sub : parserFn) (tokens : List (List Nat)) (htok : ∀ s ∈ tokens, s ∈ opTexts)
    (hsub : parserBuilds K P sub) :
    ∀ k : Nat, parserBuilds K P (parseRight sub tokens k) := by
  intro k
  induction k with
  | zero => intro t n t' _ h; simp [parseRight] at h
  | succ k ih =>
    intro t n t' hK h
    simp only [parseRight] at h
    split at h
    · simp at h
    · rename_i left t1 hl
      obtain ⟨s1, s2⟩ := hsub _ _ _ hK hl
      split at h
      · rename_i hla
        obtain ⟨q1, q2⟩ := hleaf t1 s2
        split at h
        · simp at h
        · rename_i r t3 hr
          obtain ⟨u1, u2⟩ := ih _ _ _ q2 hr
          simp only [Option.some.injEq, Prod.mk.injEq] at h
          obtain ⟨rfl, rfl⟩ := h
          refine ⟨hnode t1 _ s2 (lookingAt_mono t1 _ _ htok hla) (by simp) ?_, u2⟩
          intro c hc
          simp only [List.mem_cons, List.mem_singleton, List.not_mem_nil, or_false] at hc
          rcases hc with rfl | rfl | rfl
          · exact s1
          · exact q1
          · exact u1
      · simp only [Option.some.injEq, Prod.mk.injEq] at h
        obtain ⟨rfl, rfl⟩ := h
        exact ⟨s1, s2⟩

theorem oror_builds (K : tokenizer → Prop) (P : node → Prop)
    (hleaf : ∀ t, K t → P (.leaf (t.read).1) ∧ K (t.read).2)
    (hnode : ∀ (t : tokenizer) (cs : List node), K t → lookingAt t opTexts = true →
      node.leaf (t.read).1 ∈ cs → (∀ c ∈ cs, P c) → P (.interior token.zero cs))
    (un : parserFn) (k : Nat) (hun : parserBuilds K P un) : parserBuilds K P (oror un k) := by
  have h1 := parseLeft_builds K P hleaf hnode un [[42], [47], [37]] k (by decide) hun
  have h2 := parseLeft_builds K P hleaf hnode (mult un k) [[43], [45]] k (by decide) h1
  have h3 := parseLeft_builds K P hleaf hnode (plus un k) [[60, 60], [62, 62]] k (by decide) h2
  have h4 := parseLeft_builds K P hleaf hnode (shift un k) [[60], [60, 61], [62], [62, 61]] k
    (by decide) h3
  have h5 := parseLeft_builds K P hleaf hnode (cmp un k) [[61, 61], [33, 61]] k (by decide) h4
  have h6 := parseLeft_builds K P hleaf hnode (eq un k) [[38]] k (by decide) h5
  have h7 := parseLeft_builds K P hleaf hnode (bitand un k) [[94]] k (by decide) h6
  have h8 := parseLeft_builds K P hleaf hnode (bitxor un k) [[124]] k (by decide) h7
  have h9 := parseLeft_builds K P hleaf hnode (bitor un k) [[38, 38]] k (by decide) h8
  exact parseLeft_builds K P hleaf hnode (andand un k) [[124, 124]] k (by decide) h9

/-- What holds of the leaves `read` yields, and of an interior node with
such properties of its children one of which is an operator or an opener
just read, holds of every node the parser returns. -/
theorem parser_builds (K : tokenizer → Prop) (P : node → Prop)
    (hleaf : ∀ t, K t → P (.leaf (t.read).1) ∧ K (t.read).2)
    (hnode : ∀ (t : tokenizer) (cs : List node), K t → lookingAt t opTexts = true →
      node.leaf (t.read).1 ∈ cs → (∀ c ∈ cs, P c) → P (.interior token.zero cs)) :
    ∀ k : Nat,
      parserBuilds K P (unary k) ∧ parserBuilds K P (suffix k) ∧
      (∀ (n0 : node) (t : tokenizer) (n : node) (t' : tokenizer), K t → P n0 →
        suffixLoop k n0 t = some (n, t') → P n ∧ K t') ∧
      parserBuilds K P (term k) ∧
      (∀ (t : tokenizer) (closer : List Nat) (ns : List node) (t' : tokenizer), K t →
        readExprs k t closer = some (ns, t') → (∀ c ∈ ns, P c) ∧ K t') ∧
      parserBuilds K P (assign k) := by
  intro k
  induction k with
  | zero =>
    refine ⟨?_, ?_, ?_, ?_, ?_, ?_⟩
    · intro t n t' _ h; simp [unary] at h
    · intro t n t' _ h; simp [suffix] at h
    · intro n0 t n t' _ _ h; simp [suffixLoop] at h
    · intro t n t' _ h; simp [term] at h
    · intro t closer ns t' _ h; simp [readExprs] at h
    · intro t n t' _ h; simp [assign] at h
  | succ k ih =>
    obtain ⟨iu, is, il, it, ie, ia⟩ := ih
    refine ⟨?_, ?_, ?_, ?_, ?_, ?_⟩
    · -- unary
      intro t n t' hK h
      simp only [unary] at h
      split at h
      · rename_i hla
        obtain ⟨q1, q2⟩ := hleaf t hK
        split at h
        · simp at h
        · rename_i c t2 hc
          obtain ⟨s1, s2⟩ := iu _ _ _ q2 hc
          simp only [Option.some.injEq, Prod.mk.injEq] at h
          obtain ⟨rfl, rfl⟩ := h
          refine ⟨hnode t _ hK (lookingAt_mono t _ _ (by decide) hla) (by simp) ?_, s2⟩
          intro c hc
          simp only [List.mem_cons, List.mem_singleton, List.not_mem_nil, or_false] at hc
          rcases hc with rfl | rfl
          · exact q1
          · exact s1
      · exact is _ _ _ hK h
    · -- suffix
      intro t n t' hK h
      simp only [suffix] at h
      split at h
      · simp at h
      · rename_i n1 t1 hn1
        obtain ⟨s1, s2⟩ := it _ _ _ hK hn1
        exact il _ _ _ _ s2 s1 h
    · -- suffixLoop
      intro n0 t n t' hK h0 h
      simp only [suffixLoop] at h
      obtain ⟨q1, q2⟩ := hleaf t hK
      split at h
      · rename_i hla
        split at h
        · simp at h
        · rename_i c t2 hc
          obtain ⟨s1, s2⟩ := it _ _ _ q2 hc
          refine il _ _ _ _ s2 (hnode t _ hK (lookingAt_mono t _ _ (by decide) hla)
            (by simp) ?_) h
          intro c hc
          simp only [List.mem_cons, List.mem_singleton, List.not_mem_nil, or_false] at hc
          rcases hc with rfl | rfl | rfl
          · exact h0
          · exact q1
          · exact s1
      · split at h
        · rename_i hla
          split at h
          · simp at h
          · rename_i cs t2 hcs
            obtain ⟨s1, s2⟩ := ie _ _ _ _ q2 hcs
            split at h
            · obtain ⟨u1, u2⟩ := hleaf t2 s2
              refine il _ _ _ _ u2 (hnode t _ hK (lookingAt_mono t _ _ (by decide) hla)
                (by simp) ?_) h
              intro c hc
              simp only [List.mem_append, List.mem_cons, List.mem_singleton, List.not_mem_nil,
                or_false, or_assoc] at hc
              rcases hc with rfl | rfl | hc | rfl
              · exact h0
              · exact q1
              · exact s1 c hc
              · exact u1
            · refine il _ _ _ _ s2 (hnode t _ hK (lookingAt_mono t _ _ (by decide) hla)
                (by simp) ?_) h
              intro c hc
              simp only [List.mem_append, List.mem_cons, List.mem_singleton, List.not_mem_nil,
                or_false, or_assoc] at hc
              rcases hc with rfl | rfl | hc
              · exact h0
              · exact q1
              · exact s1 c hc
        · simp only [Option.some.injEq, Prod.mk.injEq] at h
          obtain ⟨rfl, rfl⟩ := h
          exact ⟨h0, hK⟩
    · -- term
      intro t n t' hK h
      simp only [term] at h
      obtain ⟨q1, q2⟩ := hleaf t hK
      split at h
      · rename_i hla
        split at h
        · simp at h
        · rename_i cs t2 hcs
          obtain ⟨s1, s2⟩ := ie _ _ _ _ q2 hcs
          split at h
          · obtain ⟨u1, u2⟩ := hleaf t2 s2
            simp only [Option.some.injEq, Prod.mk.injEq] at h
            obtain ⟨rfl, rfl⟩ := h
            refine ⟨hnode t _ hK (lookingAt_mono t _ _ (by decide) hla) (by simp) ?_, u2⟩
            intro c hc
            simp only [List.mem_append, List.mem_cons, List.mem_singleton, List.not_mem_nil,
              or_false, or_assoc] at hc
            rcases hc with rfl | hc | rfl
            · exact q1
            · exact s1 c hc
            · exact u1
          · simp only [Option.some.injEq, Prod.mk.injEq] at h
            obtain ⟨rfl, rfl⟩ := h
            refine ⟨hnode t _ hK (lookingAt_mono t _ _ (by decide) hla) (by simp) ?_, s2⟩
            intro c hc
            simp only [List.mem_append, List.mem_cons, List.mem_singleton, List.not_mem_nil,
              or_false, or_assoc] at hc
            rcases hc with rfl | hc
            · exact q1
            · exact s1 c hc
      · simp only [Option.some.injEq, Prod.mk.injEq] at h
        obtain ⟨rfl, rfl⟩ := h
        exact ⟨q1, q2⟩
    · -- readExprs
      intro t closer ns t' hK h
      simp only [readExprs] at h
      split at h
      · split at h
        · simp at h
        · rename_i n1 t1 hn1
          obtain ⟨s1, s2⟩ := ia _ _ _ hK hn1
          split at h
          · simp at h
          · rename_i ns2 t2 hns2
            obtain ⟨u1, u2⟩ := ie _ _ _ _ s2 hns2
            simp only [Option.some.injEq, Prod.mk.injEq] at h
            obtain ⟨rfl, rfl⟩ := h
            refine ⟨?_, u2⟩
            intro c hc
            rcases List.mem_cons.1 hc with rfl | hc
            · exact s1
            · exact u1 c hc
      · simp only [Option.some.injEq, Prod.mk.injEq] at h
        obtain ⟨rfl, rfl⟩ := h
        exact ⟨by simp, hK⟩
    · -- assign
      intro t n t' hK h
      simp only [assign] at h
      exact parseRight_builds K P hleaf hnode _ assignOps (by decide)
        (oror_builds K P hleaf hnode _ k iu) k _ _ _ hK h

/-! ### Every interior node has an operator or an opener among its children -/

theorem scan_noRvar (inp : List Nat) : ∀ es : List scanEntry,
    (∀ e ∈ es, entryNoRvar e) → (scan inp es).1 ≠ RVAR := by
  intro es
  induction es with
  | nil => intro _; simp [scan]
  | cons e es ih =>
    intro hes
    have he := hes e (by simp)
    simp only [scan]
    split
    · unfold entryNoRvar at he
      split
      · rename_i hfn
        rw [hfn] at he
        exact he
      · rename_i f hfn
        rw [hfn] at he
        exact he inp
    · exact ih (fun e' he' => hes e' (by simp [he']))

theorem scandata_noRvar (b : Nat) (hb : b ≠ 36) : ∀ e ∈ scandata b, entryNoRvar e := by
  intro e he
  unfold scandata at he
  rcases List.mem_append.1 he with h | h
  · unfold scanBase at h
    split at h
    · simp at h; subst h; intro inp; simp [readSpaces]
    split at h
    · simp at h; subst h; intro inp; simp [readWord]
    split at h
    · simp at h; subst h; simp [entryNoRvar]
    split at h
    · simp at h; subst h; simp [entryNoRvar]
    split at h
    · simp at h; subst h; intro inp; simp [readDblString, readString]
    split at h
    · simp at h; subst h; intro inp; simp [readSingleString, readString]
    split at h
    · simp at h
      rcases h with h | h
      · subst h; intro inp; simp [readLineComment]
      · subst h; intro inp; simp [readMultiLineComment]
    · simp at h
  · obtain ⟨op, _, rfl⟩ := List.mem_map.1 h
    simp [entryNoRvar]

/-- A raw token of type RVAR starts with `$`. -/
theorem readRaw_rvar (t : tokenizer) : rvarOk (t.readRaw).1 := by
  intro h
  cases hin : t.input with
  | nil => simp [tokenizer.readRaw, hin] at h
  | cons b rest =>
    simp only [tokenizer.readRaw, hin] at h ⊢
    have h1 := (scan_ok (b :: rest) (by simp) (scandata b) (scandata_ok b)).2
    by_cases hb : b = 36
    · subst hb
      obtain ⟨n, hn⟩ : ∃ n, (scan (36 :: rest) (scandata 36)).2 = n + 1 :=
        ⟨(scan (36 :: rest) (scandata 36)).2 - 1, by omega⟩
      simp [hn]
    · exact absurd h (scan_noRvar _ _ (scandata_noRvar b hb))

theorem readLoop_rvar : ∀ (k : Nat) (t : tokenizer) (res : token) (sl : Bool),
    rvarOk t.peek → rvarOk (readLoop k t res sl).2.peek := by
  intro k
  induction k with
  | zero => intro t res sl h; exact h
  | succ k ih =>
    intro t res sl h
    simp only [readLoop]
    split
    · exact readRaw_rvar t
    · split
      · exact ih _ _ _ (readRaw_rvar t)
      · exact ih _ _ _ (readRaw_rvar t)

theorem read_rvar (t : tokenizer) (h : rvarOk t.peek) : rvarOk (t.read).2.peek := by
  have := readLoop_rvar (t.input.length + 1) { t with buffered := [] }
    ⟨t.peek.ttype, t.peek.line, t.peek.column, t.peek.text, t.buffered, []⟩ true h
  simp only [tokenizer.read]
  split
  · exact this
  · exact this

theorem newTokenizerLoop_rvar : ∀ (k : Nat) (t : tokenizer), rvarOk t.peek →
    rvarOk (newTokenizerLoop k t).peek := by
  intro k
  induction k with
  | zero => intro t h; exact h
  | succ k ih =>
    intro t h
    simp only [newTokenizerLoop]
    split
    · exact readRaw_rvar t
    · exact ih _ (readRaw_rvar t)

theorem nodesOfList_exists (cs : List node) (x : node) (h : x ∈ nodesOfList cs) :
    ∃ c ∈ cs, x ∈ nodesOf c := by
  induction cs with
  | nil => simp [nodesOfList] at h
  | cons d ds ih =>
    simp only [nodesOfList, List.mem_append] at h
    rcases h with h | h
    · exact ⟨d, by simp, h⟩
    · obtain ⟨c, hc, hx⟩ := ih h
      exact ⟨c, by simp [hc], hx⟩

theorem anchoredTree_leaf (tok : token) : anchoredTree (.leaf tok) := by
  intro m hm hl
  simp only [nodesOf, List.mem_singleton] at hm
  subst hm
  simp [node.isLeaf] at hl

theorem anchoredTree_child (n c : node) (h : anchoredTree n) (hc : c ∈ n.children) :
    anchoredTree c := by
  intro m hm hl
  cases n with
  | leaf tok => simp [node.children] at hc
  | interior tok cs =>
    simp only [node.children] at hc
    exact h m (by simp only [nodesOf, List.mem_cons]; exact Or.inr (nodesOfList_mem cs c m hc hm)) hl

theorem anchoredTree_node (t : tokenizer) (cs : List node) (hK : rvarOk t.peek)
    (hla : lookingAt t opTexts = true) (hmem : node.leaf (t.read).1 ∈ cs)
    (hcs : ∀ c ∈ cs, anchoredTree c) : anchoredTree (.interior token.zero cs) := by
  intro m hm hl
  simp only [nodesOf, List.mem_cons] at hm
  rcases hm with rfl | hm
  · refine ⟨_, hmem, ?_⟩
    simp only [notStar, read_ttype, bne_iff_ne, ne_eq]
    intro hr
    have h36 := hK hr
    simp only [lookingAt, List.any_eq_true, beq_iff_eq] at hla
    obtain ⟨s, hs, hx⟩ := hla
    rw [hx] at h36
    have : ∀ s ∈ opTexts, s.head? ≠ some 36 := by decide
    exact this s hs h36
  · obtain ⟨c, hc, hx⟩ := nodesOfList_exists cs m hm
    exact hcs c hc m hx hl

theorem stripLevels_children : ∀ n : node, (∀ c ∈ n.children, anchoredTree c) →
    ∀ c ∈ (stripLevels n).children, anchoredTree c := by
  intro n
  induction n using stripLevels.induct with
  | case1 tok c ih =>
    intro h
    rw [stripLevels]
    exact ih (fun d hd => anchoredTree_child c d (h c (by simp [node.children])) hd)
  | case2 n hn =>
    intro h
    rw [stripLevels]
    · exact h
    · intro tok c hc
      exact hn tok c hc

/-- Every interior node under the root of a parsed tree has a child that
is no RVAR leaf: the operator or the opener the parser read for it. -/
theorem parse_anchored (B : List Nat) : ∀ c ∈ (tree B).children, anchoredTree c := by
  have hp := parse_tree B
  simp only [parse, root] at hp
  split at hp
  · simp at hp
  · rename_i cs t1 hcs
    simp only [Option.some.injEq] at hp
    rw [← hp]
    have hK0 : rvarOk (newTokenizer B).peek :=
      newTokenizerLoop_rvar _ _ (by intro h; simp at h)
    obtain ⟨q1, q2⟩ := (parser_builds (fun t => rvarOk t.peek) anchoredTree
      (fun t h => ⟨anchoredTree_leaf _, read_rvar t h⟩)
      (fun t cs h => anchoredTree_node t cs h) (parseFuel B)).2.2.2.2.1 _ _ _ _ hK0 hcs
    simp only [rootOf]
    have key : ∀ c ∈ (stripLevels (.interior token.zero
        (if 0 < (t1.read).1.pre.length then cs ++ [.leaf (t1.read).1] else cs))).children,
        anchoredTree c := by
      apply stripLevels_children
      intro c hc
      simp only [node.children] at hc
      split at hc
      · rcases List.mem_append.1 hc with hc | hc
        · exact q1 c hc
        · rw [List.mem_singleton.1 hc]
          exact anchoredTree_leaf _
      · exact q1 c hc
    generalize stripLevels (.interior token.zero
      (if 0 < (t1.read).1.pre.length then cs ++ [.leaf (t1.read).1] else cs)) = s at key ⊢
    intro c hc
    cases s with
    | leaf tok =>
      simp only [node.isLeaf, if_true, node.children, List.mem_singleton] at hc
      subst hc
      exact anchoredTree_leaf tok
    | interior tok ds =>
      simp only [node.isLeaf, Bool.false_eq_true, if_false] at hc
      exact key c hc

/-! ## Sub-patterns match whole child lists -/

theorem matchAtoms_anchored : ∀ (atoms : List atom) (text : List Nat) (pos : Nat)
    (r : List (Nat × Nat) × Nat), matchAtoms true atoms text pos = some r →
    r.2 = pos + text.length := by
  intro atoms
  induction atoms with
  | nil =>
    intro text pos r h
    simp only [matchAtoms] at h
    split at h
    · simp at h
    · rename_i hc
      simp only [Option.some.injEq] at h
      subst h
      cases text with
      | nil => rfl
      | cons c cs => simp at hc
  | cons a atoms ih =>
    intro text pos r h
    cases a with
    | one =>
      cases text with
      | nil => simp [matchAtoms] at h
      | cons c text' =>
        simp only [matchAtoms] at h
        split at h
        · simp only [Option.map_eq_some'] at h
          obtain ⟨r', hr', rfl⟩ := h
          have := ih text' (pos + 1) r' hr'
          simp only [List.length_cons]
          omega
        · simp at h
    | lit x =>
      cases text with
      | nil => simp [matchAtoms] at h
      | cons c text' =>
        simp only [matchAtoms] at h
        split at h
        · simp only [Option.map_eq_some'] at h
          obtain ⟨r', hr', rfl⟩ := h
          have := ih text' (pos + 1) r' hr'
          simp only [List.length_cons]
          omega
        · simp at h
    | star =>
      simp only [matchAtoms] at h
      obtain ⟨k, hk, hf⟩ := List.exists_of_findSome?_eq_some h
      simp only [Option.map_eq_some'] at hf
      obtain ⟨r', hr', rfl⟩ := hf
      have := ih (text.drop k) (pos + k) r' hr'
      have hk' : k ≤ text.length := by
        simp only [List.mem_reverse, List.mem_range] at hk
        have := (List.takeWhile_sublist dot (l := text)).length_le
        omega
      simp only [List.length_drop] at this
      simp only
      omega

theorem execute_anchored (re : regexp) (hre : re.anchored = true) (text : List Nat) (pos : Nat)
    (m : submatch) (h : re.execute text pos = some m) :
    m.start = 0 ∧ m.limit = text.length := by
  simp only [regexp.execute] at h
  obtain ⟨s, hs, hf⟩ := List.exists_of_findSome?_eq_some h
  split at hf
  · simp at hf
  · rename_i hc
    simp only [hre, Bool.true_and, bne_iff_ne, ne_eq, Decidable.not_not] at hc
    subst hc
    simp only [Option.map_eq_some'] at hf
    obtain ⟨r, hr, rfl⟩ := hf
    rw [hre] at hr
    have := matchAtoms_anchored re.atoms _ _ r hr
    simp only [List.drop_zero, Nat.zero_add] at this
    exact ⟨rfl, this⟩

theorem allMatches_anchored (re : regexp) (hre : re.anchored = true) (text : List Nat) :
    ∀ (k pos : Nat) (prev : Option Nat) (m : submatch), m ∈ allMatches re text k pos prev →
    m.start = 0 ∧ m.limit = text.length := by
  intro k
  induction k with
  | zero => intro pos prev m h; simp [allMatches] at h
  | succ k ih =>
    intro pos prev m h
    simp only [allMatches] at h
    split at h
    · split at h
      · simp at h
      · rename_i m0 hm0
        have e := execute_anchored re hre text pos m0 hm0
        split at h
        · split at h
          · exact ih _ _ m h
          · rcases List.mem_cons.1 h with h | h
            · subst h; exact e
            · exact ih _ _ m h
        · rcases List.mem_cons.1 h with h | h
          · subst h; exact e
          · exact ih _ _ m h
    · simp at h

theorem atomOf_notStar (rm : runemap) (c : node) (h : notStar c = true) :
    atomOf rm c ≠ atom.star := by
  cases c with
  | interior tok cs => simp [atomOf]
  | leaf tok =>
    simp only [notStar, bne_iff_ne, ne_eq] at h
    simp only [atomOf]
    split
    · simp
    · simp [h]

/-- The pattern of the children of an interior pattern node matches a child
list from its first to its last element, and not the empty list when one of
the pattern children is no RVAR leaf. -/
theorem matchChild_anchored (rm : runemap) (pnode : node) (subject : List node) (cm : Match)
    (h : matchChild rm pnode subject = some cm) :
    cm.start = 0 ∧ cm.limit = subject.length ∧
    ((∃ c ∈ pnode.children, notStar c = true) → 0 < subject.length) ∧
    ((∀ c ∈ pnode.children, notStar c = true) → subject.length = pnode.children.length) := by
  cases pnode with
  | leaf tok => simp [matchChild] at h
  | interior tok cs =>
    simp only [matchChild] at h
    obtain ⟨sm, hsm, hf⟩ := List.exists_of_findSome?_eq_some h
    simp only [Option.map_eq_some'] at hf
    obtain ⟨vars, hv, rfl⟩ := hf
    obtain ⟨a1, a2⟩ := allMatches_anchored _ rfl _ _ _ _ sm hsm
    obtain ⟨g1, _, _⟩ := findAll_ok _ _ sm hsm
    simp only [encode, List.length_map] at a2
    refine ⟨a1, a2, ?_, ?_⟩
    · rintro ⟨c, hc, hn⟩
      have := groupsOk_lt _ _ _ _ g1 ⟨atomOf rm c, by
        simp only [compileList]; exact List.mem_map.2 ⟨c, hc, rfl⟩, atomOf_notStar rm c hn⟩
      omega
    · intro hall
      have hex : ∀ (atoms : List atom) (gs : List (Nat × Nat)) (pos e : Nat),
          groupsOk atoms gs pos e → (∀ a ∈ atoms, a ≠ atom.star) → e = pos + atoms.length := by
        intro atoms
        induction atoms with
        | nil =>
          intro gs pos e hg _
          cases gs with
          | nil => simpa [groupsOk] using hg
          | cons g gs => simp [groupsOk] at hg
        | cons a atoms ih =>
          intro gs pos e hg ha
          cases gs with
          | nil => simp [groupsOk] at hg
          | cons g gs =>
            simp only [groupsOk] at hg
            obtain ⟨h1, h2, h3, h4⟩ := hg
            have := ih gs g.2 e h4 (fun b hb => ha b (by simp [hb]))
            have := h3 (ha a (by simp))
            simp only [List.length_cons]
            omega
      have := hex _ _ _ _ g1 (by
        intro a ha
        simp only [compileList, List.mem_map] at ha
        obtain ⟨c, hc, rfl⟩ := ha
        exact atomOf_notStar rm c (hall c hc))
      simp only [compileList, List.length_map, node.children] at this ⊢
      omega

/-- The capture group of a pattern node that is not written as `(.*)`
holds one symbol inside the match; it is the symbol at offset `pos + i` when
no node in front of it is written as `(.*)`. -/
theorem groupsOk_get : ∀ (atoms : List atom) (gs : List (Nat × Nat)) (pos e : Nat),
    groupsOk atoms gs pos e → ∀ (i : Nat) (a : atom), atoms[i]? = some a → a ≠ atom.star →
    ∃ g, gs[i]? = some g ∧ pos ≤ g.1 ∧ g.2 = g.1 + 1 ∧ g.2 ≤ e ∧
      ((∀ k b, k < i → atoms[k]? = some b → b ≠ atom.star) → g.1 = pos + i) := by
  intro atoms
  induction atoms with
  | nil => intro gs pos e _ i a h; simp at h
  | cons a0 atoms ih =>
    intro gs pos e hg i a hi ha
    cases gs with
    | nil => simp [groupsOk] at hg
    | cons g gs =>
      simp only [groupsOk] at hg
      obtain ⟨h1, h2, h3, h4⟩ := hg
      have hle := groupsOk_le _ _ _ _ h4
      cases i with
      | zero =>
        simp only [List.getElem?_cons_zero, Option.some.injEq] at hi
        subst hi
        have := h3 ha
        exact ⟨g, by simp, by omega, by omega, by omega, fun _ => by omega⟩
      | succ i =>
        simp only [List.getElem?_cons_succ] at hi
        obtain ⟨g', e1, e2, e3, e4, e5⟩ := ih gs g.2 e h4 i a hi ha
        refine ⟨g', by simpa using e1, by omega, e3, e4, ?_⟩
        intro hall
        have h0 := h3 (hall 0 a0 (by omega) (by simp))
        have := e5 (fun k b hk hb => hall (k + 1) b (by omega) (by simpa using hb))
        omega

/-- When the loop over the pattern nodes succeeds, every interior pattern
node was matched, child pattern against child list, with the first node of
its capture group. -/
theorem bindNodes_interior (rm : runemap) : ∀ (ps : List node) (gs : List (Nat × Nat))
    (subject : List node) (vars : varmap), bindNodes rm ps gs subject = some vars →
    ∀ (i : Nat) (Q : node) (g : Nat × Nat), ps[i]? = some Q → Q.isLeaf = false →
      gs[i]? = some g →
      ∃ (S : node) (cm : Match), (slice subject g.1 g.2).head? = some S ∧
        matchChild rm Q S.children = some cm := by
  intro ps
  induction ps with
  | nil => intro gs subject vars _ i Q g h; simp at h
  | cons pnode ps ih =>
    intro gs subject vars h i Q g hi hQ hg
    cases gs with
    | nil => simp at hg
    | cons g0 gs =>
      have hrest : ∃ vs, bindNodes rm ps gs subject = some vs := by
        cases pnode with
        | leaf tok =>
          simp only [bindNodes] at h
          split at h
          · simp only [Option.map_eq_some'] at h
            obtain ⟨vs, hvs, _⟩ := h
            exact ⟨vs, hvs⟩
          · exact ⟨vars, h⟩
        | interior tok cs =>
          simp only [bindNodes] at h
          split at h
          · simp at h
          · split at h
            · simp at h
            · simp only [Option.map_eq_some'] at h
              obtain ⟨vs, hvs, _⟩ := h
              exact ⟨vs, hvs⟩
      cases i with
      | succ i =>
        obtain ⟨vs, hvs⟩ := hrest
        exact ih gs subject vs hvs i Q g (by simpa using hi) hQ (by simpa using hg)
      | zero =>
        simp only [List.getElem?_cons_zero, Option.some.injEq] at hi hg
        subst hi
        subst hg
        cases pnode with
        | leaf tok => simp [node.isLeaf] at hQ
        | interior tok cs =>
          simp only [bindNodes] at h
          split at h
          · simp at h
          · rename_i s hs
            split at h
            · simp at h
            · rename_i cmatch hcm
              exact ⟨s, cmatch, hs, hcm⟩

/-- A successful match pairs every interior node of the pattern list with
a node of the matched part of the subject, whose child list the child
pattern matches from its first to its last element. -/
theorem matchNodes_interior (p : pattern) (subject : List node) (m : Match)
    (h : p.matchNodes subject = some m) (i : Nat) (Q : node) (hi : p.list[i]? = some Q)
    (hQ : Q.isLeaf = false) :
    ∃ (j : Nat) (S : node) (cm : Match), m.start ≤ j ∧ j < m.limit ∧ subject[j]? = some S ∧
      matchChild p.runemap Q S.children = some cm ∧ cm.start = 0 ∧
      cm.limit = S.children.length ∧
      ((∀ k c, k < i → p.list[k]? = some c → notStar c = true) → j = m.start + i) := by
  simp only [pattern.matchNodes] at h
  obtain ⟨sm, hsm, hf⟩ := List.exists_of_findSome?_eq_some h
  simp only [Option.map_eq_some'] at hf
  obtain ⟨vars, hv, rfl⟩ := hf
  obtain ⟨g1, _, _⟩ := findAll_ok _ _ sm hsm
  have hat : (compileList p.runemap p.fullMatch p.list).atoms[i]? = some atom.one := by
    simp only [compileList, List.getElem?_map, hi, Option.map_some']
    cases Q with
    | leaf tok => simp [node.isLeaf] at hQ
    | interior tok cs => rfl
  obtain ⟨g, e1, e2, e3, e4, e5⟩ := groupsOk_get _ _ _ _ g1 i atom.one hat (by simp)
  obtain ⟨S, cm, hS, hcm⟩ := bindNodes_interior p.runemap p.list sm.groups subject vars hv
    i Q g hi hQ e1
  obtain ⟨s1, s2⟩ := slice_head subject g.1 g.2 S hS
  obtain ⟨a1, a2, _, _⟩ := matchChild_anchored p.runemap Q S.children cm hcm
  refine ⟨g.1, S, cm, e2, (by show g.1 < sm.limit; omega), s1, hcm, a1, a2, ?_⟩
  intro hall
  apply e5
  intro k b hk hb
  simp only [compileList, List.getElem?_map, Option.map_eq_some'] at hb
  obtain ⟨c, hc, rfl⟩ := hb
  exact atomOf_notStar p.runemap c (hall k c hk hc)

set_option maxRecDepth 100000 in
/-- C24: for a pattern text `P`, a subject list and a successful match,
every interior node `Q` of the pattern list is paired with a node `S` of the
matched part of the subject (the node at offset `i` of the match when `Q` is
the `i`-th pattern node and no RVAR stands in front of it); `S` is an interior
node, and the child pattern of `Q` matches the child list of `S` with
`start = 0` and `limit = len(S.children)`.  For every pattern node the child
pattern matches a child list only as a whole, and only a list of the length
of the pattern when the pattern has no RVAR at that level; `(f) h` does not
match `g(f) h`. -/
theorem match_anchors_subpatterns (P : List Nat) (subject : List node) (m : Match)
    (h : (makePattern (tree P)).matchNodes subject = some m) :
    (∀ (i : Nat) (Q : node), (tree P).children[i]? = some Q → Q.isLeaf = false →
      ∃ (j : Nat) (S : node) (cm : Match), m.start ≤ j ∧ j < m.limit ∧
        subject[j]? = some S ∧ S.isLeaf = false ∧
        matchChild (makePattern (tree P)).runemap Q S.children = some cm ∧
        cm.start = 0 ∧ cm.limit = S.children.length ∧
        ((∀ k c, k < i → (tree P).children[k]? = some c → notStar c = true) →
          j = m.start + i)) ∧
    (∀ (rm : runemap) (Q : node) (cs : List node) (cm : Match),
      matchChild rm Q cs = some cm →
      cm.start = 0 ∧ cm.limit = cs.length ∧
      ((∀ c ∈ Q.children, notStar c = true) → cs.length = Q.children.length)) ∧
    matchText (bytesOf "g(f) h") (bytesOf "(f) h") = none ∧
    matchText (bytesOf "(f g) h") (bytesOf "(f) h") = none ∧
    matchText (bytesOf "(f) h") (bytesOf "(f) h") = some ⟨[], 0, 2⟩ := by
  refine ⟨?_, ?_, by decide!, by decide!, by decide!⟩
  · intro i Q hi hQ
    obtain ⟨j, S, cm, j1, j2, j3, j4, j5, j6, j7⟩ :=
      matchNodes_interior (makePattern (tree P)) subject m h i Q hi hQ
    have hanch := parse_anchored P Q (List.mem_iff_getElem?.2 ⟨i, hi⟩)
    obtain ⟨c, hc, hn⟩ := hanch Q (mem_nodesOf_self Q) hQ
    obtain ⟨_, _, a3, _⟩ := matchChild_anchored _ Q S.children cm j4
    have hpos := a3 ⟨c, hc, hn⟩
    refine ⟨j, S, cm, j1, j2, j3, ?_, j4, j5, j6, j7⟩
    cases S with
    | leaf tok => simp [node.children] at hpos
    | interior tok cs => rfl
  · intro rm Q cs cm hcm
    obtain ⟨a1, a2, _, a4⟩ := matchChild_anchored rm Q cs cm hcm
    exact ⟨a1, a2, a4⟩

set_option maxRecDepth 100000 in
/-- The pattern `(f) h` on the subject `(f) h`. -/
theorem match_anchors_subpatterns_witness :
    (makePattern (tree (bytesOf "(f) h"))).matchNodes (tree (bytesOf "(f) h")).children
      = some ⟨[], 0, 2⟩ ∧
    ∃ (j : Nat) (S : node) (cm : Match), 0 ≤ j ∧ j < 2 ∧
      (tree (bytesOf "(f) h")).children[j]? = some S ∧ S.isLeaf = false ∧
      matchChild (makePattern (tree (bytesOf "(f) h"))).runemap
        (.interior token.zero [.leaf ⟨OPENER, 1, 1, [40], [], []⟩,
          .leaf ⟨WORD, 1, 2, [102], [], []⟩,
          .leaf ⟨CLOSER, 1, 3, [41], [], [⟨SPACE, 1, 4, [32]⟩]⟩]) S.children = some cm ∧
      cm.start = 0 ∧ cm.limit = S.children.length :=
  ⟨by decide!,
    ((match_anchors_subpatterns (bytesOf "(f) h") (tree (bytesOf "(f) h")).children ⟨[], 0, 2⟩
      (by decide!)).1 0 _ (by decide!) (by decide!)).imp
      (fun _ hj => hj.imp (fun _ hS => hS.imp (fun _ hc =>
        ⟨hc.1, hc.2.1, hc.2.2.1, hc.2.2.2.1, hc.2.2.2.2.1, hc.2.2.2.2.2.1, hc.2.2.2.2.2.2.1⟩)))⟩

/-! ## A pattern with more than 55168 distinct tokens -/

theorem read_semiOf (ws : List (List Nat)) (hws : ∀ w ∈ ws, isWord w) (c : Nat) :
    (tokState (semisOf ws) OTHER c [59] c).read
      = (⟨OTHER, 1, c, [59], [], []⟩, semiStateOf ws c) := by
  cases ws with
  | nil => exact read_tokState_end OTHER c [59] c
  | cons w ws =>
    exact read_tokState_word w (59 :: semisOf ws) OTHER c [59] c (hws w (by simp))
      (endsWord_cons 59 _ (by decide))

theorem lookingAt_semiStateOf (ws : List (List Nat)) (hws : ∀ w ∈ ws, isWord w) (e : Nat)
    (tokens : List (List Nat)) (h1 : ∀ s ∈ tokens, ∃ b ∈ s, isWordByte b = false)
    (h2 : tokens.any (fun s => ([] : List Nat) == s) = false) :
    lookingAt (semiStateOf ws e) tokens = false := by
  cases ws with
  | nil => exact h2
  | cons w ws => exact lookingAt_word_false _ WORD _ w _ (hws w (by simp)) tokens h1

/-- The parser on `semisOf ws`: one leaf for every word and every
semicolon. -/
theorem readExprs_semisOf : ∀ (ws : List (List Nat)), (∀ w ∈ ws, isWord w) → ∀ (e k : Nat),
    ∃ e', readExprs (k + 2 * ws.length + 7) (semiStateOf ws e) []
      = some (semiLeavesOf ws e, tokState [] END (e' + 1) [] e') := by
  intro ws
  induction ws with
  | nil =>
    intro _ e k
    exact ⟨e, readExprs_stop _ _ [] (Or.inl rfl)⟩
  | cons w ws ih =>
    intro hws e k
    have hw : isWord w := hws w (by simp)
    have hws' : ∀ x ∈ ws, isWord x := fun x hx => hws x (by simp [hx])
    obtain ⟨e', hrest⟩ := ih hws' (e + w.length + 1) k
    refine ⟨e', ?_⟩
    have r1 := read_tokState_semi (semisOf ws) WORD (e + 1) w (e + w.length)
    have r2 := read_semiOf ws hws' (e + w.length + 1)
    have a1 := assign_atom (k + 2 * ws.length + 2) (tokState (59 :: semisOf ws) WORD (e + 1) w
        (e + w.length))
      (lookingAt_word_false _ WORD _ w _ hw _ (by decide))
      (lookingAt_word_false _ WORD _ w _ hw _ (by decide))
      (by rw [r1]; rfl) (by rw [r1]; rfl)
      (by
        intro ops ho
        rw [r1, lookingAt_tokState]
        exact ops_not_semi ops ho)
    rw [r1] at a1
    have a2 := assign_atom (k + 2 * ws.length + 1) (tokState (semisOf ws) OTHER
        (e + w.length + 1) [59] (e + w.length + 1))
      (by rfl) (by rfl)
      (by rw [r2]; exact lookingAt_semiStateOf ws hws' _ _ (by decide) (by decide))
      (by rw [r2]; exact lookingAt_semiStateOf ws hws' _ _ (by decide) (by decide))
      (by
        intro ops ho
        rw [r2]
        exact lookingAt_semiStateOf ws hws' _ ops (ops_not_word ops ho) (end_not_op ops ho))
    rw [r2] at a2
    have hfuel : k + 2 * (w :: ws).length + 7 = (k + 2 * ws.length + 7) + 1 + 1 := by
      simp only [List.length_cons]; omega
    rw [hfuel, semiStateOf, semiLeavesOf]
    rw [readExprs]
    rw [if_pos ⟨by show WORD ≠ END; decide, by
      rw [lookingAt_tokState]
      simp [hw.1]⟩]
    rw [show k + 2 * ws.length + 7 + 1 = k + 2 * ws.length + 2 + 6 by omega, a1]
    simp only
    rw [show k + 2 * ws.length + 2 + 6 = (k + 2 * ws.length + 7) + 1 by omega, readExprs]
    rw [if_pos ⟨by show OTHER ≠ END; decide, by rfl⟩]
    rw [show k + 2 * ws.length + 7 = k + 2 * ws.length + 1 + 6 by omega, a2]
    simp only
    rw [show k + 2 * ws.length + 1 + 6 = k + 2 * ws.length + 7 by omega, hrest]

theorem semisOf_length : ∀ ws : List (List Nat), ws.length ≤ (semisOf ws).length := by
  intro ws
  induction ws with
  | nil => simp [semisOf]
  | cons w ws ih =>
    simp only [semisOf, List.length_append, List.length_cons]
    omega

theorem parse_semisOf (w : List Nat) (ws : List (List Nat)) (hws : ∀ x ∈ w :: ws, isWord x) :
    parse (semisOf (w :: ws)) = some (.interior token.zero (semiLeavesOf (w :: ws) 0)) := by
  have hw : isWord w := hws w (by simp)
  have e0 : newTokenizer (semisOf (w :: ws)) = semiStateOf (w :: ws) 0 := by
    have := newTokenizer_word w (59 :: semisOf ws) hw (endsWord_cons 59 _ (by decide))
    simpa [semisOf, semiStateOf] using this
  obtain ⟨k, hk⟩ : ∃ k, parseFuel (semisOf (w :: ws)) = k + 2 * (w :: ws).length + 7 := by
    refine ⟨parseFuel (semisOf (w :: ws)) - (2 * (w :: ws).length + 7), ?_⟩
    have h1 := semisOf_length (w :: ws)
    simp only [parseFuel]
    omega
  obtain ⟨e', hx⟩ := readExprs_semisOf (w :: ws) hws 0 k
  rw [parse, hk, e0]
  simp only [root, hx, rootOf, read_tokState_end]
  simp [semiLeavesOf, stripLevels, node.isLeaf]

theorem isWord_unaryWord (i : Nat) : isWord (unaryWord i) := by
  refine ⟨by simp [unaryWord], ?_⟩
  intro b hb
  simp only [unaryWord, List.mem_replicate] at hb
  rw [hb.2]
  decide

theorem unaryWord_inj (i j : Nat) (h : unaryWord i = unaryWord j) : i = j := by
  have := congrArg List.length h
  simpa [unaryWord] using this

theorem unaryWord_ne_semi (i : Nat) : unaryWord i ≠ [59] := by
  intro h
  have : (120 : Nat) ∈ unaryWord i := by simp [unaryWord]
  rw [h] at this
  simp at this

theorem semiLeavesOf_texts : ∀ (ws : List (List Nat)) (e : Nat),
    (semiLeavesOf ws e).map (fun c => c.token.text) = semiTexts ws := by
  intro ws
  induction ws with
  | nil => intro e; rfl
  | cons w ws ih =>
    intro e
    rw [semiLeavesOf, semiTexts, List.map_cons, List.map_cons, ih]
    rfl

theorem semiLeavesOf_literal : ∀ (ws : List (List Nat)) (e : Nat),
    ∀ c ∈ semiLeavesOf ws e, isLiteral c = true := by
  intro ws
  induction ws with
  | nil => intro e c hc; simp [semiLeavesOf] at hc
  | cons w ws ih =>
    intro e c hc
    simp only [semiLeavesOf, List.mem_cons] at hc
    rcases hc with rfl | rfl | hc
    · rfl
    · rfl
    · exact ih _ c hc

theorem semiLeavesOf_length : ∀ (ws : List (List Nat)) (e : Nat),
    (semiLeavesOf ws e).length = 2 * ws.length := by
  intro ws
  induction ws with
  | nil => intro e; rfl
  | cons w ws ih =>
    intro e
    simp only [semiLeavesOf, List.length_cons, ih]
    omega

theorem semiLeavesOf_get : ∀ (ws : List (List Nat)) (e i : Nat) (w : List Nat),
    ws[i]? = some w → ∃ c, (semiLeavesOf ws e)[2 * i]? = some (.leaf ⟨WORD, 1, c, w, [], []⟩) := by
  intro ws
  induction ws with
  | nil => intro e i w h; simp at h
  | cons w0 ws ih =>
    intro e i w h
    cases i with
    | zero =>
      simp only [List.getElem?_cons_zero, Option.some.injEq] at h
      subst h
      exact ⟨e + 1, by simp [semiLeavesOf]⟩
    | succ i =>
      simp only [List.getElem?_cons_succ] at h
      obtain ⟨c, hc⟩ := ih (e + w0.length + 1) i w h
      refine ⟨c, ?_⟩
      rw [show 2 * (i + 1) = 2 * i + 1 + 1 by omega]
      simp only [semiLeavesOf, List.getElem?_cons_succ]
      exact hc

/-! ### The regular expression of a list of literals -/

theorem atomOf_literal (rm : runemap) (c : node) (h : isLiteral c = true) :
    atomOf rm c = atom.lit (code rm c.token.text) := by
  cases c with
  | interior tok cs => simp [isLiteral] at h
  | leaf tok =>
    simp only [isLiteral, isVar, Bool.not_eq_true', Bool.or_eq_false_iff, beq_eq_false_iff_ne,
      ne_eq] at h
    simp [atomOf, h.1, h.2, code, node.token]

theorem symbolOf_literal (rm : runemap) (c : node) (h : isLiteral c = true)
    (hk : rm.find c.token.text ≠ none) : symbolOf rm c = code rm c.token.text := by
  cases c with
  | interior tok cs => simp [isLiteral] at h
  | leaf tok =>
    simp only [node.token] at hk ⊢
    simp only [symbolOf, code]
    cases hf : rm.find tok.text with
    | none => exact absurd hf hk
    | some r => rfl

theorem matchAtoms_literals : ∀ (rs rest : List Nat) (pos : Nat),
    ∃ gs : List (Nat × Nat), gs.length = rs.length ∧
      matchAtoms false (rs.map atom.lit) (rs ++ rest) pos = some (gs, pos + rs.length) := by
  intro rs
  induction rs with
  | nil => intro rest pos; exact ⟨[], rfl, by simp [matchAtoms]⟩
  | cons r rs ih =>
    intro rest pos
    obtain ⟨gs, h1, h2⟩ := ih rest (pos + 1)
    refine ⟨(pos, pos + 1) :: gs, by simp [h1], ?_⟩
    simp only [List.map_cons, List.cons_append, matchAtoms, if_true, h2, Option.map_some',
      List.length_cons]
    congr 2
    omega

theorem bindNodes_literals (rm : runemap) (subject : List node) : ∀ (ps : List node)
    (gs : List (Nat × Nat)), (∀ c ∈ ps, isLiteral c = true) → ps.length ≤ gs.length →
    bindNodes rm ps gs subject = some [] := by
  intro ps
  induction ps with
  | nil => intro gs _ _; simp [bindNodes]
  | cons p ps ih =>
    intro gs hl hlen
    cases gs with
    | nil => simp at hlen
    | cons g gs =>
      have hp := hl p (by simp)
      cases p with
      | interior tok cs => simp [isLiteral] at hp
      | leaf tok =>
        simp only [isLiteral, Bool.not_eq_true'] at hp
        simp only [bindNodes, hp, Bool.false_eq_true, if_false]
        exact ih gs (fun c hc => hl c (by simp [hc])) (by simpa using hlen)

/-- A pattern list of literals matches a subject list of the same length
with the same symbols, whatever the texts of the subject are. -/
theorem matchNodes_literals (p : pattern) (subject : List node) (hne : p.list ≠ [])
    (hf : p.fullMatch = false) (hl : ∀ c ∈ p.list, isLiteral c = true)
    (hs : encode p.runemap subject = p.list.map (fun c => code p.runemap c.token.text)) :
    p.matchNodes subject = some ⟨[], 0, p.list.length⟩ := by
  have hatoms : (compileList p.runemap p.fullMatch p.list).atoms
      = (p.list.map (fun c => code p.runemap c.token.text)).map atom.lit := by
    simp only [compileList, List.map_map]
    apply List.map_congr_left
    intro c hc
    exact atomOf_literal p.runemap c (hl c hc)
  obtain ⟨gs, g1, g2⟩ := matchAtoms_literals
    (p.list.map (fun c => code p.runemap c.token.text)) [] 0
  simp only [List.append_nil, List.length_map, Nat.zero_add] at g1 g2
  have hlen : 0 < p.list.length := List.length_pos.2 hne
  have hexec : (compileList p.runemap p.fullMatch p.list).execute
      (encode p.runemap subject) 0 = some ⟨0, p.list.length, gs⟩ := by
    simp only [regexp.execute, Nat.sub_zero]
    rw [List.range_succ_eq_map]
    simp only [List.map_cons, List.findSome?_cons, Nat.add_zero, List.drop_zero, hatoms]
    rw [show (compileList p.runemap p.fullMatch p.list).anchored = false from hf, hs, g2]
    rfl
  have hall : ∃ tl, (compileList p.runemap p.fullMatch p.list).findAllSubmatchIndex
      (encode p.runemap subject) = ⟨0, p.list.length, gs⟩ :: tl := by
    simp only [regexp.findAllSubmatchIndex, allMatches, Nat.zero_le, if_true, hexec]
    rw [if_neg (by omega)]
    exact ⟨_, rfl⟩
  obtain ⟨tl, htl⟩ := hall
  simp only [pattern.matchNodes, htl, List.findSome?_cons,
    bindNodes_literals p.runemap subject p.list gs hl (by omega), Option.map_some']

/-! ### The runes of the words `x`, `xx`, ... -/

theorem find_append (rm rm2 : runemap) (text : List Nat) :
    (rm ++ rm2).find text = match rm.find text with
      | some r => some r
      | none => rm2.find text := by
  simp only [runemap.find, List.find?_append]
  cases h : List.find? (fun e => e.1 == text) rm with
  | none => simp
  | some e => simp

theorem find_unary (i : Nat) : ∀ (n a : Nat), a ≤ i → i < a + n →
    runemap.find ((List.range' a n).map (fun j => (unaryWord j, 129 + j))) (unaryWord i)
      = some (129 + i) := by
  intro n
  induction n with
  | zero => intro a h1 h2; omega
  | succ n ih =>
    intro a h1 h2
    simp only [List.range'_succ, List.map_cons, runemap.find, List.find?_cons]
    by_cases hai : a = i
    · subst hai
      simp
    · have hne : (unaryWord a == unaryWord i) = false := by
        rw [beq_eq_false_iff_ne]
        exact fun h => hai (unaryWord_inj _ _ h)
      simp only [hne]
      exact ih (a + 1) (by omega) (by omega)

theorem find_unary_none (i : Nat) : ∀ (n a : Nat), i < a →
    runemap.find ((List.range' a n).map (fun j => (unaryWord j, 129 + j))) (unaryWord i)
      = none := by
  intro n
  induction n with
  | zero => intro a _; rfl
  | succ n ih =>
    intro a h1
    simp only [List.range'_succ, List.map_cons, runemap.find, List.find?_cons]
    have hne : (unaryWord a == unaryWord i) = false := by
      rw [beq_eq_false_iff_ne]
      exact fun h => by have := unaryWord_inj _ _ h; omega
    simp only [hne]
    exact ih (a + 1) (by omega)

theorem assignRunes_unary : ∀ (n a e : Nat) (rm : runemap), rm.length = a + 1 →
    rm.find [59] ≠ none → (∀ i, a ≤ i → rm.find (unaryWord i) = none) →
    assignRunesList rm (semiLeavesOf ((List.range' a n).map unaryWord) e)
      = rm ++ (List.range' a n).map (fun j => (unaryWord j, 129 + j)) := by
  intro n
  induction n with
  | zero => intro a e rm _ _ _; simp [semiLeavesOf, assignRunesList]
  | succ n ih =>
    intro a e rm hlen hsemi hnone
    simp only [List.range'_succ, List.map_cons, semiLeavesOf, assignRunesList]
    have h1 : assignRunes rm (.leaf ⟨WORD, 1, e + 1, unaryWord a, [], []⟩)
        = rm ++ [(unaryWord a, 129 + a)] := by
      simp only [assignRunes, hnone a (Nat.le_refl a), hlen]
      simp only [show ¬ (WORD = VAR) by decide, show ¬ (WORD = RVAR) by decide, if_false]
      congr 3
      omega
    have hsemi' : (rm ++ [(unaryWord a, 129 + a)]).find [59] ≠ none := by
      rw [find_append]
      cases hf : rm.find [59] with
      | none => exact absurd hf hsemi
      | some r => simp
    have h2 : assignRunes (rm ++ [(unaryWord a, 129 + a)])
        (.leaf ⟨OTHER, 1, e + (unaryWord a).length + 1, [59], [], []⟩)
        = rm ++ [(unaryWord a, 129 + a)] := by
      simp only [assignRunes]
      simp only [show ¬ (OTHER = VAR) by decide, show ¬ (OTHER = RVAR) by decide, if_false]
      cases hf : (rm ++ [(unaryWord a, 129 + a)]).find [59] with
      | none => exact absurd hf hsemi'
      | some r => rfl
    rw [h1, h2, ih (a + 1) _ _ (by simp [hlen]) hsemi' ?_]
    · simp
    · intro i hi
      rw [find_append, hnone i (by omega)]
      simp only [runemap.find, List.find?_cons, List.find?_nil]
      have hne : (unaryWord a == unaryWord i) = false := by
        rw [beq_eq_false_iff_ne]
        exact fun h => by have := unaryWord_inj _ _ h; omega
      simp [hne]

/-- The runes `makePattern` assigns for the pattern `x;xx;xxx;...`: 128 to
`x`, 129 to `;` and `129 + i` to the word of `i + 1` letters. -/
theorem runemap_unary (n : Nat) :
    (makePattern (.interior token.zero (semiLeavesOf (unaryWords (n + 1)) 0))).runemap
      = [(unaryWord 0, 128), ([59], 129)] ++
          (List.range' 1 n).map (fun j => (unaryWord j, 129 + j)) := by
  simp only [makePattern, makeListPattern, node.children, unaryWords, List.range'_succ,
    List.map_cons, semiLeavesOf, assignRunesList]
  have h1 : assignRunes [] (.leaf ⟨WORD, 1, 0 + 1, unaryWord 0, [], []⟩)
      = [(unaryWord 0, 128)] := by
    simp [assignRunes, runemap.find]
  have h2 : assignRunes [(unaryWord 0, 128)]
      (.leaf ⟨OTHER, 1, 0 + (unaryWord 0).length + 1, [59], [], []⟩)
      = [(unaryWord 0, 128), ([59], 129)] := by
    have hne : (unaryWord 0 == [59]) = false := by
      rw [beq_eq_false_iff_ne]
      exact unaryWord_ne_semi 0
    simp [assignRunes, runemap.find, hne]
  rw [h1, h2]
  refine assignRunes_unary n (0 + 1) _ [(unaryWord 0, 128), ([59], 129)] rfl ?_ ?_
  · have hne : (unaryWord 0 == [59]) = false := by
      rw [beq_eq_false_iff_ne]
      exact unaryWord_ne_semi 0
    simp [runemap.find, hne]
  · intro i hi
    have hne : (unaryWord 0 == unaryWord i) = false := by
      rw [beq_eq_false_iff_ne]
      exact fun h => by have := unaryWord_inj _ _ h; omega
    have hne2 : (([59] : List Nat) == unaryWord i) = false := by
      rw [beq_eq_false_iff_ne]
      exact fun h => unaryWord_ne_semi i h.symm
    simp [runemap.find, hne, hne2]

theorem code_unary (n i : Nat) (h1 : 1 ≤ i) (h2 : i ≤ n) :
    runemap.find ([(unaryWord 0, 128), ([59], 129)] ++
          (List.range' 1 n).map (fun j => (unaryWord j, 129 + j))) (unaryWord i)
      = some (129 + i) := by
  rw [find_append]
  have hne : (unaryWord 0 == unaryWord i) = false := by
    rw [beq_eq_false_iff_ne]
    exact fun h => by have := unaryWord_inj _ _ h; omega
  have hne2 : (([59] : List Nat) == unaryWord i) = false := by
    rw [beq_eq_false_iff_ne]
    exact fun h => unaryWord_ne_semi i h.symm
  have : runemap.find [(unaryWord 0, 128), ([59], 129)] (unaryWord i) = none := by
    simp [runemap.find, hne, hne2]
  rw [this]
  exact find_unary i n 1 h1 (by omega)

/-! ### Two words with the same symbol -/

theorem unaryWords_succ (n : Nat) :
    unaryWords (n + 1) = unaryWord 0 :: (List.range' 1 n).map unaryWord := by
  simp only [unaryWords, List.range'_succ, List.map_cons]

theorem unaryWords_concat (n : Nat) : unaryWords (n + 1) = unaryWords n ++ [unaryWord n] := by
  simp only [unaryWords, List.range'_concat, List.map_append, List.map_cons, List.map_nil,
    Nat.zero_add, Nat.one_mul]

theorem unaryWords_length (n : Nat) : (unaryWords n).length = n := by
  simp [unaryWords]

theorem unaryWords_mem (n : Nat) (w : List Nat) (h : w ∈ unaryWords n) :
    ∃ i, i < n ∧ w = unaryWord i := by
  simp only [unaryWords, List.mem_map, List.mem_range'_1] at h
  obtain ⟨i, hi, rfl⟩ := h
  exact ⟨i, by omega, rfl⟩

theorem unaryWords_get (n i : Nat) (h : i < n) : (unaryWords n)[i]? = some (unaryWord i) := by
  simp only [unaryWords, List.getElem?_map]
  rw [List.getElem?_range' _ _ h]
  simp

theorem semiTexts_append (a b : List (List Nat)) :
    semiTexts (a ++ b) = semiTexts a ++ semiTexts b := by
  induction a with
  | nil => rfl
  | cons w ws ih =>
    rw [List.cons_append, semiTexts, semiTexts, ih]
    rfl

theorem semiTexts_mem (ws : List (List Nat)) (t : List Nat) (h : t ∈ semiTexts ws) :
    t = [59] ∨ t ∈ ws := by
  induction ws with
  | nil => simp [semiTexts] at h
  | cons w ws ih =>
    simp only [semiTexts, List.mem_cons] at h
    rcases h with h | h | h
    · exact Or.inr (by simp [h])
    · exact Or.inl h
    · rcases ih h with h | h
      · exact Or.inl h
      · exact Or.inr (by simp [h])

theorem tree_semisOf (w : List Nat) (ws : List (List Nat)) (hws : ∀ x ∈ w :: ws, isWord x) :
    tree (semisOf (w :: ws)) = .interior token.zero (semiLeavesOf (w :: ws) 0) := by
  simp only [tree, parse_semisOf w ws hws, Option.getD_some]

theorem find_known (n i : Nat) (h : i ≤ n) :
    runemap.find ([(unaryWord 0, 128), ([59], 129)] ++
          (List.range' 1 n).map (fun j => (unaryWord j, 129 + j))) (unaryWord i) ≠ none := by
  by_cases h0 : i = 0
  · subst h0
    rw [find_append]
    simp [runemap.find]
  · rw [code_unary n i (by omega) h]
    simp

theorem find_semi (n : Nat) :
    runemap.find ([(unaryWord 0, 128), ([59], 129)] ++
          (List.range' 1 n).map (fun j => (unaryWord j, 129 + j))) [59] ≠ none := by
  rw [find_append]
  have hne : (unaryWord 0 == [59]) = false := by
    rw [beq_eq_false_iff_ne]
    exact unaryWord_ne_semi 0
  simp [runemap.find, hne]

theorem encode_collision (rm : runemap) (n : Nat) (hsemi : rm.find [59] ≠ none)
    (hk : ∀ i, i ≤ n + 1 → rm.find (unaryWord i) ≠ none)
    (hc : code rm (unaryWord n) = code rm (unaryWord (n + 1))) :
    encode rm (semiLeavesOf (unaryWords (n + 1) ++ [unaryWord n]) 0)
      = (semiLeavesOf (unaryWords (n + 2)) 0).map (fun c => code rm c.token.text) := by
  have e1 : (semiLeavesOf (unaryWords (n + 1) ++ [unaryWord n]) 0).map (symbolOf rm)
      = (semiLeavesOf (unaryWords (n + 1) ++ [unaryWord n]) 0).map
        (fun c => code rm c.token.text) := by
    apply List.map_congr_left
    intro c hc
    apply symbolOf_literal _ c (semiLeavesOf_literal _ 0 c hc)
    have ht : c.token.text ∈ semiTexts (unaryWords (n + 1) ++ [unaryWord n]) := by
      rw [← semiLeavesOf_texts _ 0]
      exact List.mem_map.2 ⟨c, hc, rfl⟩
    rcases semiTexts_mem _ _ ht with h | h
    · rw [h]; exact hsemi
    · rcases List.mem_append.1 h with h | h
      · obtain ⟨i, hi, hw⟩ := unaryWords_mem _ _ h
        rw [hw]; exact hk i (by omega)
      · rw [List.mem_singleton.1 h]; exact hk n (by omega)
  have e2 : ∀ l : List node,
      l.map (fun c => code rm c.token.text) = (l.map (fun c => c.token.text)).map (code rm) := by
    intro l
    rw [List.map_map]
    rfl
  rw [encode, e1, e2, e2, semiLeavesOf_texts, semiLeavesOf_texts, unaryWords_concat (n + 1),
    semiTexts_append, semiTexts_append, List.map_append, List.map_append]
  congr 1
  simp only [semiTexts, List.map_cons, List.map_nil, hc]

/-- The pattern `x;xx;...;` with `N = n + 2` words matches the subject in
which the last word is the one before it once more, when `writeRune` writes
the runes of the two words as the same symbol. -/
theorem collision_general (n m N L I r1 r2 : Nat) (hn : 1 ≤ n) (hm : m = n + 1)
    (hN : N = n + 2) (hL : L = 2 * (n + 2)) (hI : I = 2 * (n + 1)) (h1 : r1 = 129 + n)
    (h2 : r2 = 129 + (n + 1)) (hr : writeRune r1 = writeRune r2) :
    matchText (semisOf (unaryWords m ++ [unaryWord n])) (semisOf (unaryWords N))
      = some ⟨[], 0, L⟩ ∧
    (∃ c, (tree (semisOf (unaryWords N))).children[I]?
      = some (.leaf ⟨WORD, 1, c, unaryWord m, [], []⟩)) ∧
    (∃ c, (tree (semisOf (unaryWords m ++ [unaryWord n]))).children[I]?
      = some (.leaf ⟨WORD, 1, c, unaryWord n, [], []⟩)) ∧
    (makePattern (tree (semisOf (unaryWords N)))).runemap.find (unaryWord n) = some r1 ∧
    (makePattern (tree (semisOf (unaryWords N)))).runemap.find (unaryWord m) = some r2 := by
  subst hm hN hL hI h1 h2
  have hP : ∀ x ∈ unaryWords (n + 2), isWord x := by
    intro x hx
    obtain ⟨i, _, rfl⟩ := unaryWords_mem _ x hx
    exact isWord_unaryWord i
  have hS : ∀ x ∈ unaryWords (n + 1) ++ [unaryWord n], isWord x := by
    intro x hx
    rcases List.mem_append.1 hx with hx | hx
    · obtain ⟨i, _, rfl⟩ := unaryWords_mem _ x hx
      exact isWord_unaryWord i
    · rw [List.mem_singleton.1 hx]
      exact isWord_unaryWord n
  have eP : unaryWords (n + 2) = unaryWord 0 :: (List.range' 1 (n + 1)).map unaryWord :=
    unaryWords_succ (n + 1)
  have eS : unaryWords (n + 1) ++ [unaryWord n]
      = unaryWord 0 :: ((List.range' 1 n).map unaryWord ++ [unaryWord n]) := by
    rw [unaryWords_succ n, List.cons_append]
  have pP : parse (semisOf (unaryWords (n + 2)))
      = some (.interior token.zero (semiLeavesOf (unaryWords (n + 2)) 0)) := by
    rw [eP] at hP ⊢
    exact parse_semisOf _ _ hP
  have pS : parse (semisOf (unaryWords (n + 1) ++ [unaryWord n]))
      = some (.interior token.zero (semiLeavesOf (unaryWords (n + 1) ++ [unaryWord n]) 0)) := by
    rw [eS] at hS ⊢
    exact parse_semisOf _ _ hS
  have tP : tree (semisOf (unaryWords (n + 2)))
      = .interior token.zero (semiLeavesOf (unaryWords (n + 2)) 0) := by
    rw [tree, pP, Option.getD_some]
  have tS : tree (semisOf (unaryWords (n + 1) ++ [unaryWord n]))
      = .interior token.zero (semiLeavesOf (unaryWords (n + 1) ++ [unaryWord n]) 0) := by
    rw [tree, pS, Option.getD_some]
  have g1 : matchText (semisOf (unaryWords (n + 1) ++ [unaryWord n]))
      (semisOf (unaryWords (n + 2)))
      = (makePattern (.interior token.zero (semiLeavesOf (unaryWords (n + 2)) 0))).matchNodes
          (semiLeavesOf (unaryWords (n + 1) ++ [unaryWord n]) 0) := by
    rw [matchText, pS, pP]
    rfl
  rw [g1, tP, tS]
  simp only [node.children]
  generalize hp : makePattern (.interior token.zero (semiLeavesOf (unaryWords (n + 2)) 0)) = p
  have hrm : p.runemap = [(unaryWord 0, 128), ([59], 129)] ++
      (List.range' 1 (n + 1)).map (fun j => (unaryWord j, 129 + j)) := by
    rw [← hp]
    exact runemap_unary (n + 1)
  have hlist : p.list = semiLeavesOf (unaryWords (n + 2)) 0 := by
    rw [← hp]
    rfl
  have hfull : p.fullMatch = false := by
    rw [← hp]
    rfl
  have f1 : p.runemap.find (unaryWord n) = some (129 + n) := by
    rw [hrm]
    exact code_unary (n + 1) n hn (by omega)
  have f2 : p.runemap.find (unaryWord (n + 1)) = some (129 + (n + 1)) := by
    rw [hrm]
    exact code_unary (n + 1) (n + 1) (by omega) (by omega)
  refine ⟨?_, ?_, ?_, f1, f2⟩
  · have hm := matchNodes_literals p (semiLeavesOf (unaryWords (n + 1) ++ [unaryWord n]) 0)
      (by
        intro h
        have := congrArg List.length h
        rw [hlist, semiLeavesOf_length, unaryWords_length] at this
        simp at this)
      hfull
      (by rw [hlist]; exact fun c hc => semiLeavesOf_literal _ 0 c hc)
      (by
        rw [hlist]
        apply encode_collision p.runemap n
        · rw [hrm]; exact find_semi (n + 1)
        · intro i hi
          rw [hrm]; exact find_known (n + 1) i hi
        · rw [code, code, f1, f2]
          exact hr)
    rw [hm, hlist, semiLeavesOf_length, unaryWords_length]
  · exact semiLeavesOf_get _ 0 (n + 1) _ (unaryWords_get (n + 2) (n + 1) (by omega))
  · refine semiLeavesOf_get _ 0 (n + 1) _ ?_
    rw [List.getElem?_append_right (by simp [unaryWords_length])]
    simp [unaryWords_length]

/-! ## Literals match leaves of the same text, up to 55168 distinct texts -/

theorem groupsMatch_ok : ∀ (atoms : List atom) (gs : List (Nat × Nat)) (T : List Nat)
    (pos e : Nat), groupsMatch atoms gs T pos e → groupsOk atoms gs pos e := by
  intro atoms
  induction atoms with
  | nil =>
    intro gs T pos e h
    cases gs with
    | nil => simpa [groupsMatch, groupsOk] using h
    | cons g gs => simp [groupsMatch] at h
  | cons a atoms ih =>
    intro gs T pos e h
    cases gs with
    | nil => simp [groupsMatch] at h
    | cons g gs =>
      simp only [groupsMatch] at h
      simp only [groupsOk]
      exact ⟨h.1, h.2.1, h.2.2.1, ih gs T g.2 e h.2.2.2.2⟩

theorem drop_cons_get (T : List Nat) (pos c : Nat) (text : List Nat)
    (h : T.drop pos = c :: text) : T[pos]? = some c ∧ text = T.drop (pos + 1) := by
  constructor
  · have := List.getElem?_drop T pos 0
    rw [h] at this
    simpa using this.symm
  · have : (T.drop pos).drop 1 = T.drop (pos + 1) := by
      rw [List.drop_drop]
    rw [h] at this
    simpa using this

theorem matchAtoms_match (anch : Bool) : ∀ (atoms : List atom) (T : List Nat) (pos : Nat)
    (r : List (Nat × Nat) × Nat), matchAtoms anch atoms (T.drop pos) pos = some r →
    groupsMatch atoms r.1 T pos r.2 := by
  intro atoms
  induction atoms with
  | nil =>
    intro T pos r h
    simp only [matchAtoms] at h
    split at h
    · simp at h
    · simp only [Option.some.injEq] at h
      subst h
      simp [groupsMatch]
  | cons a atoms ih =>
    intro T pos r h
    cases a with
    | one =>
      cases htx : T.drop pos with
      | nil => rw [htx] at h; simp [matchAtoms] at h
      | cons c text' =>
        rw [htx] at h
        obtain ⟨t1, t2⟩ := drop_cons_get T pos c text' htx
        simp only [matchAtoms] at h
        split at h
        · simp only [Option.map_eq_some'] at h
          obtain ⟨r', hr', rfl⟩ := h
          rw [t2] at hr'
          have i1 := ih T (pos + 1) r' hr'
          have i2 := groupsOk_le _ _ _ _ (groupsMatch_ok _ _ _ _ _ i1)
          simp only [groupsMatch]
          exact ⟨trivial, by omega, fun _ => trivial, fun r hr => atom.noConfusion hr, i1⟩
        · simp at h
    | lit x =>
      cases htx : T.drop pos with
      | nil => rw [htx] at h; simp [matchAtoms] at h
      | cons c text' =>
        rw [htx] at h
        obtain ⟨t1, t2⟩ := drop_cons_get T pos c text' htx
        simp only [matchAtoms] at h
        split at h
        · rename_i hcx
          simp only [Option.map_eq_some'] at h
          obtain ⟨r', hr', rfl⟩ := h
          rw [t2] at hr'
          have i1 := ih T (pos + 1) r' hr'
          simp only [groupsMatch]
          refine ⟨trivial, by omega, fun _ => trivial, ?_, i1⟩
          intro r hr
          cases hr
          rw [t1, hcx]
        · simp at h
    | star =>
      simp only [matchAtoms] at h
      obtain ⟨k, hk, hf⟩ := List.exists_of_findSome?_eq_some h
      simp only [Option.map_eq_some'] at hf
      obtain ⟨r', hr', rfl⟩ := hf
      have hdd : (T.drop pos).drop k = T.drop (pos + k) := by
        rw [List.drop_drop]
      rw [hdd] at hr'
      have i1 := ih T (pos + k) r' hr'
      simp only [groupsMatch]
      exact ⟨trivial, by omega, fun hc => absurd rfl hc, fun r hr => atom.noConfusion hr, i1⟩

theorem execute_match (re : regexp) (text : List Nat) (pos : Nat) (m : submatch)
    (h : re.execute text pos = some m) : groupsMatch re.atoms m.groups text m.start m.limit := by
  simp only [regexp.execute] at h
  obtain ⟨s, hs, hf⟩ := List.exists_of_findSome?_eq_some h
  split at hf
  · simp at hf
  · simp only [Option.map_eq_some'] at hf
    obtain ⟨r, hr, rfl⟩ := hf
    exact matchAtoms_match re.anchored re.atoms text s r hr

theorem allMatches_match (re : regexp) (text : List Nat) : ∀ (k pos : Nat) (prev : Option Nat)
    (m : submatch), m ∈ allMatches re text k pos prev →
    groupsMatch re.atoms m.groups text m.start m.limit := by
  intro k
  induction k with
  | zero => intro pos prev m h; simp [allMatches] at h
  | succ k ih =>
    intro pos prev m h
    simp only [allMatches] at h
    split at h
    · split at h
      · simp at h
      · rename_i m0 hm0
        have e := execute_match re text pos m0 hm0
        split at h
        · split at h
          · exact ih _ _ m h
          · rcases List.mem_cons.1 h with h | h
            · subst h; exact e
            · exact ih _ _ m h
        · rcases List.mem_cons.1 h with h | h
          · subst h; exact e
          · exact ih _ _ m h
    · simp at h

theorem find_entry (rm : runemap) (text : List Nat) (r : Nat) (h : rm.find text = some r) :
    ∃ i : Nat, (rm : List (List Nat × Nat))[i]? = some (text, r) := by
  simp only [runemap.find, Option.map_eq_some'] at h
  obtain ⟨e, he, rfl⟩ := h
  have hk := List.find?_some he
  have hm := List.mem_of_find?_eq_some he
  simp only [beq_iff_eq] at hk
  obtain ⟨i, hi⟩ := List.mem_iff_getElem?.1 hm
  exact ⟨i, by rw [hi, ← hk]⟩

/-- With at most 55168 entries in the `runemap`, a subject node whose
symbol is that of a literal of the pattern is a leaf with the text of the
literal. -/
theorem symbol_inv (rm : runemap) (hrm : runesOk rm) (hlen : rm.length ≤ 55168)
    (text : List Nat) (hk : rm.find text ≠ none) (s : node)
    (hs : symbolOf rm s = code rm text) : ∃ t, s = .leaf t ∧ t.text = text := by
  cases hf : rm.find text with
  | none => exact absurd hf hk
  | some r =>
    obtain ⟨i, hi⟩ := find_entry rm text r hf
    have hr : r = 128 + i := hrm i _ hi
    have hi' : i < rm.length := by
      by_contra hge
      rw [List.getElem?_eq_none (by omega)] at hi
      simp at hi
    have hw : ∀ j, j < rm.length → writeRune (128 + j) = 128 + j := by
      intro j hj
      simp only [writeRune]
      rw [if_neg (by omega)]
    simp only [code, hf, Option.getD_some, hr, hw i hi'] at hs
    cases s with
    | interior tok cs =>
      simp only [symbolOf] at hs
      omega
    | leaf t =>
      simp only [symbolOf] at hs
      cases hf2 : rm.find t.text with
      | none =>
        rw [hf2] at hs
        simp only at hs
        omega
      | some r2 =>
        rw [hf2] at hs
        simp only at hs
        obtain ⟨j, hj⟩ := find_entry rm t.text r2 hf2
        have hr2 : r2 = 128 + j := hrm j _ hj
        have hj' : j < rm.length := by
          by_contra hge
          rw [List.getElem?_eq_none (by omega)] at hj
          simp at hj
        rw [hr2, hw j hj'] at hs
        have hij : j = i := by omega
        subst hij
        rw [hi] at hj
        simp only [Option.some.injEq, Prod.mk.injEq] at hj
        exact ⟨t, rfl, hj.1.symm⟩

theorem findAll_match (re : regexp) (text : List Nat) (m : submatch)
    (h : m ∈ re.findAllSubmatchIndex text) :
    groupsMatch re.atoms m.groups text m.start m.limit :=
  allMatches_match re text _ _ _ m h

theorem slice_cons (l : List node) (a b : Nat) (s : node) (hab : a < b) (hb : b ≤ l.length)
    (hs : l[a]? = some s) : slice l a b = s :: slice l (a + 1) b := by
  simp only [slice]
  have h1 : (l.take b)[a]? = some s := by
    rw [List.getElem?_take]
    simp [hab, hs]
  have hlt : a < (l.take b).length := by
    simp only [List.length_take]
    omega
  rw [List.drop_eq_getElem_cons hlt]
  congr 1
  have := List.getElem?_eq_getElem hlt
  rw [this] at h1
  simpa using h1

theorem slice_drop (l : List node) (a b k : Nat) : (slice l a b).drop k = slice l (a + k) b := by
  simp only [slice, List.drop_drop]

theorem slice_whole (l : List node) : slice l 0 l.length = l := by
  simp [slice]

theorem encode_get (rm : runemap) (subject : List node) (i r : Nat)
    (h : (encode rm subject)[i]? = some r) : ∃ s, subject[i]? = some s ∧ symbolOf rm s = r := by
  simp only [encode, List.getElem?_map, Option.map_eq_some'] at h
  exact h

theorem specMatchList_cons (p : node) (ps : List node) (s : node) (rest : List node)
    (hp : (p.isLeaf && p.token.ttype == RVAR) = false) (h1 : specMatchNode p s = true)
    (h2 : specMatchList ps rest = true) : specMatchList (p :: ps) (s :: rest) = true := by
  rw [specMatchList]
  simp only [hp, Bool.false_eq_true, if_false, h1, h2, Bool.and_self]

theorem specMatchList_rvar (p : node) (ps : List node) (run : List node) (k : Nat)
    (hp : (p.isLeaf && p.token.ttype == RVAR) = true) (hk : k ≤ run.length)
    (h2 : specMatchList ps (run.drop k) = true) : specMatchList (p :: ps) run = true := by
  rw [specMatchList.eq_def]
  simp only [hp, if_true, List.any_eq_true, List.mem_range]
  exact ⟨k, by omega, h2⟩

mutual
/-- The child pattern of an interior pattern node matches a child list only
when the list matches it in the sense of the specification. -/
theorem matchChild_sound (rm : runemap) (hrm : runesOk rm) (hlen : rm.length ≤ 55168) :
    ∀ (pnode : node) (subject : List node) (m : Match),
    matchChild rm pnode subject = some m →
    (∀ tok ∈ leafTokensList pnode.children, isVar tok.ttype = false →
      rm.find tok.text ≠ none) →
    (∀ c ∈ pnode.children, anchoredTree c) →
    specMatchList pnode.children subject = true
  | .leaf tok, subject, m => by
    intro h
    simp [matchChild] at h
  | .interior tok cs, subject, m => by
    intro h hkeys hanch
    have hm := h
    simp only [matchChild] at h
    obtain ⟨sm, hsm, hf⟩ := List.exists_of_findSome?_eq_some h
    simp only [Option.map_eq_some'] at hf
    obtain ⟨vars, hv, rfl⟩ := hf
    obtain ⟨a1, a2⟩ := allMatches_anchored _ rfl _ _ _ _ sm hsm
    have g := findAll_match _ _ sm hsm
    simp only [encode, List.length_map] at a2
    have := bindNodes_sound rm hrm hlen cs sm.groups subject sm.start sm.limit vars hv g
      (by omega) hkeys hanch
    rw [a1, a2, slice_whole] at this
    exact this
/-- The loop over the pattern nodes succeeds only when the matched part of
the subject matches the pattern list in the sense of the specification. -/
theorem bindNodes_sound (rm : runemap) (hrm : runesOk rm) (hlen : rm.length ≤ 55168) :
    ∀ (ps : List node) (gs : List (Nat × Nat)) (subject : List node) (pos e : Nat)
    (vars : varmap), bindNodes rm ps gs subject = some vars →
    groupsMatch (compileList rm true ps).atoms gs (encode rm subject) pos e →
    e ≤ subject.length →
    (∀ tok ∈ leafTokensList ps, isVar tok.ttype = false → rm.find tok.text ≠ none) →
    (∀ c ∈ ps, anchoredTree c) →
    specMatchList ps (slice subject pos e) = true
  | [], gs, subject, pos, e, vars => by
    intro _ hg he _ _
    cases gs with
    | nil =>
      simp only [compileList, List.map_nil, groupsMatch] at hg
      subst hg
      rw [specMatchList]
      simp [slice, List.isEmpty_iff]
    | cons g gs => simp [compileList, groupsMatch] at hg
  | pnode :: ps, [], subject, pos, e, vars => by
    intro h _ _ _ _
    simp [bindNodes] at h
  | pnode :: ps, g :: gs, subject, pos, e, vars => by
    intro h hg he hkeys hanch
    simp only [compileList, List.map_cons, groupsMatch] at hg
    obtain ⟨hg1, hg2, hg3, hg4, hg5⟩ := hg
    have hle := groupsOk_le _ _ _ _ (groupsMatch_ok _ _ _ _ _ hg5)
    have hkeys' : ∀ tok ∈ leafTokensList ps, isVar tok.ttype = false →
        rm.find tok.text ≠ none := by
      intro tok ht
      exact hkeys tok (by simp [leafTokensList, ht])
    have hanch' : ∀ c ∈ ps, anchoredTree c := fun c hc => hanch c (by simp [hc])
    have ih := fun vs hvs =>
      bindNodes_sound rm hrm hlen ps gs subject g.2 e vs hvs hg5 he hkeys' hanch'
    cases pnode with
    | leaf tok =>
      simp only [bindNodes] at h
      by_cases hR : tok.ttype = RVAR
      · have hv : isVar tok.ttype = true := by simp [isVar, hR]
        simp only [hv, if_true, Option.map_eq_some'] at h
        obtain ⟨vs, hvs, _⟩ := h
        have i1 := ih vs hvs
        refine specMatchList_rvar _ _ _ (g.2 - pos) (by simp [node.isLeaf, node.token, hR])
          (by rw [slice_length]; omega) ?_
        rw [slice_drop]
        rw [show pos + (g.2 - pos) = g.2 by omega]
        exact i1
      · have hns : atomOf rm (.leaf tok) ≠ atom.star := by
          simp only [atomOf]
          split
          · simp
          · simp [hR]
        have hg2' := hg3 hns
        have hrest : ∃ vs, bindNodes rm ps gs subject = some vs := by
          split at h
          · simp only [Option.map_eq_some'] at h
            obtain ⟨vs, hvs, _⟩ := h
            exact ⟨vs, hvs⟩
          · exact ⟨vars, h⟩
        obtain ⟨vs, hvs⟩ := hrest
        have i1 := ih vs hvs
        rw [hg2'] at i1 hle
        have hpos : pos < subject.length := by omega
        obtain ⟨s, hs⟩ : ∃ s, subject[pos]? = some s :=
          ⟨subject[pos], List.getElem?_eq_getElem hpos⟩
        rw [slice_cons subject pos e s (by omega) he hs]
        refine specMatchList_cons _ _ _ _ (by simp [node.isLeaf, node.token, hR]) ?_ i1
        by_cases hV : tok.ttype = VAR
        · simp [specMatchNode, hV]
        · have hat : atomOf rm (.leaf tok) = atom.lit (code rm tok.text) := by
            simp [atomOf, hV, hR, code]
          have hsym := hg4 _ hat
          obtain ⟨s', hs', hsy⟩ := encode_get rm subject pos _ hsym
          rw [hs] at hs'
          simp only [Option.some.injEq] at hs'
          subst hs'
          have hk : rm.find tok.text ≠ none :=
            hkeys tok (by simp [leafTokensList, leafTokens]) (by simp [isVar, hV, hR])
          obtain ⟨t, rfl, ht⟩ := symbol_inv rm hrm hlen tok.text hk s hsy
          simp [specMatchNode, hV, ht]
    | interior tok cs =>
      have hns : atomOf rm (.interior tok cs) ≠ atom.star := by simp [atomOf]
      have hg2' := hg3 hns
      simp only [bindNodes] at h
      split at h
      · simp at h
      · rename_i s hs
        obtain ⟨hs1, hs2⟩ := slice_head _ _ _ _ hs
        split at h
        · simp at h
        · rename_i cmatch hcm
          simp only [Option.map_eq_some'] at h
          obtain ⟨vs, hvs, _⟩ := h
          have i1 := ih vs hvs
          rw [hg2'] at i1 hle
          rw [hg1] at hs1
          have hc := matchChild_sound rm hrm hlen (.interior tok cs) s.children cmatch hcm
            (by
              intro tk htk
              exact hkeys tk (by
                simp only [node.children] at htk
                simp [leafTokensList, leafTokens, htk]))
            (fun c hc => anchoredTree_child _ c (hanch _ (by simp)) hc)
          obtain ⟨_, _, a3, _⟩ := matchChild_anchored rm _ s.children cmatch hcm
          obtain ⟨c, hcm', hn⟩ := hanch (.interior tok cs) (by simp) _
            (mem_nodesOf_self _) rfl
          have hpos := a3 ⟨c, hcm', hn⟩
          rw [slice_cons subject pos e s (by omega) he hs1]
          refine specMatchList_cons _ _ _ _ (by simp [node.isLeaf]) ?_ i1
          cases s with
          | leaf t => simp [node.children] at hpos
          | interior t ss =>
            simp only [node.children] at hc
            simp only [specMatchNode]
            exact hc
end

theorem runesOk_append (rm : runemap) (text : List Nat) (h : runesOk rm) :
    runesOk (rm ++ [(text, rm.length + 128)]) := by
  intro i e he
  by_cases hi : i < rm.length
  · rw [List.getElem?_append_left hi] at he
    exact h i e he
  · rw [List.getElem?_append_right (by omega)] at he
    by_cases h0 : i - rm.length = 0
    · rw [h0] at he
      simp only [List.getElem?_cons_zero, Option.some.injEq] at he
      rw [← he]
      simp only
      omega
    · obtain ⟨j, hj⟩ : ∃ j, i - rm.length = j + 1 := ⟨i - rm.length - 1, by omega⟩
      rw [hj] at he
      simp at he

theorem find_mono (rm ext : runemap) (text : List Nat) (h : rm.find text ≠ none) :
    (rm ++ ext).find text ≠ none := by
  rw [find_append]
  cases hf : rm.find text with
  | none => exact absurd hf h
  | some r => simp

mutual
theorem assignRunes_ok : ∀ (n : node) (rm : runemap), runesOk rm →
    runesOk (assignRunes rm n) ∧ (∃ ext, assignRunes rm n = rm ++ ext) ∧
    ∀ tok ∈ leafTokens n, isVar tok.ttype = false → (assignRunes rm n).find tok.text ≠ none
  | .leaf tok, rm => by
    intro h
    simp only [assignRunes, leafTokens, List.mem_singleton]
    by_cases hV : tok.ttype = VAR
    · simp only [hV, if_true]
      refine ⟨h, ⟨[], by simp⟩, ?_⟩
      intro tk htk hv
      subst htk
      simp [isVar, hV] at hv
    · by_cases hR : tok.ttype = RVAR
      · simp only [hR, if_true]
        refine ⟨h, ⟨[], by simp⟩, ?_⟩
        intro tk htk hv
        subst htk
        simp [isVar, hR] at hv
      · simp only [hV, hR, if_false]
        cases hf : rm.find tok.text with
        | some r =>
          simp only
          refine ⟨h, ⟨[], by simp⟩, ?_⟩
          intro tk htk _
          subst htk
          rw [hf]
          simp
        | none =>
          simp only
          refine ⟨runesOk_append rm tok.text h, ⟨_, rfl⟩, ?_⟩
          intro tk htk _
          subst htk
          rw [find_append, hf]
          simp [runemap.find]
  | .interior tok cs, rm => by
    intro h
    simp only [assignRunes, leafTokens]
    exact assignRunesList_ok cs rm h
theorem assignRunesList_ok : ∀ (l : List node) (rm : runemap), runesOk rm →
    runesOk (assignRunesList rm l) ∧ (∃ ext, assignRunesList rm l = rm ++ ext) ∧
    ∀ tok ∈ leafTokensList l, isVar tok.ttype = false →
      (assignRunesList rm l).find tok.text ≠ none
  | [], rm => by
    intro h
    simp only [assignRunesList, leafTokensList]
    exact ⟨h, ⟨[], by simp⟩, by simp⟩
  | c :: cs, rm => by
    intro h
    obtain ⟨c1, ⟨ext1, c2⟩, c3⟩ := assignRunes_ok c rm h
    obtain ⟨d1, ⟨ext2, d2⟩, d3⟩ := assignRunesList_ok cs (assignRunes rm c) c1
    simp only [assignRunesList, leafTokensList, List.mem_append]
    refine ⟨d1, ⟨ext1 ++ ext2, by rw [d2, c2, List.append_assoc]⟩, ?_⟩
    intro tok htok hv
    rcases htok with htok | htok
    · rw [d2]
      exact find_mono _ _ _ (c3 tok htok hv)
    · exact d3 tok htok hv
end

/-- A successful match of a pattern whose `runemap` has at most 55168
entries, all of whose literals are keys of the `runemap` and all of whose
interior nodes have a child that is no RVAR: the matched part of the subject
matches the pattern list in the sense of the specification. -/
theorem matchNodes_sound (p : pattern) (subject : List node) (m : Match)
    (hrm : runesOk p.runemap) (hlen : p.runemap.length ≤ 55168)
    (hkeys : ∀ tok ∈ leafTokensList p.list, isVar tok.ttype = false →
      p.runemap.find tok.text ≠ none)
    (hanch : ∀ c ∈ p.list, anchoredTree c)
    (h : p.matchNodes subject = some m) :
    specMatchList p.list (slice subject m.start m.limit) = true := by
  simp only [pattern.matchNodes] at h
  obtain ⟨sm, hsm, hf⟩ := List.exists_of_findSome?_eq_some h
  simp only [Option.map_eq_some'] at hf
  obtain ⟨vars, hv, rfl⟩ := hf
  obtain ⟨_, _, g3⟩ := findAll_ok _ _ sm hsm
  simp only [encode, List.length_map] at g3
  have g := findAll_match _ _ sm hsm
  exact bindNodes_sound p.runemap hrm hlen p.list sm.groups subject sm.start sm.limit vars hv
    g g3 hkeys hanch

/-- The same for the pattern `makePattern` builds from a parsed text. -/
theorem matchText_sound (P : List Nat) (subject : List node) (m : Match)
    (hlen : (makePattern (tree P)).runemap.length ≤ 55168)
    (h : (makePattern (tree P)).matchNodes subject = some m) :
    specMatchList (tree P).children (slice subject m.start m.limit) = true := by
  obtain ⟨r1, _, r3⟩ := assignRunesList_ok (tree P).children [] (by intro i e he; simp at he)
  exact matchNodes_sound (makePattern (tree P)) subject m r1 hlen r3 (parse_anchored P) h

theorem runemap_length_unary (n N L : Nat) (hN : N = n + 1) (hL : L = n + 2) :
    (makePattern (tree (semisOf (unaryWords N)))).runemap.length = L := by
  subst hN hL
  have hP : ∀ x ∈ unaryWords (n + 1), isWord x := by
    intro x hx
    obtain ⟨i, _, rfl⟩ := unaryWords_mem _ x hx
    exact isWord_unaryWord i
  have tP : tree (semisOf (unaryWords (n + 1)))
      = .interior token.zero (semiLeavesOf (unaryWords (n + 1)) 0) := by
    have e := unaryWords_succ n
    rw [e] at hP ⊢
    exact tree_semisOf _ _ hP
  rw [tP, runemap_unary n]
  simp only [List.length_append, List.length_cons, List.length_nil, List.length_map,
    List.length_range']
  omega

set_option maxRecDepth 100000 in
/-- C23 holds for a pattern with at most 55168 distinct literal texts and
fails in the code beyond.  With at most 55168 entries in the `runemap` of a
parsed pattern, a successful match pairs every literal leaf of the pattern,
at the top level and in the nested sub-patterns, with a subject leaf of the
same text, and every interior pattern node with an interior subject node.
But `makeListPattern` assigns the rune `len(runemap) + 128` to a new text, and
`WriteRune` writes every rune from 55296 to 57343 (a surrogate) as U+FFFD, so
the distinct texts number 55169 and 55170 of a pattern get the same symbol in
the regular expression and in the subject.  The pattern `x;xx;xxx;...` with
the 55169 words of 1 to 55169 letters (55170 distinct texts) matches the
subject that has the word of 55168 letters in the place of the word of 55169
letters: the literal leaf at index 110336 of the pattern is paired with a
subject leaf of another text.  With three words the subject does not
match. -/
theorem match_confuses_literals :
    (∀ (P : List Nat) (subject : List node) (m : Match),
      (makePattern (tree P)).runemap.length ≤ 55168 →
      (makePattern (tree P)).matchNodes subject = some m →
      specMatchList (tree P).children (slice subject m.start m.limit) = true) ∧
    (makePattern (tree (semisOf (unaryWords 55169)))).runemap.length = 55170 ∧
    matchText (semisOf (unaryWords 55168 ++ [unaryWord 55167])) (semisOf (unaryWords 55169))
      = some ⟨[], 0, 110338⟩ ∧
    (∃ c, (tree (semisOf (unaryWords 55169))).children[110336]?
      = some (.leaf ⟨WORD, 1, c, unaryWord 55168, [], []⟩)) ∧
    (∃ c, (tree (semisOf (unaryWords 55168 ++ [unaryWord 55167]))).children[110336]?
      = some (.leaf ⟨WORD, 1, c, unaryWord 55167, [], []⟩)) ∧
    unaryWord 55168 ≠ unaryWord 55167 ∧
    (makePattern (tree (semisOf (unaryWords 55169)))).runemap.find (unaryWord 55167)
      = some 55296 ∧
    (makePattern (tree (semisOf (unaryWords 55169)))).runemap.find (unaryWord 55168)
      = some 55297 ∧
    writeRune 55296 = 65533 ∧ writeRune 55297 = 65533 ∧
    matchText (semisOf (unaryWords 2 ++ [unaryWord 1])) (semisOf (unaryWords 3)) = none ∧
    matchText (semisOf (unaryWords 3)) (semisOf (unaryWords 3)) = some ⟨[], 0, 6⟩ :=
  ⟨matchText_sound,
    runemap_length_unary 55168 55169 55170 rfl rfl,
    (collision_general 55167 55168 55169 110338 110336 55296 55297 (by decide) rfl rfl rfl rfl
      rfl rfl (by decide)).1,
    (collision_general 55167 55168 55169 110338 110336 55296 55297 (by decide) rfl rfl rfl rfl
      rfl rfl (by decide)).2.1,
    (collision_general 55167 55168 55169 110338 110336 55296 55297 (by decide) rfl rfl rfl rfl
      rfl rfl (by decide)).2.2.1,
    fun h => absurd (unaryWord_inj _ _ h) (by decide),
    (collision_general 55167 55168 55169 110338 110336 55296 55297 (by decide) rfl rfl rfl rfl
      rfl rfl (by decide)).2.2.2.1,
    (collision_general 55167 55168 55169 110338 110336 55296 55297 (by decide) rfl rfl rfl rfl
      rfl rfl (by decide)).2.2.2.2,
    by decide, by decide, by decide!, by decide!⟩

/-! ## The place of a capture -/

theorem captureAt_mono (plist plist' subject : List node) (lo hi lo' hi' : Nat)
    (en : List Nat × List node) (h1 : lo' ≤ lo) (h2 : hi ≤ hi')
    (hp : ∀ c ∈ plist, c ∈ plist')
    (h : captureAt plist subject lo hi en) : captureAt plist' subject lo' hi' en := by
  rcases h with ⟨hr, tok, ht, hrest⟩ | ⟨hr, c, hc, hrest⟩
  · exact Or.inl ⟨isRunOf_mono _ _ _ _ _ _ h1 h2 hr, tok, hp _ ht, hrest⟩
  · exact Or.inr ⟨isNestedRunOf_mono _ _ _ _ _ _ h1 h2 hr, c, hp _ hc, hrest⟩

/-- A run of the children of `subject[pos]`, or of a node below it, is a
nested run of the subject list. -/
theorem nested_lift (subject : List node) (pos hi lo1 hi1 : Nat) (s : node) (nodes : List node)
    (hs : subject[pos]? = some s) (hpos : pos < hi)
    (hr : isRunOf s.children nodes lo1 hi1 ∨ isNestedRunOf s.children nodes lo1 hi1) :
    isNestedRunOf subject nodes pos hi := by
  rcases hr with hr | hr
  · obtain ⟨a, b, e1, e2, e3, e4, e5⟩ := hr
    exact ⟨pos, s, [], s, le_refl _, hpos, hs, by simp [node.at?],
      ⟨a, b, by omega, e2, e4, e4, e5⟩⟩
  · obtain ⟨i, s', path, n, e1, e2, e3, e4, e5⟩ := hr
    refine ⟨pos, s, i :: path, n, le_refl _, hpos, hs, ?_, e5⟩
    cases s with
    | leaf tk => simp [node.children] at e3
    | interior tk ss =>
      simp only [node.children] at e3
      simp [node.at?, e3, e4]

theorem bindNodes_at (rm : runemap) : ∀ (ps : List node) (gs : List (Nat × Nat))
    (subject : List node) (pos e : Nat) (vars : varmap),
    bindNodes rm ps gs subject = some vars →
    groupsOk (compileList rm true ps).atoms gs pos e → e ≤ subject.length →
    ∀ en ∈ vars, captureAt ps subject pos e en
  | [], gs, subject, pos, e, vars => by
    intro h _ _
    simp only [bindNodes, Option.some.injEq] at h
    subst h
    simp
  | pnode :: ps, [], subject, pos, e, vars => by
    intro h _ _
    simp [bindNodes] at h
  | pnode :: ps, g :: gs, subject, pos, e, vars => by
    intro h hg he
    simp only [compileList, List.map_cons, groupsOk] at hg
    obtain ⟨hg1, hg2, hg3, hg4⟩ := hg
    have hle := groupsOk_le _ _ _ _ hg4
    have ih := fun vs hvs => bindNodes_at rm ps gs subject g.2 e vs hvs hg4 he
    have hsub : ∀ c ∈ ps, c ∈ pnode :: ps := fun c hc => List.mem_cons_of_mem _ hc
    cases pnode with
    | leaf tok =>
      simp only [bindNodes] at h
      split at h
      · rename_i hvar
        simp only [Option.map_eq_some'] at h
        obtain ⟨vs, hvs, rfl⟩ := h
        intro en hen
        rcases List.mem_append.1 hen with hen | hen
        · exact captureAt_mono _ _ _ _ _ _ _ _ (by omega) (le_refl _) hsub (ih vs hvs en hen)
        · simp only [List.mem_singleton] at hen
          subst hen
          exact Or.inl ⟨⟨g.1, g.2, by omega, hg2, hle, by omega, rfl⟩, tok,
            List.mem_cons_self _ _, hvar, rfl⟩
      · intro en hen
        exact captureAt_mono _ _ _ _ _ _ _ _ (by omega) (le_refl _) hsub (ih vars h en hen)
    | interior tok cs =>
      simp only [bindNodes] at h
      split at h
      · simp at h
      · rename_i s hs
        obtain ⟨hs1, hs2⟩ := slice_head _ _ _ _ hs
        split at h
        · simp at h
        · rename_i cmatch hcm
          simp only [Option.map_eq_some'] at h
          obtain ⟨vs, hvs, rfl⟩ := h
          obtain ⟨c1, c2, c3, c4⟩ := matchChild_ok rm (.interior tok cs) s.children cmatch hcm
          intro en hen
          rcases List.mem_append.1 hen with hen | hen
          · exact captureAt_mono _ _ _ _ _ _ _ _ (by omega) (le_refl _) hsub (ih vs hvs en hen)
          · obtain ⟨hr, tk, htk, hv, htext, _⟩ := c3 en hen
            rw [hg1] at hs1
            refine Or.inr ⟨nested_lift subject pos e _ _ s en.2 hs1 (by omega) hr,
              .interior tok cs, List.mem_cons_self _ _, rfl, tk, ?_, hv, htext⟩
            simpa [leafTokens, node.children] using htk

theorem matchNodes_at (p : pattern) (subject : List node) (m : Match)
    (h : p.matchNodes subject = some m) :
    ∀ en ∈ m.vars, captureAt p.list subject m.start m.limit en := by
  simp only [pattern.matchNodes] at h
  obtain ⟨sm, hsm, hf⟩ := List.exists_of_findSome?_eq_some h
  simp only [Option.map_eq_some'] at hf
  obtain ⟨vars, hv, rfl⟩ := hf
  obtain ⟨g1, g2, g3⟩ := findAll_ok _ _ sm hsm
  simp only [encode, List.length_map] at g3
  exact bindNodes_at p.runemap p.list sm.groups subject sm.start sm.limit vars hv g1 g3

theorem varmap_find_append (a b : varmap) (name : List Nat) :
    varmap.find (a ++ b) name = match varmap.find a name with
      | some r => some r
      | none => varmap.find b name := by
  simp only [varmap.find, List.find?_append]
  cases List.find? (fun e => e.1 == name) a <;> simp

theorem varmap_find_none (vars : varmap) (name : List Nat) (h : vars.find name = none) :
    ∀ en ∈ vars, en.1 ≠ name := by
  intro en hen hname
  obtain ⟨nodes, hf⟩ := varmap_find_of_mem vars en hen
  rw [hname, h] at hf
  simp at hf

/-- The entry found under a name after a match is the one made for the last
node of the pattern list that binds the name: a run of the subject list when
that node is a variable, a run of children below the subject node matched
with it when it is an interior node. -/
theorem bindNodes_last (rm : runemap) : ∀ (ps : List node) (gs : List (Nat × Nat))
    (subject : List node) (pos e : Nat) (vars : varmap),
    bindNodes rm ps gs subject = some vars →
    groupsOk (compileList rm true ps).atoms gs pos e → e ≤ subject.length →
    ∀ name nodes, vars.find name = some nodes →
      ∃ (i : Nat) (c : node), ps[i]? = some c ∧ bindsName name c ∧
        (∀ (j : Nat) (c' : node), i < j → ps[j]? = some c' → ¬ bindsName name c') ∧
        (c.isLeaf = true → isRunOf subject nodes pos e) ∧
        (c.isLeaf = false → isNestedRunOf subject nodes pos e)
  | [], gs, subject, pos, e, vars => by
    intro h _ _ name nodes hf
    simp only [bindNodes, Option.some.injEq] at h
    subst h
    simp [varmap.find] at hf
  | pnode :: ps, [], subject, pos, e, vars => by
    intro h _ _
    simp [bindNodes] at h
  | pnode :: ps, g :: gs, subject, pos, e, vars => by
    intro h hg he name nodes hf
    have hg0 := hg
    simp only [compileList, List.map_cons, groupsOk] at hg
    obtain ⟨hg1, hg2, hg3, hg4⟩ := hg
    have hle := groupsOk_le _ _ _ _ hg4
    have ih := fun vs hvs => bindNodes_last rm ps gs subject g.2 e vs hvs hg4 he name
    -- an entry made for the rest of the list
    have hrest : ∀ vs, bindNodes rm ps gs subject = some vs → ∀ nodes', vs.find name = some nodes' →
        ∃ (i : Nat) (c : node), (pnode :: ps)[i]? = some c ∧ bindsName name c ∧
          (∀ (j : Nat) (c' : node), i < j → (pnode :: ps)[j]? = some c' → ¬ bindsName name c') ∧
          (c.isLeaf = true → isRunOf subject nodes' pos e) ∧
          (c.isLeaf = false → isNestedRunOf subject nodes' pos e) := by
      intro vs hvs nodes' hf'
      obtain ⟨i, c, h1, h2, h3, h4, h5⟩ := ih vs hvs nodes' hf'
      refine ⟨i + 1, c, by simpa using h1, h2, ?_, ?_, ?_⟩
      · intro j c' hj hc'
        cases j with
        | zero => omega
        | succ j => exact h3 j c' (by omega) (by simpa using hc')
      · intro hl
        exact isRunOf_mono _ _ _ _ _ _ (by omega) (le_refl _) (h4 hl)
      · intro hl
        exact isNestedRunOf_mono _ _ _ _ _ _ (by omega) (le_refl _) (h5 hl)
    -- no node of the rest binds a name that has no entry
    have hnone : ∀ vs, bindNodes rm ps gs subject = some vs → vs.find name = none →
        ∀ (j : Nat) (c' : node), 0 < j → (pnode :: ps)[j]? = some c' → ¬ bindsName name c' := by
      intro vs hvs hn j c' hj hc' hb
      cases j with
      | zero => omega
      | succ j =>
        have hmem : c' ∈ ps := List.mem_iff_getElem?.2 ⟨j, by simpa using hc'⟩
        obtain ⟨tk, htk, hv, ht⟩ := hb
        obtain ⟨_, b2⟩ := bindNodes_ok rm ps gs subject g.2 e vs hvs hg4 he
        obtain ⟨en, hen, hname⟩ := b2 tk ((leafTokensList_mem tk ps).2 ⟨c', hmem, htk⟩) hv
        exact varmap_find_none vs name hn en hen (by rw [hname, ht])
    cases pnode with
    | leaf tok =>
      simp only [bindNodes] at h
      split at h
      · rename_i hvar
        simp only [Option.map_eq_some'] at h
        obtain ⟨vs, hvs, rfl⟩ := h
        rw [varmap_find_append] at hf
        cases hfv : vs.find name with
        | some nodes' =>
          rw [hfv] at hf
          simp only [Option.some.injEq] at hf
          subst hf
          exact hrest vs hvs _ hfv
        | none =>
          rw [hfv] at hf
          simp only [varmap.find, List.find?_cons, List.find?_nil] at hf
          split at hf
          · rename_i hname
            simp only [Option.map_some', Option.some.injEq] at hf
            subst hf
            have hname : tok.text = name := by simpa using hname
            refine ⟨0, .leaf tok, by simp, ⟨tok, by simp [leafTokens], hvar, hname⟩,
              hnone vs hvs hfv, ?_, ?_⟩
            · intro _
              exact ⟨g.1, g.2, by omega, hg2, hle, by omega, rfl⟩
            · intro hl
              simp [node.isLeaf] at hl
          · simp at hf
      · exact hrest vars h _ hf
    | interior tok cs =>
      simp only [bindNodes] at h
      split at h
      · simp at h
      · rename_i s hs
        obtain ⟨hs1, hs2⟩ := slice_head _ _ _ _ hs
        split at h
        · simp at h
        · rename_i cmatch hcm
          simp only [Option.map_eq_some'] at h
          obtain ⟨vs, hvs, rfl⟩ := h
          obtain ⟨c1, c2, c3, c4⟩ := matchChild_ok rm (.interior tok cs) s.children cmatch hcm
          rw [varmap_find_append] at hf
          cases hfv : vs.find name with
          | some nodes' =>
            rw [hfv] at hf
            simp only [Option.some.injEq] at hf
            subst hf
            exact hrest vs hvs _ hfv
          | none =>
            rw [hfv] at hf
            simp only at hf
            obtain ⟨hr, tk, htk, hv, htext, _⟩ := c3 _ (varmap_find_some _ _ _ hf)
            rw [hg1] at hs1
            refine ⟨0, .interior tok cs, by simp,
              ⟨tk, by simpa [leafTokens, node.children] using htk, hv, htext⟩,
              hnone vs hvs hfv, ?_, ?_⟩
            · intro hl
              simp [node.isLeaf] at hl
            · intro _
              exact nested_lift subject pos e _ _ s nodes hs1 (by omega) hr

theorem matchNodes_last (p : pattern) (subject : List node) (m : Match)
    (h : p.matchNodes subject = some m) :
    ∀ name nodes, m.vars.find name = some nodes →
      ∃ (i : Nat) (c : node), p.list[i]? = some c ∧ bindsName name c ∧
        (∀ (j : Nat) (c' : node), i < j → p.list[j]? = some c' → ¬ bindsName name c') ∧
        (c.isLeaf = true → isRunOf subject nodes m.start m.limit) ∧
        (c.isLeaf = false → isNestedRunOf subject nodes m.start m.limit) := by
  simp only [pattern.matchNodes] at h
  obtain ⟨sm, hsm, hf⟩ := List.exists_of_findSome?_eq_some h
  simp only [Option.map_eq_some'] at hf
  obtain ⟨vars, hv, rfl⟩ := hf
  obtain ⟨g1, g2, g3⟩ := findAll_ok _ _ sm hsm
  simp only [encode, List.length_map] at g3
  exact bindNodes_last p.runemap p.list sm.groups subject sm.start sm.limit vars hv g1 g3

/-- **C9** (as amended).  On a successful match `start ≤ limit ≤ len(subject)`;
every VAR of the pattern is bound to exactly one node and every RVAR to a
list of nodes; and the nodes bound to a name are consecutive siblings: of the
subject list, with indices from `start` to `limit - 1`, for a variable that
stands in the pattern list itself (the name of no variable inside an interior
pattern node), and of the child list of a node below `subject[i]` for some
`start ≤ i < limit` for a variable inside an interior pattern node (the name
of no variable of the pattern list itself); for a name that stands in both
places the last node of the pattern list that binds it decides.  The pattern
is one in which a VAR and an RVAR never share a text, as is the case for the
tokens of the tokenizer. -/
theorem match_captures (p : pattern) (subject : List node) (m : Match)
    (hm : p.matchNodes subject = some m)
    (hnames : ∀ t1 ∈ leafTokensList p.list, ∀ t2 ∈ leafTokensList p.list,
      isVar t1.ttype = true → isVar t2.ttype = true → t1.text = t2.text → t1.ttype = t2.ttype) :
    m.start ≤ m.limit ∧ m.limit ≤ subject.length ∧
    (∀ tok ∈ leafTokensList p.list, tok.ttype = VAR → ∃ n, m.vars.find tok.text = some [n]) ∧
    (∀ tok ∈ leafTokensList p.list, tok.ttype = RVAR →
      ∃ nodes, m.vars.find tok.text = some nodes) ∧
    (∀ name nodes, m.vars.find name = some nodes →
      isRunOf subject nodes m.start m.limit ∨ isNestedRunOf subject nodes m.start m.limit) ∧
    (∀ name nodes, m.vars.find name = some nodes →
      (∀ c ∈ p.list, c.isLeaf = false →
        ∀ tk ∈ leafTokens c, isVar tk.ttype = true → tk.text ≠ name) →
      isRunOf subject nodes m.start m.limit) ∧
    (∀ name nodes, m.vars.find name = some nodes →
      (∀ tok, node.leaf tok ∈ p.list → isVar tok.ttype = true → tok.text ≠ name) →
      isNestedRunOf subject nodes m.start m.limit) ∧
    ((∀ c ∈ p.list, c.isLeaf = true) →
      ∀ name nodes, m.vars.find name = some nodes → isRunOf subject nodes m.start m.limit) ∧
    (∀ name nodes, m.vars.find name = some nodes →
      ∃ (i : Nat) (c : node), p.list[i]? = some c ∧ bindsName name c ∧
        (∀ (j : Nat) (c' : node), i < j → p.list[j]? = some c' → ¬ bindsName name c') ∧
        (c.isLeaf = true → isRunOf subject nodes m.start m.limit) ∧
        (c.isLeaf = false → isNestedRunOf subject nodes m.start m.limit)) := by
  obtain ⟨h1, h2, h3, h4⟩ := matchNodes_ok p subject m hm
  have hat := matchNodes_at p subject m hm
  refine ⟨h1, h2, ?_, ?_, ?_, ?_, ?_, ?_, matchNodes_last p subject m hm⟩
  · intro tok htok hvar
    obtain ⟨en, hen, hname⟩ := h4 tok htok (by simp [isVar, hvar])
    obtain ⟨nodes, hfind⟩ := varmap_find_of_mem m.vars en hen
    rw [hname] at hfind
    obtain ⟨_, tok', ht', hv', htext, hlen⟩ := h3 _ (varmap_find_some _ _ _ hfind)
    have hty := hnames tok' ht' tok htok hv' (by simp [isVar, hvar]) htext
    have hl := hlen (by rw [hty, hvar])
    simp only at hl
    obtain ⟨n, hn⟩ := List.length_eq_one.1 hl
    exact ⟨n, by rw [hfind, hn]⟩
  · intro tok htok hvar
    obtain ⟨en, hen, hname⟩ := h4 tok htok (by simp [isVar, hvar])
    obtain ⟨nodes, hfind⟩ := varmap_find_of_mem m.vars en hen
    rw [hname] at hfind
    exact ⟨nodes, hfind⟩
  · intro name nodes hfind
    exact (h3 _ (varmap_find_some _ _ _ hfind)).1
  · intro name nodes hfind hno
    rcases hat _ (varmap_find_some _ _ _ hfind) with ⟨hr, _⟩ | ⟨_, c, hc, hleaf, tk, htk, hv, ht⟩
    · exact hr
    · exact absurd ht (hno c hc hleaf tk htk hv)
  · intro name nodes hfind hno
    rcases hat _ (varmap_find_some _ _ _ hfind) with ⟨_, tok, ht, hv, htext⟩ | ⟨hr, _⟩
    · exact absurd htext (hno tok ht hv)
    · exact hr
  · intro hflat name nodes hfind
    rcases hat _ (varmap_find_some _ _ _ hfind) with ⟨hr, _⟩ | ⟨_, c, hc, hleaf, _⟩
    · exact hr
    · rw [hflat c hc] at hleaf
      exact absurd hleaf (by simp)

/-- Witness of `match_captures` (C9): pattern `x $a y $b* z $c*` on the
children of `x 1 y 2 3 z 4 5`; the match has extent 0..8 and every capture
is a run of the subject list. -/
theorem match_captures_witness :
    ∃ m : Match,
      (makePattern (tree (bytesOf "x $a y $b* z $c*"))).matchNodes
        (tree (bytesOf "x 1 y 2 3 z 4 5")).children = some m ∧
      (∀ t1 ∈ leafTokensList (makePattern (tree (bytesOf "x $a y $b* z $c*"))).list,
        ∀ t2 ∈ leafTokensList (makePattern (tree (bytesOf "x $a y $b* z $c*"))).list,
        isVar t1.ttype = true → isVar t2.ttype = true → t1.text = t2.text →
          t1.ttype = t2.ttype) ∧
      (m.start, m.limit) = (0, 8) ∧
      (∀ name nodes, m.vars.find name = some nodes →
        isRunOf (tree (bytesOf "x 1 y 2 3 z 4 5")).children nodes m.start m.limit) :=
  ⟨(matchText (bytesOf "x 1 y 2 3 z 4 5") (bytesOf "x $a y $b* z $c*")).getD ⟨[], 0, 0⟩,
   by decide!, by decide!, by decide!,
   (match_captures (makePattern (tree (bytesOf "x $a y $b* z $c*")))
      (tree (bytesOf "x 1 y 2 3 z 4 5")).children _ (by decide!) (by decide!)).2.2.2.2.2.2.2.1
      (by decide!)⟩

/-! ## `sort.Slice` returns its argument in some order -/

theorem swapAt_perm {α : Type} [DecidableEq α] (d : List α) (i j : Nat) :
    (swapAt d i j).Perm d := by
  simp only [swapAt]
  cases hi : d[i]? with
  | none => exact List.Perm.refl _
  | some x =>
    cases hj : d[j]? with
    | none => exact List.Perm.refl _
    | some y =>
      simp only
      obtain ⟨hil, hix⟩ := List.getElem?_eq_some.1 hi
      obtain ⟨hjl, hjy⟩ := List.getElem?_eq_some.1 hj
      rw [List.perm_iff_count]
      intro b
      have hjl2 : j < (d.set i y).length := by simpa using hjl
      rw [List.count_set _ _ _ _ hjl2, List.count_set _ _ _ _ hil]
      have hget : (d.set i y)[j] = y := by
        rw [List.getElem_set]
        split
        · rfl
        · exact hjy
      rw [hget, hix]
      have hx : (if (x == b) = true then 1 else 0) ≤ List.count b d := by
        split
        · rename_i hxb
          have : x = b := by simpa using hxb
          subst this
          rw [← hix]
          exact List.count_pos_iff.2 (List.getElem_mem _)
        · omega
      by_cases hxb : (x == b) = true <;> by_cases hyb : (y == b) = true <;>
        simp only [hxb, hyb, if_true, if_false] at hx ⊢ <;> omega

theorem insertionSortInner_perm {α : Type} [DecidableEq α] (less : α → α → Bool) (a : Nat) :
    ∀ (j : Nat) (d : List α), (insertionSortInner less a j d).Perm d := by
  intro j
  induction j with
  | zero => intro d; exact List.Perm.refl _
  | succ j ih =>
    intro d
    simp only [insertionSortInner]
    split
    · exact (ih _).trans (swapAt_perm _ _ _)
    · exact List.Perm.refl _

theorem foldl_perm {α β : Type} (f : List α → β → List α) (hf : ∀ d x, (f d x).Perm d) :
    ∀ (l : List β) (d : List α), (l.foldl f d).Perm d := by
  intro l
  induction l with
  | nil => intro d; exact List.Perm.refl _
  | cons x l ih => intro d; exact (ih _).trans (hf d x)

theorem insertionSort_func_perm {α : Type} [DecidableEq α] (less : α → α → Bool) (d : List α)
    (a b : Nat) : (insertionSort_func less d a b).Perm d :=
  foldl_perm _ (fun d i => insertionSortInner_perm less a i d) _ d

theorem siftDown_func_perm {α : Type} [DecidableEq α] (less : α → α → Bool) (hi first : Nat) :
    ∀ (k root : Nat) (d : List α), (siftDown_func less hi first k root d).Perm d := by
  intro k
  induction k with
  | zero => intro root d; exact List.Perm.refl _
  | succ k ih =>
    intro root d
    simp only [siftDown_func]
    split
    · exact List.Perm.refl _
    · split <;> split <;>
        first
        | exact List.Perm.refl _
        | exact (ih _ _).trans (swapAt_perm _ _ _)

theorem heapSort_func_perm {α : Type} [DecidableEq α] (less : α → α → Bool) (d : List α)
    (a b : Nat) : (heapSort_func less d a b).Perm d := by
  simp only [heapSort_func]
  exact (foldl_perm _ (fun d i => (siftDown_func_perm less i a i 0 _).trans
    (swapAt_perm d a (a + i))) _ _).trans
    (foldl_perm _ (fun d i => siftDown_func_perm less (b - a) a (b - a) i d) _ d)

theorem reverseRangeFrom_perm {α : Type} [DecidableEq α] :
    ∀ (k i j : Nat) (d : List α), (reverseRangeFrom k i j d).Perm d := by
  intro k
  induction k with
  | zero => intro i j d; exact List.Perm.refl _
  | succ k ih =>
    intro i j d
    simp only [reverseRangeFrom]
    split
    · exact (ih _ _ _).trans (swapAt_perm _ _ _)
    · exact List.Perm.refl _

theorem breakPatterns_func_perm {α : Type} [DecidableEq α] (d : List α) (a b : Nat) :
    (breakPatterns_func d a b).Perm d := by
  simp only [breakPatterns_func]
  split
  · exact ((swapAt_perm _ _ _).trans (swapAt_perm _ _ _)).trans (swapAt_perm _ _ _)
  · exact List.Perm.refl _

theorem shiftLeft_perm {α : Type} [DecidableEq α] (less : α → α → Bool) :
    ∀ (j : Nat) (d : List α), (shiftLeft less j d).Perm d := by
  intro j
  induction j with
  | zero => intro d; exact List.Perm.refl _
  | succ j ih =>
    intro d
    simp only [shiftLeft]
    split
    · exact (ih _).trans (swapAt_perm _ _ _)
    · exact List.Perm.refl _

theorem shiftRight_perm {α : Type} [DecidableEq α] (less : α → α → Bool) (b : Nat) :
    ∀ (k j : Nat) (d : List α), (shiftRight less b k j d).Perm d := by
  intro k
  induction k with
  | zero => intro j d; exact List.Perm.refl _
  | succ k ih =>
    intro j d
    simp only [shiftRight]
    split
    · split
      · exact (ih _ _).trans (swapAt_perm _ _ _)
      · exact List.Perm.refl _
    · exact List.Perm.refl _

theorem partialInsertionSortFrom_perm {α : Type} [DecidableEq α] (less : α → α → Bool)
    (a b : Nat) : ∀ (steps i : Nat) (d : List α),
    (partialInsertionSortFrom less a b steps i d).1.Perm d := by
  intro steps
  induction steps with
  | zero => intro i d; exact List.Perm.refl _
  | succ steps ih =>
    intro i d
    simp only [partialInsertionSortFrom]
    split
    · exact List.Perm.refl _
    · split
      · exact List.Perm.refl _
      · refine (ih _ _).trans ?_
        have h1 := swapAt_perm d (skipSorted less d b (b - i) i) (skipSorted less d b (b - i) i - 1)
        have h2 : ∀ (c : Prop) [Decidable c] (j : Nat) (e : List α), e.Perm d →
            (if c then shiftLeft less j e else e).Perm d := by
          intro c _ j e he
          split
          · exact (shiftLeft_perm less j e).trans he
          · exact he
        have h3 : ∀ (c : Prop) [Decidable c] (k j : Nat) (e : List α), e.Perm d →
            (if c then shiftRight less b k j e else e).Perm d := by
          intro c _ k j e he
          split
          · exact (shiftRight_perm less b k j e).trans he
          · exact he
        exact h3 _ _ _ _ (h2 _ _ _ h1)

theorem partitionLoop_perm {α : Type} [DecidableEq α] (less : α → α → Bool) (a : Nat) :
    ∀ (k i j : Nat) (d : List α), (partitionLoop less a k i j d).1.Perm d := by
  intro k
  induction k with
  | zero => intro i j d; exact List.Perm.refl _
  | succ k ih =>
    intro i j d
    simp only [partitionLoop]
    split
    · exact List.Perm.refl _
    · exact (ih _ _ _).trans (swapAt_perm _ _ _)

theorem partition_func_perm {α : Type} [DecidableEq α] (less : α → α → Bool) (d : List α)
    (a b pivot : Nat) : (partition_func less d a b pivot).1.Perm d := by
  simp only [partition_func]
  split
  · exact (swapAt_perm _ _ _).trans (swapAt_perm _ _ _)
  · exact ((swapAt_perm _ _ _).trans ((partitionLoop_perm less a _ _ _ _).trans
      (swapAt_perm _ _ _))).trans (swapAt_perm _ _ _)

theorem partitionEqualLoop_perm {α : Type} [DecidableEq α] (less : α → α → Bool) (a : Nat) :
    ∀ (k i j : Nat) (d : List α), (partitionEqualLoop less a k i j d).1.Perm d := by
  intro k
  induction k with
  | zero => intro i j d; exact List.Perm.refl _
  | succ k ih =>
    intro i j d
    simp only [partitionEqualLoop]
    split
    · exact List.Perm.refl _
    · exact (ih _ _ _).trans (swapAt_perm _ _ _)

theorem partitionEqual_func_perm {α : Type} [DecidableEq α] (less : α → α → Bool) (d : List α)
    (a b pivot : Nat) : (partitionEqual_func less d a b pivot).1.Perm d :=
  (partitionEqualLoop_perm less a _ _ _ _).trans (swapAt_perm _ _ _)

theorem pdqsortPivot_perm {α : Type} [DecidableEq α] (less : α → α → Bool) (d : List α)
    (a b limit : Nat) (wb wp : Bool) : (pdqsortPivot less d a b limit wb wp).1.Perm d := by
  simp only [pdqsortPivot]
  have h1 : (if wb = true then d else breakPatterns_func d a b).Perm d := by
    split
    · exact List.Perm.refl _
    · exact breakPatterns_func_perm d a b
  have h2 : ∀ (c : Prop) [Decidable c] (e : List α), e.Perm d →
      (if c then reverseRange_func e a b else e).Perm d := by
    intro c _ e he
    split
    · exact (reverseRangeFrom_perm _ _ _ _).trans he
    · exact he
  have h3 : ∀ (c : Prop) [Decidable c] (e : List α), e.Perm d →
      (if c then partialInsertionSort_func less e a b else (e, false)).1.Perm d := by
    intro c _ e he
    split
    · exact (partialInsertionSortFrom_perm less a b _ _ _).trans he
    · exact he
  exact h3 _ _ (h2 _ _ h1)

theorem pdqsort_func_perm {α : Type} [DecidableEq α] (less : α → α → Bool) :
    ∀ (k : Nat) (d : List α) (a b limit : Nat) (wb wp : Bool),
    (pdqsort_func less k d a b limit wb wp).Perm d := by
  intro k
  induction k with
  | zero => intro d a b limit wb wp; exact List.Perm.refl _
  | succ k ih =>
    intro d a b limit wb wp
    rw [pdqsort_func]
    have hs := pdqsortPivot_perm less d a b limit wb wp
    generalize pdqsortPivot less d a b limit wb wp = t at hs
    split
    · exact insertionSort_func_perm less d a b
    · split
      · exact heapSort_func_perm less d a b
      · simp only
        split
        · exact hs
        · split
          · exact (ih _ _ _ _ _ _).trans ((partitionEqual_func_perm less _ a b _).trans hs)
          · split
            · exact (ih _ _ _ _ _ _).trans ((ih _ _ _ _ _ _).trans
                ((partition_func_perm less _ a b _).trans hs))
            · exact (ih _ _ _ _ _ _).trans ((ih _ _ _ _ _ _).trans
                ((partition_func_perm less _ a b _).trans hs))

theorem Slice_perm {α : Type} [DecidableEq α] (x : List α) (less : α → α → Bool) :
    (Slice x less).Perm x :=
  pdqsort_func_perm less _ x _ _ _ _ _

theorem sortOccurrences_perm (occ : List occurrence) : (sortOccurrences occ).Perm occ :=
  Slice_perm occ _

theorem sortOccurrences_mem (l : List occurrence) (o : occurrence) :
    o ∈ sortOccurrences l ↔ o ∈ l :=
  (sortOccurrences_perm l).mem_iff

/-! ## The turns of `pdqsort_func` -/

theorem scanLess_ge {α : Type} (less : α → α → Bool) (d : List α) (a j : Nat) :
    ∀ k i, i ≤ scanLess less d a j k i := by
  intro k
  induction k with
  | zero => intro i; exact Nat.le_refl _
  | succ k ih =>
    intro i
    simp only [scanLess]
    split
    · exact Nat.le_trans (Nat.le_succ i) (ih (i + 1))
    · exact Nat.le_refl _

theorem scanNotLess_le {α : Type} (less : α → α → Bool) (d : List α) (a i : Nat) :
    ∀ j, scanNotLess less d a i j ≤ j := by
  intro j
  induction j with
  | zero => exact Nat.le_refl _
  | succ j ih =>
    simp only [scanNotLess]
    split
    · exact Nat.le_trans ih (Nat.le_succ j)
    · exact Nat.le_refl _

theorem scanNotLess_ge {α : Type} (less : α → α → Bool) (d : List α) (a i m : Nat)
    (hm : m < i) : ∀ j, m ≤ j → m ≤ scanNotLess less d a i j := by
  intro j
  induction j with
  | zero => intro h; exact h
  | succ j ih =>
    intro h
    simp only [scanNotLess]
    split
    · rename_i hc
      exact ih (by omega)
    · exact h

theorem partitionLoop_bounds {α : Type} (less : α → α → Bool) (a : Nat) :
    ∀ (k i j : Nat) (d : List α), a < i → a ≤ j →
    a ≤ (partitionLoop less a k i j d).2 ∧ (partitionLoop less a k i j d).2 ≤ j := by
  intro k
  induction k with
  | zero => intro i j d _ hj; exact ⟨hj, Nat.le_refl _⟩
  | succ k ih =>
    intro i j d hi hj
    simp only [partitionLoop]
    have h1 := scanLess_ge less d a j (j + 1 - i) i
    have h2 := scanNotLess_le less d a (scanLess less d a j (j + 1 - i) i) j
    have h3 := scanNotLess_ge less d a (scanLess less d a j (j + 1 - i) i) a (by omega) j hj
    split
    · exact ⟨h3, h2⟩
    · rename_i hlt
      obtain ⟨i1, i2⟩ := ih (scanLess less d a j (j + 1 - i) i + 1)
        (scanNotLess less d a (scanLess less d a j (j + 1 - i) i) j - 1)
        (swapAt d (scanLess less d a j (j + 1 - i) i)
          (scanNotLess less d a (scanLess less d a j (j + 1 - i) i) j)) (by omega) (by omega)
      exact ⟨i1, by omega⟩

/-- The pivot ends inside the slice. -/
theorem partition_func_bounds {α : Type} (less : α → α → Bool) (d : List α) (a b pivot : Nat)
    (hab : a < b) :
    a ≤ (partition_func less d a b pivot).2.1 ∧ (partition_func less d a b pivot).2.1 < b := by
  simp only [partition_func]
  have h1 := scanLess_ge less (swapAt d a pivot) a (b - 1) (b - 1 + 1 - (a + 1)) (a + 1)
  have h2 := scanNotLess_le less (swapAt d a pivot) a
    (scanLess less (swapAt d a pivot) a (b - 1) (b - 1 + 1 - (a + 1)) (a + 1)) (b - 1)
  have h3 := scanNotLess_ge less (swapAt d a pivot) a
    (scanLess less (swapAt d a pivot) a (b - 1) (b - 1 + 1 - (a + 1)) (a + 1)) a (by omega)
    (b - 1) (by omega)
  split
  · dsimp only
    exact ⟨h3, by omega⟩
  · rename_i hlt
    dsimp only
    obtain ⟨i1, i2⟩ := partitionLoop_bounds less a (b - a)
      (scanLess less (swapAt d a pivot) a (b - 1) (b - 1 + 1 - (a + 1)) (a + 1) + 1)
      (scanNotLess less (swapAt d a pivot) a
        (scanLess less (swapAt d a pivot) a (b - 1) (b - 1 + 1 - (a + 1)) (a + 1)) (b - 1) - 1)
      (swapAt (swapAt d a pivot)
        (scanLess less (swapAt d a pivot) a (b - 1) (b - 1 + 1 - (a + 1)) (a + 1))
        (scanNotLess less (swapAt d a pivot) a
          (scanLess less (swapAt d a pivot) a (b - 1) (b - 1 + 1 - (a + 1)) (a + 1)) (b - 1)))
      (by omega) (by omega)
    exact ⟨i1, by omega⟩

theorem scanEqual_ge {α : Type} (less : α → α → Bool) (d : List α) (a j : Nat) :
    ∀ k i, i ≤ scanEqual less d a j k i := by
  intro k
  induction k with
  | zero => intro i; exact Nat.le_refl _
  | succ k ih =>
    intro i
    simp only [scanEqual]
    split
    · exact Nat.le_trans (Nat.le_succ i) (ih (i + 1))
    · exact Nat.le_refl _

theorem partitionEqualLoop_ge {α : Type} (less : α → α → Bool) (a : Nat) :
    ∀ (k i j : Nat) (d : List α), i ≤ (partitionEqualLoop less a k i j d).2 := by
  intro k
  induction k with
  | zero => intro i j d; exact Nat.le_refl _
  | succ k ih =>
    intro i j d
    simp only [partitionEqualLoop]
    have h1 := scanEqual_ge less d a j (j + 1 - i) i
    split
    · exact h1
    · have := ih (scanEqual less d a j (j + 1 - i) i + 1)
        (scanGreater less d a (scanEqual less d a j (j + 1 - i) i) j - 1)
        (swapAt d (scanEqual less d a j (j + 1 - i) i)
          (scanGreater less d a (scanEqual less d a j (j + 1 - i) i) j))
      omega

/-- The slice left after `partitionEqual_func` starts behind `a`. -/
theorem partitionEqual_func_gt {α : Type} (less : α → α → Bool) (d : List α) (a b pivot : Nat) :
    a < (partitionEqual_func less d a b pivot).2 := by
  have := partitionEqualLoop_ge less a (b - a) (a + 1) (b - 1) (swapAt d a pivot)
  simp only [partitionEqual_func]
  omega

/-- The first argument of `pdqsort_func` is a bound on its turns that is not
reached: above `b - a` its value makes no difference. -/
theorem pdqsort_func_turns {α : Type} (less : α → α → Bool) :
    ∀ (k k' : Nat) (d : List α) (a b limit : Nat) (wb wp : Bool), b - a < k → b - a < k' →
    pdqsort_func less k d a b limit wb wp = pdqsort_func less k' d a b limit wb wp := by
  intro k
  induction k with
  | zero => intro k' d a b limit wb wp h; omega
  | succ k ih =>
    intro k' d a b limit wb wp hk hk'
    obtain ⟨k', rfl⟩ : ∃ m, k' = m + 1 := ⟨k' - 1, by omega⟩
    rw [pdqsort_func, pdqsort_func]
    generalize pdqsortPivot less d a b limit wb wp = t
    split
    · rfl
    · rename_i hlen
      split
      · rfl
      · simp only
        split
        · rfl
        · split
          · have := partitionEqual_func_gt less t.1 a b t.2.1
            exact ih k' _ _ _ _ _ _ (by omega) (by omega)
          · obtain ⟨p1, p2⟩ := partition_func_bounds less t.1 a b t.2.1 (by omega)
            split
            · rw [ih k' _ a _ _ true true (by omega) (by omega)]
              exact ih k' _ _ _ _ _ _ (by omega) (by omega)
            · rw [ih k' _ (_ + 1) b _ true true (by omega) (by omega)]
              exact ih k' _ _ _ _ _ _ (by omega) (by omega)

/-- On at most 12 elements `sort.Slice` is `insertionSort_func`. -/
theorem Slice_short {α : Type} (x : List α) (less : α → α → Bool) (h : x.length ≤ 12) :
    Slice x less = insertionSort_func less x 0 x.length := by
  simp only [Slice, pdqsort_func]
  rw [if_pos (by omega)]

/-! The loops over indices take no more turns than the bound they are run
with: a larger bound gives the same result. -/

theorem scanLess_turns {α : Type} (less : α → α → Bool) (d : List α) (a j : Nat) :
    ∀ (k k' i : Nat), j + 1 - i ≤ k → j + 1 - i ≤ k' →
    scanLess less d a j k i = scanLess less d a j k' i := by
  intro k
  induction k with
  | zero =>
    intro k' i h _
    cases k' with
    | zero => rfl
    | succ k' =>
      simp only [scanLess]
      rw [if_neg (by omega)]
  | succ k ih =>
    intro k' i h h'
    cases k' with
    | zero =>
      simp only [scanLess]
      rw [if_neg (by omega)]
    | succ k' =>
      simp only [scanLess]
      split
      · exact ih k' (i + 1) (by omega) (by omega)
      · rfl

theorem scanEqual_turns {α : Type} (less : α → α → Bool) (d : List α) (a j : Nat) :
    ∀ (k k' i : Nat), j + 1 - i ≤ k → j + 1 - i ≤ k' →
    scanEqual less d a j k i = scanEqual less d a j k' i := by
  intro k
  induction k with
  | zero =>
    intro k' i h _
    cases k' with
    | zero => rfl
    | succ k' =>
      simp only [scanEqual]
      rw [if_neg (by omega)]
  | succ k ih =>
    intro k' i h h'
    cases k' with
    | zero =>
      simp only [scanEqual]
      rw [if_neg (by omega)]
    | succ k' =>
      simp only [scanEqual]
      split
      · exact ih k' (i + 1) (by omega) (by omega)
      · rfl

theorem skipSorted_turns {α : Type} (less : α → α → Bool) (d : List α) (b : Nat) :
    ∀ (k k' i : Nat), b - i ≤ k → b - i ≤ k' →
    skipSorted less d b k i = skipSorted less d b k' i := by
  intro k
  induction k with
  | zero =>
    intro k' i h _
    cases k' with
    | zero => rfl
    | succ k' =>
      simp only [skipSorted]
      rw [if_neg (by omega)]
  | succ k ih =>
    intro k' i h h'
    cases k' with
    | zero =>
      simp only [skipSorted]
      rw [if_neg (by omega)]
    | succ k' =>
      simp only [skipSorted]
      split
      · exact ih k' (i + 1) (by omega) (by omega)
      · rfl

theorem shiftRight_turns {α : Type} (less : α → α → Bool) (b : Nat) :
    ∀ (k k' j : Nat) (d : List α), b - j ≤ k → b - j ≤ k' →
    shiftRight less b k j d = shiftRight less b k' j d := by
  intro k
  induction k with
  | zero =>
    intro k' j d h _
    cases k' with
    | zero => rfl
    | succ k' =>
      simp only [shiftRight]
      rw [if_neg (by omega)]
  | succ k ih =>
    intro k' j d h h'
    cases k' with
    | zero =>
      simp only [shiftRight]
      rw [if_neg (by omega)]
    | succ k' =>
      simp only [shiftRight]
      split
      · split
        · exact ih k' (j + 1) _ (by omega) (by omega)
        · rfl
      · rfl

theorem reverseRangeFrom_turns {α : Type} :
    ∀ (k k' i j : Nat) (d : List α), j - i ≤ k → j - i ≤ k' →
    reverseRangeFrom k i j d = reverseRangeFrom k' i j d := by
  intro k
  induction k with
  | zero =>
    intro k' i j d h _
    cases k' with
    | zero => rfl
    | succ k' =>
      simp only [reverseRangeFrom]
      rw [if_neg (by omega)]
  | succ k ih =>
    intro k' i j d h h'
    cases k' with
    | zero =>
      simp only [reverseRangeFrom]
      rw [if_neg (by omega)]
    | succ k' =>
      simp only [reverseRangeFrom]
      split
      · exact ih k' (i + 1) (j - 1) _ (by omega) (by omega)
      · rfl

theorem siftDown_func_turns {α : Type} (less : α → α → Bool) (hi first : Nat) :
    ∀ (k k' root : Nat) (d : List α), hi - root ≤ k → hi - root ≤ k' →
    siftDown_func less hi first k root d = siftDown_func less hi first k' root d := by
  intro k
  induction k with
  | zero =>
    intro k' root d h _
    cases k' with
    | zero => rfl
    | succ k' =>
      simp only [siftDown_func]
      rw [if_pos (by omega)]
  | succ k ih =>
    intro k' root d h h'
    cases k' with
    | zero =>
      simp only [siftDown_func]
      rw [if_pos (by omega)]
    | succ k' =>
      simp only [siftDown_func]
      split
      · rfl
      · split <;> split <;>
          first
          | rfl
          | exact ih k' _ _ (by omega) (by omega)

theorem scanNotLess_of_lt {α : Type} (less : α → α → Bool) (d : List α) (a i j : Nat)
    (h : j < i) : scanNotLess less d a i j = j := by
  cases j with
  | zero => rfl
  | succ j =>
    simp only [scanNotLess]
    rw [if_neg (by omega)]

theorem scanGreater_of_lt {α : Type} (less : α → α → Bool) (d : List α) (a i j : Nat)
    (h : j < i) : scanGreater less d a i j = j := by
  cases j with
  | zero => rfl
  | succ j =>
    simp only [scanGreater]
    rw [if_neg (by omega)]

theorem scanGreater_le {α : Type} (less : α → α → Bool) (d : List α) (a i : Nat) :
    ∀ j, scanGreater less d a i j ≤ j := by
  intro j
  induction j with
  | zero => exact Nat.le_refl _
  | succ j ih =>
    simp only [scanGreater]
    split
    · exact Nat.le_trans ih (Nat.le_succ j)
    · exact Nat.le_refl _

theorem scanLess_of_lt {α : Type} (less : α → α → Bool) (d : List α) (a i j k : Nat)
    (h : j < i) : scanLess less d a j k i = i := by
  cases k with
  | zero => rfl
  | succ k =>
    simp only [scanLess]
    rw [if_neg (by omega)]

theorem scanEqual_of_lt {α : Type} (less : α → α → Bool) (d : List α) (a i j k : Nat)
    (h : j < i) : scanEqual less d a j k i = i := by
  cases k with
  | zero => rfl
  | succ k =>
    simp only [scanEqual]
    rw [if_neg (by omega)]

theorem partitionLoop_turns {α : Type} (less : α → α → Bool) (a : Nat) :
    ∀ (k k' i j : Nat) (d : List α), j + 1 - i ≤ k → j + 1 - i ≤ k' →
    partitionLoop less a k i j d = partitionLoop less a k' i j d := by
  intro k
  induction k with
  | zero =>
    intro k' i j d h _
    cases k' with
    | zero => rfl
    | succ k' =>
      simp only [partitionLoop]
      rw [scanLess_of_lt less d a i j _ (by omega), scanNotLess_of_lt less d a i j (by omega),
        if_pos (by omega)]
  | succ k ih =>
    intro k' i j d h h'
    cases k' with
    | zero =>
      simp only [partitionLoop]
      rw [scanLess_of_lt less d a i j _ (by omega), scanNotLess_of_lt less d a i j (by omega),
        if_pos (by omega)]
    | succ k' =>
      simp only [partitionLoop]
      have h1 := scanLess_ge less d a j (j + 1 - i) i
      have h2 := scanNotLess_le less d a (scanLess less d a j (j + 1 - i) i) j
      split
      · rfl
      · exact ih k' _ _ _ (by omega) (by omega)

theorem partitionEqualLoop_turns {α : Type} (less : α → α → Bool) (a : Nat) :
    ∀ (k k' i j : Nat) (d : List α), j + 1 - i ≤ k → j + 1 - i ≤ k' →
    partitionEqualLoop less a k i j d = partitionEqualLoop less a k' i j d := by
  intro k
  induction k with
  | zero =>
    intro k' i j d h _
    cases k' with
    | zero => rfl
    | succ k' =>
      simp only [partitionEqualLoop]
      rw [scanEqual_of_lt less d a i j _ (by omega), scanGreater_of_lt less d a i j (by omega),
        if_pos (by omega)]
  | succ k ih =>
    intro k' i j d h h'
    cases k' with
    | zero =>
      simp only [partitionEqualLoop]
      rw [scanEqual_of_lt less d a i j _ (by omega), scanGreater_of_lt less d a i j (by omega),
        if_pos (by omega)]
    | succ k' =>
      simp only [partitionEqualLoop]
      have h1 := scanEqual_ge less d a j (j + 1 - i) i
      have h2 := scanGreater_le less d a (scanEqual less d a j (j + 1 - i) i) j
      split
      · rfl
      · exact ih k' _ _ _ (by omega) (by omega)

theorem bitsLen_turns : ∀ (k k' n : Nat), n ≤ k → n ≤ k' → bitsLen k n = bitsLen k' n := by
  intro k
  induction k with
  | zero =>
    intro k' n h _
    cases k' with
    | zero => rfl
    | succ k' =>
      simp only [bitsLen]
      rw [if_pos (by omega)]
  | succ k ih =>
    intro k' n h h'
    cases k' with
    | zero =>
      simp only [bitsLen]
      rw [if_pos (by omega)]
    | succ k' =>
      simp only [bitsLen]
      split
      · rfl
      · rw [ih k' (n / 2) (by omega) (by omega)]

/-! ## `replace` with the calls of the library -/

theorem replaceLib_anchorOf (subject pat replacement : node) :
    replaceLib subject pat replacement =
      match anchorOf subject pat with
      | none => some subject
      | some anchor =>
        if ((leaves [] subject).filter (fun o => o.tok.text == anchor.tok.text)).isEmpty
        then some subject
        else
          match compilePattern pat with
          | none => none
          | some p =>
            (replaceLoop p replacement anchor.depth ⟨subject, none⟩
              (sortOccurrences
                ((leaves [] subject).filter (fun o => o.tok.text == anchor.tok.text)))).map
              (fun st => st.subject) := rfl

theorem compilePattern_some (pat : node) (p : pattern) (h : compilePattern pat = some p) :
    p = makePattern pat := by
  simp only [compilePattern] at h
  split at h
  · exact (Option.some.inj h).symm
  · simp at h

/-- With a pattern `regexp.MustCompile` accepts, `replace` is the function
`replaceWith` with the order of `sort.Slice`. -/
theorem replaceLib_of_compiles (subject pat replacement : node)
    (h : (compilePattern pat).isSome = true) :
    replaceLib subject pat replacement
      = replaceWith sortOccurrences subject pat replacement := by
  obtain ⟨p, hp⟩ := Option.isSome_iff_exists.1 h
  have := compilePattern_some pat p hp
  subst this
  rw [replaceLib_anchorOf, replaceWith_anchorOf, hp]

/-- With a pattern `regexp.MustCompile` refuses, `replace` panics as soon as
it gets as far as `makePattern`. -/
theorem replaceLib_of_refused (subject pat replacement : node)
    (h : compilePattern pat = none) :
    replaceLib subject pat replacement = none ↔ reachesPattern subject pat := by
  rw [replaceLib_anchorOf, h]
  simp only [reachesPattern]
  cases ha : anchorOf subject pat with
  | none => simp
  | some a =>
    simp only [Option.some.injEq, exists_eq_left']
    cases he : ((leaves [] subject).filter (fun o => o.tok.text == a.tok.text)).isEmpty with
    | true => simp
    | false => simp

/-- A match can fire only when `replace` gets as far as `makePattern`. -/
theorem fires_reaches (subject pat : node) (h : fires subject pat) :
    reachesPattern subject pat := by
  obtain ⟨a, ha, o, ho, htext, _⟩ := h
  refine ⟨a, ha, ?_⟩
  have hocc : o ∈ (leaves [] subject).filter (fun o => o.tok.text == a.tok.text) :=
    List.mem_filter.2 ⟨ho, htext⟩
  cases he : ((leaves [] subject).filter (fun o => o.tok.text == a.tok.text)).isEmpty with
  | false => rfl
  | true =>
    rw [List.isEmpty_iff] at he
    rw [he] at hocc
    simp at hocc

theorem sum_numRegexp (l : List atom) : 2 * l.length ≤ (l.map atom.numRegexp).sum := by
  induction l with
  | nil => simp
  | cons a l ih =>
    simp only [List.map_cons, List.sum_cons, List.length_cons]
    cases a <;> simp only [atom.numRegexp] <;> omega

theorem sum_size (l : List atom) : 3 * l.length ≤ (l.map atom.size).sum := by
  induction l with
  | nil => simp
  | cons a l ih =>
    simp only [List.map_cons, List.sum_cons, List.length_cons]
    cases a <;> simp only [atom.size] <;> omega

/-- A list of 1677721 pattern nodes or more gives an expression the library
refuses. -/
theorem tooLarge_of_length (rm : runemap) (fullMatch : Bool) (list : List node)
    (h : 1677721 ≤ list.length) : (compileList rm fullMatch list).tooLarge = true := by
  have h1 := sum_numRegexp (list.map (atomOf rm))
  have h2 := sum_size (list.map (atomOf rm))
  simp only [List.length_map] at h1 h2
  simp only [regexp.tooLarge, regexp.numRegexp, regexp.size, compileList, maxSize,
    List.length_map, Bool.and_eq_true, decide_eq_true_eq]
  constructor
  · split <;> split <;> omega
  · have : 3355443 < (List.map atom.size (List.map (atomOf rm) list)).sum
        + (if fullMatch = true then 2 else 0) := by
      split <;> omega
    exact Nat.lt_of_lt_of_le this (Nat.le_max_right _ _)

theorem compilePattern_of_length (pat : node) (h : 1677721 ≤ pat.children.length) :
    compilePattern pat = none := by
  simp only [compilePattern, mustCompile, tooLarge_of_length _ false pat.children h]
  simp

theorem pickAnchor_stable (freq : List Nat → Nat) : ∀ (l : List occurrence)
    (st : Option occurrence × Nat), (∀ o ∈ l, st.2 ≤ freq o.tok.text) →
    l.foldl (pickAnchor freq) st = st := by
  intro l
  induction l with
  | nil => intro st _; rfl
  | cons o l ih =>
    intro st h
    have h1 : pickAnchor freq st o = st := by
      simp only [pickAnchor]
      split
      · rfl
      · rw [if_neg (by have := h o (List.mem_cons_self _ _); omega)]
    simp only [List.foldl_cons, h1]
    exact ih st (fun o' ho' => h o' (List.mem_cons_of_mem _ ho'))

theorem semiLeaves_length (F : List Nat) : ∀ n e, (semiLeaves F n e).length = 2 * n := by
  intro n
  induction n with
  | zero => intro e; rfl
  | succ n ih =>
    intro e
    simp only [semiLeaves, List.length_cons, ih]
    omega

theorem semiLeaves_texts (F : List Nat) : ∀ n e, ∀ t ∈ leafTokensList (semiLeaves F n e),
    t.text = F ∨ t.text = [59] := by
  intro n
  induction n with
  | zero => intro e t ht; simp [semiLeaves, leafTokensList] at ht
  | succ n ih =>
    intro e t ht
    simp only [semiLeaves, leafTokensList, leafTokens, List.singleton_append,
      List.mem_cons] at ht
    rcases ht with rfl | rfl | ht
    · left; rfl
    · right; rfl
    · exact ih _ t ht

/-- The pattern `F;F;...;F;` with `n + 1` times the word `F` on the subject
`F;`: the anchor is the first `F` of the pattern, it occurs in the subject,
and the pattern has `2 * (n + 1)` nodes. -/
theorem reaches_semis (F : List Nat) (hF : isWord F) (n : Nat) :
    reachesPattern (node.interior token.zero (semiLeaves F 1 0))
      (node.interior token.zero (semiLeaves F (n + 1) 0)) := by
  have hne : (([59] : List Nat) == F) = false := by
    rw [beq_eq_false_iff_ne]
    exact word_ne_semi F hF
  have hne2 : ((F : List Nat) == [59]) = false := by
    rw [beq_eq_false_iff_ne]
    exact fun h => word_ne_semi F hF h.symm
  have hfreq : ∀ t : List Nat, t = F ∨ t = [59] →
      ((leaves [] (node.interior token.zero (semiLeaves F 1 0))).filter
        (fun o => o.tok.text == t)).length = 1 := by
    intro t ht
    rcases ht with rfl | rfl
    · simp [leaves, leavesList, semiLeaves, List.filter, hne]
    · simp [leaves, leavesList, semiLeaves, List.filter, hne2]
  refine ⟨⟨[0], ⟨WORD, 1, 1, F, [], []⟩⟩, ?_, ?_⟩
  · simp only [anchorOf]
    rw [show leaves [] (node.interior token.zero (semiLeaves F (n + 1) 0))
        = ⟨[0], ⟨WORD, 1, 1, F, [], []⟩⟩ ::
          (leaves [1] (.leaf ⟨OTHER, 1, 0 + F.length + 1, [59], [], []⟩)
            ++ leavesList [] 2 (semiLeaves F n (0 + F.length + 1))) by
      simp [leaves, leavesList, semiLeaves]]
    rw [List.foldl_cons]
    have hfirst : pickAnchor (fun text =>
        ((leaves [] (node.interior token.zero (semiLeaves F 1 0))).filter
          (fun o => o.tok.text == text)).length) (none, 1000000000)
        ⟨[0], ⟨WORD, 1, 1, F, [], []⟩⟩ = (some ⟨[0], ⟨WORD, 1, 1, F, [], []⟩⟩, 1) := by
      simp only [pickAnchor, isVar]
      rw [hfreq F (Or.inl rfl)]
      simp
    rw [hfirst, pickAnchor_stable]
    intro o ho
    have hmem : o.tok ∈ leafTokensList (semiLeaves F (n + 1) 0) := by
      have h1 : o ∈ leaves [] (node.interior token.zero (semiLeaves F (n + 1) 0)) := by
        simp only [leaves, leavesList, semiLeaves] at ho ⊢
        simp only [List.mem_append, List.mem_cons, List.mem_singleton] at ho ⊢
        rcases ho with ho | ho
        · right; left; simpa using ho
        · right; right; simpa using ho
      have h2 := leaves_tok (node.interior token.zero (semiLeaves F (n + 1) 0)) []
      rw [leafTokens_interior] at h2
      rw [← h2]
      exact List.mem_map.2 ⟨o, h1, rfl⟩
    rw [hfreq _ (semiLeaves_texts F (n + 1) 0 _ hmem)]
  · simp [leaves, leavesList, semiLeaves, List.filter]

theorem tree_semis (F : List Nat) (hF : isWord F) (n : Nat) :
    tree (semis F (n + 1)) = .interior token.zero (semiLeaves F (n + 1) 0) := by
  simp only [tree, parse_semis F hF n, Option.getD_some]

theorem tree_word (G : List Nat) (hG : isWord G) : tree G = wordTree G := by
  simp only [tree, parse_word G hG, Option.getD_some]

theorem rewriteLib_tree (subject pat replacement : List Nat) :
    rewriteLib subject pat replacement
      = (replaceLib (tree subject) (tree pat) (tree replacement)).map node.serialize := by
  simp only [rewriteLib, parse_tree]

/-- A pattern of `n` words `F`, each with its semicolon, `n` at least
838861, on the subject `F;` with the replacement `G`: the replacement has no
variable, and `replace` panics in `regexp.MustCompile`. -/
theorem replaceLib_semis (F G : List Nat) (hF : isWord F) (hG : isWord G) (n : Nat)
    (hn : 838861 ≤ n) :
    ¬ unbound (tree (semis F n)) (tree G) ∧
    compilePattern (tree (semis F n)) = none ∧
    replaceLib (tree (semis F 1)) (tree (semis F n)) (tree G) = none ∧
    rewriteLib (semis F 1) (semis F n) G = none := by
  obtain ⟨m, rfl⟩ : ∃ m, n = m + 1 := ⟨n - 1, by omega⟩
  have hc : compilePattern (tree (semis F (m + 1))) = none := by
    apply compilePattern_of_length
    rw [tree_semis F hF m]
    simp only [node.children, semiLeaves_length]
    omega
  have hr : replaceLib (tree (semis F 1)) (tree (semis F (m + 1))) (tree G) = none := by
    rw [replaceLib_of_refused _ _ _ hc, tree_semis F hF m, tree_semis F hF 0]
    exact reaches_semis F hF m
  refine ⟨?_, hc, hr, ?_⟩
  · rintro ⟨tok, ht, hv, _⟩
    rw [tree_word G hG] at ht
    simp only [wordTree, leafTokens, leafTokensList, List.append_nil, List.mem_singleton] at ht
    subst ht
    simp [isVar] at hv
  · rw [rewriteLib_tree, hr]
    rfl

/-- C11 as the specification has it fails on the subject `F;` with the
pattern `F;F;...;F;` of 838861 words `F`, a list of 1677722 nodes, and the
replacement `G`: the replacement has no variable at all, and `replace`
aborts all the same, in the call of `regexp.MustCompile` in
`makeListPattern`, which refuses the expression of the pattern as too
large. -/
theorem substitute_panics_iff_unbound_counterexample :
    ¬ unbound (tree (semis [70] 838861)) (tree [71]) ∧
    compilePattern (tree (semis [70] 838861)) = none ∧
    replaceLib (tree (semis [70] 1)) (tree (semis [70] 838861)) (tree [71]) = none ∧
    rewriteLib (semis [70] 1) (semis [70] 838861) [71] = none :=
  replaceLib_semis [70] [71] ⟨by decide, by decide⟩ ⟨by decide, by decide⟩ 838861
    (Nat.le_refl _)

/-- C11 (as amended): `substitute` panics, with a message that ends with
the text of the variable, if and only if the replacement has a VAR or RVAR
leaf whose text is not a key of `m.vars`; and `replace`, for a pattern tree as
`parse` returns it, aborts in two cases and no other: when it gets as far as
`makePattern` and `regexp.MustCompile` refuses the expression of the
pattern, and when the library compiles the pattern, a match fires and the
replacement uses a variable the pattern does not bind.  So with a pattern
the library compiles `replace` aborts exactly when a match fires and the
replacement uses a variable the pattern does not bind, and never when the
pattern binds every variable of the replacement. -/
theorem substitute_panics_iff_unbound (m : Match) (subject pat replacement : node)
    (hpat : pat.isLeaf = false) :
    ((∃ msg, substituteE m.vars replacement = .error msg) ↔
      ∃ tok ∈ leafTokens replacement, isVar tok.ttype = true ∧ m.vars.find tok.text = none) ∧
    (∀ msg, substituteE m.vars replacement = .error msg →
      ∃ tok ∈ leafTokens replacement, isVar tok.ttype = true ∧ m.vars.find tok.text = none ∧
        msg = bytesOf "variable not found + " ++ tok.text) ∧
    substitute m.vars replacement = (substituteE m.vars replacement).toOption ∧
    (replaceLib subject pat replacement = none ↔
      (compilePattern pat = none ∧ reachesPattern subject pat) ∨
      ((compilePattern pat).isSome = true ∧ fires subject pat ∧ unbound pat replacement)) ∧
    ((compilePattern pat).isSome = true →
      (replaceLib subject pat replacement = none ↔
        fires subject pat ∧ unbound pat replacement)) ∧
    ((compilePattern pat).isSome = true → ¬ unbound pat replacement →
      ∃ out, replaceLib subject pat replacement = some out) := by
  have hiff : (compilePattern pat).isSome = true →
      (replaceLib subject pat replacement = none ↔
        fires subject pat ∧ unbound pat replacement) := by
    intro hc
    rw [replaceLib_of_compiles subject pat replacement hc]
    exact replaceWith_none_iff sortOccurrences sortOccurrences_mem subject pat replacement hpat
  refine ⟨?_, substituteE_error m.vars replacement,
    substitute_eq_toOption m.vars replacement, ?_, hiff, ?_⟩
  · rw [← substitute_none_iff, substitute_eq_toOption]
    cases substituteE m.vars replacement with
    | error e => simp [Except.toOption]
    | ok r => simp [Except.toOption]
  · cases hc : compilePattern pat with
    | none =>
      rw [replaceLib_of_refused subject pat replacement hc]
      simp
    | some p =>
      have hs : (compilePattern pat).isSome = true := by rw [hc]; rfl
      rw [hiff hs]
      simp
  · intro hc hu
    cases hr : replaceLib subject pat replacement with
    | none => exact absurd ((hiff hc).1 hr).2 hu
    | some out => exact ⟨out, rfl⟩

set_option maxRecDepth 100000 in
/-- The pattern `$a+0` on the subject `x+0` with the replacement `$b`: the
library compiles the pattern, the match fires, `$b` is not bound, and
`replace` aborts. -/
theorem substitute_panics_iff_unbound_witness :
    (tree (bytesOf "$a+0")).isLeaf = false ∧
    (compilePattern (tree (bytesOf "$a+0"))).isSome = true ∧
    replaceLib (tree (bytesOf "x+0")) (tree (bytesOf "$a+0")) (tree (bytesOf "$b")) = none ∧
    fires (tree (bytesOf "x+0")) (tree (bytesOf "$a+0")) ∧
    unbound (tree (bytesOf "$a+0")) (tree (bytesOf "$b")) ∧
    (match substituteE [(bytesOf "$a", [node.leaf ⟨WORD, 1, 1, bytesOf "x", [], []⟩])]
        (tree (bytesOf "$b")) with
      | .error msg => msg
      | .ok _ => []) = bytesOf "variable not found + $b" :=
  ⟨by decide!, by decide!, by decide!,
    ((substitute_panics_iff_unbound ⟨[], 0, 0⟩ (tree (bytesOf "x+0")) (tree (bytesOf "$a+0"))
      (tree (bytesOf "$b")) (by decide!)).2.2.2.2.1 (by decide!)).1 (by decide!) |>.1,
    ((substitute_panics_iff_unbound ⟨[], 0, 0⟩ (tree (bytesOf "x+0")) (tree (bytesOf "$a+0"))
      (tree (bytesOf "$b")) (by decide!)).2.2.2.2.1 (by decide!)).1 (by decide!) |>.2,
    by decide!⟩

theorem compilePattern_word (F : List Nat) : (compilePattern (wordTree F)).isSome = true := by
  have h : ∀ (rm : runemap) (c : node), (compileList rm false [c]).tooLarge = false := by
    intro rm c
    have h1 : atom.numRegexp (atomOf rm c) ≤ 3 := by
      cases atomOf rm c <;> simp [atom.numRegexp]
    simp only [regexp.tooLarge, regexp.numRegexp, compileList, List.map_cons, List.map_nil,
      List.sum_cons, List.sum_nil, maxSize, List.length_cons, List.length_nil,
      Bool.and_eq_false_iff, decide_eq_false_iff_not]
    left
    simp
    omega
  simp only [compilePattern, mustCompile, wordTree, node.children, h, compilesList, compilesNode]
  simp

/-- The function `replace`, the calls of the library included, for the
pattern `F` and the replacement `G`, two words, on the tree of an input in
which `F` occurs fewer than 1000000000 times. -/
theorem rewriteLib_lit (F G B : List Nat) (hF : isWord F) (hG : isWord G)
    (hcount : (leafTokens (tree B)).countP (fun t => t.text == F) < 1000000000) :
    rewriteLib B F G = some (replaceTextSpec F G (tree B)) := by
  obtain ⟨hord, hS⟩ := parse_ordered B (tree B) (parse_tree B)
  rw [rewriteLib_tree, tree_word F hF, tree_word G hG,
    replaceLib_of_compiles _ _ _ (compilePattern_word F)]
  exact replaceWith_lit sortOccurrences sortOccurrences_mem F G (tree B) hS hord hcount

/-- With 1000000000 occurrences of `F` or more no anchor is picked and
`replace` leaves the subject as it is. -/
theorem rewriteLib_semis (F G : List Nat) (hF : isWord F) (hG : isWord G) (n : Nat)
    (hn : 1000000000 ≤ n) :
    rewriteLib (semis F n) F G = some (semis F n) := by
  obtain ⟨h1, _, h3⟩ := rewrite_semis F G hF hG n hn
  have hanchor := anchorOf_wordTree_many (tree (semis F n)) F (by rw [h3]; exact hn)
  rw [rewriteLib_tree, tree_word F hF, tree_word G hG, replaceLib_anchorOf, hanchor]
  simp only [Option.map_some']
  rw [serialize_of_parse _ _ (parse_tree (semis F n))]

set_option maxRecDepth 1000000 in
/-- C5: `replace` does not replace every occurrence of a literal.  It
picks the anchor with `anchorCount := 1000000000` and `c < anchorCount`, so a
word that occurs 1000000000 times is no anchor: on the input `F;F;...;F;`
with 1000000000 times the word `F`, the pattern `F` and the replacement `G`
the output is the input, not the input with `G` for `F`.  Below that count
the first part of the claim holds, in whatever order `sort.Slice` puts the
occurrences: the output is the input with the text of every leaf `F`
replaced by `G` and every other byte, the trivia included, as it was; and
`x F F y F` with `F` replaced by `X Y` is `x X Y X Y y X Y`.  A replacement
of several tokens does not replace each occurrence once either when it holds
the pattern: `sort.Slice` leaves the 13 occurrences of `F` in
`(F;F;F;F;F);F;F;F;(F;F;F;F;F)` in an order in which the lists in brackets
come up again, and with the replacement `F,F` the first is rewritten twice
and the second three times. -/
theorem replace_literal_skips_frequent :
    (rewriteLib (semis [70] 1000000000) [70] [71] = some (semis [70] 1000000000) ∧
      replaceTextSpec [70] [71] (tree (semis [70] 1000000000)) = semis [71] 1000000000 ∧
      semis [71] 1000000000 ≠ semis [70] 1000000000) ∧
    (∀ (sort : List occurrence → List occurrence), (∀ l o, o ∈ sort l ↔ o ∈ l) →
      ∀ F G B : List Nat, isWord F → isWord G →
      (leafTokens (tree B)).countP (fun t => t.text == F) < 1000000000 →
      parse B = some (tree B) ∧ parse F = some (wordTree F) ∧ parse G = some (wordTree G) ∧
      (replaceWith sort (tree B) (wordTree F) (wordTree G)).map node.serialize
        = some (replaceTextSpec F G (tree B)) ∧
      rewriteLib B F G = some (replaceTextSpec F G (tree B)) ∧
      ((leafTokens (tree B)).map token.bytes).flatten = B) ∧
    rewriteLib (bytesOf "x F F y F") (bytesOf "F") (bytesOf "X Y")
      = some (bytesOf "x X Y X Y y X Y") ∧
    rewriteLib (bytesOf "x F /*c*/ (F+F)") (bytesOf "F") (bytesOf "G")
      = some (bytesOf "x G /*c*/ (G+G)") ∧
    rewriteLib (bytesOf "(F;F;F;F;F);F;F;F;(F;F;F;F;F)") (bytesOf "F") (bytesOf "F,F")
      = some (bytesOf ("(F,F,F,F;F,F,F,F;F,F,F,F;F,F,F,F;F,F,F,F);F,F;F,F;F,F;"
          ++ "(F,F,F,F,F,F,F,F;F,F,F,F,F,F,F,F;F,F,F,F,F,F,F,F;F,F,F,F,F,F,F,F;F,F,F,F,F,F,F,F)")) := by
  refine ⟨⟨rewriteLib_semis [70] [71] ⟨by decide, by decide⟩ ⟨by decide, by decide⟩ 1000000000
      (Nat.le_refl _),
    (rewrite_semis [70] [71] ⟨by decide, by decide⟩ ⟨by decide, by decide⟩ 1000000000
      (Nat.le_refl _)).2.1,
    semis_ne 1000000000 (by norm_num)⟩, ?_, by decide!, by decide!, by decide!⟩
  intro sort hsort F G B hF hG hcount
  obtain ⟨hord, hS⟩ := parse_ordered B (tree B) (parse_tree B)
  refine ⟨parse_tree B, parse_word F hF, parse_word G hG,
    replaceWith_lit sort hsort F G (tree B) hS hord hcount,
    rewriteLib_lit F G B hF hG hcount, ?_⟩
  rw [← serialize_leafTokens]
  exact serialize_of_parse B (tree B) (parse_tree B)

set_option maxRecDepth 1000000 in
/-- C7: `replace` does match again inside a substitution.  The two
examples of the claim come out as claimed, and one run of the inner loop over
the children of the first list of `(F;F;F;F;F);F;F;F;(F;F;F;F;F)`, with the
pattern `F` and the replacement `F,F`, puts `F,F` for every `F` and matches
none of the `F` it has spliced in.  But `replace` starts the inner loop for
every occurrence of the anchor whose list is not the list of the occurrence
before it, and `sort.Slice`, which is not stable above 12 elements, leaves
the 13 occurrences of `F` in the order B2 A2 A3 A4 A5 B1 A1 B3 B4 B5 T1 T2 T3
(A the first list in brackets, B the second, T the top level).  So the list A
is rewritten for A2 and again for A1, the list B for B2, B1 and B3, and every
further run matches the `F` that the runs before it have spliced in: a
second run over A puts `F,F,F,F` for every `F` of the input, and the output
of `replace` has `F,F,F,F` for every `F` of A and `F,F,F,F,F,F,F,F` for every
`F` of B, where the same occurrences in a stable order, one run for each
list, give `F,F`. -/
theorem replace_rematches_substitution :
    rewriteLib (bytesOf "x#y#z") (bytesOf "$a#$b") (bytesOf "$b#$a") = some (bytesOf "y#x#z") ∧
    rewriteLib (bytesOf "x+y") (bytesOf "$a+$b") (bytesOf "$a/$b+0") = some (bytesOf "x/y+0") ∧
    (((tree (bytesOf "(F;F;F;F;F);F;F;F;(F;F;F;F;F)")).at? [0]).bind (fun a =>
        rewriteLoop (makePattern (tree (bytesOf "F"))) (tree (bytesOf "F,F"))
          (a.children.length + 1) 0 a.children)).map serializeList
      = some (bytesOf "(F,F;F,F;F,F;F,F;F,F)") ∧
    ((((tree (bytesOf "(F;F;F;F;F);F;F;F;(F;F;F;F;F)")).at? [0]).bind (fun a =>
        rewriteLoop (makePattern (tree (bytesOf "F"))) (tree (bytesOf "F,F"))
          (a.children.length + 1) 0 a.children)).bind (fun cs =>
        rewriteLoop (makePattern (tree (bytesOf "F"))) (tree (bytesOf "F,F"))
          (cs.length + 1) 0 cs)).map serializeList
      = some (bytesOf "(F,F,F,F;F,F,F,F;F,F,F,F;F,F,F,F;F,F,F,F)") ∧
    ((leaves [] (tree (bytesOf "(F;F;F;F;F);F;F;F;(F;F;F;F;F)"))).filter
        (fun o => o.tok.text == bytesOf "F")).map (fun o => o.path)
      = [[0, 1], [0, 3], [0, 5], [0, 7], [0, 9], [2], [4], [6],
          [7, 2], [7, 4], [7, 6], [7, 8], [7, 10]] ∧
    (sortOccurrences ((leaves [] (tree (bytesOf "(F;F;F;F;F);F;F;F;(F;F;F;F;F)"))).filter
        (fun o => o.tok.text == bytesOf "F"))).map (fun o => o.path)
      = [[7, 4], [0, 3], [0, 5], [0, 7], [0, 9], [7, 2], [0, 1], [7, 6], [7, 8], [7, 10],
          [2], [4], [6]] ∧
    rewriteLib (bytesOf "(F;F;F;F;F);F;F;F;(F;F;F;F;F)") (bytesOf "F") (bytesOf "F,F")
      = some (bytesOf ("(F,F,F,F;F,F,F,F;F,F,F,F;F,F,F,F;F,F,F,F);F,F;F,F;F,F;"
          ++ "(F,F,F,F,F,F,F,F;F,F,F,F,F,F,F,F;F,F,F,F,F,F,F,F;F,F,F,F,F,F,F,F;F,F,F,F,F,F,F,F)")) ∧
    (replaceWith sortSlice (tree (bytesOf "(F;F;F;F;F);F;F;F;(F;F;F;F;F)"))
        (tree (bytesOf "F")) (tree (bytesOf "F,F"))).map node.serialize
      = some (bytesOf "(F,F;F,F;F,F;F,F;F,F);F,F;F,F;F,F;(F,F;F,F;F,F;F,F;F,F)") := by
  refine ⟨by decide!, by decide!, by decide!, by decide!, by decide!, by decide!, by decide!,
    by decide!⟩

/-! ## `sort.Slice` on at most 12 elements

On at most 12 elements `pdqsort_func` is `insertionSort_func`, which moves
every element to the left past the elements it is less than: the sort by
insertion that keeps elements that are equal under `less` in their order. -/

theorem lessAt_adjacent {α : Type} (less : α → α → Bool) (s : List α) (y x : α)
    (rest : List α) : lessAt less (s ++ y :: x :: rest) (s.length + 1) s.length = less x y := by
  have h1 : (s ++ y :: x :: rest)[s.length + 1]? = some x := by
    rw [List.getElem?_append_right (by omega)]
    simp
  have h2 : (s ++ y :: x :: rest)[s.length]? = some y := by
    rw [List.getElem?_append_right (by omega)]
    simp
  simp only [lessAt, h1, h2]

theorem swapAt_adjacent {α : Type} (s : List α) (y x : α) (rest : List α) :
    swapAt (s ++ y :: x :: rest) (s.length + 1) s.length = s ++ x :: y :: rest := by
  have h1 : (s ++ y :: x :: rest)[s.length + 1]? = some x := by
    rw [List.getElem?_append_right (by omega)]
    simp
  have h2 : (s ++ y :: x :: rest)[s.length]? = some y := by
    rw [List.getElem?_append_right (by omega)]
    simp
  simp only [swapAt, h1, h2]
  rw [List.set_append_right _ _ (by omega), List.set_append_right _ _ (by omega)]
  simp

theorem insertionSortInner_append {α : Type} (less : α → α → Bool) (x : α) (s : List α) :
    ∀ rest : List α, insertionSortInner less 0 s.length (s ++ x :: rest)
      = (List.orderedInsert (fun a b => less a b = false) x s.reverse).reverse ++ rest := by
  induction s using List.reverseRecOn with
  | nil => intro rest; simp [insertionSortInner]
  | append_singleton s y ih =>
    intro rest
    rw [List.length_append, List.length_singleton, insertionSortInner, List.append_assoc,
      List.singleton_append, lessAt_adjacent]
    by_cases h : less x y = true
    · rw [if_pos ⟨by omega, h⟩, swapAt_adjacent, ih]
      simp [List.orderedInsert, h]
    · rw [if_neg (by simp [h])]
      simp [List.orderedInsert, h]

theorem insertionSort_from {α : Type} (less : α → α → Bool) : ∀ (q s : List α),
    (List.range' s.length q.length).foldl (fun d i => insertionSortInner less 0 i d) (s ++ q)
      = (q.foldl (fun acc x => List.orderedInsert (fun a b => less a b = false) x acc)
          s.reverse).reverse := by
  intro q
  induction q with
  | nil => intro s; simp
  | cons x q ih =>
    intro s
    rw [List.length_cons, List.range'_succ, List.foldl_cons, insertionSortInner_append,
      List.foldl_cons]
    have := ih ((List.orderedInsert (fun a b => less a b = false) x s.reverse).reverse)
    simp only [List.length_reverse, List.orderedInsert_length, List.reverse_reverse] at this
    exact this

theorem foldl_orderedInsert {α : Type} (r : α → α → Prop) [DecidableRel r] : ∀ (l m : List α),
    l.foldl (fun acc x => List.orderedInsert r x acc) (m.insertionSort r)
      = (l.reverse ++ m).insertionSort r := by
  intro l
  induction l with
  | nil => intro m; simp
  | cons x t ih =>
    intro m
    rw [List.foldl_cons]
    have := ih (x :: m)
    simp only [List.insertionSort] at this
    rw [this]
    simp

/-- The function `insertionSort_func` on a whole slice, by the insertion of
the library of Lean: the elements are inserted from the left, each behind the
elements it is not less than. -/
theorem insertionSort_func_eq {α : Type} (less : α → α → Bool) (l : List α) :
    insertionSort_func less l 0 l.length
      = ((l.reverse).insertionSort (fun a b => less a b = false)).reverse := by
  cases l with
  | nil => simp [insertionSort_func]
  | cons x q =>
    have h := insertionSort_from less q [x]
    have h2 := foldl_orderedInsert (fun a b => less a b = false) q [x]
    simp only [List.insertionSort, List.orderedInsert] at h2
    simp only [List.length_singleton, List.singleton_append, List.reverse_cons, List.reverse_nil,
      List.nil_append] at h
    simp only [insertionSort_func, List.length_cons, Nat.zero_add, Nat.add_sub_cancel]
    rw [h, h2]
    simp

/-- Two lists in decreasing order of their keys with the same elements, in
the same order, for every key are the same list. -/
theorem sorted_unique {α : Type} (key : α → Nat) : ∀ (l1 l2 : List α),
    l1.Pairwise (fun a b => key a ≥ key b) → l2.Pairwise (fun a b => key a ≥ key b) →
    (∀ v, l1.filter (fun a => key a == v) = l2.filter (fun a => key a == v)) → l1 = l2 := by
  intro l1
  induction l1 with
  | nil =>
    intro l2 _ _ h
    cases l2 with
    | nil => rfl
    | cons y t =>
      have := h (key y)
      simp at this
  | cons x t ih =>
    intro l2 h1 h2 h
    cases l2 with
    | nil =>
      have := h (key x)
      simp at this
    | cons y t2 =>
      have hx : x ∈ (y :: t2) := by
        have : x ∈ (y :: t2).filter (fun a => key a == key x) := by
          rw [← h (key x)]
          simp
        exact (List.mem_filter.1 this).1
      have hy : y ∈ (x :: t) := by
        have : y ∈ (x :: t).filter (fun a => key a == key y) := by
          rw [h (key y)]
          simp
        exact (List.mem_filter.1 this).1
      have k1 : key y ≥ key x := by
        rcases List.mem_cons.1 hx with rfl | hx
        · exact Nat.le_refl _
        · exact (List.pairwise_cons.1 h2).1 x hx
      have k2 : key x ≥ key y := by
        rcases List.mem_cons.1 hy with rfl | hy
        · exact Nat.le_refl _
        · exact (List.pairwise_cons.1 h1).1 y hy
      have hk : key y = key x := by omega
      have h0 := h (key x)
      simp only [List.filter_cons, beq_self_eq_true, if_true, hk] at h0
      obtain ⟨e1, e2⟩ := List.cons.inj h0
      subst e1
      congr 1
      apply ih t2 (List.pairwise_cons.1 h1).2 (List.pairwise_cons.1 h2).2
      intro v
      by_cases hv : key x = v
      · subst hv
        exact e2
      · have := h v
        have hb : (key x == v) = false := by simpa using hv
        simpa only [List.filter_cons, hb, Bool.false_eq_true, if_false] using this

/-- A list that holds the elements of `l` and, as a sublist, those of them
with a given key has them in the order of `l`. -/
theorem filter_of_sublist {α : Type} (p : α → Bool) (l L : List α) (hp : L.Perm l)
    (hs : (l.filter p).Sublist L) : L.filter p = l.filter p := by
  have h1 : ((l.filter p).filter p).Sublist (L.filter p) := hs.filter p
  rw [List.filter_filter] at h1
  simp only [Bool.and_self] at h1
  exact (h1.eq_of_length (hp.filter p).length_eq.symm).symm

theorem pairwise_filter_key {α : Type} (key : α → Nat) (r : α → α → Prop)
    (hr : ∀ a b, key a = key b → r a b) (l : List α) (v : Nat) :
    (l.filter (fun a => key a == v)).Pairwise r := by
  apply List.pairwise_of_forall_mem_list
  intro a ha b hb
  have h1 := (List.mem_filter.1 ha).2
  have h2 := (List.mem_filter.1 hb).2
  simp only [beq_iff_eq] at h1 h2
  exact hr a b (by omega)

/-- The function `insertionSort_func` with `less(i, j) = key(i) > key(j)` on
a whole slice: the elements in decreasing order of their keys, elements with
one key in their former order. -/
theorem insertionSort_func_key {α : Type} (key : α → Nat) (l : List α) :
    insertionSort_func (fun x y => decide (key x > key y)) l 0 l.length
      = l.insertionSort (fun a b => key a ≥ key b) := by
  rw [insertionSort_func_eq]
  haveI : IsTotal α (fun a b => decide (key a > key b) = false) :=
    ⟨fun a b => by simp only [decide_eq_false_iff_not]; omega⟩
  haveI : IsTrans α (fun a b => decide (key a > key b) = false) :=
    ⟨fun a b c h1 h2 => by simp only [decide_eq_false_iff_not] at h1 h2 ⊢; omega⟩
  haveI : IsTotal α (fun a b => key a ≥ key b) := ⟨fun a b => by omega⟩
  haveI : IsTrans α (fun a b => key a ≥ key b) := ⟨fun a b c h1 h2 => by omega⟩
  apply sorted_unique key
  · rw [List.pairwise_reverse]
    refine (List.sorted_insertionSort (fun a b => decide (key a > key b) = false)
      l.reverse).imp ?_
    intro a b h
    simp only [decide_eq_false_iff_not] at h
    omega
  · exact List.sorted_insertionSort (fun a b => key a ≥ key b) l
  · intro v
    rw [List.filter_reverse,
      filter_of_sublist _ l.reverse _ (List.perm_insertionSort _ _)
        (List.sublist_insertionSort
          (pairwise_filter_key key _ (fun a b h => by
            simp only [decide_eq_false_iff_not]; omega) l.reverse v)
          (List.filter_sublist _)),
      List.filter_reverse, List.reverse_reverse,
      filter_of_sublist _ l _ (List.perm_insertionSort _ _)
        (List.sublist_insertionSort
          (pairwise_filter_key key _ (fun a b h => by omega) l v)
          (List.filter_sublist _))]

/-- On at most 12 occurrences `sort.Slice` gives the order `sortSlice`. -/
theorem sortOccurrences_short (occ : List occurrence) (h : occ.length ≤ 12) :
    sortOccurrences occ = sortSlice occ := by
  rw [sortOccurrences, Slice_short _ _ h, sortSlice]
  exact insertionSort_func_key occurrence.depth occ

/-- With a pattern `regexp.MustCompile` accepts and at most 12 occurrences of
the anchor in the subject, `replace` with the calls of the library is the
function `replace` above. -/
theorem replaceLib_short (subject pat replacement : node)
    (hc : (compilePattern pat).isSome = true)
    (hocc : ∀ anchor, anchorOf subject pat = some anchor →
      ((leaves [] subject).filter (fun o => o.tok.text == anchor.tok.text)).length ≤ 12) :
    replaceLib subject pat replacement = replace subject pat replacement := by
  rw [replaceLib_of_compiles subject pat replacement hc, replace, replaceWith_anchorOf,
    replaceWith_anchorOf]
  cases ha : anchorOf subject pat with
  | none => rfl
  | some a =>
    simp only
    rw [sortOccurrences_short _ (hocc a ha)]

end treewrite
